import Mathlib

/-!
# Verification of the `idg` einsum engine

Shallow embedding of `idg/einsum.hpp`, `idg/tensor_network.hpp`, `idg/sstd.hpp`,
`idg/generic_algorithm.hpp` and the parts of `idg/string_manipulation.hpp` they use.

Conventions of the embedding:

* `std::u8string_view` is a `List Char`, one `Char` per `char8_t` code unit; an index label
  (`std::u8string`) is a `List Char` as well.
* `std::size_t` values are natural numbers below `2 ^ 64`; sums, differences and products
  that the source computes in `std::size_t` are taken modulo `2 ^ 64`
  (`size_add`, `size_sub`, `size_mul`), and `static_cast<std::size_t>(-1)` is `2 ^ 64 - 1`.
  Counters of loops over a container and container sizes are plain naturals.
* A `throw std::logic_error` (every one of them happens during constant evaluation in the
  engine) and the dereference of a past-the-end iterator are values of `logic_error`
  in the `Except` monad.
* The elements of the views are integers, and the arithmetic of `operator()` on them is
  that of the element type of the call (`element_type`): exact, or modulo `2 ^ bits` for an
  unsigned type of `bits` bits.
-/

namespace idg

/-! ## `idg/generic_algorithm.hpp` -/

namespace alg

/-- Function `alg::argfind`: position of the first element of `r` equal to `x`, if any. -/
def argfind {α : Type} [DecidableEq α] : List α → α → Option Nat
  | [], _ => none
  | a :: r, x => if a = x then some 0 else (argfind r x).map (· + 1)

end alg

/-! ## `idg/string_manipulation.hpp` -/

namespace str

/-- Function `str::is_whitespace`: the six characters of the `matches` table. -/
def is_whitespace (c : Char) : Bool :=
  [' ', '\n', '\r', Char.ofNat 12, Char.ofNat 11, '\t'].any (fun c0 => c == c0)

/-- Class `str::fixed_string`: the stored code units (`data_` without its zero padding). -/
structure fixed_string where
  data_ : List Char
deriving DecidableEq, Repr

/-- Field `fixed_string::max_length`. -/
def fixed_string.max_length : Nat := 100

/-- Member `fixed_string::sv`: the code units before the first zero of `data_`. -/
def fixed_string.sv (self : fixed_string) : List Char :=
  self.data_.takeWhile (fun c => c ≠ Char.ofNat 0)

end str

/-! ## Errors -/

/-- The failures of the embedded code: the messages of the `std::logic_error`s thrown in
`einsum.hpp` and `tensor_network.hpp`, and the undefined operations met on the way. -/
inductive logic_error where
  /-- "Each cursor should only appear once." -/
  | cursor_appears_twice
  /-- "-> can only appear once." -/
  | arrow_appears_twice
  /-- Dereference of `begin()` of an empty range, or an out of range `operator[]`. -/
  | out_of_range
  /-- "Reuction has to have to connect two indices." -/
  | reduction_not_two_indices
  /-- "Can not add edge from a index to the same index." -/
  | edge_to_same_index
  /-- "Trying to add edge to non-existing node." -/
  | edge_to_missing_node
  /-- "Trying to add edge to non-existing index (index >= node rank)." -/
  | edge_to_missing_index
  /-- "Trying to add second edge to the same index." -/
  | second_edge_to_index
  /-- "Each node should be part of some component." -/
  | node_without_component
  /-- `std::optional::value()` on an empty optional. -/
  | bad_optional_access
  /-- "fixed_string max capacity exceeded!" -/
  | fixed_string_capacity
  /-- The constraint `einsum_compatible` of `einsum::operator()` is not satisfied. -/
  | not_einsum_compatible
  /-- A unary fold over `*` with an empty pack (ill-formed). -/
  | empty_fold
  /-- "Grouping does not make sense for single node." -/
  | grouping_single_node
  /-- "There should be at least one group." -/
  | no_group
  /-- "Different amount of groups and node pairs." -/
  | groups_and_pairs_differ
  /-- "partaker_contracted_edges should connect to either lhs or rhs." -/
  | contracted_edge_elsewhere
  /-- "Partaker non-contracted edge should be connected to one partaker node." -/
  | noncontracted_edge_elsewhere
  /-- A recursion of the embedding went deeper than the bound given to it. -/
  | recursion_bound
  /-- "Can not have reduction edge which does not end at lhs nor rhs." -/
  | reduction_edge_elsewhere
  /-- "Can not pairwise contract a node with itself." -/
  | contract_with_itself
  /-- "Trying to contract nodes whitch are not part of the network." -/
  | contract_missing_node
  /-- "One node connected component should haveempty pairwise contraction sequence" -/
  | one_node_sequence
  /-- "There should be at least 3 nodes." -/
  | less_than_three_nodes
deriving DecidableEq, Repr

instance {ε α : Type} [DecidableEq ε] [DecidableEq α] : DecidableEq (Except ε α)
  | .ok a, .ok b => if h : a = b then isTrue (by rw [h]) else isFalse (by intro h2; cases h2; exact h rfl)
  | .error a, .error b =>
    if h : a = b then isTrue (by rw [h]) else isFalse (by intro h2; cases h2; exact h rfl)
  | .ok _, .error _ => isFalse (by intro h; cases h)
  | .error _, .ok _ => isFalse (by intro h; cases h)

/-- The explicit constructor `fixed_string(std::u8string_view)`. -/
def str.fixed_string.create (input : List Char) : Except logic_error str.fixed_string :=
  if input.length > str.fixed_string.max_length then .error .fixed_string_capacity
  else .ok ⟨input⟩

/-! ## Arithmetic of `std::size_t` -/

/-- The number of values of `std::size_t` (64 bits). -/
def size_t_card : Nat := 2 ^ 64

/-- Addition of two `std::size_t` values. -/
def size_add (a b : Nat) : Nat := (a + b) % size_t_card

/-- Subtraction of two `std::size_t` values. -/
def size_sub (a b : Nat) : Nat := (a + size_t_card - b % size_t_card) % size_t_card

/-- Multiplication of two `std::size_t` values. -/
def size_mul (a b : Nat) : Nat := (a * b) % size_t_card

/-! ## `idg/sstd.hpp` -/

namespace sstd

/-- Class `sstd::constexpr_set`: the elements in insertion order. -/
structure constexpr_set (T : Type) where
  data_ : List T
deriving DecidableEq, Repr

/-- Member `constexpr_set::contains`. -/
def constexpr_set.contains {T : Type} [DecidableEq T] (s : constexpr_set T) (x : T) : Bool :=
  decide (x ∈ s.data_)

/-- Member `constexpr_set::successfully_insert`: inserts `x` if it is not already in and
returns whether the insertion happened, with the set after the call. -/
def constexpr_set.successfully_insert {T : Type} [DecidableEq T] (s : constexpr_set T) (x : T) :
    Bool × constexpr_set T :=
  if s.contains x then (false, s) else (true, ⟨s.data_ ++ [x]⟩)

/-- Member `constexpr_set::get_data`. -/
def constexpr_set.get_data {T : Type} (s : constexpr_set T) : List T := s.data_

/-- Function `sstd::integer_pow` at `std::size_t`: `exponent` multiplications by `base`,
starting from one (an unsigned exponent is never negative). -/
def integer_pow (base exponent : Nat) : Nat :=
  (List.range exponent).foldl (fun result _ => size_mul result base) 1

end sstd

/-! ## `idg/einsum.hpp`: the parser -/

/-- Type `einsum_parser::index_label`. -/
abbrev index_label := List Char

/-- Type `einsum_parser::factor_index_labels_vec`. -/
abbrev factor_index_labels_vec := List index_label

/-- Struct `einsum_parser::index_cursor`. -/
structure index_cursor where
  factor : Nat
  index : Nat
deriving DecidableEq, Repr

/-- Type `einsum_parser::contraction`. -/
abbrev contraction := sstd.constexpr_set index_cursor

/-- Class `einsum_parser`: its four data members, the parsed expression. -/
structure einsum_parsed where
  factor_index_labels_ : List factor_index_labels_vec
  output_index_labels_ : factor_index_labels_vec
  free_index_labels_ : factor_index_labels_vec
  contractions_ : List contraction
deriving DecidableEq, Repr

/-- The view `rv::split(u8"->"sv)` on a non-empty range: `acc` is the part read so far. -/
def split_arrow_from : List Char → List Char → List (List Char)
  | acc, [] => [acc]
  | acc, [c] => [acc ++ [c]]
  | acc, c :: d :: rest =>
    if c = '-' ∧ d = '>' then acc :: split_arrow_from [] rest
    else split_arrow_from (acc ++ [c]) (d :: rest)

/-- The view `rv::split(u8"->"sv)`: an empty range has no part at all. -/
def split_arrow (s : List Char) : List (List Char) :=
  if s = [] then [] else split_arrow_from [] s

/-- The view `rv::split(u8',')` on a non-empty range: `acc` is the part read so far. -/
def split_comma_from : List Char → List Char → List (List Char)
  | acc, [] => [acc]
  | acc, c :: rest =>
    if c = ',' then acc :: split_comma_from [] rest else split_comma_from (acc ++ [c]) rest

/-- The view `rv::split(u8',')`: an empty range has no part at all. -/
def split_comma (s : List Char) : List (List Char) :=
  if s = [] then [] else split_comma_from [] s

/-- Member `einsum_parser::split_to_index_labels`: one label per code unit. -/
def split_to_index_labels (s : List Char) : factor_index_labels_vec :=
  s.map (fun x => [x])

/-- Member `einsum_parser::iterate_index_labels_with_cursor`: every cursor with its label,
factor by factor. -/
def iterate_index_labels_with_cursor (factor_index_labels_ : List factor_index_labels_vec) :
    List (index_cursor × index_label) :=
  (factor_index_labels_.enum.map (fun t =>
    ((List.range t.2.length).map (fun i => index_cursor.mk t.1 i)).zip t.2)).flatten

/-- The constant `not_contraction` of the constructor: `static_cast<std::size_t>(-1)`. -/
def not_contraction : Nat := 2 ^ 64 - 1

/-- The state of the loop that fills `contractions_`: `seen_labels` (label, ordinal of its
contraction, cursor of its first occurrence) and `contractions_`. -/
abbrev parser_state := List (index_label × Nat × index_cursor) × List contraction

/-- Lines 97 to 103 of the constructor: when the label of `entry`, found at the position
`prev` of `seen_labels`, is met for the second time, a contraction holding the cursor of
its first occurrence is opened and its ordinal is stored in the entry. -/
def open_contraction (st : parser_state) (prev : Nat)
    (entry : index_label × Nat × index_cursor) : parser_state :=
  let second_time := entry.2.1 = not_contraction
  if second_time then
    (st.1.set prev (entry.1, st.2.length, entry.2.2),
      st.2 ++ [((⟨[]⟩ : contraction).successfully_insert entry.2.2).2])
  else st

/-- Lines 105 to 107 of the constructor: the cursor is inserted into the contraction whose
ordinal is stored at the position `prev` of `seen_labels`. -/
def insert_cursor (st : parser_state) (prev : Nat) (cursor : index_cursor) :
    Except logic_error parser_state :=
  match st.1.get? prev with
  | none => .error .out_of_range
  | some entry =>
    match st.2.get? entry.2.1 with
    | none => .error .out_of_range
    | some c =>
      if (c.successfully_insert cursor).1 then
        .ok (st.1, st.2.set entry.2.1 (c.successfully_insert cursor).2)
      else .error .cursor_appears_twice

/-- The body of the `rn::for_each` of the constructor (lines 86 to 109). -/
def parser_step (st : parser_state) (t : index_cursor × index_label) :
    Except logic_error parser_state :=
  let cursor := t.1
  let label := t.2
  match alg.argfind (st.1.map (fun s => s.1)) label with
  | none =>
    -- First time.
    .ok (st.1 ++ [(label, not_contraction, cursor)], st.2)
  | some prev =>
    match st.1.get? prev with
    | none => .error .out_of_range
    | some entry => insert_cursor (open_contraction st prev entry) prev cursor

/-- The constructor `einsum_parser::einsum_parser(std::u8string_view)`.  The split of an
empty text has no part: its iterator at `begin()` is the one at `end()`, and `operator*`
of the iterator of the split view returns the range from its position to the next
delimiter, here the empty range, so the loop over the factors runs on an empty first
part and the constructor goes on to the count of the parts. -/
def einsum_parsed.parse (str : List Char) : Except logic_error einsum_parsed :=
  let factor_and_maybe_output_index_labels :=
    split_arrow (str.filter (fun c => !idg.str.is_whitespace c))
  let first := factor_and_maybe_output_index_labels.headD []
  let factor_index_labels_ := (split_comma first).map split_to_index_labels
  match (iterate_index_labels_with_cursor factor_index_labels_).foldlM parser_step ([], []) with
  | .error e => .error e
  | .ok st =>
    let free_index_labels_ :=
      (st.1.filter (fun t => decide (not_contraction = t.2.1))).map (fun t => t.1)
    if factor_and_maybe_output_index_labels.length = 1 then
      .ok ⟨factor_index_labels_, free_index_labels_, free_index_labels_, st.2⟩
    else if factor_and_maybe_output_index_labels.length = 2 then
      match factor_and_maybe_output_index_labels.get? 1 with
      | none => .error .out_of_range
      | some return_str =>
        .ok ⟨factor_index_labels_, split_to_index_labels return_str, free_index_labels_, st.2⟩
    else .error .arrow_appears_twice

/-- Member `einsum_parser::number_of_factors`. -/
def einsum_parsed.number_of_factors (self : einsum_parsed) : Nat :=
  self.factor_index_labels_.length

/-! ## `idg/tensor_network.hpp` -/

/-- Struct `tensor_network::node_id`. -/
structure node_id where
  id : Nat
deriving DecidableEq, Repr

/-- Struct `tensor_network::index_location`. -/
structure index_location where
  id : node_id
  index : Nat
deriving DecidableEq, Repr

/-- Struct `tensor_network::node`. -/
structure node where
  id : node_id
  rank : Nat
deriving DecidableEq, Repr

/-- Struct `tensor_network::edge`. -/
structure edge where
  left : index_location
  right : index_location
deriving DecidableEq, Repr

/-- The `operator==` of `tensor_network::edge`: the order of the two ends does not matter. -/
def edge.same (lhs rhs : edge) : Bool :=
  (lhs.left = rhs.left && lhs.right = rhs.right) || (lhs.left = rhs.right && lhs.right = rhs.left)

/-- Class `tensor_network`: its three data members.  A `connected_tensor_network` has the
same members. -/
structure tensor_network where
  nodes_ : List node
  next_id_ : Nat
  edges_ : List edge
deriving DecidableEq, Repr

/-- Class `connected_tensor_network`, derived from `tensor_network` without new members. -/
abbrev connected_tensor_network := tensor_network

namespace tensor_network

/-- The default constructed network. -/
def empty : tensor_network := ⟨[], 0, []⟩

/-- Member `tensor_network::rank_wout_reductions`. -/
def rank_wout_reductions (self : tensor_network) : Nat :=
  (self.nodes_.map (fun n => n.rank)).foldl size_add 0

/-- Member `tensor_network::connect`. -/
def connect (self other : tensor_network) (e : edge) : tensor_network :=
  ⟨self.nodes_ ++ other.nodes_, size_add (max self.next_id_ other.next_id_) 1,
    self.edges_ ++ other.edges_ ++ [e]⟩

/-- Member `tensor_network::add_node`: the id of the new node and the network after it. -/
def add_node (self : tensor_network) (rank : Nat) : node_id × tensor_network :=
  (⟨self.next_id_⟩,
    ⟨self.nodes_ ++ [⟨⟨self.next_id_⟩, rank⟩], size_add self.next_id_ 1, self.edges_⟩)

/-- Member `tensor_network::size`. -/
def size (self : tensor_network) : Nat := self.nodes_.length

/-- Member `tensor_network::contains`. -/
def contains (self : tensor_network) (id : node_id) : Bool :=
  self.nodes_.any (fun n => n.id = id)

/-- Member `tensor_network::rank`. -/
def rank (self : tensor_network) : Nat :=
  size_sub self.rank_wout_reductions (size_mul 2 self.edges_.length)

/-- Member `tensor_network::add_edge`. -/
def add_edge (self : tensor_network) (a b : index_location) : Except logic_error tensor_network :=
  if a = b then .error .edge_to_same_index
  else
    match self.nodes_.find? (fun n => n.id = a.id), self.nodes_.find? (fun n => n.id = b.id) with
    | some node_a, some node_b =>
      if node_a.rank ≤ a.index ∨ node_b.rank ≤ b.index then .error .edge_to_missing_index
      else if self.edges_.any (fun e => e.left = a || e.left = b || e.right = a || e.right = b)
      then .error .second_edge_to_index
      else .ok ⟨self.nodes_, self.next_id_, self.edges_ ++ [⟨a, b⟩]⟩
    | _, _ => .error .edge_to_missing_node

/-- The lambda `find_component` of `connected_components`. -/
def find_component (components : List connected_tensor_network) (id : node_id) :
    Except logic_error Nat :=
  match components.findIdx? (fun c => c.contains id) with
  | some i => .ok i
  | none => .error .node_without_component

/-- The lambda `connect_components` of `connected_components`. -/
def connect_components (components : List connected_tensor_network) (e : edge) :
    Except logic_error (List connected_tensor_network) :=
  match find_component components e.left.id with
  | .error err => .error err
  | .ok left_index =>
    match find_component components e.right.id with
    | .error err => .error err
    | .ok right_index =>
      match components.get? left_index, components.get? right_index with
      | some left, some right =>
        if left_index = right_index then
          match left.add_edge e.left e.right with
          | .error err => .error err
          | .ok left1 => .ok (components.set left_index left1)
        else
          .ok ((components.set left_index (left.connect right e)).eraseIdx right_index)
      | _, _ => .error .out_of_range

/-- Member `tensor_network::connected_components`. -/
def connected_components (self : tensor_network) :
    Except logic_error (List connected_tensor_network) :=
  let components : List connected_tensor_network :=
    self.nodes_.map (fun n => ⟨[n], self.next_id_, []⟩)
  self.edges_.foldlM connect_components components

end tensor_network

/-- Class `pairwise_contraction_type`: its four data members. -/
structure pairwise_contraction_type where
  lhs_ : node
  rhs_ : node
  out_ : Option node
  edges_ : List edge
deriving DecidableEq, Repr

namespace pairwise_contraction_type

/-- The constructor of `pairwise_contraction_type`. -/
def create (lhs rhs : node) (reduction_edges : List edge) :
    Except logic_error pairwise_contraction_type :=
  if reduction_edges.any (fun e =>
      (e.left.id ≠ lhs.id && e.left.id ≠ rhs.id) || (e.right.id ≠ lhs.id && e.right.id ≠ rhs.id))
  then .error .reduction_edge_elsewhere
  else .ok ⟨lhs, rhs, none, reduction_edges⟩

/-- Member `pairwise_contraction_type::cost`. -/
def cost (self : pairwise_contraction_type) (D : Nat) : Nat :=
  sstd.integer_pow D (size_sub (size_add self.lhs_.rank self.rhs_.rank) self.edges_.length)

/-- Member `pairwise_contraction_type::lhs_id`. -/
def lhs_id (self : pairwise_contraction_type) : node_id := self.lhs_.id

/-- Member `pairwise_contraction_type::rhs_id`. -/
def rhs_id (self : pairwise_contraction_type) : node_id := self.rhs_.id

/-- Member `pairwise_contraction_type::out_id`. -/
def out_id (self : pairwise_contraction_type) : Except logic_error node_id :=
  match self.out_ with
  | some n => .ok n.id
  | none => .error .bad_optional_access

/-- Member `pairwise_contraction_type::store_out`. -/
def store_out (self : pairwise_contraction_type) (out : node) : pairwise_contraction_type :=
  ⟨self.lhs_, self.rhs_, some out, self.edges_⟩

/-- Member `pairwise_contraction_type::out_rank`. -/
def out_rank (self : pairwise_contraction_type) : Except logic_error Nat :=
  match self.out_ with
  | some n => .ok n.rank
  | none => .error .bad_optional_access

/-- The lambda `increment_char8` of `index_labels`. -/
def increment_char8 (c8 : Char) : Char := Char.ofNat ((c8.toNat + 1) % 256)

/-- The two loops of `index_labels` that fill a string with consecutive letters: the
string of length `n` whose first character is `first`. -/
def consecutive_labels (first : Char) : Nat → List Char
  | 0 => []
  | n + 1 => first :: consecutive_labels (increment_char8 first) n

/-- The body of the loop over `edges_` in `index_labels`, on the pair of strings. -/
def label_edge (self : pairwise_contraction_type) (strs : List Char × List Char) (e : edge) :
    Except logic_error (List Char × List Char) :=
  let lhs_str := strs.1
  let rhs_str := strs.2
  match (if e.left.id = self.lhs_.id then lhs_str.get? e.left.index
         else rhs_str.get? e.left.index) with
  | none => .error .out_of_range
  | some lhs_index_label =>
    if e.right.id = self.rhs_.id then
      if e.right.index < rhs_str.length then
        .ok (lhs_str, rhs_str.set e.right.index lhs_index_label)
      else .error .out_of_range
    else
      if e.right.index < lhs_str.length then
        .ok (lhs_str.set e.right.index lhs_index_label, rhs_str)
      else .error .out_of_range

/-- Member `pairwise_contraction_type::index_labels`.  Writing the first character of an
empty string, or reading its last one, is undefined. -/
def index_labels (self : pairwise_contraction_type) :
    Except logic_error (List Char × List Char) :=
  if self.lhs_.rank = 0 ∨ self.rhs_.rank = 0 then .error .out_of_range
  else
    let lhs_str := consecutive_labels 'a' self.lhs_.rank
    match lhs_str.getLast? with
    | none => .error .out_of_range
    | some back =>
      let rhs_str := consecutive_labels (increment_char8 back) self.rhs_.rank
      self.edges_.foldlM (label_edge self) (lhs_str, rhs_str)

end pairwise_contraction_type

/-- Function `contraction_cost`: `std::reduce` of the costs, from the value initialised
`std::size_t`. -/
def contraction_cost (pcs : List pairwise_contraction_type) (D : Nat) : Nat :=
  (pcs.map (fun c => c.cost D)).foldl size_add 0

namespace connected_tensor_network

/-- The lambda `edge_part_of_node_pair` of `group_edges_pairwise`. -/
def edge_part_of_node_pair (e : edge) (node1 node2 : node_id) : Bool :=
  (e.left.id = node1 || e.left.id = node2) && (e.right.id = node1 || e.right.id = node2)

/-- The lambda `internode_edge` of `group_edges_pairwise`. -/
def internode_edge (e : edge) : Bool := e.left.id ≠ e.right.id

/-- The body of the inner loop of `group_edges_pairwise` for the pair `n1`, `n2`, on
`node_pairs` and `groups`. -/
def group_pair (self : connected_tensor_network) (n1 : node)
    (acc : List (node × node) × List (List edge)) (n2 : node) :
    List (node × node) × List (List edge) :=
  let group := self.edges_.filter (fun e => edge_part_of_node_pair e n1.id n2.id)
  if group.all (fun e => !internode_edge e) then acc
  else (acc.1 ++ [(n1, n2)], acc.2 ++ [group])

/-- Member `connected_tensor_network::group_edges_pairwise`. -/
def group_edges_pairwise (self : connected_tensor_network) :
    Except logic_error (List (node × node) × List (List edge)) :=
  if self.size ≤ 1 then .error .grouping_single_node
  else
    let r := self.nodes_.enum.foldl
      (fun acc t => (self.nodes_.drop (t.1 + 1)).foldl (group_pair self t.2) acc) ([], [])
    if r.2 = [] then .error .no_group
    else if r.2.length ≠ r.1.length then .error .groups_and_pairs_differ
    else .ok r

end connected_tensor_network

namespace connected_tensor_network

/-- The loop over `partaker_contracted_edges` in `pairwise_contraction`: the body, on the
pair `lhs_positions`, `rhs_positions`. -/
def clear_contracted (lhs rhs : node_id) (pos : List (Option Nat) × List (Option Nat))
    (e : edge) : Except logic_error (List (Option Nat) × List (Option Nat)) :=
  let clear (pos : List (Option Nat) × List (Option Nat)) (l : index_location) :
      Except logic_error (List (Option Nat) × List (Option Nat)) :=
    if l.id = lhs then
      if l.index < pos.1.length then .ok (pos.1.set l.index none, pos.2)
      else .error .out_of_range
    else if l.id = rhs then
      if l.index < pos.2.length then .ok (pos.1, pos.2.set l.index none)
      else .error .out_of_range
    else .error .contracted_edge_elsewhere
  match clear pos e.left with
  | .error err => .error err
  | .ok pos1 => clear pos1 e.right

/-- The two loops of `pairwise_contraction` that shift the positions left by the number of
contracted indices met so far: the body, on `contractions_so_far` and the list built. -/
def shift_position (acc : Nat × List (Option Nat)) (p : Option Nat) : Nat × List (Option Nat) :=
  match p with
  | none => (size_add acc.1 1, acc.2 ++ [none])
  | some v => (acc.1, acc.2 ++ [some (size_sub v acc.1)])

/-- The lambda of `pairwise_contraction` computing `lhs_new_index_positions` and
`rhs_new_index_positions`. -/
def new_index_positions (lhs rhs : node_id) (lhs_rank rhs_rank : Nat)
    (partaker_contracted_edges : List edge) :
    Except logic_error (List (Option Nat) × List (Option Nat)) :=
  let lhs_positions : List (Option Nat) := (List.range lhs_rank).map some
  let rhs_positions : List (Option Nat) :=
    (List.range rhs_rank).map (fun i => some (size_add lhs_rank i))
  match partaker_contracted_edges.foldlM (clear_contracted lhs rhs)
      (lhs_positions, rhs_positions) with
  | .error err => .error err
  | .ok pos =>
    let l := pos.1.foldl shift_position (0, [])
    let r := pos.2.foldl shift_position (l.1, [])
    .ok (l.2, r.2)

/-- The loop over `partaker_noncontracted_edges` in `pairwise_contraction`: the body. -/
def reconnect (lhs rhs new_node_id : node_id)
    (lhs_new_index_positions rhs_new_index_positions : List (Option Nat))
    (self : connected_tensor_network) (e : edge) : Except logic_error connected_tensor_network :=
  let ends : Except logic_error (index_location × index_location) :=
    if e.left.id = lhs ∨ e.left.id = rhs then .ok (e.left, e.right)
    else if e.right.id = lhs ∨ e.right.id = rhs then .ok (e.right, e.left)
    else .error .noncontracted_edge_elsewhere
  match ends with
  | .error err => .error err
  | .ok (partaker_end, bystander_end) =>
    let pos_lookup :=
      if partaker_end.id = lhs then lhs_new_index_positions else rhs_new_index_positions
    match pos_lookup.get? partaker_end.index with
    | none => .error .out_of_range
    | some none => .error .bad_optional_access
    | some (some p) => self.add_edge bystander_end ⟨new_node_id, p⟩

/-- Member `connected_tensor_network::pairwise_contraction`: the id of the new node and
the network after the contraction. -/
def pairwise_contraction (self : connected_tensor_network) (lhs rhs : node_id) :
    Except logic_error (node_id × connected_tensor_network) :=
  if lhs = rhs then .error .contract_with_itself
  else
    match self.nodes_.find? (fun n => n.id = lhs), self.nodes_.find? (fun n => n.id = rhs) with
    | some lhs_node, some rhs_node =>
      let is_partaker_node := fun (n : node) => n.id = lhs || n.id = rhs
      let is_partaker_edge := fun (e : edge) =>
        (e.left.id = lhs || e.right.id = lhs) || (e.left.id = rhs || e.right.id = rhs)
      let bystander_nodes := self.nodes_.filter (fun n => !is_partaker_node n)
      let partaker_edges := self.edges_.filter is_partaker_edge
      let bystander_edges := self.edges_.filter (fun e => !is_partaker_edge e)
      let partaker_contracted_edge := fun (e : edge) =>
        (e.left.id = lhs || e.left.id = rhs) && (e.right.id = lhs || e.right.id = rhs)
      let partaker_contracted_edges := partaker_edges.filter partaker_contracted_edge
      let partaker_noncontracted_edges :=
        partaker_edges.filter (fun e => !partaker_contracted_edge e)
      let self1 : connected_tensor_network := ⟨bystander_nodes, self.next_id_, bystander_edges⟩
      let added := self1.add_node
        (size_sub (size_add lhs_node.rank rhs_node.rank)
          (size_mul 2 partaker_contracted_edges.length))
      let new_node_id := added.1
      match new_index_positions lhs rhs lhs_node.rank rhs_node.rank
          partaker_contracted_edges with
      | .error err => .error err
      | .ok (lhs_new_index_positions, rhs_new_index_positions) =>
        match partaker_noncontracted_edges.foldlM
            (reconnect lhs rhs new_node_id lhs_new_index_positions rhs_new_index_positions)
            added.2 with
        | .error err => .error err
        | .ok self2 => .ok (new_node_id, self2)
    | _, _ => .error .contract_missing_node

/-- The body of the loop of `pairwise_contraction_sequence` over the node pairs, on
`best_sequence` and `best_sequence_cost`; `tail_of` is the recursive call. -/
def sequence_step (self : connected_tensor_network) (D : Nat)
    (tail_of : connected_tensor_network → Except logic_error (List pairwise_contraction_type))
    (best : List pairwise_contraction_type × Nat) (t : (node × node) × List edge) :
    Except logic_error (List pairwise_contraction_type × Nat) :=
  let lhs := t.1.1
  let rhs := t.1.2
  match pairwise_contraction_type.create lhs rhs t.2 with
  | .error err => .error err
  | .ok head =>
    let head_cost := head.cost D
    if head_cost < best.2 then
      match self.pairwise_contraction lhs.id rhs.id with
      | .error err => .error err
      | .ok (id, contracted_cnet) =>
        match contracted_cnet.nodes_.find? (fun n => n.id = id) with
        | none => .error .out_of_range
        | some out =>
          let head1 := head.store_out out
          match tail_of contracted_cnet with
          | .error err => .error err
          | .ok tail =>
            let tail_cost := contraction_cost tail D
            let head_tail_cost := size_add head_cost tail_cost
            if head_tail_cost < best.2 then .ok (head1 :: tail, head_tail_cost)
            else .ok best
    else .ok best

/-- Member `connected_tensor_network::pairwise_contraction_sequence`, with a bound on the
depth of its recursion: every call contracts two nodes into one, so the depth is below the
number of nodes. -/
def pairwise_contraction_sequence_bounded :
    Nat → connected_tensor_network → Nat → Except logic_error (List pairwise_contraction_type)
  | 0, _, _ => .error .recursion_bound
  | bound + 1, self, D =>
    if self.size = 1 then .ok []
    else
      match self.group_edges_pairwise with
      | .error err => .error err
      | .ok (node_pairs, edge_groups) =>
        match (node_pairs.zip edge_groups).foldlM
            (sequence_step self D (fun c => pairwise_contraction_sequence_bounded bound c D))
            ([], 2 ^ 64 - 1) with
        | .error err => .error err
        | .ok best => .ok best.1

/-- Member `connected_tensor_network::pairwise_contraction_sequence`. -/
def pairwise_contraction_sequence (self : connected_tensor_network) (D : Nat) :
    Except logic_error (List pairwise_contraction_type) :=
  pairwise_contraction_sequence_bounded (self.size + 1) self D

end connected_tensor_network

/-! ## `idg/einsum.hpp`: validation of the operand types -/

/-- The element type of the views of a call of `operator()` (one scalar type per
computation): `OutMDS::value_type`.  Its values are represented by integers, and the type
decides what its `+`, its `*` and the store of a result into an element give.  `exact` is
an integer type on values for which no sum and no product computed by the call leaves the
range of the type, so that the results are the integer ones; `unsigned bits` is an unsigned
integer type of `bits` bits, whose results are the integer ones modulo `2 ^ bits`.
Floating point types, whose results are rounded, are not covered. -/
inductive element_type where
  | exact
  | unsigned (bits : Nat)
deriving DecidableEq, Repr

/-- The value of the element type that an integer result of `+` or `*` becomes. -/
def element_type.wrap : element_type → Int → Int
  | .exact, x => x
  | .unsigned bits, x => x % 2 ^ bits

/-- A `std::mdspan` with static extents: the extents of its type (the rank is their
number) and the element access by a full index tuple.  The storage layout is whatever
maps index tuples to elements; the elements are values of the element type of the call,
represented by integers (see `element_type`). -/
structure mdspan where
  extents : List Nat
  data : List Nat → Int

/-- Member `mdspan::rank`. -/
def mdspan.rank (self : mdspan) : Nat := self.extents.length

/-- The assignment `m[idx] = v` through an mdspan. -/
def mdspan.assign (self : mdspan) (idx : List Nat) (v : Int) : mdspan :=
  ⟨self.extents, fun i => if i = idx then v else self.data i⟩

/-- The constant `std::dynamic_extent`. -/
def dynamic_extent : Nat := 2 ^ 64 - 1

/-- Function `einsum_valid_ouput_type`, on the extents of `OutMDS`. -/
def einsum_valid_ouput_type (OutMDS : List Nat) (estr : List Char) : Except logic_error Bool :=
  match einsum_parsed.parse estr with
  | .error err => .error err
  | .ok parser => .ok (decide (parser.output_index_labels_.length = OutMDS.length))

/-- Function `einsum_valid_factor_types`, on the extents of `MDS...`. -/
def einsum_valid_factor_types (MDS : List (List Nat)) (estr : List Char) :
    Except logic_error Bool :=
  match einsum_parsed.parse estr with
  | .error err => .error err
  | .ok parser =>
    if MDS.length ≠ parser.number_of_factors then .ok false
    else .ok ((MDS.zip parser.factor_index_labels_).all (fun t => decide (t.1.length = t.2.length)))

/-- Struct `mds_dim_result` of `einsum_consistent_geometric_dimentions`. -/
structure mds_dim_result where
  dim : Option Nat
  consistent : Bool
deriving DecidableEq, Repr

/-- The lambda `mds_dim` of `einsum_consistent_geometric_dimentions`, on the extents of `M`. -/
def mds_dim (M : List Nat) : mds_dim_result :=
  match M with
  | [] => ⟨none, true⟩
  | found_dim :: rest =>
    if rest.any (fun e => e ≠ found_dim) then ⟨none, false⟩
    else if found_dim = 0 then ⟨some 0, false⟩
    else ⟨some found_dim, true⟩

/-- Function `einsum_consistent_geometric_dimentions`, on the extents of `MDS...`. -/
def einsum_consistent_geometric_dimentions (MDS : List (List Nat)) : Bool :=
  if !(MDS.all (fun M => (mds_dim M).consistent)) then false
  else
    let found_dims_wout_rank0s := (MDS.map (fun M => (mds_dim M).dim)).filterMap id
    match found_dims_wout_rank0s with
    | [] => true
    | d :: ds => decide ((d :: ds).foldl max d = (d :: ds).foldl min d)

/-- Concept `static_extent_mdspan`, on the extents of `MDS`. -/
def static_extent_mdspan (MDS : List Nat) : Bool :=
  MDS.all (fun e => e ≠ dynamic_extent)

/-- Concept `einsum_compatible`, on the extents of `OutMDS` and of `MDS...`. -/
def einsum_compatible (estr : str.fixed_string) (OutMDS : List Nat) (MDS : List (List Nat)) :
    Except logic_error Bool :=
  if !((OutMDS :: MDS).all static_extent_mdspan) then .ok false
  else if !(einsum_consistent_geometric_dimentions (OutMDS :: MDS)) then .ok false
  else
    match einsum_valid_ouput_type OutMDS estr.sv with
    | .error err => .error err
    | .ok false => .ok false
    | .ok true => einsum_valid_factor_types MDS estr.sv

/-! ## `idg/einsum.hpp`: the class `einsum` -/

namespace einsum

/-- Member `einsum::parser`. -/
def parser (estr : str.fixed_string) : Except logic_error einsum_parsed :=
  einsum_parsed.parse estr.sv

/-- The body of the loop of `einsum::network` over the contractions. -/
def network_edge (id_vec : List node_id) (net : tensor_network) (contraction : contraction) :
    Except logic_error tensor_network :=
  match contraction.get_data with
  | [l, r] =>
    match id_vec.get? l.factor, id_vec.get? r.factor with
    | some lhs, some rhs => net.add_edge ⟨lhs, l.index⟩ ⟨rhs, r.index⟩
    | _, _ => .error .out_of_range
  | _ => .error .reduction_not_two_indices

/-- The nodes of `einsum::network`: one `add_node` per factor, with the ids returned. -/
def network_nodes (factor_index_labels : List factor_index_labels_vec) :
    List node_id × tensor_network :=
  factor_index_labels.foldl
    (fun acc labels => (acc.1 ++ [(acc.2.add_node labels.length).1],
      (acc.2.add_node labels.length).2))
    ([], tensor_network.empty)

/-- Member `einsum::network`, on the parsed expression. -/
def network_of (p : einsum_parsed) : Except logic_error (List node_id × tensor_network) :=
  let r := network_nodes p.factor_index_labels_
  match p.contractions_.foldlM (network_edge r.1) r.2 with
  | .error err => .error err
  | .ok net => .ok (r.1, net)

/-- Member `einsum::network`. -/
def network (estr : str.fixed_string) : Except logic_error (List node_id × tensor_network) :=
  match parser estr with
  | .error err => .error err
  | .ok p => network_of p

/-- Member `einsum::deduce_dimension`, on the extents of `T...`. -/
def deduce_dimension : List (List Nat) → Nat
  | [] => 1
  | [] :: Tail => deduce_dimension Tail
  | (e0 :: _) :: _ => e0

/-- Member `einsum::rank`. -/
def rank (estr : str.fixed_string) : Except logic_error Nat :=
  match einsum_parsed.parse estr.sv with
  | .error err => .error err
  | .ok p => .ok p.free_index_labels_.length

/-- The lambda `find_contraction` of `einsum::index_map`. -/
def find_contraction (p : einsum_parsed) (factor_ordinal index_rank : Nat) : Option Nat :=
  p.contractions_.findIdx? (fun c => c.contains ⟨factor_ordinal, index_rank⟩)

/-- The body of the loop of the lambda `handle_factor` of `einsum::index_map`: the entry
for the index `i` of the factor `J`, whose label is `label`. -/
def index_map_entry (p : einsum_parsed) (J : Nat) (i : Nat) (label : index_label) :
    Except logic_error Nat :=
  match find_contraction p J i with
  | some contraction_ordinal => .ok (p.output_index_labels_.length + contraction_ordinal)
  | none =>
    match alg.argfind p.output_index_labels_ label with
    | some q => .ok q
    | none => .error .bad_optional_access

/-- Evaluation of a list of results, stopping at the first failure. -/
def all_ok {α : Type} : List (Except logic_error α) → Except logic_error (List α)
  | [] => .ok []
  | .error err :: _ => .error err
  | .ok a :: rest =>
    match all_ok rest with
    | .error err => .error err
    | .ok as => .ok (a :: as)

/-- The lambda `handle_factor` of `einsum::index_map`. -/
def index_map_factor (p : einsum_parsed) (J : Nat) (labels : factor_index_labels_vec) :
    Except logic_error (List Nat) :=
  all_ok (labels.enum.map (fun t => index_map_entry p J t.1 t.2))

/-- Member `einsum::index_map`, on the parsed expression. -/
def index_map (p : einsum_parsed) : Except logic_error (List (List Nat)) :=
  all_ok (p.factor_index_labels_.enum.map (fun t => index_map_factor p t.1 t.2))

/-- Member `einsum::apply_index_map`.  The entries of `index_map` are positions of
`concatted_indices`. -/
def apply_index_map (index_map : List (List Nat)) (out_idx reduced_idx : List Nat) :
    List (List Nat) :=
  let concatted_indices := out_idx ++ reduced_idx
  index_map.map (fun fac => fac.map (fun i => concatted_indices.getD i 0))

/-- The arrays `out_index_space_dividers` and `contraction_index_space_dividers` of
`einsum::operator()`. -/
def index_space_dividers (dimension n : Nat) : List Nat :=
  (List.range n).map (fun I => sstd.integer_pow dimension (n - 1 - I))

/-- The multi-index computed from the counter `i` of a loop of `einsum::operator()`. -/
def index_of_counter (dividers : List Nat) (dimension i : Nat) : List Nat :=
  dividers.map (fun d => (i / d) % dimension)

/-- The fold expression `(factors[std::get<I>(sorted_indices)] * ...)` on a non-empty pack,
in the element type `T`: every `*` of the fold gives a value of `T`. -/
def fold_product (T : element_type) : List Int → Int
  | [] => 1
  | [x] => x
  | x :: y :: rest => T.wrap (x * fold_product T (y :: rest))

/-- The body of the loop over the contraction index space (lines 399 to 413), in the
element type `T`: `out[out_idx] += ...` stores the sum as a value of `T`. -/
def accumulate (T : element_type) (index_map : List (List Nat)) (factors : List mdspan)
    (dimension : Nat) (contraction_index_space_dividers out_idx : List Nat) (out : mdspan)
    (j : Nat) : mdspan :=
  let contraction_idx := index_of_counter contraction_index_space_dividers dimension j
  let sorted_indices := apply_index_map index_map out_idx contraction_idx
  out.assign out_idx
    (T.wrap (out.data out_idx +
      fold_product T ((factors.zip sorted_indices).map (fun t => t.1.data t.2))))

/-- The body of the loop over the output index space (lines 391 to 414), in the element
type `T`; `typename OutMDS::value_type{}` is zero. -/
def fill_cell (T : element_type) (index_map : List (List Nat)) (factors : List mdspan)
    (dimension : Nat) (number_of_free_indices number_of_contractions : Nat) (out : mdspan)
    (i : Nat) : mdspan :=
  let out_idx := index_of_counter (index_space_dividers dimension number_of_free_indices) dimension i
  (List.range (sstd.integer_pow dimension number_of_contractions)).foldl
    (accumulate T index_map factors dimension
      (index_space_dividers dimension number_of_contractions) out_idx)
    (out.assign out_idx 0)

/-- The branch of `einsum::operator()` taken when `needs_optimization` holds: the two
nested loops of the direct evaluation, in the element type `T` (when `T` is not given, the
type `exact`). -/
def direct (p : einsum_parsed) (dimension : Nat) (out : mdspan) (factors : List mdspan)
    (T : element_type := element_type.exact) : Except logic_error mdspan :=
  match index_map p with
  | .error err => .error err
  | .ok im =>
    if p.number_of_factors = 0 then .error .empty_fold
    else
      .ok ((List.range (sstd.integer_pow dimension out.rank)).foldl
        (fill_cell T im factors dimension out.rank p.contractions_.length) out)

/-- Struct `connected_component_info` of `einsum::operator()`. -/
structure connected_component_info where
  rank : Nat
  number_of_contractions : Nat
  one_node_factor_ordinal : Option Nat
deriving DecidableEq, Repr

/-- Member `connected_component_info::out_buff_size`. -/
def connected_component_info.out_buff_size (self : connected_component_info) (D : Nat) : Nat :=
  if self.number_of_contractions = 0 then 0 else sstd.integer_pow D self.rank

/-- Member `connected_component_info::case_A`. -/
def connected_component_info.case_A (self : connected_component_info) : Bool :=
  self.one_node_factor_ordinal.isSome && decide (self.number_of_contractions = 0)

/-- Member `connected_component_info::case_B`. -/
def connected_component_info.case_B (self : connected_component_info) : Bool :=
  self.one_node_factor_ordinal.isSome && decide (self.number_of_contractions ≠ 0)

/-- Member `connected_component_info::case_C`. -/
def connected_component_info.case_C (self : connected_component_info) : Bool :=
  !self.one_node_factor_ordinal.isSome

/-- The body of the loop that fills `connected_component_infos` (lines 466 to 482). -/
def connected_component_info_of (id_vec : List node_id) (dimension : Nat)
    (cc : connected_tensor_network) : Except logic_error connected_component_info :=
  match cc.pairwise_contraction_sequence dimension with
  | .error err => .error err
  | .ok pcs =>
    if cc.size = 1 then
      match cc.nodes_ with
      | [] => .error .out_of_range
      | n0 :: _ =>
        if pcs ≠ [] then .error .one_node_sequence
        else .ok ⟨cc.rank, cc.edges_.length, alg.argfind id_vec n0.id⟩
    else .ok ⟨cc.rank, pcs.length, none⟩

/-- A `sstd::geometric_mdspan` of the given rank and dimension over a value initialised
`std::array`. -/
def geometric_buffer (rank dimension : Nat) : mdspan :=
  ⟨List.replicate rank dimension, fun _ => 0⟩

/-- The lambda `deduce_out_mds` of `einsum::operator()`. -/
def deduce_out_mds (dimension : Nat) (factors : List mdspan) (info : connected_component_info) :
    Except logic_error mdspan :=
  if info.case_A then
    match info.one_node_factor_ordinal with
    | none => .error .bad_optional_access
    | some ordinal =>
      match factors.get? ordinal with
      | none => .error .out_of_range
      | some factor => .ok factor
  else .ok (geometric_buffer info.rank dimension)

/-- The tuple `connected_component_out_mdspans` of `einsum::operator()`. -/
def connected_component_out_mdspans (dimension : Nat) (out : mdspan) (factors : List mdspan)
    (infos : List connected_component_info) : Except logic_error (List mdspan) :=
  if infos.length = 1 then .ok [out]
  else all_ok (infos.map (deduce_out_mds dimension factors))

/-- Struct `pairwise_contraction_info` of `einsum::operator()`. -/
structure pairwise_contraction_info where
  out_register : Nat
  out_register_rank : Nat
  lhs_register : Nat
  rhs_register : Nat
  einsum_str : str.fixed_string
deriving DecidableEq, Repr

/-- The body of the loop that fills `pairwise_contractions` (lines 556 to 573), on `id_vec`
and the entries written so far. -/
def pairwise_contraction_info_of (acc : List node_id × List pairwise_contraction_info)
    (c : pairwise_contraction_type) :
    Except logic_error (List node_id × List pairwise_contraction_info) :=
  match alg.argfind acc.1 c.lhs_id, alg.argfind acc.1 c.rhs_id with
  | some lhs_reg, some rhs_reg =>
    match c.out_id, c.out_rank, c.index_labels with
    | .ok out_id, .ok out_rank, .ok (lhs_str, rhs_str) =>
      let id_vec := acc.1 ++ [out_id]
      let out_reg := id_vec.length - 1
      match str.fixed_string.create (lhs_str ++ [','] ++ rhs_str) with
      | .error err => .error err
      | .ok s => .ok (id_vec, acc.2 ++ [⟨out_reg, out_rank, lhs_reg, rhs_reg, s⟩])
    | .error err, _, _ => .error err
    | _, .error err, _ => .error err
    | _, _, .error err => .error err
  | _, _ => .error .bad_optional_access

/-- The array `pairwise_contractions` of `einsum::operator()` for the component `N`. -/
def pairwise_contractions (id_vec : List node_id) (cc_vec : List connected_tensor_network)
    (dimension N : Nat) (info : connected_component_info) :
    Except logic_error (List pairwise_contraction_info) :=
  if info.number_of_contractions = 0 then .ok []
  else
    match cc_vec.get? N with
    | none => .error .out_of_range
    | some cc =>
      if id_vec.length < 3 then .error .less_than_three_nodes
      else
        match cc.pairwise_contraction_sequence dimension with
        | .error err => .error err
        | .ok pcs =>
          match pcs.foldlM pairwise_contraction_info_of (id_vec, []) with
          | .error err => .error err
          | .ok r =>
            if r.2.length = info.number_of_contractions then .ok r.2
            else .error .out_of_range

/-- One call of the fold over `pairwise_contractions` (lines 603 to 614), on the registers
`tensor_register_mdspans`; `call` is `einsum::operator()`. -/
def run_pairwise_contraction
    (call : str.fixed_string → mdspan → List mdspan → Except logic_error mdspan)
    (registers : List mdspan) (c : pairwise_contraction_info) : Except logic_error (List mdspan) :=
  match registers.get? c.out_register, registers.get? c.lhs_register,
      registers.get? c.rhs_register with
  | some out, some lhs, some rhs =>
    match call c.einsum_str out [lhs, rhs] with
    | .error err => .error err
    | .ok out1 => .ok (registers.set c.out_register out1)
  | _, _, _ => .error .out_of_range

/-- The lambda `handle_connected_component` of `einsum::operator()` for the component `N`:
the mdspan of the component after it; `call` is `einsum::operator()`. -/
def handle_connected_component
    (call : str.fixed_string → mdspan → List mdspan → Except logic_error mdspan)
    (p : einsum_parsed) (id_vec : List node_id) (cc_vec : List connected_tensor_network)
    (dimension : Nat) (factors : List mdspan) (N : Nat) (info : connected_component_info)
    (out_mdspan : mdspan) : Except logic_error mdspan :=
  if info.case_A then .ok out_mdspan
  else if info.case_B then
    match p.factor_index_labels_.get? N, info.one_node_factor_ordinal with
    | some labels, some ordinal =>
      match str.fixed_string.create labels.flatten, factors.get? ordinal with
      | .ok einsum_str, some factor => call einsum_str out_mdspan [factor]
      | .error err, _ => .error err
      | _, none => .error .out_of_range
    | none, _ => .error .out_of_range
    | _, none => .error .bad_optional_access
  else
    match pairwise_contractions id_vec cc_vec dimension N info with
    | .error err => .error err
    | .ok pcs =>
      if info.number_of_contractions = 0 then .error .out_of_range
      else
        let tensor_register_mdspans :=
          factors ++
            ((pcs.take (info.number_of_contractions - 1)).map
              (fun c => geometric_buffer c.out_register_rank dimension)) ++
            [out_mdspan]
        match pcs.foldlM (run_pairwise_contraction call) tensor_register_mdspans with
        | .error err => .error err
        | .ok registers =>
          match registers.getLast? with
          | none => .error .out_of_range
          | some r => .ok r

/-- The loops that build `connected_components_estr` before the arrow (lines 635 to 640):
the body of the outer loop for the component `i`, on `str` and `next_label`. -/
def component_labels (free_index_labels : factor_index_labels_vec) (number_of_connected_components : Nat)
    (acc : List Char × Nat) (t : Nat × connected_component_info) :
    Except logic_error (List Char × Nat) :=
  match all_ok ((List.range t.2.rank).map (fun k =>
      match free_index_labels.get? (acc.2 + k) with
      | none => Except.error logic_error.out_of_range
      | some l => Except.ok l)) with
  | .error err => .error err
  | .ok labels =>
    .ok (acc.1 ++ labels.flatten ++ (if t.1 ≠ number_of_connected_components - 1 then [','] else []),
      acc.2 + t.2.rank)

/-- The string `connected_components_estr` of `einsum::operator()`. -/
def connected_components_estr (p : einsum_parsed) (infos : List connected_component_info) :
    Except logic_error str.fixed_string :=
  match infos.enum.foldlM (component_labels p.free_index_labels_ infos.length) ([], 0) with
  | .error err => .error err
  | .ok r => str.fixed_string.create (r.1 ++ ['-', '>'] ++ p.output_index_labels_.flatten)

/-- The branch of `einsum::operator()` taken when `needs_optimization` does not hold: the
evaluation by connected components, planned pairwise contractions and a final outer
product; `call` is `einsum::operator()`. -/
def network_decomposed
    (call : str.fixed_string → mdspan → List mdspan → Except logic_error mdspan)
    (p : einsum_parsed) (id_vec : List node_id) (cc_vec : List connected_tensor_network)
    (dimension : Nat) (out : mdspan) (factors : List mdspan) : Except logic_error mdspan :=
  match all_ok (cc_vec.map (connected_component_info_of id_vec dimension)) with
  | .error err => .error err
  | .ok connected_component_infos =>
    match connected_component_out_mdspans dimension out factors connected_component_infos with
    | .error err => .error err
    | .ok out_mdspans =>
      match all_ok ((connected_component_infos.zip out_mdspans).enum.map (fun t =>
          handle_connected_component call p id_vec cc_vec dimension factors t.1 t.2.1 t.2.2)) with
      | .error err => .error err
      | .ok handled =>
        if connected_component_infos.length > 1 then
          match connected_components_estr p connected_component_infos with
          | .error err => .error err
          | .ok estr => call estr out handled
        else
          match handled with
          | [o] => .ok o
          | _ => .error .out_of_range

/-- Member `einsum::operator()`, with a bound on the depth of the calls of `operator()`
made by the evaluation itself. -/
def call_bounded :
    Nat → element_type → str.fixed_string → mdspan → List mdspan → Except logic_error mdspan
  | 0, _, _, _, _ => .error .recursion_bound
  | bound + 1, T, estr, out, factors =>
    match einsum_compatible estr out.extents (factors.map (fun f => f.extents)) with
    | .error err => .error err
    | .ok false => .error .not_einsum_compatible
    | .ok true =>
      match parser estr with
      | .error err => .error err
      | .ok p =>
        match network_of p with
        | .error err => .error err
        | .ok (id_vec, net) =>
          match net.connected_components with
          | .error err => .error err
          | .ok cc_vec =>
            let dimension := deduce_dimension (out.extents :: factors.map (fun f => f.extents))
            if factors.length ≤ 2 ∨ p.contractions_ = [] then direct p dimension out factors T
            else network_decomposed (call_bounded bound T) p id_vec cc_vec dimension out factors

/-- Member `einsum::operator()`, on views of the element type `T` (when `T` is not given,
the type `exact`).  The sub-expressions that the evaluation by components hands to
`operator()` have one factor, two factors, or no repeated label, so that these calls
evaluate directly and the depth of the calls is two. -/
def call (estr : str.fixed_string) (out : mdspan) (factors : List mdspan)
    (T : element_type := element_type.exact) : Except logic_error mdspan :=
  call_bounded 2 T estr out factors

/-- The element of the output of a call at the index tuple `idx`, when the call succeeds. -/
def cell (r : Except logic_error mdspan) (idx : List Nat) : Option Int :=
  match r with
  | .ok out => some (out.data idx)
  | .error _ => none

end einsum

/-! ## Invariants used in the proofs -/

/-- Invariant of the loop of the constructor that fills `contractions_`, after the cursors
`done` (pairwise different) have been handled. -/
structure parser_inv (done : List (index_cursor × index_label)) (st : parser_state) : Prop where
  nodup_labels : (st.1.map (fun s => s.1)).Nodup
  seen_of_done : ∀ t ∈ done, t.2 ∈ st.1.map (fun s => s.1)
  entry_once : ∀ e ∈ st.1, e.2.1 = not_contraction →
    (done.filter (fun t => t.2 = e.1)).map (fun t => t.1) = [e.2.2]
  entry_group : ∀ e ∈ st.1, e.2.1 ≠ not_contraction →
    ∃ g, st.2[e.2.1]? = some g ∧
      g.data_ = (done.filter (fun t => t.2 = e.1)).map (fun t => t.1) ∧ 2 ≤ g.data_.length
  ordinal_inj : ∀ e ∈ st.1, ∀ e2 ∈ st.1, e.2.1 ≠ not_contraction → e.2.1 = e2.2.1 → e = e2
  ordinal_surj : ∀ k, k < st.2.length → ∃ e ∈ st.1, e.2.1 = k
  free : (st.1.filter (fun t => decide (not_contraction = t.2.1))).map (fun t => t.1) =
    (done.map (fun t => t.2)).filter (fun l => (done.map (fun t => t.2)).count l = 1)
  size : st.2.length + st.1.length ≤ done.length

/-- Two edges that have no end in common. -/
def edge.apart (e1 e2 : edge) : Prop :=
  e2.left ≠ e1.left ∧ e2.left ≠ e1.right ∧ e2.right ≠ e1.left ∧ e2.right ≠ e1.right

/-- The networks that `add_node` and a successful `add_edge` build: the ids of the nodes
are pairwise different, the two ends of an edge are different index locations of existing
nodes, below the rank of their node, and no index location is an end of two edges. -/
structure well_formed (net : tensor_network) : Prop where
  ids_nodup : (net.nodes_.map (fun n => n.id)).Nodup
  ends_differ : ∀ e ∈ net.edges_, e.left ≠ e.right
  left_valid : ∀ e ∈ net.edges_, ∃ n ∈ net.nodes_, n.id = e.left.id ∧ e.left.index < n.rank
  right_valid : ∀ e ∈ net.edges_, ∃ n ∈ net.nodes_, n.id = e.right.id ∧ e.right.index < n.rank
  apart : net.edges_.Pairwise edge.apart

/-! ## Concrete operands used in the statements -/

/-- The square matrix with the given rows, as an mdspan of rank two. -/
def matrix (rows : List (List Int)) : mdspan :=
  ⟨[rows.length, rows.length], fun idx =>
    match idx with
    | [i, j] => (rows.getD i []).getD j 0
    | _ => 0⟩

/-- The mdspan with the given extents whose elements all equal `v`. -/
def filled (extents : List Nat) (v : Int) : mdspan := ⟨extents, fun _ => v⟩

/-! ## Networks built through the public members -/

/-- A call of one of the two public members of `tensor_network` that change the network. -/
inductive network_call where
  | add_node (rank : Nat)
  | add_edge (a b : index_location)
deriving DecidableEq, Repr

/-- The network after a call; a call of `add_edge` that throws leaves no network. -/
def network_call.apply (net : tensor_network) : network_call → Except logic_error tensor_network
  | .add_node rank => .ok (net.add_node rank).2
  | .add_edge a b => net.add_edge a b

/-- The network built from the default constructed one by a sequence of calls. -/
def tensor_network.built (calls : List network_call) : Except logic_error tensor_network :=
  calls.foldlM network_call.apply tensor_network.empty

/-- The number of calls of `add_node` in a sequence of calls. -/
def network_call.nodes_added (calls : List network_call) : Nat :=
  calls.countP (fun c =>
    match c with
    | .add_node _ => true
    | .add_edge _ _ => false)

/-! ## Paths of edges and the loop of `connected_components` -/

/-- Two node ids that an edge of the list joins, in one direction or the other. -/
def edge.joins (edges : List edge) (a b : node_id) : Prop :=
  ∃ e ∈ edges, (e.left.id = a ∧ e.right.id = b) ∨ (e.left.id = b ∧ e.right.id = a)

/-- Two node ids joined by a path of edges of the list. -/
def edge.path (edges : List edge) (a b : node_id) : Prop :=
  Relation.ReflTransGen (edge.joins edges) a b

/-- Invariant of the loop of `connected_components` over the edges, after the edges `done`:
the components hold the nodes of the network and the edges handled so far, no component is
empty, the ends of an edge of a component are nodes of that component, the nodes of a
component are joined by paths of handled edges, and the first nodes of the components
follow the order of the nodes of the network. -/
structure components_inv (net : tensor_network) (done : List edge)
    (comps : List connected_tensor_network) : Prop where
  nodes_perm : (comps.map (fun c => c.nodes_)).flatten.Perm net.nodes_
  edges_perm : (comps.map (fun c => c.edges_)).flatten.Perm done
  nonempty : ∀ c ∈ comps, c.nodes_ ≠ []
  ends_inside : ∀ c ∈ comps, ∀ e ∈ c.edges_,
    c.contains e.left.id = true ∧ c.contains e.right.id = true
  joined : ∀ c ∈ comps, ∀ n ∈ c.nodes_, ∀ m ∈ c.nodes_, edge.path done n.id m.id
  heads : (comps.map (fun c => c.nodes_.head?)).Sublist (net.nodes_.map some)

/-! ## Sequences of pairwise contractions -/

/-- The connected components that the planner works on: a well formed network whose ids
are below the next id, with room for the ids of the contractions and a representable sum of
ranks, all of whose nodes are joined by paths of edges. -/
structure well_formed_component (net : connected_tensor_network) : Prop where
  wf : well_formed net
  ids_below : ∀ n ∈ net.nodes_, n.id.id < net.next_id_
  room : net.next_id_ + net.nodes_.length < 2 ^ 64
  ranks : (net.nodes_.map (fun n => n.rank)).sum < 2 ^ 64
  connected : ∀ n ∈ net.nodes_, ∀ m ∈ net.nodes_, edge.path net.edges_ n.id m.id

/-- The sequences of pairwise contractions that reduce a network to one node: each step
contracts, with `pairwise_contraction`, two nodes of the network joined by an edge (in
either order) over all the edges that have both ends at the two nodes, and stores the node
that results. -/
inductive contraction_plan :
    connected_tensor_network → List pairwise_contraction_type → Prop
  | done (net : connected_tensor_network) (h : net.size = 1) : contraction_plan net []
  | step (net net2 : connected_tensor_network) (lhs rhs out : node) (id : node_id)
      (tail : List pairwise_contraction_type)
      (hl : lhs ∈ net.nodes_) (hr : rhs ∈ net.nodes_)
      (hjoin : ∃ e ∈ net.edges_,
        connected_tensor_network.edge_part_of_node_pair e lhs.id rhs.id = true ∧
        connected_tensor_network.internode_edge e = true)
      (hc : net.pairwise_contraction lhs.id rhs.id = .ok (id, net2))
      (hout : net2.nodes_.find? (fun n => n.id = id) = some out)
      (htail : contraction_plan net2 tail) :
      contraction_plan net
        (⟨lhs, rhs, some out, net.edges_.filter
          (fun e => connected_tensor_network.edge_part_of_node_pair e lhs.id rhs.id)⟩ :: tail)

/-- The cost of a step as a natural number, without the wrap of `std::size_t`: the extent
to the power of the two ranks minus the number of edges of the step. -/
def pairwise_contraction_type.exact_cost (self : pairwise_contraction_type) (D : Nat) : Nat :=
  D ^ (self.lhs_.rank + self.rhs_.rank - self.edges_.length)

/-- The total cost of a sequence as a natural number, without the wrap of `std::size_t`. -/
def exact_contraction_cost (pcs : List pairwise_contraction_type) (D : Nat) : Nat :=
  (pcs.map (fun c => c.exact_cost D)).sum

/-- The ids of the two nodes that an edge joins. -/
def edge.ids (e : edge) : node_id × node_id := (e.left.id, e.right.id)

/-- Two networks with the same nodes, the same next id and edges between the same nodes in
the same order: they differ at most in the index positions of the ends of their edges. -/
def same_shape (a b : tensor_network) : Prop :=
  a.nodes_ = b.nodes_ ∧ a.next_id_ = b.next_id_ ∧ a.edges_.map edge.ids = b.edges_.map edge.ids

/-- The node ids joined by the edges of the network that `pairwise_contraction` leaves,
from those of the edges before: first the edges with no end at the nodes `a` and `b`, then
the edges with one end there, which run from their other end to the node `new_node_id`. -/
def contracted_ids (a b new_node_id : node_id) (E : List (node_id × node_id)) :
    List (node_id × node_id) :=
  E.filter (fun p => !((p.1 = a || p.2 = a) || (p.1 = b || p.2 = b))) ++
    ((E.filter (fun p => (p.1 = a || p.2 = a) || (p.1 = b || p.2 = b))).filter
      (fun p => !((p.1 = a || p.1 = b) && (p.2 = a || p.2 = b)))).map
      (fun p => if p.1 = a ∨ p.1 = b then (p.2, new_node_id) else (p.1, new_node_id))

/-- The positions `base`, `base + 1`, … of the `r` indices of the node `id`, without the
positions of the index locations of `E`: the arrays `lhs_positions` and `rhs_positions` of
`pairwise_contraction` after the index locations of `E` have been cleared. -/
def marked_positions (id : node_id) (base r : Nat) (E : List index_location) :
    List (Option Nat) :=
  (List.range r).map (fun i => if (⟨id, i⟩ : index_location) ∈ E then none else some (base + i))

/-- The edge that the loop of `pairwise_contraction` over `partaker_noncontracted_edges`
adds for the edge `e`: from the bystander end of `e` to the position of its partaker end
in the new node. -/
def connected_tensor_network.reconnected (lhs rhs new_node_id : node_id)
    (lhs_new_index_positions rhs_new_index_positions : List (Option Nat)) (e : edge) :
    Option edge :=
  if e.left.id = lhs ∨ e.left.id = rhs then
    match (if e.left.id = lhs then lhs_new_index_positions
      else rhs_new_index_positions)[e.left.index]? with
    | some (some p) => some ⟨e.right, ⟨new_node_id, p⟩⟩
    | _ => none
  else if e.right.id = lhs ∨ e.right.id = rhs then
    match (if e.right.id = lhs then lhs_new_index_positions
      else rhs_new_index_positions)[e.right.index]? with
    | some (some p) => some ⟨e.left, ⟨new_node_id, p⟩⟩
    | _ => none
  else none

/-- Replaying a sequence of steps on a network: `pairwise_contraction` of the lhs and the
rhs of every step, in order, each on the network left by the step before. -/
def connected_tensor_network.replay (self : connected_tensor_network)
    (steps : List pairwise_contraction_type) : Except logic_error connected_tensor_network :=
  steps.foldlM (fun cur c =>
    match cur.pairwise_contraction c.lhs_id c.rhs_id with
    | .error err => .error err
    | .ok (_, next) => .ok next) self

/-- The pairs of two places of a list, the element of the earlier place first, ordered by
the first place and then by the second: the pairs that the two nested loops of
`group_edges_pairwise` visit. -/
def all_pairs {α : Type} : List α → List (α × α)
  | [] => []
  | a :: rest => rest.map (fun b => (a, b)) ++ all_pairs rest

/-- The edges with both ends at the two nodes of a pair: the group that
`group_edges_pairwise` collects for the pair. -/
def connected_tensor_network.group_of (self : connected_tensor_network) (p : node × node) :
    List edge :=
  self.edges_.filter (fun e => connected_tensor_network.edge_part_of_node_pair e p.1.id p.2.id)

/-- Whether an edge between two different nodes has both its ends at the two nodes of a
pair. -/
def connected_tensor_network.joined (self : connected_tensor_network) (p : node × node) :
    Bool :=
  (self.group_of p).any connected_tensor_network.internode_edge

/-- The index locations of the two nodes of a step: an index of lhs or of rhs below the
rank of its node. -/
def pairwise_contraction_type.slot (self : pairwise_contraction_type) (loc : index_location) :
    Prop :=
  (loc.id = self.lhs_.id ∧ loc.index < self.lhs_.rank) ∨
    (loc.id = self.rhs_.id ∧ loc.index < self.rhs_.rank)

/-- The label that a pair of strings of `index_labels` gives to an index location of the
step: the character at its index, in the first string for lhs and in the second one for
rhs. -/
def pairwise_contraction_type.label_at (self : pairwise_contraction_type)
    (strs : List Char × List Char) (loc : index_location) : Option Char :=
  if loc.id = self.lhs_.id then strs.1[loc.index]? else strs.2[loc.index]?

/-- The character that `index_labels` gives to an index location of the step before its
loop over the edges: consecutive code units from 'a', first for the indices of lhs, then
for the indices of rhs. -/
def pairwise_contraction_type.first_label (self : pairwise_contraction_type)
    (loc : index_location) : Char :=
  Char.ofNat ((97 + (if loc.id = self.lhs_.id then loc.index
    else self.lhs_.rank + loc.index)) % 256)

/-- Invariant of the loop of `index_labels` over the edges, after the edges `done`: the two
strings have the lengths of the two ranks, an index location that is not the right end of
an edge handled so far has its first label, and the right end of an edge handled so far
has the first label of the left end of that edge. -/
structure labels_inv (c : pairwise_contraction_type) (done : List edge)
    (strs : List Char × List Char) : Prop where
  len1 : strs.1.length = c.lhs_.rank
  len2 : strs.2.length = c.rhs_.rank
  slots : ∀ e ∈ done, c.slot e.right
  kept : ∀ loc, c.slot loc → (∀ e ∈ done, e.right ≠ loc) →
    c.label_at strs loc = some (c.first_label loc)
  moved : ∀ e ∈ done, c.label_at strs e.right = some (c.first_label e.left)

/-- The sequences that `pairwise_contraction_sequence` can return, whatever the costs:
each step contracts, with `pairwise_contraction`, two nodes of the network left by the
steps before it that are joined by an edge, over the edges with both ends at the two nodes,
and stores the node that results; the sequence may end before one node is left. -/
inductive contraction_trace :
    connected_tensor_network → List pairwise_contraction_type → Prop
  | done (net : connected_tensor_network) : contraction_trace net []
  | step (net net2 : connected_tensor_network) (lhs rhs out : node) (id : node_id)
      (tail : List pairwise_contraction_type)
      (hl : lhs ∈ net.nodes_) (hr : rhs ∈ net.nodes_)
      (hjoin : ∃ e ∈ net.edges_,
        connected_tensor_network.edge_part_of_node_pair e lhs.id rhs.id = true ∧
        connected_tensor_network.internode_edge e = true)
      (hc : net.pairwise_contraction lhs.id rhs.id = .ok (id, net2))
      (hout : net2.nodes_.find? (fun n => n.id = id) = some out)
      (htail : contraction_trace net2 tail) :
      contraction_trace net
        (⟨lhs, rhs, some out, net.edges_.filter
          (fun e => connected_tensor_network.edge_part_of_node_pair e lhs.id rhs.id)⟩ :: tail)

/-- The ids of the two operands of the steps of a sequence, step by step. -/
def operand_ids (steps : List pairwise_contraction_type) : List node_id :=
  steps.flatMap (fun c => [c.lhs_id, c.rhs_id])

/-- The ids of the output nodes of the steps of a sequence that have one. -/
def output_ids (steps : List pairwise_contraction_type) : List node_id :=
  steps.filterMap (fun c => c.out_.map (fun n => n.id))

/-! ## `idg/sstd.hpp`: `flags_t` and `natural_polynomial` -/

namespace sstd

/-- The operator `~` at an unsigned type of `bits` bits, on a value of that type. -/
def bit_not (bits x : Nat) : Nat := 2 ^ bits - (x % 2 ^ bits + 1)

/-- The two `operator|` of `sstd::flags`, at an underlying type of `bits` bits: the
bitwise or of the underlying values, converted to the enum. -/
def flags.or (bits lhs rhs : Nat) : Nat := (lhs ||| rhs) % 2 ^ bits

/-- Class `sstd::flags::flags_t<T>`, for an enum `T` whose underlying type `UT` is unsigned
with `bits` bits: its data member.  Flags are given by their underlying values. -/
structure flags_t (bits : Nat) where
  current_flags : Nat
deriving DecidableEq, Repr

namespace flags_t

/-- The constructors `flags_t(const UT)` and `flags_t(const T)`. -/
def create (bits : Nat) (initial_flag : Nat) : flags_t bits := ⟨initial_flag % 2 ^ bits⟩

/-- Member `flags_t::remove`: `current_flags &= ~flag`. -/
def remove {bits : Nat} (self : flags_t bits) (flag : Nat) : flags_t bits :=
  ⟨(self.current_flags &&& bit_not bits flag) % 2 ^ bits⟩

/-- Member `flags_t::add`: `current_flags |= flag`. -/
def add {bits : Nat} (self : flags_t bits) (flag : Nat) : flags_t bits :=
  ⟨(self.current_flags ||| flag) % 2 ^ bits⟩

/-- Member `flags_t::contains`: `not static_cast<bool>(flag & ~current_flags)`. -/
def contains {bits : Nat} (self : flags_t bits) (flag : Nat) : Bool :=
  !(decide ((flag % 2 ^ bits) &&& bit_not bits self.current_flags ≠ 0))

end flags_t

/-- Class `sstd::natural_polynomial`: its data member, the coefficient of x^i at place i. -/
structure natural_polynomial where
  coeffs_ : List Nat
deriving DecidableEq, Repr

namespace natural_polynomial

/-- The default constructor. -/
def empty : natural_polynomial := ⟨[]⟩

/-- The constructor `natural_polynomial(const std::size_t exponent)`: `exponent + 1` zero
coefficients, then a one written at place `exponent` (out of range when the size wrapped
to zero). -/
def create (exponent : Nat) : Except logic_error natural_polynomial :=
  let coeffs := List.replicate (size_add exponent 1) 0
  if exponent < coeffs.length then .ok ⟨coeffs.set exponent 1⟩
  else .error .out_of_range

/-- Member `natural_polynomial::evalf`: the `std::reduce`, from zero, of the coefficients
times the powers of `x`. -/
def evalf (self : natural_polynomial) (x : Nat) : Nat :=
  (self.coeffs_.enum.map (fun t => size_mul t.2 (integer_pow x t.1))).foldl size_add 0

/-- The loops `new_coeffs[i] += c` of `operator+`. -/
def add_coeffs (new_coeffs coeffs : List Nat) : List Nat :=
  coeffs.enum.foldl (fun acc t => acc.set t.1 (size_add (acc.getD t.1 0) t.2)) new_coeffs

/-- The friend `operator+` of two polynomials. -/
def add (lhs rhs : natural_polynomial) : natural_polynomial :=
  let new_coeffs := List.replicate (max lhs.coeffs_.length rhs.coeffs_.length) 0
  ⟨add_coeffs (add_coeffs new_coeffs lhs.coeffs_) rhs.coeffs_⟩

/-- The friend `operator*` of a `std::size_t` and a polynomial. -/
def scale (c : Nat) (rhs : natural_polynomial) : natural_polynomial :=
  if c = 0 then empty
  else ⟨rhs.coeffs_.map (fun x => size_mul c x)⟩

/-- The friend `operator*` of two polynomials: for every pair of a term of `lhs` and a term
of `rhs`, the terms of `rhs` running fastest, the product of the coefficients is assigned
to the place of the sum of the exponents. -/
def mul (lhs rhs : natural_polynomial) : natural_polynomial :=
  if lhs.coeffs_ = [] ∨ rhs.coeffs_ = [] then empty
  else
    let new_coeffs := List.replicate
      (size_add (size_add 1 (size_sub lhs.coeffs_.length 1)) (size_sub rhs.coeffs_.length 1)) 0
    let cart := lhs.coeffs_.enum.flatMap (fun l => rhs.coeffs_.enum.map (fun r => (l, r)))
    ⟨cart.foldl (fun acc t => acc.set (size_add t.1.1 t.2.1) (size_mul t.1.2 t.2.2)) new_coeffs⟩

end natural_polynomial

end sstd

/-! ## `add_edge` as a member function that changes the network -/

/-- Member `tensor_network::add_edge` with the network it leaves: the four checks throw
before anything is written, and the only write is the `push_back` of the edge at the end.
The first component is the network after the call, the second tells whether it threw. -/
def tensor_network.add_edge_call (self : tensor_network) (a b : index_location) :
    tensor_network × Except logic_error Unit :=
  if a = b then (self, .error .edge_to_same_index)
  else
    match self.nodes_.find? (fun n => n.id = a.id), self.nodes_.find? (fun n => n.id = b.id) with
    | some node_a, some node_b =>
      if node_a.rank ≤ a.index ∨ node_b.rank ≤ b.index then (self, .error .edge_to_missing_index)
      else if self.edges_.any (fun e => e.left = a || e.left = b || e.right = a || e.right = b)
      then (self, .error .second_edge_to_index)
      else (⟨self.nodes_, self.next_id_, self.edges_ ++ [⟨a, b⟩]⟩, .ok ())
    | _, _ => (self, .error .edge_to_missing_node)

/-! ## The sub-expression of a step of a sequence -/

/-- The cursor of the sub-expression of a step at which the label of an index location of
the step stands: the factor 0 for lhs and the factor 1 for rhs, at the index of the
location. -/
def pairwise_contraction_type.cursor_of (self : pairwise_contraction_type)
    (loc : index_location) : index_cursor :=
  ⟨if loc.id = self.lhs_.id then 0 else 1, loc.index⟩

/-- The index location of a step at the place `s` of the labels of its sub-expression read
factor by factor: the indices of lhs, then the indices of rhs. -/
def pairwise_contraction_type.slot_at (self : pairwise_contraction_type) (s : Nat) :
    index_location :=
  if s < self.lhs_.rank then ⟨self.lhs_.id, s⟩ else ⟨self.rhs_.id, s - self.lhs_.rank⟩

/-! ## The parser on the expressions of the specification -/

/-- C7: parsing "ij,jk->ik" succeeds with the two factors [i,j] and [j,k], the single
contraction group made of the cursors (0,1) and (1,0) of the label j, the free labels
[i,k] and the output labels [i,k]. -/
theorem parse_matrix_multiply :
    einsum_parsed.parse "ij,jk->ik".toList =
      .ok ⟨[[['i'], ['j']], [['j'], ['k']]], [['i'], ['k']], [['i'], ['k']],
        [⟨[⟨0, 1⟩, ⟨1, 0⟩]⟩]⟩ := by
  decide

/-- C8: parsing "ii->" succeeds with the single factor [i,i], the single contraction
group made of the cursors (0,0) and (0,1), no free label and no output label. -/
theorem parse_trace :
    einsum_parsed.parse "ii->".toList =
      .ok ⟨[[['i'], ['i']]], [], [], [⟨[⟨0, 0⟩, ⟨0, 1⟩]⟩]⟩ := by
  decide

/-! ## The parser: the loop over the cursors -/

theorem argfind_eq_none {α : Type} [DecidableEq α] (r : List α) (x : α) :
    alg.argfind r x = none ↔ x ∉ r := by
  induction r with
  | nil => simp [alg.argfind]
  | cons a r ih =>
    simp only [alg.argfind, List.mem_cons, not_or]
    by_cases h : a = x
    · simp [h]
    · simp only [if_neg h, Option.map_eq_none', ih]
      constructor
      · intro h2; exact ⟨fun h3 => h h3.symm, h2⟩
      · intro h2; exact h2.2

theorem argfind_eq_some {α : Type} [DecidableEq α] (r : List α) (x : α) (i : Nat)
    (h : alg.argfind r x = some i) :
    ∃ r1 r2, r = r1 ++ x :: r2 ∧ r1.length = i ∧ x ∉ r1 := by
  induction r generalizing i with
  | nil => simp [alg.argfind] at h
  | cons a r ih =>
    simp only [alg.argfind] at h
    by_cases h1 : a = x
    · simp only [if_pos h1, Option.some.injEq] at h
      subst h h1
      exact ⟨[], r, rfl, rfl, by simp⟩
    · simp only [if_neg h1, Option.map_eq_some'] at h
      obtain ⟨j, hj, hji⟩ := h
      obtain ⟨r1, r2, h2, h3, h4⟩ := ih j hj
      refine ⟨a :: r1, r2, by rw [h2]; rfl, by simp [h3, hji], ?_⟩
      simp only [List.mem_cons, not_or]
      exact ⟨fun h5 => h1 h5.symm, h4⟩

theorem argfind_append_cons {α : Type} [DecidableEq α] (r1 r2 : List α) (x : α) (h : x ∉ r1) :
    alg.argfind (r1 ++ x :: r2) x = some r1.length := by
  induction r1 with
  | nil => simp [alg.argfind]
  | cons a r ih =>
    simp only [List.mem_cons, not_or] at h
    have h5 : ¬ a = x := fun h5 => h.1 h5.symm
    simp [alg.argfind, h5, ih h.2]

/-- Decomposition of `seen_labels` at the entry found for a label. -/
theorem seen_split (seen : List (index_label × Nat × index_cursor)) (l : index_label)
    (prev : Nat) (h : alg.argfind (seen.map (fun s => s.1)) l = some prev) :
    ∃ s1 e s2, seen = s1 ++ e :: s2 ∧ s1.length = prev ∧ e.1 = l ∧ ∀ x ∈ s1, x.1 ≠ l := by
  obtain ⟨r1, r2, h1, h2, h3⟩ := argfind_eq_some _ _ _ h
  obtain ⟨s1, s2', h4, h5, h6⟩ := List.map_eq_append_iff.mp h1
  cases s2' with
  | nil => simp at h6
  | cons e s2 =>
    simp only [List.map_cons, List.cons.injEq] at h6
    refine ⟨s1, e, s2, h4, ?_, h6.1, ?_⟩
    · rw [← h2, ← h5, List.length_map]
    · intro x hx hxl
      apply h3
      rw [← h5]
      exact List.mem_map.mpr ⟨x, hx, hxl⟩

theorem getElem?_middle {α : Type} (s1 s2 : List α) (e : α) :
    (s1 ++ e :: s2)[s1.length]? = some e := by
  rw [List.getElem?_append_right (Nat.le_refl _)]
  simp

theorem set_middle {α : Type} (s1 s2 : List α) (e e2 : α) :
    (s1 ++ e :: s2).set s1.length e2 = s1 ++ e2 :: s2 := by
  rw [List.set_append_right _ _ (Nat.le_refl _)]
  simp

theorem argfind_middle (s1 s2 : List (index_label × Nat × index_cursor))
    (e : index_label × Nat × index_cursor) (h1 : ∀ x ∈ s1, x.1 ≠ e.1) :
    alg.argfind ((s1 ++ e :: s2).map (fun s => s.1)) e.1 = some s1.length := by
  have h2 : e.1 ∉ s1.map (fun s => s.1) := by
    intro h; obtain ⟨x, hx, hxl⟩ := List.mem_map.mp h; exact h1 x hx hxl
  rw [List.map_append, List.map_cons]
  have := argfind_append_cons (s1.map (fun s => s.1)) (s2.map (fun s => s.1)) e.1 h2
  rw [List.length_map] at this
  exact this

theorem step_first (seen : List (index_label × Nat × index_cursor)) (cons : List contraction)
    (c : index_cursor) (l : index_label) (h : l ∉ seen.map (fun s => s.1)) :
    parser_step (seen, cons) (c, l) = .ok (seen ++ [(l, not_contraction, c)], cons) := by
  unfold parser_step
  simp only [(argfind_eq_none _ _).mpr h]

theorem step_found (s1 s2 : List (index_label × Nat × index_cursor)) (cons : List contraction)
    (c : index_cursor) (e : index_label × Nat × index_cursor) (h1 : ∀ x ∈ s1, x.1 ≠ e.1) :
    parser_step (s1 ++ e :: s2, cons) (c, e.1) =
      insert_cursor (open_contraction (s1 ++ e :: s2, cons) s1.length e) s1.length c := by
  unfold parser_step
  simp only [argfind_middle s1 s2 e h1, List.get?_eq_getElem?, getElem?_middle]

theorem open_contraction_second (s1 s2 : List (index_label × Nat × index_cursor))
    (cons : List contraction) (first : index_cursor) (l : index_label) :
    open_contraction (s1 ++ (l, not_contraction, first) :: s2, cons) s1.length
        (l, not_contraction, first) =
      (s1 ++ (l, cons.length, first) :: s2, cons ++ [⟨[first]⟩]) := by
  unfold open_contraction
  simp only [if_true, set_middle]
  rfl

theorem open_contraction_later (st : parser_state) (prev : Nat)
    (e : index_label × Nat × index_cursor) (h : e.2.1 ≠ not_contraction) :
    open_contraction st prev e = st := by
  unfold open_contraction
  simp only [if_neg h]

theorem insert_cursor_ok (s1 s2 : List (index_label × Nat × index_cursor))
    (cons : List contraction) (c : index_cursor) (e : index_label × Nat × index_cursor)
    (g : contraction) (hg : cons[e.2.1]? = some g) (hc : c ∉ g.data_) :
    insert_cursor (s1 ++ e :: s2, cons) s1.length c =
      .ok (s1 ++ e :: s2, cons.set e.2.1 ⟨g.data_ ++ [c]⟩) := by
  unfold insert_cursor
  simp only [List.get?_eq_getElem?, getElem?_middle, hg,
    sstd.constexpr_set.successfully_insert, sstd.constexpr_set.contains, hc, decide_False,
    Bool.false_eq_true, if_false, if_true]

theorem step_second (s1 s2 : List (index_label × Nat × index_cursor)) (cons : List contraction)
    (c first : index_cursor) (l : index_label) (h1 : ∀ x ∈ s1, x.1 ≠ l) (hc : c ≠ first) :
    parser_step (s1 ++ (l, not_contraction, first) :: s2, cons) (c, l) =
      .ok (s1 ++ (l, cons.length, first) :: s2, cons ++ [⟨[first, c]⟩]) := by
  have h := step_found s1 s2 cons c (l, not_contraction, first) h1
  simp only at h
  rw [h, open_contraction_second]
  have h7 : (cons ++ [(⟨[first]⟩ : contraction)])[cons.length]? = some ⟨[first]⟩ := by
    rw [List.getElem?_append_right (Nat.le_refl _)]
    simp
  have h9 : c ∉ (⟨[first]⟩ : contraction).data_ := by simpa using hc
  rw [insert_cursor_ok s1 s2 _ c (l, cons.length, first) ⟨[first]⟩ h7 h9]
  simp only [List.set_append_right _ _ (Nat.le_refl _), Nat.sub_self, List.set_cons_zero,
    List.cons_append, List.nil_append]

theorem step_later (s1 s2 : List (index_label × Nat × index_cursor)) (cons : List contraction)
    (c first : index_cursor) (l : index_label) (k : Nat) (g : contraction)
    (h1 : ∀ x ∈ s1, x.1 ≠ l) (hk : k ≠ not_contraction) (hg : cons[k]? = some g)
    (hc : c ∉ g.data_) :
    parser_step (s1 ++ (l, k, first) :: s2, cons) (c, l) =
      .ok (s1 ++ (l, k, first) :: s2, cons.set k ⟨g.data_ ++ [c]⟩) := by
  have h := step_found s1 s2 cons c (l, k, first) h1
  simp only at h
  rw [h, open_contraction_later _ _ _ hk]
  exact insert_cursor_ok s1 s2 cons c (l, k, first) g hg hc

theorem parser_inv_nil : parser_inv [] ([], []) := by
  refine ⟨List.nodup_nil, ?_, ?_, ?_, ?_, ?_, rfl, Nat.le_refl _⟩
  · intro t ht; cases ht
  · intro e he; cases he
  · intro e he; cases he
  · intro e he; cases he
  · intro k hk; exact absurd hk (Nat.not_lt_zero _)

theorem filter_label_append (done : List (index_cursor × index_label)) (c : index_cursor)
    (l x : index_label) :
    ((done ++ [(c, l)]).filter (fun t => t.2 = x)).map (fun t => t.1) =
      (done.filter (fun t => t.2 = x)).map (fun t => t.1) ++ (if l = x then [c] else []) := by
  rw [List.filter_append, List.map_append]
  by_cases h : l = x <;> simp [h]

theorem filter_once_append_new (L : List index_label) (l : index_label) (h : l ∉ L) :
    (L ++ [l]).filter (fun x => (L ++ [l]).count x = 1) =
      L.filter (fun x => L.count x = 1) ++ [l] := by
  rw [List.filter_append]
  congr 1
  · apply List.filter_congr
    intro x hx
    have hxl : x ≠ l := fun h2 => h (h2 ▸ hx)
    simp [List.count_append, hxl]
  · simp [List.count_append, List.count_eq_zero_of_not_mem h]

theorem filter_once_append_old (L : List index_label) (l : index_label) (h : l ∈ L) :
    (L ++ [l]).filter (fun x => (L ++ [l]).count x = 1) =
      (L.filter (fun x => L.count x = 1)).filter (fun x => x ≠ l) := by
  have hpos : 0 < L.count l := List.count_pos_iff.mpr h
  rw [List.filter_append, List.filter_filter]
  have h1 : [l].filter (fun x => (L ++ [l]).count x = 1) = [] := by
    simp [List.count_append]
    omega
  rw [h1, List.append_nil]
  apply List.filter_congr
  intro x hx
  by_cases hxl : x = l
  · subst hxl
    simp [List.count_append]
    omega
  · simp [List.count_append, hxl]


theorem parser_inv_first (done : List (index_cursor × index_label))
    (seen : List (index_label × Nat × index_cursor)) (cons : List contraction)
    (c : index_cursor) (l : index_label) (inv : parser_inv done (seen, cons))
    (h : l ∉ seen.map (fun s => s.1)) :
    parser_inv (done ++ [(c, l)]) (seen ++ [(l, not_contraction, c)], cons) := by
  have hl : l ∉ done.map (fun t => t.2) := by
    intro h2
    obtain ⟨t, ht, htl⟩ := List.mem_map.mp h2
    exact h (htl ▸ inv.seen_of_done t ht)
  have hne : ∀ e ∈ seen, l ≠ e.1 := by
    intro e he h2
    exact h (List.mem_map.mpr ⟨e, he, h2.symm⟩)
  have hfil : (done.filter (fun t => t.2 = l)).map (fun t => t.1) = [] := by
    rw [List.map_eq_nil_iff, List.filter_eq_nil_iff]
    intro t ht
    simp only [decide_eq_true_eq]
    intro h2
    exact hl (List.mem_map.mpr ⟨t, ht, h2⟩)
  constructor
  · have := inv.nodup_labels
    simp only [List.map_append, List.map_cons, List.map_nil]
    rw [List.nodup_append]
    refine ⟨this, by simp, ?_⟩
    intro x hx hx2
    simp only [List.mem_singleton] at hx2
    exact h (hx2 ▸ hx)
  · intro t ht
    simp only [List.mem_append, List.mem_singleton] at ht
    simp only [List.map_append, List.mem_append, List.map_cons, List.map_nil,
      List.mem_singleton]
    rcases ht with ht | ht
    · exact Or.inl (inv.seen_of_done t ht)
    · right; rw [ht]
  · intro e he hord
    simp only [List.mem_append, List.mem_singleton] at he
    rw [filter_label_append]
    rcases he with he | he
    · rw [if_neg (hne e he), List.append_nil]
      exact inv.entry_once e he hord
    · subst he
      simp only [if_true]
      rw [hfil]; rfl
  · intro e he hord
    simp only [List.mem_append, List.mem_singleton] at he
    rw [filter_label_append]
    rcases he with he | he
    · rw [if_neg (hne e he), List.append_nil]
      exact inv.entry_group e he hord
    · subst he
      exact absurd rfl hord
  · intro e he e2 he2 hord heq
    simp only [List.mem_append, List.mem_singleton] at he he2
    rcases he with he | he
    · rcases he2 with he2 | he2
      · exact inv.ordinal_inj e he e2 he2 hord heq
      · subst he2
        exact absurd heq hord
    · subst he
      exact absurd rfl hord
  · intro k hk
    obtain ⟨e, he, hek⟩ := inv.ordinal_surj k hk
    exact ⟨e, List.mem_append_left _ he, hek⟩
  · have := inv.free
    simp only at this
    show ((seen ++ [(l, not_contraction, c)]).filter _).map _ = _
    have h2 : (done ++ [(c, l)]).map (fun t => t.2) = done.map (fun t => t.2) ++ [l] := by
      simp
    rw [h2, filter_once_append_new _ l hl, List.filter_append, List.map_append, this]
    simp
  · have := inv.size
    simp only [List.length_append, List.length_singleton] at this ⊢
    omega


theorem labels_middle (s1 s2 : List (index_label × Nat × index_cursor)) (l : index_label)
    (k1 k2 : Nat) (first : index_cursor) :
    (s1 ++ (l, k1, first) :: s2).map (fun s => s.1) =
      (s1 ++ (l, k2, first) :: s2).map (fun s => s.1) := by
  simp

theorem other_labels (s1 s2 : List (index_label × Nat × index_cursor))
    (e : index_label × Nat × index_cursor)
    (h : ((s1 ++ e :: s2).map (fun s => s.1)).Nodup) :
    (∀ x ∈ s1, x.1 ≠ e.1) ∧ (∀ x ∈ s2, x.1 ≠ e.1) := by
  rw [List.map_append, List.map_cons, List.nodup_append] at h
  obtain ⟨_, h2, h3⟩ := h
  rw [List.nodup_cons] at h2
  constructor
  · intro x hx hxe
    exact h3 (List.mem_map.mpr ⟨x, hx, rfl⟩) (by rw [hxe]; exact List.mem_cons_self _ _)
  · intro x hx hxe
    exact h2.1 (List.mem_map.mpr ⟨x, hx, hxe⟩)

theorem free_filter_other (xs : List (index_label × Nat × index_cursor)) (l : index_label)
    (h : ∀ x ∈ xs, x.1 ≠ l) :
    ((xs.filter (fun t => decide (not_contraction = t.2.1))).map (fun t => t.1)).filter
      (fun x => x ≠ l) =
    (xs.filter (fun t => decide (not_contraction = t.2.1))).map (fun t => t.1) := by
  rw [List.filter_eq_self]
  intro a ha
  obtain ⟨x, hx, hxa⟩ := List.mem_map.mp ha
  have := h x (List.mem_of_mem_filter hx)
  simp only [ne_eq, decide_not, Bool.not_eq_true', decide_eq_false_iff_not]
  rw [← hxa]
  exact this

theorem parser_inv_second (done : List (index_cursor × index_label))
    (s1 s2 : List (index_label × Nat × index_cursor)) (cons : List contraction)
    (c first : index_cursor) (l : index_label)
    (inv : parser_inv done (s1 ++ (l, not_contraction, first) :: s2, cons))
    (hbound : done.length ≤ not_contraction) :
    parser_inv (done ++ [(c, l)])
      (s1 ++ (l, cons.length, first) :: s2, cons ++ [⟨[first, c]⟩]) := by
  have hnd := inv.nodup_labels
  simp only at hnd
  obtain ⟨ho1, ho2⟩ := other_labels s1 s2 (l, not_contraction, first) hnd
  simp only at ho1 ho2
  have hfirst := inv.entry_once (l, not_contraction, first)
    (List.mem_append_right _ (List.mem_cons_self _ _)) rfl
  simp only at hfirst
  have hsize := inv.size
  simp only [List.length_append, List.length_cons] at hsize
  have hk : cons.length ≠ not_contraction := by omega
  have hl : l ∈ done.map (fun t => t.2) := by
    have h1 : first ∈ (done.filter (fun t => t.2 = l)).map (fun t => t.1) := by
      rw [hfirst]; exact List.mem_singleton_self _
    obtain ⟨t, ht, _⟩ := List.mem_map.mp h1
    have h2 := List.mem_filter.mp ht
    exact List.mem_map.mpr ⟨t, h2.1, by simpa using h2.2⟩
  have hold : ∀ x, x ∈ s1 ∨ x ∈ s2 →
      x ∈ s1 ++ (l, not_contraction, first) :: s2 ∧ x.1 ≠ l := by
    intro x hx
    rcases hx with hx | hx
    · exact ⟨List.mem_append_left _ hx, ho1 x hx⟩
    · exact ⟨List.mem_append_right _ (List.mem_cons_of_mem _ hx), ho2 x hx⟩
  have hord : ∀ x, x ∈ s1 ∨ x ∈ s2 → x.2.1 ≠ not_contraction → x.2.1 < cons.length := by
    intro x hx hxo
    obtain ⟨g, hg, _⟩ := inv.entry_group x (hold x hx).1 hxo
    simp only at hg
    exact (List.getElem?_eq_some_iff.mp hg).1
  have hmem : ∀ x, x ∈ s1 ++ (l, cons.length, first) :: s2 →
      x = (l, cons.length, first) ∨ (x ∈ s1 ∨ x ∈ s2) := by
    intro x hx
    simp only [List.mem_append, List.mem_cons] at hx
    tauto
  constructor
  · show ((s1 ++ (l, cons.length, first) :: s2).map (fun s => s.1)).Nodup
    rw [labels_middle s1 s2 l cons.length not_contraction first]
    exact hnd
  · intro t ht
    show t.2 ∈ (s1 ++ (l, cons.length, first) :: s2).map (fun s => s.1)
    rw [labels_middle s1 s2 l cons.length not_contraction first]
    simp only [List.mem_append, List.mem_singleton] at ht
    rcases ht with ht | ht
    · exact inv.seen_of_done t ht
    · subst ht
      exact List.mem_map.mpr ⟨(l, not_contraction, first),
        List.mem_append_right _ (List.mem_cons_self _ _), rfl⟩
  · intro e he heo
    rw [filter_label_append]
    rcases hmem e he with h | h
    · subst h; exact absurd heo hk
    · rw [if_neg (fun h2 => (hold e h).2 h2.symm), List.append_nil]
      exact inv.entry_once e (hold e h).1 heo
  · intro e he heo
    rw [filter_label_append]
    rcases hmem e he with h | h
    · subst h
      refine ⟨⟨[first, c]⟩, ?_, ?_, by simp⟩
      · show (cons ++ [_])[cons.length]? = _
        rw [List.getElem?_append_right (Nat.le_refl _)]
        simp
      · simp only [if_true]
        rw [hfirst]; rfl
    · rw [if_neg (fun h2 => (hold e h).2 h2.symm), List.append_nil]
      obtain ⟨g, hg, hg2⟩ := inv.entry_group e (hold e h).1 heo
      refine ⟨g, ?_, hg2⟩
      show (cons ++ [_])[e.2.1]? = _
      rw [List.getElem?_append_left (hord e h heo)]
      exact hg
  · intro e he e2 he2 heo heq
    rcases hmem e he with h | h
    · rcases hmem e2 he2 with h2 | h2
      · rw [h, h2]
      · subst h
        simp only at heq
        have := hord e2 h2 (by rw [← heq]; exact hk)
        omega
    · rcases hmem e2 he2 with h2 | h2
      · subst h2
        simp only at heq
        have := hord e h heo
        omega
      · exact inv.ordinal_inj e (hold e h).1 e2 (hold e2 h2).1 heo heq
  · intro k hk2
    simp only [List.length_append, List.length_singleton] at hk2
    by_cases hkk : k = cons.length
    · exact ⟨(l, cons.length, first), List.mem_append_right _ (List.mem_cons_self _ _),
        hkk.symm⟩
    · obtain ⟨e, he, hek⟩ := inv.ordinal_surj k (by simp only; omega)
      simp only [List.mem_append, List.mem_cons] at he
      rcases he with he | he | he
      · exact ⟨e, List.mem_append_left _ he, hek⟩
      · subst he
        simp only at hek
        omega
      · exact ⟨e, List.mem_append_right _ (List.mem_cons_of_mem _ he), hek⟩
  · have hfree := inv.free
    simp only at hfree
    have h2 : (done ++ [(c, l)]).map (fun t => t.2) = done.map (fun t => t.2) ++ [l] := by
      simp
    show ((s1 ++ (l, cons.length, first) :: s2).filter _).map _ = _
    rw [h2, filter_once_append_old _ l hl, ← hfree]
    simp only [List.filter_append, List.filter_cons, decide_True, if_true, List.map_append,
      List.map_cons, decide_eq_true_eq, if_neg hk.symm]
    rw [free_filter_other s1 l ho1, free_filter_other s2 l ho2]
    simp
  · simp only [List.length_append, List.length_cons, List.length_singleton, List.length_nil]
    omega


theorem count_label_eq (done : List (index_cursor × index_label)) (l : index_label) :
    (done.map (fun t => t.2)).count l =
      ((done.filter (fun t => t.2 = l)).map (fun t => t.1)).length := by
  rw [List.length_map, List.count_eq_countP, List.countP_map, List.countP_eq_length_filter]
  congr 1
  apply List.filter_congr
  intro t _
  by_cases h : t.2 = l
  · simp [h]
  · have h2 : ¬ l = t.2 := fun h3 => h h3.symm
    simp [h, h2]

theorem parser_inv_later (done : List (index_cursor × index_label))
    (s1 s2 : List (index_label × Nat × index_cursor)) (cons : List contraction)
    (c first : index_cursor) (l : index_label) (k : Nat) (g : contraction)
    (inv : parser_inv done (s1 ++ (l, k, first) :: s2, cons))
    (hk : k ≠ not_contraction) (hg : cons[k]? = some g)
    (hgd : g.data_ = (done.filter (fun t => t.2 = l)).map (fun t => t.1))
    (hg2 : 2 ≤ g.data_.length) :
    parser_inv (done ++ [(c, l)])
      (s1 ++ (l, k, first) :: s2, cons.set k ⟨g.data_ ++ [c]⟩) := by
  have hnd := inv.nodup_labels
  simp only at hnd
  obtain ⟨ho1, ho2⟩ := other_labels s1 s2 (l, k, first) hnd
  simp only at ho1 ho2
  have hklt : k < cons.length := (List.getElem?_eq_some_iff.mp hg).1
  have hcount : 2 ≤ (done.map (fun t => t.2)).count l := by
    rw [count_label_eq, ← hgd]; exact hg2
  have hl : l ∈ done.map (fun t => t.2) := List.count_pos_iff.mp (by omega)
  have hmem : ∀ x, x ∈ s1 ++ (l, k, first) :: s2 →
      x = (l, k, first) ∨ (x ∈ s1 ++ (l, k, first) :: s2 ∧ x.1 ≠ l) := by
    intro x hx
    have hx2 := hx
    simp only [List.mem_append, List.mem_cons] at hx2
    rcases hx2 with h | h | h
    · exact Or.inr ⟨hx, ho1 x h⟩
    · exact Or.inl h
    · exact Or.inr ⟨hx, ho2 x h⟩
  have hself : (l, k, first) ∈ s1 ++ (l, k, first) :: s2 :=
    List.mem_append_right _ (List.mem_cons_self _ _)
  constructor
  · exact hnd
  · intro t ht
    simp only [List.mem_append, List.mem_singleton] at ht
    rcases ht with ht | ht
    · exact inv.seen_of_done t ht
    · subst ht
      exact List.mem_map.mpr ⟨(l, k, first), hself, rfl⟩
  · intro e he heo
    rw [filter_label_append]
    rcases hmem e he with h | h
    · subst h; exact absurd heo hk
    · rw [if_neg (fun h2 => h.2 h2.symm), List.append_nil]
      exact inv.entry_once e h.1 heo
  · intro e he heo
    rw [filter_label_append]
    rcases hmem e he with h | h
    · subst h
      refine ⟨⟨g.data_ ++ [c]⟩, ?_, ?_, ?_⟩
      · show (cons.set k _)[k]? = _
        rw [List.getElem?_set_self hklt]
      · simp only [if_true]
        rw [hgd]
      · simp only [List.length_append, List.length_singleton]
        omega
    · rw [if_neg (fun h2 => h.2 h2.symm), List.append_nil]
      obtain ⟨g1, hg1, hg3⟩ := inv.entry_group e h.1 heo
      refine ⟨g1, ?_, hg3⟩
      show (cons.set k _)[e.2.1]? = _
      have hne : k ≠ e.2.1 := by
        intro h4
        have := inv.ordinal_inj (l, k, first) hself e h.1 hk h4
        exact h.2 (by rw [← this])
      rw [List.getElem?_set_ne hne]
      exact hg1
  · intro e he e2 he2 heo heq
    exact inv.ordinal_inj e he e2 he2 heo heq
  · intro k2 hk2
    simp only [List.length_set] at hk2
    exact inv.ordinal_surj k2 hk2
  · have hfree := inv.free
    simp only at hfree
    have h2 : (done ++ [(c, l)]).map (fun t => t.2) = done.map (fun t => t.2) ++ [l] := by
      simp
    show ((s1 ++ (l, k, first) :: s2).filter _).map _ = _
    rw [h2, filter_once_append_old _ l hl, hfree]
    symm
    rw [List.filter_eq_self]
    intro a ha
    have := (List.mem_filter.mp ha).2
    simp only [decide_eq_true_eq] at this
    simp only [ne_eq, decide_not, Bool.not_eq_true', decide_eq_false_iff_not]
    intro hal
    rw [hal] at this
    omega
  · have := inv.size
    simp only [List.length_append, List.length_cons, List.length_singleton,
      List.length_set] at this ⊢
    omega


theorem cursor_of_filter (done : List (index_cursor × index_label)) (l : index_label)
    (c : index_cursor) (h : c ∈ (done.filter (fun t => t.2 = l)).map (fun t => t.1)) :
    c ∈ done.map (fun t => t.1) := by
  obtain ⟨t, ht, htc⟩ := List.mem_map.mp h
  exact List.mem_map.mpr ⟨t, (List.mem_filter.mp ht).1, htc⟩

theorem parser_step_inv (done : List (index_cursor × index_label)) (st : parser_state)
    (c : index_cursor) (l : index_label) (inv : parser_inv done st)
    (hc : c ∉ done.map (fun t => t.1)) (hbound : done.length ≤ not_contraction) :
    ∃ st2, parser_step st (c, l) = .ok st2 ∧ parser_inv (done ++ [(c, l)]) st2 := by
  obtain ⟨seen, cons⟩ := st
  cases h : alg.argfind (seen.map (fun s => s.1)) l with
  | none =>
    have h2 := (argfind_eq_none _ _).mp h
    exact ⟨_, step_first seen cons c l h2, parser_inv_first done seen cons c l inv h2⟩
  | some prev =>
    obtain ⟨s1, e, s2, hs, _, hel, hs1⟩ := seen_split seen l prev h
    obtain ⟨el, ek, efirst⟩ := e
    simp only at hel
    subst hel hs
    have hself : (el, ek, efirst) ∈ s1 ++ (el, ek, efirst) :: s2 :=
      List.mem_append_right _ (List.mem_cons_self _ _)
    by_cases hk : ek = not_contraction
    · subst hk
      have hfirst := inv.entry_once _ hself rfl
      simp only at hfirst
      have hne : c ≠ efirst := by
        intro h2
        apply hc
        apply cursor_of_filter done el
        rw [hfirst, h2]
        exact List.mem_singleton_self _
      exact ⟨_, step_second s1 s2 cons c efirst el hs1 hne,
        parser_inv_second done s1 s2 cons c efirst el inv hbound⟩
    · obtain ⟨g, hg, hgd, hg2⟩ := inv.entry_group _ hself hk
      simp only at hg hgd
      have hcg : c ∉ g.data_ := by
        intro h2
        apply hc
        apply cursor_of_filter done el
        rw [← hgd]
        exact h2
      exact ⟨_, step_later s1 s2 cons c efirst el ek g hs1 hk hg hcg,
        parser_inv_later done s1 s2 cons c efirst el ek g inv hk hg hgd hg2⟩

theorem parser_fold_inv (cs done : List (index_cursor × index_label)) (st : parser_state)
    (inv : parser_inv done st) (hnd : ((done ++ cs).map (fun t => t.1)).Nodup)
    (hbound : (done ++ cs).length ≤ not_contraction) :
    ∃ st2, cs.foldlM parser_step st = .ok st2 ∧ parser_inv (done ++ cs) st2 := by
  induction cs generalizing done st with
  | nil => exact ⟨st, rfl, by rw [List.append_nil]; exact inv⟩
  | cons t cs ih =>
    obtain ⟨c, l⟩ := t
    have hc : c ∉ done.map (fun t => t.1) := by
      rw [List.map_append, List.map_cons, List.nodup_append] at hnd
      intro h
      exact hnd.2.2 h (List.mem_cons_self _ _)
    have hb : done.length ≤ not_contraction := by
      rw [List.length_append] at hbound
      omega
    obtain ⟨st1, h1, inv1⟩ := parser_step_inv done st c l inv hc hb
    have hnd2 : (((done ++ [(c, l)]) ++ cs).map (fun t => t.1)).Nodup := by
      rw [List.append_assoc]; exact hnd
    have hb2 : ((done ++ [(c, l)]) ++ cs).length ≤ not_contraction := by
      rw [List.append_assoc]; exact hbound
    obtain ⟨st2, h2, inv2⟩ := ih (done ++ [(c, l)]) st1 inv1 hnd2 hb2
    refine ⟨st2, ?_, ?_⟩
    · rw [List.foldlM_cons, h1]
      exact h2
    · rw [List.append_assoc] at inv2
      exact inv2

/-! ## The parser: the cursors of the factors -/

/-- The cursors of one factor with their labels. -/
theorem factor_block_fst (n : Nat) (x : factor_index_labels_vec) :
    (((List.range x.length).map (fun i => index_cursor.mk n i)).zip x).map (fun t => t.1) =
      (List.range x.length).map (fun i => index_cursor.mk n i) := by
  have h : (fun t : index_cursor × index_label => t.1) = Prod.fst := rfl
  rw [h, List.map_fst_zip]
  simp

theorem factor_block_snd (n : Nat) (x : factor_index_labels_vec) :
    (((List.range x.length).map (fun i => index_cursor.mk n i)).zip x).map (fun t => t.2) = x := by
  have h : (fun t : index_cursor × index_label => t.2) = Prod.snd := rfl
  rw [h, List.map_snd_zip]
  simp

theorem factor_block_mem (n : Nat) (x : factor_index_labels_vec) (c : index_cursor)
    (l : index_label) :
    (c, l) ∈ ((List.range x.length).map (fun i => index_cursor.mk n i)).zip x ↔
      c.factor = n ∧ x[c.index]? = some l := by
  rw [List.mem_iff_getElem?]
  constructor
  · rintro ⟨i, hi⟩
    rw [List.getElem?_zip_eq_some] at hi
    obtain ⟨h1, h2⟩ := hi
    rw [List.getElem?_map] at h1
    have hlt : i < x.length := (List.getElem?_eq_some_iff.mp h2).1
    rw [List.getElem?_range hlt] at h1
    simp only [Option.map_some', Option.some.injEq] at h1
    subst h1
    exact ⟨rfl, h2⟩
  · rintro ⟨h1, h2⟩
    refine ⟨c.index, ?_⟩
    rw [List.getElem?_zip_eq_some]
    have hlt : c.index < x.length := (List.getElem?_eq_some_iff.mp h2).1
    refine ⟨?_, h2⟩
    rw [List.getElem?_map, List.getElem?_range hlt]
    simp only [Option.map_some', Option.some.injEq]
    cases c
    simp only at h1
    rw [h1]

theorem iterate_from_spec (fl : List factor_index_labels_vec) (n : Nat) :
    ((((fl.enumFrom n).map (fun t =>
        ((List.range t.2.length).map (fun i => index_cursor.mk t.1 i)).zip t.2)).flatten).map
          (fun t => t.1)).Nodup ∧
    (((fl.enumFrom n).map (fun t =>
        ((List.range t.2.length).map (fun i => index_cursor.mk t.1 i)).zip t.2)).flatten).map
          (fun t => t.2) = fl.flatten ∧
    ∀ c l, (c, l) ∈ ((fl.enumFrom n).map (fun t =>
        ((List.range t.2.length).map (fun i => index_cursor.mk t.1 i)).zip t.2)).flatten ↔
      n ≤ c.factor ∧ ∃ labels, fl[c.factor - n]? = some labels ∧ labels[c.index]? = some l := by
  induction fl generalizing n with
  | nil => simp
  | cons x fl ih =>
    obtain ⟨ih1, ih2, ih3⟩ := ih (n + 1)
    simp only [List.enumFrom_cons, List.map_cons, List.flatten_cons, List.map_append]
    refine ⟨?_, ?_, ?_⟩
    · rw [List.nodup_append]
      refine ⟨?_, ih1, ?_⟩
      · rw [factor_block_fst]
        apply List.Nodup.map _ (List.nodup_range _)
        intro a b hab
        simpa using hab
      · intro c hc1 hc2
        rw [factor_block_fst] at hc1
        obtain ⟨i, _, hi⟩ := List.mem_map.mp hc1
        obtain ⟨t, ht, htc⟩ := List.mem_map.mp hc2
        have := (ih3 t.1 t.2).mp ht
        rw [htc, ← hi] at this
        simp only at this
        omega
    · rw [factor_block_snd, ih2]
    · intro c l
      rw [List.mem_append, factor_block_mem, ih3]
      constructor
      · rintro (⟨h1, h2⟩ | ⟨h1, labels, h2, h3⟩)
        · refine ⟨by omega, x, ?_, h2⟩
          rw [h1]; simp
        · refine ⟨by omega, labels, ?_, h3⟩
          have : c.factor - n = (c.factor - (n + 1)) + 1 := by omega
          rw [this, List.getElem?_cons_succ]
          exact h2
      · rintro ⟨h1, labels, h2, h3⟩
        by_cases hcn : c.factor = n
        · left
          rw [hcn] at h2
          simp only [Nat.sub_self, List.getElem?_cons_zero, Option.some.injEq] at h2
          rw [h2]
          exact ⟨hcn, h3⟩
        · right
          refine ⟨by omega, labels, ?_, h3⟩
          have : c.factor - n = (c.factor - (n + 1)) + 1 := by omega
          rw [this, List.getElem?_cons_succ] at h2
          exact h2

theorem iterate_nodup (fl : List factor_index_labels_vec) :
    ((iterate_index_labels_with_cursor fl).map (fun t => t.1)).Nodup :=
  (iterate_from_spec fl 0).1

theorem iterate_labels (fl : List factor_index_labels_vec) :
    (iterate_index_labels_with_cursor fl).map (fun t => t.2) = fl.flatten :=
  (iterate_from_spec fl 0).2.1

theorem iterate_mem (fl : List factor_index_labels_vec) (c : index_cursor) (l : index_label) :
    (c, l) ∈ iterate_index_labels_with_cursor fl ↔
      ∃ labels, fl[c.factor]? = some labels ∧ labels[c.index]? = some l := by
  have := (iterate_from_spec fl 0).2.2 c l
  simp only [Nat.zero_le, true_and, Nat.sub_zero] at this
  exact this

/-! ## The parser: the split views -/

theorem split_comma_from_length (s acc : List Char) :
    (split_comma_from acc s).flatten.length ≤ acc.length + s.length := by
  induction s generalizing acc with
  | nil => simp [split_comma_from]
  | cons c rest ih =>
    unfold split_comma_from
    by_cases h : c = ','
    · simp only [if_pos h, List.flatten_cons, List.length_append, List.length_cons]
      have := ih []
      simp only [List.length_nil] at this
      omega
    · simp only [if_neg h]
      have := ih (acc ++ [c])
      simp only [List.length_append, List.length_singleton, List.length_cons, List.length_nil] at this ⊢
      omega

theorem split_comma_length (s : List Char) : (split_comma s).flatten.length ≤ s.length := by
  unfold split_comma
  by_cases h : s = []
  · simp [h]
  · simp only [if_neg h]
    have := split_comma_from_length s []
    simpa using this

theorem split_arrow_from_length (n : Nat) (s acc : List Char) (hn : s.length ≤ n) :
    (split_arrow_from acc s).flatten.length ≤ acc.length + s.length := by
  induction n generalizing s acc with
  | zero =>
    have : s = [] := List.length_eq_zero.mp (Nat.le_zero.mp hn)
    subst this
    simp [split_arrow_from]
  | succ n ih =>
    match s with
    | [] => simp [split_arrow_from]
    | [c] => simp [split_arrow_from]
    | c :: d :: rest =>
      unfold split_arrow_from
      simp only [List.length_cons] at hn
      by_cases h : c = '-' ∧ d = '>'
      · simp only [if_pos h, List.flatten_cons, List.length_append, List.length_cons]
        have := ih rest [] (by omega)
        simp only [List.length_nil] at this
        omega
      · simp only [if_neg h]
        have := ih (d :: rest) (acc ++ [c]) (by simp only [List.length_cons]; omega)
        simp only [List.length_append, List.length_singleton, List.length_cons, List.length_nil] at this ⊢
        omega

theorem split_arrow_head_length (s first : List Char) (rest : List (List Char))
    (h : split_arrow s = first :: rest) : first.length ≤ s.length := by
  unfold split_arrow at h
  by_cases hs : s = []
  · simp [hs] at h
  · simp only [if_neg hs] at h
    have := split_arrow_from_length s.length s [] (Nat.le_refl _)
    rw [h] at this
    simp only [List.flatten_cons, List.length_append, List.length_nil] at this
    omega

theorem labels_flatten_length (parts : List (List Char)) :
    (parts.map split_to_index_labels).flatten.length = parts.flatten.length := by
  induction parts with
  | nil => rfl
  | cons a r ih =>
    simp only [List.map_cons, List.flatten_cons, List.length_append, ih, split_to_index_labels,
      List.length_map]

/-! ## The parser: the constructor -/

theorem not_contraction_eq : not_contraction = 2 ^ 64 - 1 := rfl

/-- The loop of the constructor succeeds on the cursors of any factor list that fits in a
`std::u8string_view`, and ends in a state that satisfies the invariant. -/
theorem parser_loop_spec (fl : List factor_index_labels_vec)
    (hlen : fl.flatten.length < 2 ^ 64) :
    ∃ st, (iterate_index_labels_with_cursor fl).foldlM parser_step ([], []) = .ok st ∧
      parser_inv (iterate_index_labels_with_cursor fl) st := by
  have h := parser_fold_inv (iterate_index_labels_with_cursor fl) [] ([], []) parser_inv_nil
    (by rw [List.nil_append]; exact iterate_nodup fl)
    (by
      rw [List.nil_append, ← List.length_map _ (fun t => t.2), iterate_labels,
        not_contraction_eq]
      omega)
  rw [List.nil_append] at h
  exact h

theorem factor_labels_length (s first : List Char) (rest : List (List Char))
    (hlen : s.length < 2 ^ 64)
    (h : split_arrow (s.filter (fun c => !str.is_whitespace c)) = first :: rest) :
    ((split_comma first).map split_to_index_labels).flatten.length < 2 ^ 64 := by
  rw [labels_flatten_length]
  have h1 := split_comma_length first
  have h2 := split_arrow_head_length _ first rest h
  have h3 : (s.filter (fun c => !str.is_whitespace c)).length ≤ s.length :=
    List.length_filter_le _ _
  omega

/-- What a successful parse consists of. -/
theorem parse_spec (s : List Char) (p : einsum_parsed) (hlen : s.length < 2 ^ 64)
    (hp : einsum_parsed.parse s = .ok p) :
    ∃ first rest seen,
      split_arrow (s.filter (fun c => !str.is_whitespace c)) = first :: rest ∧
      p.factor_index_labels_ = (split_comma first).map split_to_index_labels ∧
      parser_inv (iterate_index_labels_with_cursor p.factor_index_labels_)
        (seen, p.contractions_) ∧
      p.free_index_labels_ =
        (seen.filter (fun t => decide (not_contraction = t.2.1))).map (fun t => t.1) ∧
      ((rest = [] ∧ p.output_index_labels_ = p.free_index_labels_) ∨
        ∃ ret, rest = [ret] ∧ p.output_index_labels_ = split_to_index_labels ret) := by
  unfold einsum_parsed.parse at hp
  cases hparts : split_arrow (s.filter (fun c => !str.is_whitespace c)) with
  | nil =>
    rw [hparts] at hp
    simp only [List.length_nil] at hp
    split at hp
    · cases hp
    · simp at hp
  | cons first rest =>
    rw [hparts] at hp
    simp only [List.headD_cons] at hp
    obtain ⟨st, hst, inv⟩ := parser_loop_spec _ (factor_labels_length s first rest hlen hparts)
    rw [hst] at hp
    simp only at hp
    refine ⟨first, rest, st.1, rfl, ?_⟩
    match rest, hp with
    | [], hp =>
      simp only [List.length_singleton, if_true, Except.ok.injEq] at hp
      subst hp
      exact ⟨rfl, inv, rfl, Or.inl ⟨rfl, rfl⟩⟩
    | [ret], hp =>
      simp only [List.length_cons, List.length_nil] at hp
      simp at hp
      subst hp
      exact ⟨rfl, inv, rfl, Or.inr ⟨ret, rfl, rfl⟩⟩
    | a :: b :: r, hp =>
      simp only [List.length_cons] at hp
      simp at hp

/-- A text with at most one arrow and at least one code unit that is not whitespace
parses. -/
theorem parse_succeeds (s first : List Char) (rest : List (List Char))
    (hlen : s.length < 2 ^ 64)
    (hparts : split_arrow (s.filter (fun c => !str.is_whitespace c)) = first :: rest)
    (hrest : rest.length ≤ 1) : ∃ p, einsum_parsed.parse s = .ok p := by
  unfold einsum_parsed.parse
  rw [hparts]
  simp only [List.headD_cons]
  obtain ⟨st, hst, _⟩ := parser_loop_spec _ (factor_labels_length s first rest hlen hparts)
  rw [hst]
  simp only
  match rest, hrest with
  | [], _ => simp
  | [ret], _ => simp
  | a :: b :: r, h => simp at h

/-! ## The parser: occurrences of the arrow -/

theorem arrows_nil : ([] : List Char).tails.countP (fun t => ['-', '>'].isPrefixOf t) = 0 := by
  decide

theorem arrows_cons (c : Char) (r : List Char) :
    (c :: r).tails.countP (fun t => ['-', '>'].isPrefixOf t) =
      (if ['-', '>'].isPrefixOf (c :: r) then 1 else 0) +
        r.tails.countP (fun t => ['-', '>'].isPrefixOf t) := by
  rw [List.tails, List.countP_cons]
  omega

theorem arrows_single (c : Char) :
    [c].tails.countP (fun t => ['-', '>'].isPrefixOf t) = 0 := by
  rw [arrows_cons, arrows_nil]
  have : ['-', '>'].isPrefixOf [c] = false := by
    simp only [List.isPrefixOf, Bool.and_false]
  rw [this]
  rfl

theorem prefix_arrow_iff (c d : Char) (r : List Char) :
    ['-', '>'].isPrefixOf (c :: d :: r) = true ↔ c = '-' ∧ d = '>' := by
  simp only [List.isPrefixOf, Bool.and_true, Bool.and_eq_true, beq_iff_eq]
  constructor
  · intro h; exact ⟨h.1.symm, h.2.symm⟩
  · intro h; exact ⟨h.1.symm, h.2.symm⟩

theorem prefix_arrow_of_ne (c : Char) (r : List Char) (h : c ≠ '-') :
    ['-', '>'].isPrefixOf (c :: r) = false := by
  have h1 : ('-' == c) = false := by
    rw [beq_eq_false_iff_ne]; exact fun h2 => h h2.symm
  simp only [List.isPrefixOf, h1, Bool.false_and]

theorem gt_ne_minus : '>' ≠ '-' := by decide

theorem arrows_cons_of_ne (c : Char) (r : List Char) (h : c ≠ '-') :
    (c :: r).tails.countP (fun t => ['-', '>'].isPrefixOf t) =
      r.tails.countP (fun t => ['-', '>'].isPrefixOf t) := by
  rw [arrows_cons, prefix_arrow_of_ne c r h]
  simp only [Bool.false_eq_true, if_false, Nat.zero_add]

theorem arrows_arrow (r : List Char) :
    ('-' :: '>' :: r).tails.countP (fun t => ['-', '>'].isPrefixOf t) =
      1 + r.tails.countP (fun t => ['-', '>'].isPrefixOf t) := by
  rw [arrows_cons, arrows_cons_of_ne '>' r gt_ne_minus,
    (prefix_arrow_iff '-' '>' r).mpr ⟨rfl, rfl⟩]
  simp only [if_true]

theorem arrows_append (x y : List Char) :
    x.tails.countP (fun t => ['-', '>'].isPrefixOf t) +
      y.tails.countP (fun t => ['-', '>'].isPrefixOf t) ≤
    (x ++ y).tails.countP (fun t => ['-', '>'].isPrefixOf t) := by
  induction x with
  | nil => simp [arrows_nil]
  | cons c r ih =>
    rw [List.cons_append, arrows_cons, arrows_cons]
    have h : (if ['-', '>'].isPrefixOf (c :: r) = true then 1 else 0) ≤
        (if ['-', '>'].isPrefixOf (c :: (r ++ y)) = true then 1 else 0) := by
      by_cases h1 : ['-', '>'].isPrefixOf (c :: r) = true
      · have h2 : ['-', '>'].isPrefixOf (c :: (r ++ y)) = true := by
          match r, h1 with
          | [], h1 => simp only [List.isPrefixOf, Bool.and_false, Bool.false_eq_true] at h1
          | d :: r2, h1 =>
            rw [prefix_arrow_iff] at h1
            rw [List.cons_append, prefix_arrow_iff]
            exact h1
        rw [if_pos h1, if_pos h2]
      · rw [if_neg h1]; exact Nat.zero_le _
    omega

/-- The number of parts of the split on the arrow. -/
theorem split_arrow_from_parts (n : Nat) (s acc : List Char) (hn : s.length ≤ n) :
    (split_arrow_from acc s).length =
      s.tails.countP (fun t => ['-', '>'].isPrefixOf t) + 1 := by
  induction n generalizing s acc with
  | zero =>
    have : s = [] := List.length_eq_zero.mp (Nat.le_zero.mp hn)
    subst this
    simp [split_arrow_from, arrows_nil]
  | succ n ih =>
    match s with
    | [] => simp [split_arrow_from, arrows_nil]
    | [c] => simp [split_arrow_from, arrows_single]
    | c :: d :: rest =>
      unfold split_arrow_from
      simp only [List.length_cons] at hn
      by_cases h : c = '-' ∧ d = '>'
      · simp only [if_pos h, List.length_cons]
        rw [ih rest [] (by omega), h.1, h.2, arrows_arrow]
        omega
      · simp only [if_neg h]
        have h2 : ¬ ['-', '>'].isPrefixOf (c :: d :: rest) = true := by
          rw [prefix_arrow_iff]
          exact h
        rw [ih (d :: rest) (acc ++ [c]) (by simp only [List.length_cons]; omega),
          arrows_cons c (d :: rest), if_neg h2, Nat.zero_add]

/-- Without an arrow the split has the whole range as its only part. -/
theorem split_arrow_from_none (n : Nat) (s acc : List Char) (hn : s.length ≤ n)
    (h0 : s.tails.countP (fun t => ['-', '>'].isPrefixOf t) = 0) :
    split_arrow_from acc s = [acc ++ s] := by
  induction n generalizing s acc with
  | zero =>
    have : s = [] := List.length_eq_zero.mp (Nat.le_zero.mp hn)
    subst this
    simp [split_arrow_from]
  | succ n ih =>
    match s, h0 with
    | [], _ => simp [split_arrow_from]
    | [c], _ => simp [split_arrow_from]
    | c :: d :: rest, h0 =>
      unfold split_arrow_from
      simp only [List.length_cons] at hn
      rw [arrows_cons] at h0
      have h1 : ¬ (c = '-' ∧ d = '>') := by
        intro h
        rw [if_pos ((prefix_arrow_iff c d rest).mpr h)] at h0
        omega
      simp only [if_neg h1]
      rw [ih (d :: rest) (acc ++ [c]) (by simp only [List.length_cons]; omega) (by omega)]
      simp

/-- The split at the first arrow. -/
theorem split_arrow_from_first (pre post acc : List Char)
    (h0 : pre.tails.countP (fun t => ['-', '>'].isPrefixOf t) = 0) :
    split_arrow_from acc (pre ++ '-' :: '>' :: post) =
      (acc ++ pre) :: split_arrow_from [] post := by
  induction pre generalizing acc with
  | nil => simp [split_arrow_from]
  | cons c r ih =>
    rw [arrows_cons] at h0
    have h1 : r.tails.countP (fun t => ['-', '>'].isPrefixOf t) = 0 := by omega
    have h2 : ['-', '>'].isPrefixOf (c :: r) = false := by
      cases h3 : ['-', '>'].isPrefixOf (c :: r) with
      | false => rfl
      | true => rw [if_pos h3] at h0; omega
    match r, ih, h1, h2 with
    | [], ih, _, _ =>
      have h3 : ¬ (c = '-' ∧ '-' = '>') := by
        intro h; exact gt_ne_minus h.2.symm
      simp only [List.cons_append, List.nil_append]
      rw [split_arrow_from]
      simp only [if_neg h3]
      rw [split_arrow_from]
      simp
    | d :: r2, ih, h1, h2 =>
      have h3 : ¬ (c = '-' ∧ d = '>') := by
        intro h
        rw [(prefix_arrow_iff c d r2).mpr h] at h2
        exact Bool.noConfusion h2
      simp only [List.cons_append]
      rw [split_arrow_from]
      simp only [if_neg h3]
      have := ih (acc ++ [c]) h1
      simp only [List.cons_append] at this
      rw [this]
      simp

/-- The free labels of a parsed expression are the labels that occur once in the factors,
in the order of the factors. -/
theorem parse_free_labels (s : List Char) (p : einsum_parsed) (hlen : s.length < 2 ^ 64)
    (hp : einsum_parsed.parse s = .ok p) :
    p.free_index_labels_ = p.factor_index_labels_.flatten.filter
      (fun l => p.factor_index_labels_.flatten.count l = 1) := by
  obtain ⟨first, rest, seen, _, _, inv, hfree, _⟩ := parse_spec s p hlen hp
  have h := inv.free
  simp only at h
  rw [iterate_labels] at h
  rw [hfree, h]

theorem arrows_exists (s : List Char)
    (h : 1 ≤ s.tails.countP (fun t => ['-', '>'].isPrefixOf t)) :
    ∃ pre post, s = pre ++ '-' :: '>' :: post := by
  induction s with
  | nil => rw [arrows_nil] at h; omega
  | cons c r ih =>
    rw [arrows_cons] at h
    by_cases h1 : ['-', '>'].isPrefixOf (c :: r) = true
    · match r, h1 with
      | [], h1 => simp only [List.isPrefixOf, Bool.and_false, Bool.false_eq_true] at h1
      | d :: r2, h1 =>
        rw [prefix_arrow_iff] at h1
        exact ⟨[], r2, by rw [h1.1, h1.2]; rfl⟩
    · rw [if_neg h1] at h
      obtain ⟨pre, post, hr⟩ := ih (by omega)
      exact ⟨c :: pre, post, by rw [hr]; rfl⟩

/-- The split of a range with exactly one arrow. -/
theorem split_arrow_one (s pre post : List Char)
    (h1 : s.tails.countP (fun t => ['-', '>'].isPrefixOf t) = 1)
    (hs : s = pre ++ '-' :: '>' :: post) : split_arrow s = [pre, post] := by
  have h2 := arrows_append pre ('-' :: '>' :: post)
  rw [← hs, h1, arrows_arrow] at h2
  have hpre : pre.tails.countP (fun t => ['-', '>'].isPrefixOf t) = 0 := by omega
  have hpost : post.tails.countP (fun t => ['-', '>'].isPrefixOf t) = 0 := by omega
  unfold split_arrow
  have hne : s ≠ [] := by rw [hs]; simp
  rw [if_neg hne, hs, split_arrow_from_first pre post [] hpre,
    split_arrow_from_none post.length post [] (Nat.le_refl _) hpost]
  simp

theorem split_arrow_zero (s : List Char) (hne : s ≠ [])
    (h0 : s.tails.countP (fun t => ['-', '>'].isPrefixOf t) = 0) : split_arrow s = [s] := by
  unfold split_arrow
  rw [if_neg hne, split_arrow_from_none s.length s [] (Nat.le_refl _) h0]
  simp

theorem once_length_eq_card (L : List index_label) :
    (L.filter (fun l => L.count l = 1)).length =
      (L.toFinset.filter (fun l => L.count l = 1)).card := by
  have hnd : (L.filter (fun l => L.count l = 1)).Nodup := by
    rw [List.nodup_iff_sublist]
    intro a hsub
    have h1 : a ∈ L.filter (fun l => L.count l = 1) := hsub.subset (List.mem_cons_self _ _)
    have h2 := (List.mem_filter.mp h1).2
    simp only [decide_eq_true_eq] at h2
    have h3 := (hsub.trans (List.filter_sublist L)).count_le a
    rw [h2] at h3
    simp at h3
  rw [← List.toFinset_card_of_nodup hnd, List.toFinset_filter]
  congr 1
  ext x
  simp

/-! ## The contraction groups of a parsed expression -/

theorem parse_bound (s : List Char) (p : einsum_parsed) (hlen : s.length < 2 ^ 64)
    (hp : einsum_parsed.parse s = .ok p) :
    p.factor_index_labels_.flatten.length < 2 ^ 64 := by
  obtain ⟨first, rest, seen, hparts, hfl, _⟩ := parse_spec s p hlen hp
  rw [hfl]
  exact factor_labels_length s first rest hlen hparts

theorem label_of_cursor (cs : List (index_cursor × index_label))
    (hnd : (cs.map (fun t => t.1)).Nodup) (c : index_cursor) (a b : index_label)
    (ha : (c, a) ∈ cs) (hb : (c, b) ∈ cs) : a = b := by
  have := List.inj_on_of_nodup_map hnd ha hb rfl
  exact (Prod.mk.inj this).2

theorem mem_cursors_of_label (cs : List (index_cursor × index_label)) (c : index_cursor)
    (l : index_label) :
    c ∈ (cs.filter (fun t => t.2 = l)).map (fun t => t.1) ↔ (c, l) ∈ cs := by
  constructor
  · intro h
    obtain ⟨t, ht, htc⟩ := List.mem_map.mp h
    have h2 := List.mem_filter.mp ht
    have h3 : t.2 = l := by simpa using h2.2
    have : t = (c, l) := by rw [← htc, ← h3]
    rw [← this]
    exact h2.1
  · intro h
    exact List.mem_map.mpr ⟨(c, l), List.mem_filter.mpr ⟨h, by simp⟩, rfl⟩

/-- Every contraction group of a parsed expression is the list of the cursors of one
label, in the order of the factors, and holds at least two cursors. -/
theorem group_of_label (s : List Char) (p : einsum_parsed) (hlen : s.length < 2 ^ 64)
    (hp : einsum_parsed.parse s = .ok p) (k : Nat) (g : contraction)
    (hg : p.contractions_[k]? = some g) :
    ∃ l, g.data_ = ((iterate_index_labels_with_cursor p.factor_index_labels_).filter
        (fun t => t.2 = l)).map (fun t => t.1) ∧ 2 ≤ g.data_.length := by
  obtain ⟨first, rest, seen, _, _, inv, _, _⟩ := parse_spec s p hlen hp
  have hb := parse_bound s p hlen hp
  have hk : k < p.contractions_.length := (List.getElem?_eq_some_iff.mp hg).1
  obtain ⟨e, he, hek⟩ := inv.ordinal_surj k hk
  have hsize := inv.size
  simp only at hsize
  rw [← List.length_map _ (fun t : index_cursor × index_label => t.2), iterate_labels] at hsize
  have hne : e.2.1 ≠ not_contraction := by
    rw [hek, not_contraction_eq]
    omega
  obtain ⟨g2, hg2, hd, hl2⟩ := inv.entry_group e he hne
  simp only at hg2
  rw [hek, hg] at hg2
  simp only [Option.some.injEq] at hg2
  subst hg2
  exact ⟨e.1, hd, hl2⟩

/-- A cursor belongs to at most one contraction group of a parsed expression. -/
theorem group_unique (s : List Char) (p : einsum_parsed) (hlen : s.length < 2 ^ 64)
    (hp : einsum_parsed.parse s = .ok p) (k1 k2 : Nat) (g1 g2 : contraction)
    (c : index_cursor) (h1 : p.contractions_[k1]? = some g1)
    (h2 : p.contractions_[k2]? = some g2) (hc1 : c ∈ g1.data_) (hc2 : c ∈ g2.data_) :
    k1 = k2 := by
  obtain ⟨first, rest, seen, _, _, inv, _, _⟩ := parse_spec s p hlen hp
  have hb := parse_bound s p hlen hp
  have hsize := inv.size
  simp only at hsize
  rw [← List.length_map _ (fun t : index_cursor × index_label => t.2), iterate_labels] at hsize
  have key : ∀ k g, p.contractions_[k]? = some g → c ∈ g.data_ →
      ∃ e ∈ seen, e.2.1 = k ∧
        (c, e.1) ∈ iterate_index_labels_with_cursor p.factor_index_labels_ := by
    intro k g hg hc
    have hk : k < p.contractions_.length := (List.getElem?_eq_some_iff.mp hg).1
    obtain ⟨e, he, hek⟩ := inv.ordinal_surj k hk
    have hne : e.2.1 ≠ not_contraction := by
      rw [hek, not_contraction_eq]
      omega
    obtain ⟨g3, hg3, hd, _⟩ := inv.entry_group e he hne
    simp only at hg3
    rw [hek, hg] at hg3
    simp only [Option.some.injEq] at hg3
    subst hg3
    rw [hd, mem_cursors_of_label] at hc
    exact ⟨e, he, hek, hc⟩
  obtain ⟨e1, he1, hk1, hm1⟩ := key k1 g1 h1 hc1
  obtain ⟨e2, he2, hk2, hm2⟩ := key k2 g2 h2 hc2
  have hl := label_of_cursor _ (iterate_nodup _) c e1.1 e2.1 hm1 hm2
  have := List.inj_on_of_nodup_map inv.nodup_labels he1 he2 hl
  rw [← hk1, ← hk2, this]

/-- A label that occurs three times or more has a contraction group with as many
cursors. -/
theorem group_of_repeated_label (s : List Char) (p : einsum_parsed) (hlen : s.length < 2 ^ 64)
    (hp : einsum_parsed.parse s = .ok p) (l : index_label)
    (hl : 2 ≤ p.factor_index_labels_.flatten.count l) :
    ∃ g ∈ p.contractions_, g.data_.length = p.factor_index_labels_.flatten.count l := by
  obtain ⟨first, rest, seen, _, _, inv, _, _⟩ := parse_spec s p hlen hp
  have hmem : l ∈ (iterate_index_labels_with_cursor p.factor_index_labels_).map
      (fun t => t.2) := by
    rw [iterate_labels]
    exact List.count_pos_iff.mp (by omega)
  obtain ⟨t, ht, htl⟩ := List.mem_map.mp hmem
  have hseen := inv.seen_of_done t ht
  rw [htl] at hseen
  obtain ⟨e, he, hel⟩ := List.mem_map.mp hseen
  have hcount := count_label_eq (iterate_index_labels_with_cursor p.factor_index_labels_) l
  rw [iterate_labels] at hcount
  have hne : e.2.1 ≠ not_contraction := by
    intro h
    have := inv.entry_once e he h
    rw [hel] at this
    rw [this] at hcount
    simp only [List.length_singleton] at hcount
    omega
  obtain ⟨g, hg, hd, _⟩ := inv.entry_group e he hne
  simp only at hg
  refine ⟨g, List.getElem?_mem hg, ?_⟩
  rw [hd, hel, hcount]


/-! ## The network of a parsed expression -/

theorem foldlM_error_of_mem {σ α : Type} (f : σ → α → Except logic_error σ) (l : List α)
    (x : α) (hx : x ∈ l) (hf : ∀ st, ∃ err, f st x = .error err) (init : σ) :
    ∃ err, l.foldlM f init = .error err := by
  induction l generalizing init with
  | nil => cases hx
  | cons a r ih =>
    rw [List.foldlM_cons]
    cases hfa : f init a with
    | error err => exact ⟨err, rfl⟩
    | ok st =>
      rcases List.mem_cons.mp hx with h | h
      · subst h
        obtain ⟨err, herr⟩ := hf init
        rw [herr] at hfa
        cases hfa
      · exact ih h st

theorem network_edge_not_two (ids : List node_id) (net : tensor_network) (g : contraction)
    (h : g.data_.length ≠ 2) :
    einsum.network_edge ids net g = .error .reduction_not_two_indices := by
  unfold einsum.network_edge sstd.constexpr_set.get_data
  match hd : g.data_, h with
  | [], _ => rfl
  | [_], _ => rfl
  | [_, _], h => simp at h
  | _ :: _ :: _ :: _, _ => rfl

/-- The network of a parsed expression with a contraction group that does not hold
exactly two cursors can not be built. -/
theorem network_of_error (p : einsum_parsed) (g : contraction) (hg : g ∈ p.contractions_)
    (h : g.data_.length ≠ 2) : ∃ err, einsum.network_of p = .error err := by
  unfold einsum.network_of
  obtain ⟨err, herr⟩ := foldlM_error_of_mem
    (einsum.network_edge (einsum.network_nodes p.factor_index_labels_).1) p.contractions_ g hg
    (fun st => ⟨_, network_edge_not_two _ st g h⟩)
    (einsum.network_nodes p.factor_index_labels_).2
  simp only [herr]
  exact ⟨err, rfl⟩

theorem network_of_groups (p : einsum_parsed) (ids : List node_id) (net : tensor_network)
    (h : einsum.network_of p = .ok (ids, net)) (g : contraction) (hg : g ∈ p.contractions_) :
    g.data_.length = 2 := by
  by_contra hne
  obtain ⟨err, herr⟩ := network_of_error p g hg hne
  rw [herr] at h
  cases h

/-- A call of `operator()` fails when the network of the expression can not be built. -/
theorem call_error_of_network (estr : str.fixed_string) (p : einsum_parsed)
    (hp : einsum.parser estr = .ok p) (err : logic_error)
    (hnet : einsum.network_of p = .error err) (out : mdspan) (factors : List mdspan) :
    ∃ err2, einsum.call estr out factors = .error err2 := by
  unfold einsum.call einsum.call_bounded
  cases hc : einsum_compatible estr out.extents (factors.map (fun f => f.extents)) with
  | error e => exact ⟨e, rfl⟩
  | ok b =>
    cases b with
    | false => exact ⟨_, rfl⟩
    | true =>
      simp only [hp, hnet]
      exact ⟨err, rfl⟩

/-! ## Direct evaluation: the two nested loops -/

theorem size_mul_eq (a b : Nat) : size_mul a b = (a * b) % 2 ^ 64 := rfl

theorem integer_pow_mod (base e : Nat) : sstd.integer_pow base e = base ^ e % 2 ^ 64 := by
  unfold sstd.integer_pow
  induction e with
  | zero => simp
  | succ n ih =>
    rw [List.range_succ, List.foldl_append, ih]
    simp only [List.foldl_cons, List.foldl_nil, size_mul_eq]
    rw [Nat.mod_mul_mod]
    exact congrArg (fun x => x % 2 ^ 64) (pow_succ base n).symm

theorem integer_pow_eq (base e : Nat) (h : base ^ e < 2 ^ 64) :
    sstd.integer_pow base e = base ^ e := by
  rw [integer_pow_mod, Nat.mod_eq_of_lt h]

theorem pow_le_of_pos_base {D a b : Nat} (hD : 1 ≤ D) (hab : a ≤ b) : D ^ a ≤ D ^ b :=
  Nat.pow_le_pow_right hD hab

theorem index_space_dividers_eq (D n : Nat) (hD : 1 ≤ D) (h : D ^ n < 2 ^ 64) :
    einsum.index_space_dividers D n = (List.range n).map (fun I => D ^ (n - 1 - I)) := by
  unfold einsum.index_space_dividers
  apply List.map_congr_left
  intro I _
  apply integer_pow_eq
  exact lt_of_le_of_lt (Nat.pow_le_pow_right hD (by omega)) h

/-- The multi-index of a counter, digit by digit. -/
theorem index_of_counter_eq (D n i : Nat) (hD : 1 ≤ D) (h : D ^ n < 2 ^ 64) :
    einsum.index_of_counter (einsum.index_space_dividers D n) D i =
      List.ofFn (fun k : Fin n => i / D ^ (n - 1 - (k : Nat)) % D) := by
  rw [index_space_dividers_eq D n hD h]
  unfold einsum.index_of_counter
  rw [List.map_map]
  apply List.ext_getElem
  · simp
  · intro k h1 h2
    simp

theorem index_of_counter_digits (D n : Nat) (hD : 1 ≤ D) (h : D ^ n < 2 ^ 64) (i : Fin (D ^ n)) :
    einsum.index_of_counter (einsum.index_space_dividers D n) D i =
      List.ofFn (fun k : Fin n => ((finFunctionFinEquiv.symm i) (Fin.rev k) : Nat)) := by
  rw [index_of_counter_eq D n i hD h]
  congr 1
  funext k
  simp only [finFunctionFinEquiv_symm_apply_val, Fin.val_rev]
  congr 3
  omega

theorem wrap_exact (a : Int) : element_type.exact.wrap a = a := rfl

theorem wrap_unsigned (bits : Nat) (a : Int) :
    (element_type.unsigned bits).wrap a = a % 2 ^ bits := rfl

theorem wrap_wrap (T : element_type) (a : Int) : T.wrap (T.wrap a) = T.wrap a := by
  cases T with
  | exact => rfl
  | unsigned bits =>
    simp only [wrap_unsigned]
    exact Int.emod_emod_of_dvd a (dvd_refl _)

theorem wrap_zero (T : element_type) : T.wrap 0 = 0 := by
  cases T with
  | exact => rfl
  | unsigned bits => simp only [wrap_unsigned, Int.zero_emod]

theorem wrap_add (T : element_type) (a b : Int) :
    T.wrap (T.wrap a + T.wrap b) = T.wrap (a + b) := by
  cases T with
  | exact => rfl
  | unsigned bits =>
    simp only [wrap_unsigned]
    exact (Int.add_emod a b _).symm

theorem wrap_mul (T : element_type) (a b : Int) :
    T.wrap (T.wrap a * T.wrap b) = T.wrap (a * b) := by
  cases T with
  | exact => rfl
  | unsigned bits =>
    simp only [wrap_unsigned]
    exact (Int.mul_emod a b _).symm

/-- The fold of `*` in the element type is the integer product taken in the element
type. -/
theorem fold_product_wrap (T : element_type) (l : List Int) :
    T.wrap (einsum.fold_product T l) = T.wrap l.prod := by
  induction l with
  | nil => rfl
  | cons x r ih =>
    cases r with
    | nil => simp [einsum.fold_product]
    | cons y r =>
      rw [einsum.fold_product, wrap_wrap, ← wrap_mul, ih, wrap_mul, List.prod_cons (a := x)]

theorem fold_product_eq_prod (l : List Int) :
    einsum.fold_product element_type.exact l = l.prod :=
  fold_product_wrap element_type.exact l

theorem zip_map_eq_zipWith (F : List mdspan) (idx : List (List Nat)) :
    (F.zip idx).map (fun t => t.1.data t.2) = List.zipWith (fun f i => f.data i) F idx := by
  rw [List.zip, List.map_zipWith]

theorem accumulate_fold (T : element_type) (im : List (List Nat)) (F : List mdspan) (D : Nat)
    (cdivs o : List Nat) (N : Nat) (out0 : mdspan) (h0 : T.wrap (out0.data o) = out0.data o) :
    ((List.range N).foldl (einsum.accumulate T im F D cdivs o) out0).extents = out0.extents ∧
    ((List.range N).foldl (einsum.accumulate T im F D cdivs o) out0).data o =
      T.wrap (out0.data o + ∑ j in Finset.range N,
        (List.zipWith (fun f i => f.data i) F
          (einsum.apply_index_map im o (einsum.index_of_counter cdivs D j))).prod) ∧
    ∀ o2, o2 ≠ o →
      ((List.range N).foldl (einsum.accumulate T im F D cdivs o) out0).data o2 =
        out0.data o2 := by
  induction N with
  | zero => simp [h0]
  | succ n ih =>
    obtain ⟨h1, h2, h3⟩ := ih
    rw [List.range_succ, List.foldl_append]
    simp only [List.foldl_cons, List.foldl_nil]
    refine ⟨?_, ?_, ?_⟩
    · simp only [einsum.accumulate, mdspan.assign]; exact h1
    · simp only [einsum.accumulate, mdspan.assign, if_true]
      rw [h2, Finset.sum_range_succ, ← wrap_add, wrap_wrap, fold_product_wrap,
        zip_map_eq_zipWith, wrap_add, Int.add_assoc]
    · intro o2 ho2
      simp only [einsum.accumulate, mdspan.assign, if_neg ho2]
      exact h3 o2 ho2

theorem fill_cell_spec (T : element_type) (im : List (List Nat)) (F : List mdspan)
    (D r m : Nat) (out : mdspan) (i : Nat) :
    (einsum.fill_cell T im F D r m out i).extents = out.extents ∧
    ∀ o, (einsum.fill_cell T im F D r m out i).data o =
      if o = einsum.index_of_counter (einsum.index_space_dividers D r) D i then
        T.wrap (∑ j in Finset.range (sstd.integer_pow D m),
          (List.zipWith (fun f i => f.data i) F
            (einsum.apply_index_map im o
              (einsum.index_of_counter (einsum.index_space_dividers D m) D j))).prod)
      else out.data o := by
  unfold einsum.fill_cell
  have h := accumulate_fold T im F D (einsum.index_space_dividers D m)
    (einsum.index_of_counter (einsum.index_space_dividers D r) D i) (sstd.integer_pow D m)
    (out.assign (einsum.index_of_counter (einsum.index_space_dividers D r) D i) 0)
    (by simp [mdspan.assign, wrap_zero])
  obtain ⟨h1, h2, h3⟩ := h
  refine ⟨h1, ?_⟩
  intro o
  by_cases ho : o = einsum.index_of_counter (einsum.index_space_dividers D r) D i
  · rw [if_pos ho, ho]
    rw [h2]
    simp [mdspan.assign]
  · rw [if_neg ho]
    rw [h3 o ho]
    simp [mdspan.assign, ho]

theorem fill_cells_spec (T : element_type) (im : List (List Nat)) (F : List mdspan)
    (D r m : Nat) (N : Nat) (out : mdspan) :
    ((List.range N).foldl (einsum.fill_cell T im F D r m) out).extents = out.extents ∧
    ∀ o, (∃ i, i < N ∧ einsum.index_of_counter (einsum.index_space_dividers D r) D i = o) →
      ((List.range N).foldl (einsum.fill_cell T im F D r m) out).data o =
        T.wrap (∑ j in Finset.range (sstd.integer_pow D m),
          (List.zipWith (fun f i => f.data i) F
            (einsum.apply_index_map im o
              (einsum.index_of_counter (einsum.index_space_dividers D m) D j))).prod) := by
  induction N with
  | zero => simp
  | succ n ih =>
    obtain ⟨h1, h2⟩ := ih
    rw [List.range_succ, List.foldl_append]
    simp only [List.foldl_cons, List.foldl_nil]
    obtain ⟨g1, g2⟩ := fill_cell_spec T im F D r m
      ((List.range n).foldl (einsum.fill_cell T im F D r m) out) n
    refine ⟨g1.trans h1, ?_⟩
    intro o ⟨i, hi, hio⟩
    rw [g2 o]
    by_cases ho : o = einsum.index_of_counter (einsum.index_space_dividers D r) D n
    · rw [if_pos ho]
    · rw [if_neg ho]
      apply h2
      refine ⟨i, ?_, hio⟩
      rcases Nat.lt_succ_iff_lt_or_eq.mp hi with h | h
      · exact h
      · subst h; exact absurd hio.symm ho


/-- Every multi-index below `D` is the multi-index of some counter. -/
theorem index_of_counter_surj (D n : Nat) (hD : 1 ≤ D) (h : D ^ n < 2 ^ 64) (o : List Nat)
    (hlen : o.length = n) (ho : ∀ x ∈ o, x < D) :
    ∃ i, i < D ^ n ∧ einsum.index_of_counter (einsum.index_space_dividers D n) D i = o := by
  subst hlen
  let c : Fin o.length → Fin D := fun k => ⟨o.get (Fin.rev k), ho _ (List.get_mem _ _ _)⟩
  refine ⟨(finFunctionFinEquiv c : Nat), (finFunctionFinEquiv c).isLt, ?_⟩
  rw [index_of_counter_digits D o.length hD h (finFunctionFinEquiv c)]
  simp only [Equiv.symm_apply_apply]
  apply List.ext_getElem
  · simp
  · intro k h1 h2
    simp [c]

/-- The sum over the counters of the contraction index space is the sum over all
assignments of a value below `D` to every contraction group. -/
theorem sum_counters_eq (D m : Nat) (hD : 1 ≤ D) (h : D ^ m < 2 ^ 64) (g : List Nat → Int) :
    ∑ j in Finset.range (sstd.integer_pow D m),
      g (einsum.index_of_counter (einsum.index_space_dividers D m) D j) =
    ∑ c : Fin m → Fin D, g (List.ofFn (fun k => (c k : Nat))) := by
  rw [integer_pow_eq D m h, Finset.sum_range]
  apply Fintype.sum_equiv
    ((finFunctionFinEquiv (m := D) (n := m)).symm.trans
      (Equiv.arrowCongr Fin.revPerm (Equiv.refl (Fin D))))
  intro i
  rw [index_of_counter_digits D m hD h i]
  congr 1

theorem direct_spec (T : element_type) (p : einsum_parsed) (D : Nat) (out : mdspan)
    (F : List mdspan) (im : List (List Nat)) (him : einsum.index_map p = .ok im)
    (hF : p.number_of_factors ≠ 0) (hD : 1 ≤ D) (hr : D ^ out.rank < 2 ^ 64)
    (hm : D ^ p.contractions_.length < 2 ^ 64) :
    ∃ res, einsum.direct p D out F T = .ok res ∧ res.extents = out.extents ∧
      ∀ o, o.length = out.rank → (∀ x ∈ o, x < D) →
        res.data o = T.wrap (∑ c : Fin p.contractions_.length → Fin D,
          (List.zipWith (fun f i => f.data i) F
            (einsum.apply_index_map im o (List.ofFn (fun k => (c k : Nat))))).prod) := by
  unfold einsum.direct
  rw [him]
  simp only [if_neg hF]
  obtain ⟨h1, h2⟩ := fill_cells_spec T im F D out.rank p.contractions_.length
    (sstd.integer_pow D out.rank) out
  refine ⟨_, rfl, h1, ?_⟩
  intro o hlen ho
  obtain ⟨i, hi, hio⟩ := index_of_counter_surj D out.rank hD hr o hlen ho
  rw [h2 o ⟨i, by rw [integer_pow_eq D _ hr]; exact hi, hio⟩]
  congr 1
  exact sum_counters_eq D p.contractions_.length hD hm
    (fun cl => (List.zipWith (fun f i => f.data i) F (einsum.apply_index_map im o cl)).prod)


theorem compatible_parts (estr : str.fixed_string) (OutMDS : List Nat) (MDS : List (List Nat))
    (h : einsum_compatible estr OutMDS MDS = .ok true) :
    (OutMDS :: MDS).all static_extent_mdspan = true ∧
    einsum_consistent_geometric_dimentions (OutMDS :: MDS) = true ∧
    einsum_valid_ouput_type OutMDS estr.sv = .ok true ∧
    einsum_valid_factor_types MDS estr.sv = .ok true := by
  unfold einsum_compatible at h
  by_cases h1 : (OutMDS :: MDS).all static_extent_mdspan = true
  · by_cases h2 : einsum_consistent_geometric_dimentions (OutMDS :: MDS) = true
    · simp only [h1, h2, Bool.not_true, if_false] at h
      refine ⟨h1, h2, ?_⟩
      cases h3 : einsum_valid_ouput_type OutMDS estr.sv with
      | error e => rw [h3] at h; simp at h
      | ok b =>
        cases b with
        | false => rw [h3] at h; simp at h
        | true => rw [h3] at h; exact ⟨rfl, h⟩
    · simp [h1, h2] at h
  · simp [h1] at h

theorem valid_factor_types_length (MDS : List (List Nat)) (s : List Char) (p : einsum_parsed)
    (hp : einsum_parsed.parse s = .ok p) (h : einsum_valid_factor_types MDS s = .ok true) :
    MDS.length = p.factor_index_labels_.length ∧
    ∀ (f : Nat) (M : List Nat) (labels : factor_index_labels_vec), MDS[f]? = some M →
      p.factor_index_labels_[f]? = some labels → M.length = labels.length := by
  unfold einsum_valid_factor_types at h
  rw [hp] at h
  by_cases h1 : MDS.length = p.number_of_factors
  · simp only [h1, ne_eq, not_true_eq_false, if_false] at h
    refine ⟨h1, ?_⟩
    intro f M labels hM hl
    have h2 : (MDS.zip p.factor_index_labels_).all (fun t => decide (t.1.length = t.2.length))
        = true := by simpa using h
    rw [List.all_eq_true] at h2
    have h3 : (M, labels) ∈ MDS.zip p.factor_index_labels_ := by
      rw [List.mem_iff_getElem?]
      exact ⟨f, by simp [List.getElem?_zip_eq_some, hM, hl]⟩
    simpa using h2 _ h3
  · simp [h1] at h

theorem deduce_dimension_pos (MDS : List (List Nat))
    (h : MDS.all (fun M => (mds_dim M).consistent) = true) :
    1 ≤ einsum.deduce_dimension MDS := by
  induction MDS with
  | nil => simp [einsum.deduce_dimension]
  | cons M rest ih =>
    rw [List.all_cons, Bool.and_eq_true] at h
    cases M with
    | nil => exact ih h.2
    | cons e0 r =>
      simp only [einsum.deduce_dimension]
      have h1 := h.1
      by_cases h2 : e0 = 0
      · subst h2
        simp only [mds_dim] at h1
        split_ifs at h1
      · omega

theorem consistent_all (MDS : List (List Nat))
    (h : einsum_consistent_geometric_dimentions MDS = true) :
    MDS.all (fun M => (mds_dim M).consistent) = true := by
  unfold einsum_consistent_geometric_dimentions at h
  by_cases h1 : MDS.all (fun M => (mds_dim M).consistent) = true
  · exact h1
  · simp [h1] at h

theorem call_direct (T : element_type) (estr : str.fixed_string) (p : einsum_parsed)
    (out : mdspan) (F : List mdspan) (ids : List node_id) (net : tensor_network)
    (cc : List connected_tensor_network) (im : List (List Nat)) (r m D : Nat)
    (hcompat : einsum_compatible estr out.extents (F.map (fun f => f.extents)) = .ok true)
    (hp : einsum.parser estr = .ok p)
    (hnet : einsum.network_of p = .ok (ids, net))
    (hcc : net.connected_components = .ok cc)
    (hdirect : F.length ≤ 2 ∨ p.contractions_ = [])
    (him : einsum.index_map p = .ok im)
    (hF : F ≠ [])
    (hrank : out.rank = r)
    (hgroups : p.contractions_.length = m)
    (hdim : einsum.deduce_dimension (out.extents :: F.map (fun f => f.extents)) = D)
    (hr : D ^ r < 2 ^ 64) (hm : D ^ m < 2 ^ 64) :
    ∃ res, einsum.call estr out F T = .ok res ∧ res.extents = out.extents ∧
      ∀ o, o.length = r → (∀ x ∈ o, x < D) →
        res.data o = T.wrap (∑ c : Fin m → Fin D,
          (List.zipWith (fun f i => f.data i) F
            (einsum.apply_index_map im o (List.ofFn (fun k => (c k : Nat))))).prod) := by
  subst hrank hgroups hdim
  obtain ⟨_, hcons, _, hfac⟩ := compatible_parts _ _ _ hcompat
  have hD := deduce_dimension_pos _ (consistent_all _ hcons)
  have hnf : p.number_of_factors ≠ 0 := by
    have := (valid_factor_types_length _ _ p hp hfac).1
    unfold einsum_parsed.number_of_factors
    rw [← this]
    simpa using hF
  obtain ⟨res, h1, h2, h3⟩ := direct_spec T p _ out F im him hnf hD hr hm
  refine ⟨res, ?_, h2, h3⟩
  unfold einsum.call einsum.call_bounded
  simp only [hcompat, hp, hnet, hcc, hdirect, if_true]
  exact h1

/-! ## The index map -/

theorem all_ok_eq_ok {α : Type} (l : List (Except logic_error α)) (r : List α) :
    einsum.all_ok l = .ok r ↔ l = r.map Except.ok := by
  induction l generalizing r with
  | nil =>
    simp only [einsum.all_ok, Except.ok.injEq]
    constructor
    · intro h; subst h; rfl
    · intro h
      cases r with
      | nil => rfl
      | cons a r => simp at h
  | cons x l ih =>
    cases x with
    | error e =>
      simp only [einsum.all_ok]
      constructor
      · intro h; cases h
      · intro h
        cases r with
        | nil => simp at h
        | cons a r => simp at h
    | ok a =>
      simp only [einsum.all_ok]
      cases hl : einsum.all_ok l with
      | error e =>
        simp only
        constructor
        · intro h; cases h
        · intro h
          cases r with
          | nil => simp at h
          | cons b r =>
            simp only [List.map_cons, List.cons.injEq] at h
            have := (ih r).mpr h.2
            rw [hl] at this
            cases this
      | ok as =>
        simp only [Except.ok.injEq]
        have h2 := (ih as).mp hl
        constructor
        · intro h; subst h; rw [h2]; rfl
        · intro h
          cases r with
          | nil => simp at h
          | cons b r =>
            simp only [List.map_cons, List.cons.injEq, Except.ok.injEq] at h
            rw [h.1]
            congr 1
            have h3 : List.map Except.ok as = List.map (Except.ok (ε := logic_error)) r := by
              rw [← h2, h.2]
            exact (List.map_injective_iff.mpr (fun x y hxy => by cases hxy; rfl)) h3

theorem all_ok_enum_get {α β : Type} (xs : List α) (F : Nat × α → Except logic_error β)
    (r : List β) (h : einsum.all_ok (xs.enum.map F) = .ok r) :
    r.length = xs.length ∧
    ∀ i a, xs[i]? = some a → ∃ b, r[i]? = some b ∧ F (i, a) = .ok b := by
  rw [all_ok_eq_ok] at h
  have hlen : r.length = xs.length := by
    have := congrArg List.length h
    simp only [List.length_map, List.enum_length] at this
    exact this.symm
  refine ⟨hlen, ?_⟩
  intro i a hi
  have h2 := congrArg (fun l => l[i]?) h
  simp only [List.getElem?_map, List.getElem?_enum, hi, Option.map_some'] at h2
  cases hr : r[i]? with
  | none => rw [hr] at h2; simp at h2
  | some b =>
    rw [hr] at h2
    simp only [Option.map_some', Option.some.injEq] at h2
    exact ⟨b, rfl, h2⟩


/-- The entries of the index map of a parsed expression. -/
theorem index_map_get (p : einsum_parsed) (im : List (List Nat))
    (him : einsum.index_map p = .ok im) :
    im.length = p.factor_index_labels_.length ∧
    ∀ f labels, p.factor_index_labels_[f]? = some labels →
      ∃ imf, im[f]? = some imf ∧ imf.length = labels.length ∧
        ∀ pos label, labels[pos]? = some label →
          ∃ v, imf[pos]? = some v ∧ einsum.index_map_entry p f pos label = .ok v := by
  unfold einsum.index_map at him
  obtain ⟨h1, h2⟩ := all_ok_enum_get _ _ _ him
  refine ⟨h1, ?_⟩
  intro f labels hf
  obtain ⟨imf, h3, h4⟩ := h2 f labels hf
  simp only [einsum.index_map_factor] at h4
  obtain ⟨h5, h6⟩ := all_ok_enum_get _ _ _ h4
  exact ⟨imf, h3, h5, h6⟩

theorem argfind_first {α : Type} [DecidableEq α] (r : List α) (x : α) (q : Nat)
    (h : alg.argfind r x = some q) :
    q < r.length ∧ r[q]? = some x ∧ ∀ q2, q2 < q → r[q2]? ≠ some x := by
  obtain ⟨r1, r2, h1, h2, h3⟩ := argfind_eq_some r x q h
  subst h1 h2
  refine ⟨by simp, getElem?_middle r1 r2 x, ?_⟩
  intro q2 hq2 hx
  rw [List.getElem?_append_left hq2] at hx
  exact h3 (List.getElem?_mem hx)


theorem static_of_pow_lt (D n : Nat) (hn : 2 ≤ n) (h : D ^ n < 2 ^ 64) : D < 2 ^ 64 - 1 := by
  by_cases hD : D ≤ 1
  · omega
  · have h1 : D ^ 2 ≤ D ^ n := Nat.pow_le_pow_right (by omega) hn
    have h2 : 2 * D ≤ D * D := Nat.mul_le_mul_right D (by omega)
    rw [pow_two] at h1
    omega

theorem compatible_matmul (D : Nat) (hD : 1 ≤ D) (hD2 : D < 2 ^ 64 - 1) :
    einsum_compatible ⟨"ij,jk->ik".toList⟩ [D, D] [[D, D], [D, D]] = .ok true := by
  have hp : einsum_parsed.parse (str.fixed_string.sv ⟨"ij,jk->ik".toList⟩) =
      .ok ⟨[[['i'], ['j']], [['j'], ['k']]], [['i'], ['k']], [['i'], ['k']],
        [⟨[⟨0, 1⟩, ⟨1, 0⟩]⟩]⟩ := by decide
  have h1 : einsum_valid_ouput_type [D, D] (str.fixed_string.sv ⟨"ij,jk->ik".toList⟩)
      = .ok true := by
    unfold einsum_valid_ouput_type
    rw [hp]
    simp
  have h2 : einsum_valid_factor_types [[D, D], [D, D]]
      (str.fixed_string.sv ⟨"ij,jk->ik".toList⟩) = .ok true := by
    unfold einsum_valid_factor_types
    rw [hp]
    simp [einsum_parsed.number_of_factors]
  have h3 : D ≠ dynamic_extent := by unfold dynamic_extent; omega
  have h4 : D ≠ 0 := by omega
  unfold einsum_compatible
  rw [h1, h2]
  simp [static_extent_mdspan, einsum_consistent_geometric_dimentions, mds_dim, h3, h4]

theorem matmul_cell (T : element_type) (D : Nat) (hD : 1 ≤ D) (hD2 : D ^ 2 < 2 ^ 64)
    (A B out : mdspan)
    (hA : A.extents = [D, D]) (hB : B.extents = [D, D]) (hout : out.extents = [D, D])
    (i k : Nat) (hi : i < D) (hk : k < D) :
    einsum.cell (einsum.call ⟨"ij,jk->ik".toList⟩ out [A, B] T) [i, k] =
      some (T.wrap (∑ j in Finset.range D, A.data [i, j] * B.data [j, k])) := by
  have hD3 : D < 2 ^ 64 - 1 := static_of_pow_lt D 2 (by omega) hD2
  obtain ⟨res, h1, _, h3⟩ := call_direct T ⟨"ij,jk->ik".toList⟩
    ⟨[[['i'], ['j']], [['j'], ['k']]], [['i'], ['k']], [['i'], ['k']],
        [⟨[⟨0, 1⟩, ⟨1, 0⟩]⟩]⟩ out [A, B] [⟨0⟩, ⟨1⟩]
    ⟨[⟨⟨0⟩, 2⟩, ⟨⟨1⟩, 2⟩], 2, [⟨⟨⟨0⟩, 1⟩, ⟨⟨1⟩, 0⟩⟩]⟩
    [⟨[⟨⟨0⟩, 2⟩, ⟨⟨1⟩, 2⟩], 3, [⟨⟨⟨0⟩, 1⟩, ⟨⟨1⟩, 0⟩⟩]⟩] [[0, 2], [2, 1]]
    2 1 D
    (by rw [hout]; simp only [List.map, hA, hB]; exact compatible_matmul D hD hD3)
    (by decide) (by decide) (by decide) (by simp) (by decide) (by simp)
    (by simp [mdspan.rank, hout]) (by rfl)
    (by simp [hout, einsum.deduce_dimension]) hD2 (by simpa using by omega)
  rw [h1]
  simp only [einsum.cell]
  rw [h3 [i, k] rfl (by simp [hi, hk])]
  congr 2
  rw [Finset.sum_range]
  apply Fintype.sum_equiv (Equiv.funUnique (Fin 1) (Fin D))
  intro c
  simp [einsum.apply_index_map]

theorem matmul_rejected (A B out : mdspan)
    (hA : A.extents = [2, 3]) (hB : B.extents = [3, 2]) (hout : out.extents = [2, 2]) :
    einsum.call ⟨"ij,jk->ik".toList⟩ out [A, B] = .error .not_einsum_compatible := by
  have h : einsum_compatible ⟨"ij,jk->ik".toList⟩ [2, 2] [[2, 3], [3, 2]] = .ok false := by
    decide
  unfold einsum.call einsum.call_bounded
  simp only [List.map, hA, hB, hout, h]

theorem compatible_trace (D : Nat) (hD : 1 ≤ D) (hD2 : D < 2 ^ 64 - 1) :
    einsum_compatible ⟨"ii->".toList⟩ [] [[D, D]] = .ok true := by
  have h1 : einsum_valid_ouput_type [] (str.fixed_string.sv ⟨"ii->".toList⟩) = .ok true := by
    decide
  have h2 : einsum_valid_factor_types [[D, D]] (str.fixed_string.sv ⟨"ii->".toList⟩)
      = .ok true := by
    have hp : einsum_parsed.parse (str.fixed_string.sv ⟨"ii->".toList⟩) =
      .ok ⟨[[['i'], ['i']]], [], [], [⟨[⟨0, 0⟩, ⟨0, 1⟩]⟩]⟩ := by decide
    unfold einsum_valid_factor_types
    rw [hp]
    simp [einsum_parsed.number_of_factors]
  have h3 : D ≠ dynamic_extent := by unfold dynamic_extent; omega
  have h4 : D ≠ 0 := by omega
  unfold einsum_compatible
  rw [h1, h2]
  simp [static_extent_mdspan, einsum_consistent_geometric_dimentions, mds_dim, h3, h4]

theorem trace_cell (T : element_type) (D : Nat) (hD : 1 ≤ D) (hD2 : D < 2 ^ 64 - 1)
    (A out : mdspan) (hA : A.extents = [D, D]) (hout : out.extents = []) :
    einsum.cell (einsum.call ⟨"ii->".toList⟩ out [A] T) [] =
      some (T.wrap (∑ i in Finset.range D, A.data [i, i])) := by
  obtain ⟨res, h1, _, h3⟩ := call_direct T ⟨"ii->".toList⟩
    ⟨[[['i'], ['i']]], [], [], [⟨[⟨0, 0⟩, ⟨0, 1⟩]⟩]⟩ out [A] [⟨0⟩]
    ⟨[⟨⟨0⟩, 2⟩], 1, [⟨⟨⟨0⟩, 0⟩, ⟨⟨0⟩, 1⟩⟩]⟩ [⟨[⟨⟨0⟩, 2⟩], 1, [⟨⟨⟨0⟩, 0⟩, ⟨⟨0⟩, 1⟩⟩]⟩] [[0, 0]]
    0 1 D
    (by rw [hout]; simp only [List.map, hA]; exact compatible_trace D hD hD2)
    (by decide) (by decide) (by decide) (by simp) (by decide) (by simp)
    (by simp [mdspan.rank, hout]) (by rfl)
    (by simp [hout, hA, einsum.deduce_dimension]) (by simp)
    (by simpa using lt_of_lt_of_le hD2 (Nat.sub_le _ _))
  rw [h1]
  simp only [einsum.cell]
  rw [h3 [] rfl (by simp)]
  congr 2
  rw [Finset.sum_range]
  apply Fintype.sum_equiv (Equiv.funUnique (Fin 1) (Fin D))
  intro c
  simp [einsum.apply_index_map]

/-! ## Execution of the expressions of the specification -/

/-- C2, evaluation at the failing input: for "ij,jk,kl->il" on 2×2 operands A, the
identity and C, the evaluation by components (three factors, two contraction groups) leaves
0 in the cell (0,1) and 1 in the cell (1,0), while the defining sum of the direct
evaluation, the sum over j and k of A[i,j]·B[j,k]·C[k,l], is 1 at (0,1) and 0 at (1,0), which
is also what the direct loops of the engine compute for this expression. -/
theorem network_decomposed_matrix_chain_transposed :
    einsum.cell (einsum.call ⟨"ij,jk,kl->il".toList⟩ (filled [2, 2] 0)
      [matrix [[1, 2], [3, 4]], matrix [[1, 0], [0, 1]], matrix [[0, 1], [0, 0]]]) [0, 1]
      = some 0 ∧
    einsum.cell (einsum.call ⟨"ij,jk,kl->il".toList⟩ (filled [2, 2] 0)
      [matrix [[1, 2], [3, 4]], matrix [[1, 0], [0, 1]], matrix [[0, 1], [0, 0]]]) [1, 0]
      = some 1 ∧
    (∑ j in Finset.range 2, ∑ k in Finset.range 2,
      (matrix [[1, 2], [3, 4]]).data [0, j] * (matrix [[1, 0], [0, 1]]).data [j, k] *
        (matrix [[0, 1], [0, 0]]).data [k, 1]) = 1 ∧
    (∑ j in Finset.range 2, ∑ k in Finset.range 2,
      (matrix [[1, 2], [3, 4]]).data [1, j] * (matrix [[1, 0], [0, 1]]).data [j, k] *
        (matrix [[0, 1], [0, 0]]).data [k, 0]) = 0 ∧
    einsum.cell (einsum.direct
      ⟨[[['i'], ['j']], [['j'], ['k']], [['k'], ['l']]], [['i'], ['l']], [['i'], ['l']],
        [⟨[⟨0, 1⟩, ⟨1, 0⟩]⟩, ⟨[⟨1, 1⟩, ⟨2, 0⟩]⟩]⟩ 2 (filled [2, 2] 0)
      [matrix [[1, 2], [3, 4]], matrix [[1, 0], [0, 1]], matrix [[0, 1], [0, 0]]]) [0, 1]
      = some 1 := by
  refine ⟨by decide, by decide, by decide, by decide, by decide⟩

/-- C4, as stated: the call of "ij,jk->ik" with a 2×3 operand, a 3×2 operand and a 2×2
output is not accepted, `einsum_compatible` is false for these extents and no output cell
is produced. -/
theorem matmul_2x3_not_accepted :
    einsum_compatible ⟨"ij,jk->ik".toList⟩ [2, 2] [[2, 3], [3, 2]] = .ok false ∧
    einsum.cell (einsum.call ⟨"ij,jk->ik".toList⟩ (filled [2, 2] 0)
      [filled [2, 3] 1, filled [3, 2] 1]) [0, 0] = none := by
  refine ⟨by decide, by decide⟩

/-- C4, amended: "ij,jk->ik" with a 2×3 and a 3×2 operand is rejected whatever the
elements are (the constraint `einsum_compatible` asks for one extent shared by all
dimensions of all views); with 3×3 operands filled with 1s and a 3×3 output the call is
accepted and leaves every output cell equal to 3, the extent of the shared dimension,
whatever the output held before. -/
theorem matmul_of_ones (A B out2 out3 : mdspan) (i k : Nat)
    (hA : A.extents = [2, 3]) (hB : B.extents = [3, 2]) (hout2 : out2.extents = [2, 2])
    (hout3 : out3.extents = [3, 3]) (hi : i < 3) (hk : k < 3) :
    einsum.call ⟨"ij,jk->ik".toList⟩ out2 [A, B] = .error .not_einsum_compatible ∧
    einsum.cell (einsum.call ⟨"ij,jk->ik".toList⟩ out3 [filled [3, 3] 1, filled [3, 3] 1])
      [i, k] = some 3 := by
  refine ⟨matmul_rejected A B out2 hA hB hout2, ?_⟩
  rw [matmul_cell element_type.exact 3 (by omega) (by norm_num) (filled [3, 3] 1)
    (filled [3, 3] 1) out3 rfl rfl hout3 i k hi hk]
  simp [filled, wrap_exact]

/-- Witness of `matmul_of_ones`. -/
theorem matmul_of_ones_witness :
    einsum.call ⟨"ij,jk->ik".toList⟩ (filled [2, 2] 0) [filled [2, 3] 1, filled [3, 2] 1]
      = .error .not_einsum_compatible ∧
    einsum.cell (einsum.call ⟨"ij,jk->ik".toList⟩ (filled [3, 3] 5)
      [filled [3, 3] 1, filled [3, 3] 1]) [2, 1] = some 3 :=
  matmul_of_ones (filled [2, 3] 1) (filled [3, 2] 1) (filled [2, 2] 0) (filled [3, 3] 5) 2 1
    rfl rfl rfl rfl (by decide) (by decide)

/-- C5, as stated: on the 2×2 operand of the unsigned type of 64 bits with 2^63 on the
diagonal and 0 elsewhere, executing "ii->" leaves 0 in the rank-0 output, while the sum of
the A[i][i] is 2^64. -/
theorem trace_of_large_unsigned_wraps :
    einsum.cell (einsum.call ⟨"ii->".toList⟩ (filled [] 0)
      [matrix [[2 ^ 63, 0], [0, 2 ^ 63]]] (element_type.unsigned 64)) [] = some 0 ∧
    (∑ i in Finset.range 2, (matrix [[2 ^ 63, 0], [0, 2 ^ 63]]).data [i, i]) = 2 ^ 64 := by
  refine ⟨by decide, by decide⟩

/-- C5 (amended): executing "ii->" on a D×D operand A, for a static extent D ≥ 1 and views
of the element type T, writes into the rank-0 output, whatever it held before, the sum of
the A[i][i] for i below D taken in the element type: the sum itself when the arithmetic of
the type is exact, the sum modulo 2^bits for an unsigned type of `bits` bits; on the 3×3
operand with 1 on the diagonal and 0 elsewhere the output is 3, for the exact arithmetic
and for every unsigned type of two bits or more. -/
theorem trace_sums_diagonal (T : element_type) (D : Nat) (A out : mdspan) (hD : 1 ≤ D)
    (hstatic : D < 2 ^ 64 - 1) (hA : A.extents = [D, D]) (hout : out.extents = []) :
    einsum.cell (einsum.call ⟨"ii->".toList⟩ out [A] T) [] =
      some (T.wrap (∑ i in Finset.range D, A.data [i, i])) ∧
    einsum.cell (einsum.call ⟨"ii->".toList⟩ out [A]) [] =
      some (∑ i in Finset.range D, A.data [i, i]) ∧
    (∀ bits : Nat,
      einsum.cell (einsum.call ⟨"ii->".toList⟩ out [A] (element_type.unsigned bits)) [] =
        some ((∑ i in Finset.range D, A.data [i, i]) % 2 ^ bits)) ∧
    einsum.cell (einsum.call ⟨"ii->".toList⟩ out
      [matrix [[1, 0, 0], [0, 1, 0], [0, 0, 1]]]) [] = some 3 ∧
    ∀ bits : Nat, 2 ≤ bits →
      einsum.cell (einsum.call ⟨"ii->".toList⟩ out
        [matrix [[1, 0, 0], [0, 1, 0], [0, 0, 1]]] (element_type.unsigned bits)) [] =
        some 3 := by
  have h3 : (∑ i in Finset.range 3,
      (matrix [[1, 0, 0], [0, 1, 0], [0, 0, 1]]).data [i, i]) = 3 := by decide
  refine ⟨trace_cell T D hD hstatic A out hA hout,
    trace_cell element_type.exact D hD hstatic A out hA hout,
    fun bits => trace_cell (element_type.unsigned bits) D hD hstatic A out hA hout, ?_, ?_⟩
  · rw [trace_cell element_type.exact 3 (by omega) (by norm_num)
      (matrix [[1, 0, 0], [0, 1, 0], [0, 0, 1]]) out rfl hout, h3]
    rfl
  · intro bits hbits
    rw [trace_cell (element_type.unsigned bits) 3 (by omega) (by norm_num)
      (matrix [[1, 0, 0], [0, 1, 0], [0, 0, 1]]) out rfl hout, h3, wrap_unsigned]
    congr 1
    apply Int.emod_eq_of_lt (by norm_num)
    have h4 : (2 : Int) ^ 2 ≤ 2 ^ bits := pow_le_pow_right₀ (by norm_num) hbits
    have h5 : (2 : Int) ^ 2 = 4 := by norm_num
    omega

/-- Witness of `trace_sums_diagonal`: the 2×2 operand with the rows 1, 2 and 3, 4 in the
unsigned type of 64 bits, with 7 in the output before the call. -/
theorem trace_sums_diagonal_witness :
    einsum.cell (einsum.call ⟨"ii->".toList⟩ (filled [] 7) [matrix [[1, 2], [3, 4]]]
      (element_type.unsigned 64)) [] =
      some ((element_type.unsigned 64).wrap
        (∑ i in Finset.range 2, (matrix [[1, 2], [3, 4]]).data [i, i])) ∧
    einsum.cell (einsum.call ⟨"ii->".toList⟩ (filled [] 7)
      [matrix [[1, 0, 0], [0, 1, 0], [0, 0, 1]]]) [] = some 3 :=
  have h := trace_sums_diagonal (element_type.unsigned 64) 2 (matrix [[1, 2], [3, 4]])
    (filled [] 7) (by decide) (by decide) rfl rfl
  ⟨h.1, h.2.2.2.1⟩

/-! ## The output labels and the free labels -/

/-- C9: for every expression without "->" that parses, the free labels and the output
labels are both the labels that occur once across all factors, in the order of their
occurrence, and `einsum::rank()` is the number of labels that occur exactly once. -/
theorem implicit_output_labels (s : List Char) (p : einsum_parsed)
    (hlen : s.length < 2 ^ 64)
    (harrow : (s.filter (fun c => !str.is_whitespace c)).tails.countP
      (fun t => ['-', '>'].isPrefixOf t) = 0)
    (hp : einsum_parsed.parse s = .ok p) :
    p.free_index_labels_ = p.factor_index_labels_.flatten.filter
      (fun l => p.factor_index_labels_.flatten.count l = 1) ∧
    p.output_index_labels_ = p.factor_index_labels_.flatten.filter
      (fun l => p.factor_index_labels_.flatten.count l = 1) ∧
    ∀ estr : str.fixed_string, estr.sv = s →
      einsum.rank estr = .ok (p.factor_index_labels_.flatten.toFinset.filter
        (fun l => p.factor_index_labels_.flatten.count l = 1)).card := by
  have hfree := parse_free_labels s p hlen hp
  obtain ⟨first, rest, seen, hparts, _, _, _, hout⟩ := parse_spec s p hlen hp
  have hne : s.filter (fun c => !str.is_whitespace c) ≠ [] := by
    intro h
    rw [h] at hparts
    simp [split_arrow] at hparts
  rw [split_arrow_zero _ hne harrow] at hparts
  have hrest : rest = [] := by
    simp only [List.cons.injEq] at hparts
    exact hparts.2.symm
  refine ⟨hfree, ?_, ?_⟩
  · rcases hout with ⟨_, h⟩ | ⟨ret, h, _⟩
    · rw [h, hfree]
    · rw [hrest] at h; simp at h
  · intro estr hsv
    unfold einsum.rank
    rw [hsv, hp]
    simp only
    rw [hfree, once_length_eq_card]

/-- Witness of `implicit_output_labels`. -/
theorem implicit_output_labels_witness :
    (⟨[[['i'], ['j']], [['j'], ['k']]], [['i'], ['k']], [['i'], ['k']],
        [⟨[⟨0, 1⟩, ⟨1, 0⟩]⟩]⟩ : einsum_parsed).free_index_labels_ =
      [['i'], ['j'], ['j'], ['k']].filter (fun l => [['i'], ['j'], ['j'], ['k']].count l = 1) ∧
    (⟨[[['i'], ['j']], [['j'], ['k']]], [['i'], ['k']], [['i'], ['k']],
        [⟨[⟨0, 1⟩, ⟨1, 0⟩]⟩]⟩ : einsum_parsed).output_index_labels_ =
      [['i'], ['j'], ['j'], ['k']].filter (fun l => [['i'], ['j'], ['j'], ['k']].count l = 1) ∧
    ∀ estr : str.fixed_string, estr.sv = "ij,jk".toList →
      einsum.rank estr = .ok ([['i'], ['j'], ['j'], ['k']].toFinset.filter
        (fun l => [['i'], ['j'], ['j'], ['k']].count l = 1)).card :=
  implicit_output_labels "ij,jk".toList
    ⟨[[['i'], ['j']], [['j'], ['k']]], [['i'], ['k']], [['i'], ['k']], [⟨[⟨0, 1⟩, ⟨1, 0⟩]⟩]⟩
    (by decide) (by decide) (by decide)

/-- C10: for every expression with exactly one "->", written pre "->" post once the
whitespace is removed, the decomposition is unique, the expression parses, the output
labels are the code units of post one by one in the order written, and the free labels are
the labels that occur once across the factors, in the order of their occurrence. -/
theorem explicit_output_labels (s : List Char) (hlen : s.length < 2 ^ 64)
    (harrow : (s.filter (fun c => !str.is_whitespace c)).tails.countP
      (fun t => ['-', '>'].isPrefixOf t) = 1) :
    ∃ pre post p,
      s.filter (fun c => !str.is_whitespace c) = pre ++ ['-', '>'] ++ post ∧
      (∀ pre2 post2, s.filter (fun c => !str.is_whitespace c) = pre2 ++ ['-', '>'] ++ post2 →
        pre2 = pre ∧ post2 = post) ∧
      einsum_parsed.parse s = .ok p ∧
      p.output_index_labels_ = post.map (fun c => [c]) ∧
      p.free_index_labels_ = p.factor_index_labels_.flatten.filter
        (fun l => p.factor_index_labels_.flatten.count l = 1) := by
  obtain ⟨pre, post, hs⟩ := arrows_exists _ (Nat.le_of_eq harrow.symm)
  have hsplit := split_arrow_one _ pre post harrow hs
  obtain ⟨p, hp⟩ := parse_succeeds s pre [post] hlen hsplit (by simp)
  refine ⟨pre, post, p, by rw [hs]; simp, ?_, hp, ?_, parse_free_labels s p hlen hp⟩
  · intro pre2 post2 h2
    have h3 := split_arrow_one _ pre2 post2 harrow (by rw [h2]; simp)
    rw [hsplit] at h3
    simp only [List.cons.injEq, and_true] at h3
    exact ⟨h3.1.symm, h3.2.symm⟩
  · obtain ⟨first, rest, seen, hparts, _, _, _, hout⟩ := parse_spec s p hlen hp
    rw [hsplit] at hparts
    simp only [List.cons.injEq] at hparts
    rcases hout with ⟨h, _⟩ | ⟨ret, h, h4⟩
    · rw [h] at hparts; simp at hparts
    · rw [h] at hparts
      simp only [List.cons.injEq, and_true] at hparts
      rw [h4, ← hparts.2]
      rfl

/-- Witness of `explicit_output_labels`. -/
theorem explicit_output_labels_witness :
    ∃ pre post p,
      "ij,jk->ki".toList.filter (fun c => !str.is_whitespace c) = pre ++ ['-', '>'] ++ post ∧
      (∀ pre2 post2,
        "ij,jk->ki".toList.filter (fun c => !str.is_whitespace c) = pre2 ++ ['-', '>'] ++ post2 →
        pre2 = pre ∧ post2 = post) ∧
      einsum_parsed.parse "ij,jk->ki".toList = .ok p ∧
      p.output_index_labels_ = post.map (fun c => [c]) ∧
      p.free_index_labels_ = p.factor_index_labels_.flatten.filter
        (fun l => p.factor_index_labels_.flatten.count l = 1) :=
  explicit_output_labels "ij,jk->ki".toList (by decide) (by decide)

/-! ## Labels that occur three times -/

/-- C3, as stated: parsing "iii->i" does not fail; it yields one contraction group that
holds the three cursors of the label i, no free label and the output label i. -/
theorem parse_label_thrice_succeeds :
    einsum_parsed.parse "iii->i".toList =
      .ok ⟨[[['i'], ['i'], ['i']]], [['i']], [], [⟨[⟨0, 0⟩, ⟨0, 1⟩, ⟨0, 2⟩]⟩]⟩ := by
  decide

/-- C3, amended: an expression that parses and in which a label occurs three times or
more has a contraction group of three or more cursors; `einsum::network()` fails on it, so
that every call of `operator()` with this expression fails; the network of "iii->i" fails
with "Reuction has to have to connect two indices."; and every contraction group of an
expression whose network is built holds exactly two cursors. -/
theorem label_thrice_rejected_by_network (s : List Char) (p : einsum_parsed)
    (l : index_label) (hlen : s.length < 2 ^ 64) (hp : einsum_parsed.parse s = .ok p)
    (hl : 3 ≤ p.factor_index_labels_.flatten.count l) :
    (∃ g ∈ p.contractions_, 3 ≤ g.data_.length) ∧
    (∃ err, einsum.network_of p = .error err) ∧
    (∀ (estr : str.fixed_string) (out : mdspan) (factors : List mdspan), estr.sv = s →
      ∃ err, einsum.call estr out factors = .error err) ∧
    (∀ (p2 : einsum_parsed) (ids : List node_id) (net : tensor_network),
      einsum.network_of p2 = .ok (ids, net) → ∀ g ∈ p2.contractions_, g.data_.length = 2) ∧
    einsum.network ⟨"iii->i".toList⟩ = .error .reduction_not_two_indices := by
  obtain ⟨g, hg, hglen⟩ := group_of_repeated_label s p hlen hp l (by omega)
  obtain ⟨err, herr⟩ := network_of_error p g hg (by omega)
  refine ⟨⟨g, hg, by omega⟩, ⟨err, herr⟩, ?_, ?_, by decide⟩
  · intro estr out factors hsv
    exact call_error_of_network estr p (by unfold einsum.parser; rw [hsv]; exact hp) err herr
      out factors
  · intro p2 ids net h g2 hg2
    exact network_of_groups p2 ids net h g2 hg2

/-- Witness of `label_thrice_rejected_by_network`. -/
theorem label_thrice_rejected_by_network_witness :
    (∃ g ∈ [(⟨[⟨0, 0⟩, ⟨0, 1⟩, ⟨0, 2⟩]⟩ : contraction)], 3 ≤ g.data_.length) ∧
    (∃ err, einsum.network_of
      ⟨[[['i'], ['i'], ['i']]], [['i']], [], [⟨[⟨0, 0⟩, ⟨0, 1⟩, ⟨0, 2⟩]⟩]⟩ = .error err) ∧
    (∀ (estr : str.fixed_string) (out : mdspan) (factors : List mdspan),
      estr.sv = "iii->i".toList → ∃ err, einsum.call estr out factors = .error err) ∧
    (∀ (p2 : einsum_parsed) (ids : List node_id) (net : tensor_network),
      einsum.network_of p2 = .ok (ids, net) → ∀ g ∈ p2.contractions_, g.data_.length = 2) ∧
    einsum.network ⟨"iii->i".toList⟩ = .error .reduction_not_two_indices :=
  label_thrice_rejected_by_network "iii->i".toList
    ⟨[[['i'], ['i'], ['i']]], [['i']], [], [⟨[⟨0, 0⟩, ⟨0, 1⟩, ⟨0, 2⟩]⟩]⟩ ['i']
    (by decide) (by decide) (by decide)

/-! ## Direct evaluation: the defining sum -/

/-- When `add_edge` succeeds. -/
theorem add_edge_ok (net : tensor_network) (a b : index_location) (na nb : node)
    (hab : a ≠ b)
    (ha : net.nodes_.find? (fun n => n.id = a.id) = some na)
    (hb : net.nodes_.find? (fun n => n.id = b.id) = some nb)
    (hra : a.index < na.rank) (hrb : b.index < nb.rank)
    (hfree : ∀ e ∈ net.edges_, e.left ≠ a ∧ e.left ≠ b ∧ e.right ≠ a ∧ e.right ≠ b) :
    net.add_edge a b = .ok ⟨net.nodes_, net.next_id_, net.edges_ ++ [⟨a, b⟩]⟩ := by
  unfold tensor_network.add_edge
  rw [if_neg hab, ha, hb]
  simp only
  have h1 : ¬ (na.rank ≤ a.index ∨ nb.rank ≤ b.index) := by omega
  rw [if_neg h1]
  have h2 : net.edges_.any (fun e => e.left = a || e.left = b || e.right = a || e.right = b)
      = false := by
    rw [List.any_eq_false]
    intro e he
    obtain ⟨h3, h4, h5, h6⟩ := hfree e he
    simp [h3, h4, h5, h6]
  rw [h2]
  simp

/-- What a successful `add_edge` has checked, and what it returns. -/
theorem add_edge_inv (net net2 : tensor_network) (a b : index_location)
    (h : net.add_edge a b = .ok net2) :
    a ≠ b ∧
    (∃ na, net.nodes_.find? (fun n => n.id = a.id) = some na ∧ a.index < na.rank) ∧
    (∃ nb, net.nodes_.find? (fun n => n.id = b.id) = some nb ∧ b.index < nb.rank) ∧
    (∀ e ∈ net.edges_, e.left ≠ a ∧ e.left ≠ b ∧ e.right ≠ a ∧ e.right ≠ b) ∧
    net2 = ⟨net.nodes_, net.next_id_, net.edges_ ++ [⟨a, b⟩]⟩ := by
  unfold tensor_network.add_edge at h
  by_cases hab : a = b
  · rw [if_pos hab] at h; cases h
  · rw [if_neg hab] at h
    cases ha : net.nodes_.find? (fun n => n.id = a.id) with
    | none => rw [ha] at h; cases h
    | some na =>
      cases hb : net.nodes_.find? (fun n => n.id = b.id) with
      | none => rw [ha, hb] at h; cases h
      | some nb =>
        rw [ha, hb] at h
        simp only at h
        by_cases h1 : na.rank ≤ a.index ∨ nb.rank ≤ b.index
        · rw [if_pos h1] at h; cases h
        · rw [if_neg h1] at h
          by_cases h2 : net.edges_.any
              (fun e => e.left = a || e.left = b || e.right = a || e.right = b) = true
          · rw [if_pos h2] at h; cases h
          · rw [if_neg h2] at h
            simp only [Except.ok.injEq] at h
            refine ⟨hab, ⟨na, rfl, by omega⟩, ⟨nb, rfl, by omega⟩, ?_, h.symm⟩
            intro e he
            rw [Bool.not_eq_true, List.any_eq_false] at h2
            have := h2 e he
            simp only [Bool.or_eq_true, decide_eq_true_eq, not_or] at this
            tauto


theorem find_of_mem_nodup (nodes : List node) (hnd : (nodes.map (fun n => n.id)).Nodup)
    (n : node) (hn : n ∈ nodes) : nodes.find? (fun m => m.id = n.id) = some n := by
  induction nodes with
  | nil => cases hn
  | cons a r ih =>
    rw [List.map_cons, List.nodup_cons] at hnd
    rw [List.find?_cons]
    rcases List.mem_cons.mp hn with h | h
    · subst h; simp
    · have hne : a.id ≠ n.id := by
        intro h2
        apply hnd.1
        rw [h2]
        exact List.mem_map.mpr ⟨n, h, rfl⟩
      simp only [hne, decide_False]
      exact ih hnd.2 h

theorem well_formed_add_edge (net net2 : tensor_network) (a b : index_location)
    (hwf : well_formed net) (h : net.add_edge a b = .ok net2) : well_formed net2 := by
  obtain ⟨hab, ⟨na, hna, hra⟩, ⟨nb, hnb, hrb⟩, hfree, hnet2⟩ := add_edge_inv net net2 a b h
  subst hnet2
  have hna2 := List.find?_some hna
  have hnb2 := List.find?_some hnb
  simp only [decide_eq_true_eq] at hna2 hnb2
  constructor
  · exact hwf.ids_nodup
  · intro e he
    rcases List.mem_append.mp he with h1 | h1
    · exact hwf.ends_differ e h1
    · rw [List.mem_singleton] at h1; subst h1; exact hab
  · intro e he
    rcases List.mem_append.mp he with h1 | h1
    · exact hwf.left_valid e h1
    · rw [List.mem_singleton] at h1; subst h1
      exact ⟨na, List.mem_of_find?_eq_some hna, hna2, hra⟩
  · intro e he
    rcases List.mem_append.mp he with h1 | h1
    · exact hwf.right_valid e h1
    · rw [List.mem_singleton] at h1; subst h1
      exact ⟨nb, List.mem_of_find?_eq_some hnb, hnb2, hrb⟩
  · show (net.edges_ ++ [(⟨a, b⟩ : edge)]).Pairwise edge.apart
    rw [List.pairwise_append]
    refine ⟨hwf.apart, List.pairwise_singleton _ _, ?_⟩
    intro e he e2 he2
    rw [List.mem_singleton] at he2
    subst he2
    obtain ⟨h1, h2, h3, h4⟩ := hfree e he
    exact ⟨fun h5 => h1 h5.symm, fun h5 => h3 h5.symm, fun h5 => h2 h5.symm,
      fun h5 => h4 h5.symm⟩

/-- The nodes that `einsum::network` adds: one per factor, with pairwise different ids. -/
theorem network_nodes_from (fl : List factor_index_labels_vec) (ids0 : List node_id)
    (net0 : tensor_network) (hn : net0.next_id_ + fl.length < 2 ^ 64) :
    fl.foldl (fun acc labels => (acc.1 ++ [(acc.2.add_node labels.length).1],
        (acc.2.add_node labels.length).2)) (ids0, net0) =
      (ids0 ++ (fl.enumFrom net0.next_id_).map (fun t => (⟨t.1⟩ : node_id)),
        (⟨net0.nodes_ ++
            (fl.enumFrom net0.next_id_).map (fun t => (⟨⟨t.1⟩, t.2.length⟩ : node)),
          net0.next_id_ + fl.length, net0.edges_⟩ : tensor_network)) := by
  induction fl generalizing ids0 net0 with
  | nil => simp
  | cons x fl ih =>
    simp only [List.length_cons] at hn
    have h1 : size_add net0.next_id_ 1 = net0.next_id_ + 1 := by
      unfold size_add size_t_card
      exact Nat.mod_eq_of_lt (by omega)
    rw [List.foldl_cons, ih]
    · simp only [tensor_network.add_node, h1, List.enumFrom_cons, List.map_cons,
        List.append_assoc, List.singleton_append, List.length_cons]
      congr 2
      omega
    · simp only [tensor_network.add_node, h1]
      omega

theorem network_nodes_spec (fl : List factor_index_labels_vec) (hn : fl.length < 2 ^ 64) :
    (einsum.network_nodes fl).2.nodes_.length = fl.length ∧
    (einsum.network_nodes fl).2.edges_ = [] ∧
    ((einsum.network_nodes fl).2.nodes_.map (fun n => n.id)).Nodup := by
  unfold einsum.network_nodes
  rw [network_nodes_from fl [] tensor_network.empty
    (by simp only [tensor_network.empty]; omega)]
  simp only [tensor_network.empty, List.nil_append, List.length_map, List.enumFrom_length,
    List.map_map, true_and]
  have h : ((fun n : node => n.id) ∘ fun t : Nat × factor_index_labels_vec =>
      (⟨⟨t.1⟩, t.2.length⟩ : node)) = (fun i => (⟨i⟩ : node_id)) ∘ Prod.fst := by
    funext t; rfl
  rw [h, ← List.map_map, List.enumFrom_map_fst]
  apply List.Nodup.map _ (List.nodup_range' _ _)
  intro a b hab
  simpa using hab

/-- What a successful `network_edge` has done. -/
theorem network_edge_inv (ids : List node_id) (net net2 : tensor_network) (g : contraction)
    (h : einsum.network_edge ids net g = .ok net2) :
    ∃ l r lhs rhs, g.data_ = [l, r] ∧ ids[l.factor]? = some lhs ∧ ids[r.factor]? = some rhs ∧
      net.add_edge ⟨lhs, l.index⟩ ⟨rhs, r.index⟩ = .ok net2 := by
  unfold einsum.network_edge sstd.constexpr_set.get_data at h
  match hd : g.data_, h with
  | [], h => cases h
  | [_], h => cases h
  | _ :: _ :: _ :: _, h => cases h
  | [l, r], h =>
    simp only at h
    cases h1 : ids.get? l.factor with
    | none => rw [h1] at h; cases h
    | some lhs =>
      cases h2 : ids.get? r.factor with
      | none => rw [h1, h2] at h; cases h
      | some rhs =>
        rw [h1, h2] at h
        rw [List.get?_eq_getElem?] at h1 h2
        exact ⟨l, r, lhs, rhs, rfl, h1, h2, h⟩

/-- The loop of `einsum::network` over the contractions keeps the nodes, and adds one edge
per contraction, between the nodes of the factors of its two cursors. -/
theorem network_fold_spec (ids : List node_id) (gs : List contraction)
    (net0 net : tensor_network) (hwf : well_formed net0)
    (h : gs.foldlM (einsum.network_edge ids) net0 = .ok net) :
    well_formed net ∧ net.nodes_ = net0.nodes_ ∧ net.next_id_ = net0.next_id_ ∧
    ∃ new, net.edges_ = net0.edges_ ++ new ∧ new.length = gs.length ∧
      ∀ e ∈ new, ∃ g ∈ gs, ∃ l r lhs rhs, g.data_ = [l, r] ∧ ids[l.factor]? = some lhs ∧
        ids[r.factor]? = some rhs ∧ e = ⟨⟨lhs, l.index⟩, ⟨rhs, r.index⟩⟩ := by
  induction gs generalizing net0 with
  | nil =>
    simp only [List.foldlM_nil, pure, Except.pure, Except.ok.injEq] at h
    subst h
    exact ⟨hwf, rfl, rfl, [], by simp, rfl, by simp⟩
  | cons g gs ih =>
    rw [List.foldlM_cons] at h
    cases h1 : einsum.network_edge ids net0 g with
    | error err => rw [h1] at h; cases h
    | ok net1 =>
      rw [h1] at h
      obtain ⟨l, r, lhs, rhs, hd, hl, hr, hadd⟩ := network_edge_inv ids net0 net1 g h1
      have hwf1 := well_formed_add_edge net0 net1 _ _ hwf hadd
      obtain ⟨_, _, _, _, hnet1⟩ := add_edge_inv net0 net1 _ _ hadd
      obtain ⟨hwf2, hn, hid, new, hnew, hlen, hall⟩ := ih net1 hwf1 h
      subst hnet1
      refine ⟨hwf2, hn, hid, (⟨⟨lhs, l.index⟩, ⟨rhs, r.index⟩⟩ : edge) :: new, ?_, ?_, ?_⟩
      · rw [hnew]; simp
      · simp [hlen]
      · intro e he
        rcases List.mem_cons.mp he with h2 | h2
        · exact ⟨g, List.mem_cons_self _ _, l, r, lhs, rhs, hd, hl, hr, h2⟩
        · obtain ⟨g2, hg2, rest⟩ := hall e h2
          exact ⟨g2, List.mem_cons_of_mem _ hg2, rest⟩

theorem well_formed_network_nodes (fl : List factor_index_labels_vec)
    (hn : fl.length < 2 ^ 64) : well_formed (einsum.network_nodes fl).2 := by
  obtain ⟨_, h2, h3⟩ := network_nodes_spec fl hn
  constructor
  · exact h3
  · intro e he; rw [h2] at he; cases he
  · intro e he; rw [h2] at he; cases he
  · intro e he; rw [h2] at he; cases he
  · rw [h2]; exact List.Pairwise.nil

/-- What `einsum::network` builds from a parsed expression. -/
theorem network_of_spec (p : einsum_parsed) (ids : List node_id) (net : tensor_network)
    (hfac : p.factor_index_labels_.length < 2 ^ 64)
    (hnet : einsum.network_of p = .ok (ids, net)) :
    well_formed net ∧ net.nodes_.length = p.factor_index_labels_.length ∧
    net.edges_.length = p.contractions_.length ∧
    ∀ e ∈ net.edges_, ∃ g ∈ p.contractions_, ∃ l r lhs rhs, g.data_ = [l, r] ∧
      ids[l.factor]? = some lhs ∧ ids[r.factor]? = some rhs ∧
      e = ⟨⟨lhs, l.index⟩, ⟨rhs, r.index⟩⟩ := by
  unfold einsum.network_of at hnet
  simp only at hnet
  cases h : p.contractions_.foldlM
      (einsum.network_edge (einsum.network_nodes p.factor_index_labels_).1)
      (einsum.network_nodes p.factor_index_labels_).2 with
  | error err => rw [h] at hnet; cases hnet
  | ok net1 =>
    rw [h] at hnet
    simp only [Except.ok.injEq, Prod.mk.injEq] at hnet
    obtain ⟨hids, hn1⟩ := hnet
    subst hids hn1
    obtain ⟨hwf, hn, _, new, hnew, hlen, hall⟩ := network_fold_spec _ _ _ _
      (well_formed_network_nodes _ hfac) h
    obtain ⟨h1, h2, _⟩ := network_nodes_spec p.factor_index_labels_ hfac
    rw [h2, List.nil_append] at hnew
    rw [hnew]
    exact ⟨hwf, by rw [hn, h1], hlen, hall⟩

/-- The split of a range with two arrows or more has three parts or more. -/
theorem split_arrow_three (s : List Char)
    (h : 2 ≤ s.tails.countP (fun t => ['-', '>'].isPrefixOf t)) :
    ∃ a b c r, split_arrow s = a :: b :: c :: r := by
  have hne : s ≠ [] := by
    intro h0
    rw [h0, arrows_nil] at h
    omega
  have hlen := split_arrow_from_parts s.length s [] (Nat.le_refl _)
  unfold split_arrow
  rw [if_neg hne]
  have h3 : 3 ≤ (split_arrow_from [] s).length := by omega
  match split_arrow_from [] s, h3 with
  | [], hl => simp at hl
  | [_], hl => simp at hl
  | [_, _], hl => simp at hl
  | a :: b :: c :: r, _ => exact ⟨a, b, c, r, rfl⟩

/-- C11: parsing fails for every text whose whitespace-stripped form contains two or more
occurrences of "->"; when the text has a length representable in `std::size_t` the failure
is the error "-> can only appear once.". -/
theorem parse_fails_on_two_arrows (s : List Char)
    (h : 2 ≤ (s.filter (fun c => !str.is_whitespace c)).tails.countP
      (fun t => ['-', '>'].isPrefixOf t)) :
    (∃ err, einsum_parsed.parse s = .error err) ∧
    (s.length < 2 ^ 64 → einsum_parsed.parse s = .error .arrow_appears_twice) := by
  obtain ⟨a, b, c, r, hparts⟩ := split_arrow_three _ h
  constructor
  · unfold einsum_parsed.parse
    rw [hparts]
    simp only [List.headD_cons]
    cases (iterate_index_labels_with_cursor ((split_comma a).map split_to_index_labels)).foldlM
        parser_step ([], []) with
    | error err => exact ⟨err, rfl⟩
    | ok st => exact ⟨.arrow_appears_twice, by simp⟩
  · intro hlen
    obtain ⟨st, hst, _⟩ := parser_loop_spec _ (factor_labels_length s a (b :: c :: r) hlen hparts)
    unfold einsum_parsed.parse
    rw [hparts]
    simp only [List.headD_cons]
    rw [hst]
    simp

/-- Witness of `parse_fails_on_two_arrows`: the text "a->b->c". -/
theorem parse_fails_on_two_arrows_witness :
    (∃ err, einsum_parsed.parse "a->b->c".toList = .error err) ∧
    ("a->b->c".toList.length < 2 ^ 64 →
      einsum_parsed.parse "a->b->c".toList = .error .arrow_appears_twice) :=
  parse_fails_on_two_arrows "a->b->c".toList (by decide)

/-- C12: the text "->" produces no factor and parses, into the expression without
factors, contraction groups, free labels and output labels. -/
theorem parse_lone_arrow_succeeds :
    einsum_parsed.parse "->".toList = .ok ⟨[], [], [], []⟩ := by
  decide

/-- C12 (amended): parsing fails for every text whose whitespace-stripped form is empty,
with the error "-> can only appear once." (the split at the arrow has no part, the loops
over the factors and the labels run zero times, and the count of the parts is neither 1
nor 2); a text whose stripped form starts with its only "->" parses, into the expression
without factors whose output labels are the code units after the arrow. -/
theorem parse_without_factors (s : List Char) :
    (s.filter (fun c => !str.is_whitespace c) = [] →
      einsum_parsed.parse s = .error .arrow_appears_twice) ∧
    (∀ post : List Char, s.filter (fun c => !str.is_whitespace c) = '-' :: '>' :: post →
      post.tails.countP (fun t => ['-', '>'].isPrefixOf t) = 0 →
      einsum_parsed.parse s = .ok ⟨[], split_to_index_labels post, [], []⟩) := by
  constructor
  · intro h
    unfold einsum_parsed.parse
    rw [h]
    rfl
  · intro post h h0
    have h1 : ('-' :: '>' :: post).tails.countP (fun t => ['-', '>'].isPrefixOf t) = 1 := by
      rw [arrows_arrow, h0]
    have h2 := split_arrow_one ('-' :: '>' :: post) [] post h1 rfl
    unfold einsum_parsed.parse
    rw [h, h2]
    rfl

/-- Witness of `parse_without_factors`: the empty text fails, and "->ab" parses into the
expression without factors whose output labels are a and b. -/
theorem parse_without_factors_witness :
    einsum_parsed.parse "".toList = .error .arrow_appears_twice ∧
    einsum_parsed.parse "->ab".toList = .ok ⟨[], [['a'], ['b']], [], []⟩ :=
  ⟨(parse_without_factors "".toList).1 (by decide),
    (parse_without_factors "->ab".toList).2 "ab".toList (by decide) (by decide)⟩

/-- C13: parsing a text gives the same outcome (the same parsed expression or the same
failure) as parsing the text with every whitespace character removed, the whitespace
characters being space, newline, carriage return, form feed, vertical tab and tab. -/
theorem parse_ignores_whitespace (s : List Char) :
    einsum_parsed.parse (s.filter (fun c => !str.is_whitespace c)) = einsum_parsed.parse s ∧
    ∀ c : Char, str.is_whitespace c = true ↔
      (c = ' ' ∨ c = '\n' ∨ c = '\r' ∨ c = Char.ofNat 12 ∨ c = Char.ofNat 11 ∨ c = '\t') := by
  constructor
  · unfold einsum_parsed.parse
    rw [List.filter_filter]
    simp only [Bool.and_self]
  · intro c
    unfold str.is_whitespace
    simp only [List.any_cons, List.any_nil, Bool.or_false, Bool.or_eq_true, beq_iff_eq]

/-! ## The contraction groups and the labels -/

/-- A label that occurs twice or more has a contraction group made of its cursors. -/
theorem group_of_repeated_label_cursors (s : List Char) (p : einsum_parsed)
    (hlen : s.length < 2 ^ 64) (hp : einsum_parsed.parse s = .ok p) (l : index_label)
    (hl : 2 ≤ p.factor_index_labels_.flatten.count l) :
    ∃ (k : Nat) (g : contraction), p.contractions_[k]? = some g ∧
      g.data_ = ((iterate_index_labels_with_cursor p.factor_index_labels_).filter
        (fun t => t.2 = l)).map (fun t => t.1) := by
  obtain ⟨first, rest, seen, _, _, inv, _, _⟩ := parse_spec s p hlen hp
  have hmem : l ∈ (iterate_index_labels_with_cursor p.factor_index_labels_).map
      (fun t => t.2) := by
    rw [iterate_labels]
    exact List.count_pos_iff.mp (by omega)
  obtain ⟨t, ht, htl⟩ := List.mem_map.mp hmem
  have hseen := inv.seen_of_done t ht
  rw [htl] at hseen
  obtain ⟨e, he, hel⟩ := List.mem_map.mp hseen
  have hcount := count_label_eq (iterate_index_labels_with_cursor p.factor_index_labels_) l
  rw [iterate_labels] at hcount
  have hne : e.2.1 ≠ not_contraction := by
    intro h
    have := inv.entry_once e he h
    rw [hel] at this
    rw [this] at hcount
    simp only [List.length_singleton] at hcount
    omega
  obtain ⟨g, hg, hd, _⟩ := inv.entry_group e he hne
  simp only at hg
  refine ⟨e.2.1, g, hg, ?_⟩
  rw [hd, hel]

theorem cursors_of_label_nodup (fl : List factor_index_labels_vec) (l : index_label) :
    (((iterate_index_labels_with_cursor fl).filter (fun t => t.2 = l)).map
      (fun t => t.1)).Nodup :=
  List.Nodup.sublist ((List.filter_sublist _).map _) (iterate_nodup fl)

theorem mem_cursors_iff (fl : List factor_index_labels_vec) (l : index_label)
    (c : index_cursor) :
    c ∈ ((iterate_index_labels_with_cursor fl).filter (fun t => t.2 = l)).map (fun t => t.1) ↔
      ∃ labels, fl[c.factor]? = some labels ∧ labels[c.index]? = some l := by
  rw [mem_cursors_of_label, iterate_mem]

/-- C14: for every successfully parsed expression there is exactly one contraction group
for each label that occurs more than once across the factors; every contraction group is
the group of such a label, and holds, once each, the cursors at which its label stands
and no other cursor; and a cursor belongs to at most one contraction group. -/
theorem contraction_groups_of_labels (s : List Char) (p : einsum_parsed)
    (hlen : s.length < 2 ^ 64) (hp : einsum_parsed.parse s = .ok p) :
    (∀ l : index_label, 2 ≤ p.factor_index_labels_.flatten.count l →
      ∃! k : Nat, ∃ g : contraction, p.contractions_[k]? = some g ∧
        ∀ c : index_cursor, c ∈ g.data_ ↔
          ∃ labels, p.factor_index_labels_[c.factor]? = some labels ∧
            labels[c.index]? = some l) ∧
    (∀ (k : Nat) (g : contraction), p.contractions_[k]? = some g →
      ∃ l : index_label, 2 ≤ p.factor_index_labels_.flatten.count l ∧ g.data_.Nodup ∧
        g.data_.length = p.factor_index_labels_.flatten.count l ∧
        ∀ c : index_cursor, c ∈ g.data_ ↔
          ∃ labels, p.factor_index_labels_[c.factor]? = some labels ∧
            labels[c.index]? = some l) ∧
    (∀ (k1 k2 : Nat) (g1 g2 : contraction) (c : index_cursor),
      p.contractions_[k1]? = some g1 → p.contractions_[k2]? = some g2 →
      c ∈ g1.data_ → c ∈ g2.data_ → k1 = k2) := by
  refine ⟨?_, ?_, ?_⟩
  · intro l hl
    obtain ⟨k, g, hg, hd⟩ := group_of_repeated_label_cursors s p hlen hp l hl
    have hmem : ∀ c : index_cursor, c ∈ g.data_ ↔
        ∃ labels, p.factor_index_labels_[c.factor]? = some labels ∧
          labels[c.index]? = some l := by
      intro c
      rw [hd]
      exact mem_cursors_iff _ l c
    refine ⟨k, ⟨g, hg, hmem⟩, ?_⟩
    rintro k2 ⟨g2, hg2, hmem2⟩
    have hcount := count_label_eq (iterate_index_labels_with_cursor p.factor_index_labels_) l
    rw [iterate_labels, ← hd] at hcount
    match hdata : g.data_, hcount with
    | [], h0 => simp at h0; omega
    | c :: _, _ =>
      have hc : (c : index_cursor) ∈ g.data_ := by rw [hdata]; exact List.mem_cons_self _ _
      have hc2 : c ∈ g2.data_ := (hmem2 c).mpr ((hmem c).mp hc)
      exact group_unique s p hlen hp k2 k g2 g c hg2 hg hc2 hc
  · intro k g hg
    obtain ⟨l, hd, h2⟩ := group_of_label s p hlen hp k g hg
    have hcount := count_label_eq (iterate_index_labels_with_cursor p.factor_index_labels_) l
    rw [iterate_labels, ← hd] at hcount
    refine ⟨l, by omega, ?_, hcount.symm, ?_⟩
    · rw [hd]
      exact cursors_of_label_nodup _ l
    · intro c
      rw [hd]
      exact mem_cursors_iff _ l c
  · intro k1 k2 g1 g2 c h1 h2 hc1 hc2
    exact group_unique s p hlen hp k1 k2 g1 g2 c h1 h2 hc1 hc2

/-- Witness of `contraction_groups_of_labels`: the only contraction group of "ij,jk->ik"
is the group of the label j. -/
theorem contraction_groups_of_labels_witness :
    ∃ l : index_label,
      2 ≤ ([[['i'], ['j']], [['j'], ['k']]] : List factor_index_labels_vec).flatten.count l ∧
      ([⟨0, 1⟩, ⟨1, 0⟩] : List index_cursor).Nodup ∧
      ([⟨0, 1⟩, ⟨1, 0⟩] : List index_cursor).length =
        ([[['i'], ['j']], [['j'], ['k']]] : List factor_index_labels_vec).flatten.count l ∧
      ∀ c : index_cursor, c ∈ ([⟨0, 1⟩, ⟨1, 0⟩] : List index_cursor) ↔
        ∃ labels, ([[['i'], ['j']], [['j'], ['k']]] : List factor_index_labels_vec)[c.factor]?
            = some labels ∧ labels[c.index]? = some l :=
  (contraction_groups_of_labels "ij,jk->ik".toList
    ⟨[[['i'], ['j']], [['j'], ['k']]], [['i'], ['k']], [['i'], ['k']], [⟨[⟨0, 1⟩, ⟨1, 0⟩]⟩]⟩
    (by decide) (by decide)).2.1 0 ⟨[⟨0, 1⟩, ⟨1, 0⟩]⟩ rfl

/-! ## Validation of the ranks -/

theorem zip_all_lengths (A : List (List Nat)) (B : List factor_index_labels_vec)
    (h : A.length = B.length) :
    (A.zip B).all (fun t => decide (t.1.length = t.2.length)) =
      decide (A.map List.length = B.map List.length) := by
  induction A generalizing B with
  | nil =>
    cases B with
    | nil => simp
    | cons b B => simp at h
  | cons a A ih =>
    cases B with
    | nil => simp at h
    | cons b B =>
      simp only [List.length_cons, Nat.add_right_cancel_iff] at h
      simp only [List.zip_cons_cons, List.all_cons, ih B h, List.map_cons, List.cons.injEq]
      by_cases h1 : a.length = b.length <;>
        by_cases h2 : A.map List.length = B.map List.length <;> simp [h1, h2]

theorem valid_factor_types_eq (MDS : List (List Nat)) (s : List Char) (p : einsum_parsed)
    (hp : einsum_parsed.parse s = .ok p) :
    einsum_valid_factor_types MDS s =
      .ok (decide (MDS.map List.length = p.factor_index_labels_.map List.length)) := by
  unfold einsum_valid_factor_types
  rw [hp]
  simp only [einsum_parsed.number_of_factors]
  by_cases h : MDS.length = p.factor_index_labels_.length
  · rw [if_neg (by simpa using h), zip_all_lengths _ _ h]
  · rw [if_pos h]
    have : ¬ MDS.map List.length = p.factor_index_labels_.map List.length := by
      intro h2
      apply h
      have := congrArg List.length h2
      simpa using this
    simp [this]

theorem valid_ouput_type_eq (OutMDS : List Nat) (s : List Char) (p : einsum_parsed)
    (hp : einsum_parsed.parse s = .ok p) :
    einsum_valid_ouput_type OutMDS s =
      .ok (decide (p.output_index_labels_.length = OutMDS.length)) := by
  unfold einsum_valid_ouput_type
  rw [hp]

/-- C15: for a parsed expression, `einsum_valid_factor_types` holds exactly when the ranks
of the operand views are, one by one, the numbers of labels of the parsed factors (as many
views as factors, every rank the number of labels of its factor),
`einsum_valid_ouput_type` holds exactly when the rank of the output view is the number of
output labels, and a call that violates either is rejected by the constraint of
`operator()`, before anything is computed. -/
theorem rank_validation (estr : str.fixed_string) (p : einsum_parsed)
    (hp : einsum.parser estr = .ok p) (OutMDS : List Nat) (MDS : List (List Nat)) :
    (einsum_valid_factor_types MDS estr.sv = .ok true ↔
      MDS.length = p.factor_index_labels_.length ∧
      ∀ (f : Nat) (M : List Nat) (labels : factor_index_labels_vec), MDS[f]? = some M →
        p.factor_index_labels_[f]? = some labels → M.length = labels.length) ∧
    (einsum_valid_factor_types MDS estr.sv = .ok true ∨
      einsum_valid_factor_types MDS estr.sv = .ok false) ∧
    (einsum_valid_ouput_type OutMDS estr.sv = .ok true ↔
      OutMDS.length = p.output_index_labels_.length) ∧
    (einsum_valid_ouput_type OutMDS estr.sv = .ok true ∨
      einsum_valid_ouput_type OutMDS estr.sv = .ok false) ∧
    ∀ (out : mdspan) (factors : List mdspan),
      (out.rank ≠ p.output_index_labels_.length ∨
        factors.map (fun f => f.rank) ≠ p.factor_index_labels_.map List.length) →
      einsum.call estr out factors = .error .not_einsum_compatible := by
  have hp2 : einsum_parsed.parse estr.sv = .ok p := hp
  have hf := valid_factor_types_eq MDS estr.sv p hp2
  have ho := valid_ouput_type_eq OutMDS estr.sv p hp2
  refine ⟨?_, ?_, ?_, ?_, ?_⟩
  · constructor
    · intro h
      exact valid_factor_types_length MDS estr.sv p hp2 h
    · rintro ⟨h1, h2⟩
      rw [hf]
      have : MDS.map List.length = p.factor_index_labels_.map List.length := by
        apply List.ext_getElem?
        intro i
        rw [List.getElem?_map, List.getElem?_map]
        cases hM : MDS[i]? with
        | none =>
          have : p.factor_index_labels_[i]? = none := by
            rw [List.getElem?_eq_none_iff] at hM ⊢
            omega
          rw [this]
          rfl
        | some M =>
          cases hl : p.factor_index_labels_[i]? with
          | none =>
            exfalso
            rw [List.getElem?_eq_none_iff] at hl
            have := (List.getElem?_eq_some_iff.mp hM).1
            omega
          | some labels =>
            simp only [Option.map_some']
            rw [h2 i M labels hM hl]
      simp [this]
  · rw [hf]
    by_cases h : MDS.map List.length = p.factor_index_labels_.map List.length <;> simp [h]
  · rw [ho]
    simp only [Except.ok.injEq, decide_eq_true_eq]
    exact eq_comm
  · rw [ho]
    by_cases h : p.output_index_labels_.length = OutMDS.length <;> simp [h]
  · intro out factors hbad
    have hc : einsum_compatible estr out.extents (factors.map (fun f => f.extents)) =
        .ok false := by
      unfold einsum_compatible
      rw [valid_ouput_type_eq out.extents estr.sv p hp2,
        valid_factor_types_eq (factors.map (fun f => f.extents)) estr.sv p hp2]
      split_ifs with h1 h2
      · rfl
      · rfl
      · by_cases h3 : p.output_index_labels_.length = out.extents.length
        · simp only [h3, decide_True]
          rcases hbad with h4 | h4
          · exact absurd h3.symm h4
          · have : ¬ (factors.map (fun f => f.extents)).map List.length =
                p.factor_index_labels_.map List.length := by
              rw [List.map_map]
              exact h4
            rw [decide_eq_false this]
        · simp [h3]
    unfold einsum.call einsum.call_bounded
    rw [hc]

/-- Witness of `rank_validation`: a call of "ij,jk->ik" with an output view of rank one
is rejected. -/
theorem rank_validation_witness :
    einsum.call ⟨"ij,jk->ik".toList⟩ (filled [2] 0)
      [matrix [[1, 2], [3, 4]], matrix [[0, 1], [1, 0]]] = .error .not_einsum_compatible :=
  (rank_validation ⟨"ij,jk->ik".toList⟩
    ⟨[[['i'], ['j']], [['j'], ['k']]], [['i'], ['k']], [['i'], ['k']], [⟨[⟨0, 1⟩, ⟨1, 0⟩]⟩]⟩
    (by decide) [2] [[2, 2], [2, 2]]).2.2.2.2 (filled [2] 0)
    [matrix [[1, 2], [3, 4]], matrix [[0, 1], [1, 0]]] (Or.inl (by decide))

/-! ## Validation of the extents -/

theorem foldl_max_bounds (l : List Nat) (a : Nat) :
    a ≤ l.foldl max a ∧ ∀ x ∈ l, x ≤ l.foldl max a := by
  induction l generalizing a with
  | nil => simp
  | cons b l ih =>
    rw [List.foldl_cons]
    obtain ⟨h1, h2⟩ := ih (max a b)
    refine ⟨le_trans (le_max_left a b) h1, ?_⟩
    intro x hx
    rcases List.mem_cons.mp hx with h | h
    · rw [h]; exact le_trans (le_max_right a b) h1
    · exact h2 x h

theorem foldl_min_bounds (l : List Nat) (a : Nat) :
    l.foldl min a ≤ a ∧ ∀ x ∈ l, l.foldl min a ≤ x := by
  induction l generalizing a with
  | nil => simp
  | cons b l ih =>
    rw [List.foldl_cons]
    obtain ⟨h1, h2⟩ := ih (min a b)
    refine ⟨le_trans h1 (min_le_left a b), ?_⟩
    intro x hx
    rcases List.mem_cons.mp hx with h | h
    · rw [h]; exact le_trans h1 (min_le_right a b)
    · exact h2 x h

theorem foldl_max_const (l : List Nat) (a : Nat) (h : ∀ x ∈ l, x = a) : l.foldl max a = a := by
  induction l with
  | nil => rfl
  | cons b l ih =>
    rw [List.foldl_cons, h b (List.mem_cons_self _ _), max_self]
    exact ih (fun x hx => h x (List.mem_cons_of_mem _ hx))

theorem foldl_min_const (l : List Nat) (a : Nat) (h : ∀ x ∈ l, x = a) : l.foldl min a = a := by
  induction l with
  | nil => rfl
  | cons b l ih =>
    rw [List.foldl_cons, h b (List.mem_cons_self _ _), min_self]
    exact ih (fun x hx => h x (List.mem_cons_of_mem _ hx))

/-- The largest and the smallest of the found dimensions agree exactly when all of them
are one number. -/
theorem max_eq_min_iff (d : Nat) (ds : List Nat) :
    (d :: ds).foldl max d = (d :: ds).foldl min d ↔ ∀ x ∈ ds, x = d := by
  constructor
  · intro h x hx
    obtain ⟨h1, h2⟩ := foldl_max_bounds (d :: ds) d
    obtain ⟨h3, h4⟩ := foldl_min_bounds (d :: ds) d
    have h5 := h2 x (List.mem_cons_of_mem _ hx)
    have h6 := h4 x (List.mem_cons_of_mem _ hx)
    omega
  · intro h
    have h2 : ∀ x ∈ d :: ds, x = d := by
      intro x hx
      rcases List.mem_cons.mp hx with h3 | h3
      · exact h3
      · exact h x h3
    rw [foldl_max_const _ _ h2, foldl_min_const _ _ h2]

/-- The lambda `mds_dim` accepts a view exactly when its extents are one positive number,
and then finds the first extent, if there is one. -/
theorem mds_dim_spec (M : List Nat) :
    ((mds_dim M).consistent = true ↔ ∃ D, 1 ≤ D ∧ ∀ e ∈ M, e = D) ∧
    ((mds_dim M).consistent = true → (mds_dim M).dim = M.head?) := by
  cases M with
  | nil => exact ⟨⟨fun _ => ⟨1, Nat.le_refl _, by simp⟩, fun _ => rfl⟩, fun _ => rfl⟩
  | cons d rest =>
    unfold mds_dim
    by_cases h1 : rest.any (fun e => e ≠ d) = true
    · simp only [h1, if_true]
      refine ⟨⟨(fun h => by cases h), ?_⟩, (fun h => by cases h)⟩
      rintro ⟨D, _, hD⟩
      exfalso
      obtain ⟨e, he, hne⟩ := List.any_eq_true.mp h1
      have h2 := hD e (List.mem_cons_of_mem _ he)
      have h3 := hD d (List.mem_cons_self _ _)
      simp only [ne_eq, decide_not, Bool.not_eq_true', decide_eq_false_iff_not] at hne
      exact hne (by rw [h2, h3])
    · simp only [h1, if_false]
      have hall : ∀ e ∈ rest, e = d := by
        intro e he
        by_contra hne
        apply h1
        exact List.any_eq_true.mpr ⟨e, he, by simpa using hne⟩
      by_cases h2 : d = 0
      · simp only [h2, if_true]
        refine ⟨⟨(fun h => by cases h), ?_⟩, (fun h => by cases h)⟩
        rintro ⟨D, hD1, hD⟩
        have := hD 0 (List.mem_cons_self _ _)
        omega
      · simp only [Bool.false_eq_true, if_false, h2, List.head?_cons, true_iff, implies_true,
          and_true]
        refine ⟨d, by omega, ?_⟩
        intro e he
        rcases List.mem_cons.mp he with h3 | h3
        · exact h3
        · exact hall e h3

theorem filterMap_dims (MDS : List (List Nat))
    (h : ∀ M ∈ MDS, (mds_dim M).consistent = true) :
    (MDS.map (fun M => (mds_dim M).dim)).filterMap id = MDS.filterMap List.head? := by
  induction MDS with
  | nil => rfl
  | cons M rest ih =>
    rw [List.map_cons, List.filterMap_cons, List.filterMap_cons, id,
      (mds_dim_spec M).2 (h M (List.mem_cons_self _ _)),
      ih (fun M2 hM2 => h M2 (List.mem_cons_of_mem _ hM2))]

theorem mem_heads (MDS : List (List Nat)) (x : Nat) :
    x ∈ MDS.filterMap List.head? ↔ ∃ r, (x :: r) ∈ MDS := by
  rw [List.mem_filterMap]
  constructor
  · rintro ⟨M, hM, hx⟩
    cases M with
    | nil => cases hx
    | cons e r =>
      simp only [List.head?_cons, Option.some.injEq] at hx
      subst hx
      exact ⟨r, hM⟩
  · rintro ⟨r, hr⟩
    exact ⟨x :: r, hr, rfl⟩

/-- The function `einsum_consistent_geometric_dimentions` holds exactly when one positive
number is every extent of every view. -/
theorem consistent_iff (MDS : List (List Nat)) :
    einsum_consistent_geometric_dimentions MDS = true ↔
      ∃ D, 1 ≤ D ∧ ∀ M ∈ MDS, ∀ e ∈ M, e = D := by
  unfold einsum_consistent_geometric_dimentions
  by_cases hall : MDS.all (fun M => (mds_dim M).consistent) = true
  · have hall2 : ∀ M ∈ MDS, (mds_dim M).consistent = true := List.all_eq_true.mp hall
    simp only [hall, Bool.not_true, Bool.false_eq_true, if_false]
    rw [filterMap_dims MDS hall2]
    cases hd : MDS.filterMap List.head? with
    | nil =>
      simp only [true_iff]
      refine ⟨1, Nat.le_refl _, ?_⟩
      intro M hM e he
      exfalso
      cases M with
      | nil => cases he
      | cons e0 r =>
        have : e0 ∈ MDS.filterMap List.head? := (mem_heads MDS e0).mpr ⟨r, hM⟩
        rw [hd] at this
        cases this
    | cons d ds =>
      simp only [decide_eq_true_eq]
      rw [max_eq_min_iff]
      have hdm : d ∈ MDS.filterMap List.head? := by rw [hd]; exact List.mem_cons_self _ _
      obtain ⟨r0, hr0⟩ := (mem_heads MDS d).mp hdm
      constructor
      · intro h
        obtain ⟨D0, hD0, hD0e⟩ := ((mds_dim_spec (d :: r0)).1).mp (hall2 _ hr0)
        have hdD : d = D0 := hD0e d (List.mem_cons_self _ _)
        refine ⟨d, by omega, ?_⟩
        intro M hM e he
        cases M with
        | nil => cases he
        | cons e0 r =>
          obtain ⟨D1, _, hD1e⟩ := ((mds_dim_spec (e0 :: r)).1).mp (hall2 _ hM)
          have h0 : e0 ∈ MDS.filterMap List.head? := (mem_heads MDS e0).mpr ⟨r, hM⟩
          rw [hd] at h0
          have h1 : e0 = d := by
            rcases List.mem_cons.mp h0 with h2 | h2
            · exact h2
            · exact h e0 h2
          rw [hD1e e he, ← hD1e e0 (List.mem_cons_self _ _), h1]
      · rintro ⟨D, _, hD⟩ x hx
        have hx2 : x ∈ MDS.filterMap List.head? := by
          rw [hd]; exact List.mem_cons_of_mem _ hx
        obtain ⟨r, hr⟩ := (mem_heads MDS x).mp hx2
        rw [hD _ hr x (List.mem_cons_self _ _), hD _ hr0 d (List.mem_cons_self _ _)]
  · simp only [hall, Bool.not_false, if_true, Bool.false_eq_true, false_iff]
    rintro ⟨D, hD1, hD⟩
    apply hall
    rw [List.all_eq_true]
    intro M hM
    exact ((mds_dim_spec M).1).mpr ⟨D, hD1, hD M hM⟩

theorem deduce_dimension_eq (MDS : List (List Nat)) (D : Nat) (M : List Nat) (hM : M ∈ MDS)
    (hne : M ≠ []) (h : ∀ M ∈ MDS, ∀ e ∈ M, e = D) : einsum.deduce_dimension MDS = D := by
  induction MDS with
  | nil => cases hM
  | cons M0 rest ih =>
    cases M0 with
    | nil =>
      simp only [einsum.deduce_dimension]
      rcases List.mem_cons.mp hM with h1 | h1
      · exact absurd h1 hne
      · exact ih h1 (fun M2 hM2 => h M2 (List.mem_cons_of_mem _ hM2))
    | cons e0 r =>
      simp only [einsum.deduce_dimension]
      exact h _ (List.mem_cons_self _ _) e0 (List.mem_cons_self _ _)

theorem deduce_dimension_rank0 (MDS : List (List Nat)) (h : ∀ M ∈ MDS, M = []) :
    einsum.deduce_dimension MDS = 1 := by
  induction MDS with
  | nil => rfl
  | cons M0 rest ih =>
    have h0 := h M0 (List.mem_cons_self _ _)
    subst h0
    simp only [einsum.deduce_dimension]
    exact ih (fun M2 hM2 => h M2 (List.mem_cons_of_mem _ hM2))

/-- C16: `einsum_consistent_geometric_dimentions` holds for the output view and the
operand views exactly when there is one D ≥ 1 that every extent of every view equals (a
view of rank 0 has no extent and imposes nothing); for such views with a view of non-zero
rank `deduce_dimension` returns that D, and it returns 1 when the output and every
operand have rank 0. -/
theorem extent_validation (OutMDS : List Nat) (MDS : List (List Nat)) :
    (einsum_consistent_geometric_dimentions (OutMDS :: MDS) = true ↔
      ∃ D, 1 ≤ D ∧ ∀ M ∈ OutMDS :: MDS, ∀ e ∈ M, e = D) ∧
    (∀ D, (∀ M ∈ OutMDS :: MDS, ∀ e ∈ M, e = D) → (∃ M ∈ OutMDS :: MDS, M ≠ []) →
      einsum.deduce_dimension (OutMDS :: MDS) = D) ∧
    ((∀ M ∈ OutMDS :: MDS, M = []) → einsum.deduce_dimension (OutMDS :: MDS) = 1) := by
  refine ⟨consistent_iff _, ?_, deduce_dimension_rank0 _⟩
  rintro D hD ⟨M, hM, hne⟩
  exact deduce_dimension_eq _ D M hM hne hD

/-- Witness of `extent_validation`: a rank 0 output with two 3×3 operands is accepted, and
the deduced dimension is 3. -/
theorem extent_validation_witness :
    einsum_consistent_geometric_dimentions [[], [3, 3], [3, 3]] = true ∧
    einsum.deduce_dimension [[], [3, 3], [3, 3]] = 3 :=
  ⟨(extent_validation [] [[3, 3], [3, 3]]).1.mpr ⟨3, by decide, by decide⟩,
    (extent_validation [] [[3, 3], [3, 3]]).2.1 3 (by decide) ⟨[3, 3], by decide, by decide⟩⟩

/-! ## Output labels that are not free labels -/

/-- The slot of a label that occurs once lies in no contraction group. -/
theorem free_slot_not_contracted (s : List Char) (p : einsum_parsed) (hlen : s.length < 2 ^ 64)
    (hp : einsum_parsed.parse s = .ok p) (c : index_cursor) (l : index_label)
    (hc : (c, l) ∈ iterate_index_labels_with_cursor p.factor_index_labels_)
    (hl : p.factor_index_labels_.flatten.count l = 1) :
    einsum.find_contraction p c.factor c.index = none := by
  unfold einsum.find_contraction
  rw [List.findIdx?_eq_none_iff]
  intro g hg
  by_contra hcon
  have hmem : c ∈ g.data_ := by
    simpa [sstd.constexpr_set.contains] using hcon
  obtain ⟨k, hk⟩ := List.mem_iff_getElem?.mp hg
  obtain ⟨lab, hlab, h2⟩ := group_of_label s p hlen hp k g hk
  have hcount := count_label_eq (iterate_index_labels_with_cursor p.factor_index_labels_) lab
  rw [iterate_labels, ← hlab] at hcount
  rw [hlab, mem_cursors_of_label] at hmem
  have := label_of_cursor _ (iterate_nodup _) c l lab hc hmem
  subst this
  omega

/-- The index map of an expression whose output labels miss a free label can not be
built. -/
theorem index_map_error (s : List Char) (p : einsum_parsed) (hlen : s.length < 2 ^ 64)
    (hp : einsum_parsed.parse s = .ok p) (l : index_label)
    (hfree : l ∈ p.free_index_labels_) (hout : l ∉ p.output_index_labels_) :
    ∃ err, einsum.index_map p = .error err := by
  rw [parse_free_labels s p hlen hp] at hfree
  obtain ⟨hmem, hcount⟩ := List.mem_filter.mp hfree
  simp only [decide_eq_true_eq] at hcount
  rw [← iterate_labels] at hmem
  obtain ⟨t, ht, htl⟩ := List.mem_map.mp hmem
  obtain ⟨c, l2⟩ := t
  simp only at htl
  subst htl
  have hnone := free_slot_not_contracted s p hlen hp c l2 ht hcount
  obtain ⟨labels, hlabels, hpos⟩ := (iterate_mem _ c l2).mp ht
  cases him : einsum.index_map p with
  | error err => exact ⟨err, rfl⟩
  | ok im =>
    exfalso
    obtain ⟨_, h2⟩ := index_map_get p im him
    obtain ⟨imf, _, _, h3⟩ := h2 c.factor labels hlabels
    obtain ⟨v, _, hv⟩ := h3 c.index l2 hpos
    unfold einsum.index_map_entry at hv
    rw [hnone, (argfind_eq_none _ _).mpr hout] at hv
    cases hv

/-- C17: the expression "ii->i" lists the output label i, which is not a free label of
the input, and its execution on a 2×2 operand with an output view of rank one is not
rejected: both output cells receive the trace. -/
theorem non_free_output_label_accepted :
    einsum_parsed.parse "ii->i".toList =
      .ok ⟨[[['i'], ['i']]], [['i']], [], [⟨[⟨0, 0⟩, ⟨0, 1⟩]⟩]⟩ ∧
    einsum.cell (einsum.call ⟨"ii->i".toList⟩ (filled [2] 0) [matrix [[1, 2], [3, 4]]]) [0]
      = some 5 ∧
    einsum.cell (einsum.call ⟨"ii->i".toList⟩ (filled [2] 0) [matrix [[1, 2], [3, 4]]]) [1]
      = some 5 := by
  decide

/-- C17 (amended): a call that is evaluated directly (at most two operands, or no
contraction group) with an expression whose output labels miss a free label of the input
is rejected, whatever the views are: when validation lets it through, the construction of
the index map fails, before anything is computed. -/
theorem missing_free_label_rejected (estr : str.fixed_string) (p : einsum_parsed)
    (out : mdspan) (factors : List mdspan) (l : index_label)
    (hlen : estr.sv.length < 2 ^ 64)
    (hp : einsum.parser estr = .ok p)
    (hdirect : factors.length ≤ 2 ∨ p.contractions_ = [])
    (hfree : l ∈ p.free_index_labels_) (hout : l ∉ p.output_index_labels_) :
    (∃ err, einsum.index_map p = .error err) ∧
    ∃ err, einsum.call estr out factors = .error err := by
  obtain ⟨err, herr⟩ := index_map_error estr.sv p hlen hp l hfree hout
  refine ⟨⟨err, herr⟩, ?_⟩
  unfold einsum.call einsum.call_bounded
  cases hc : einsum_compatible estr out.extents (factors.map (fun f => f.extents)) with
  | error e => exact ⟨e, rfl⟩
  | ok b =>
    cases b with
    | false => exact ⟨_, rfl⟩
    | true =>
      simp only [hp]
      cases hnet : einsum.network_of p with
      | error e => exact ⟨e, rfl⟩
      | ok r =>
        obtain ⟨ids, net⟩ := r
        simp only
        cases hcc : net.connected_components with
        | error e => exact ⟨e, rfl⟩
        | ok cc =>
          simp only [hdirect, if_true]
          unfold einsum.direct
          rw [herr]
          exact ⟨err, rfl⟩

/-- Witness of `missing_free_label_rejected`: "ij->i" on a 2×2 operand and an output view
of rank one. -/
theorem missing_free_label_rejected_witness :
    (∃ err, einsum.index_map
      (⟨[[['i'], ['j']]], [['i']], [['i'], ['j']], []⟩ : einsum_parsed) = .error err) ∧
    ∃ err, einsum.call ⟨"ij->i".toList⟩ (filled [2] 0) [matrix [[1, 2], [3, 4]]] = .error err :=
  missing_free_label_rejected ⟨"ij->i".toList⟩ ⟨[[['i'], ['j']]], [['i']], [['i'], ['j']], []⟩
    (filled [2] 0) [matrix [[1, 2], [3, 4]]] ['j'] (by decide) (by decide) (by decide)
    (by decide) (by decide)

/-! ## Evaluation by connected components -/

/-- C18, evaluation at the failing input: the network of "ij,kl,jm" has the two
components made of the factors 0 and 2 and of the factor 1; the free labels are i, k, l, m,
carried by the factors 0, 1, 1 and 2.  The final sub-expression is "ik,lm->iklm": it gives
the first component the labels i and k, though its factors carry i and m.  On 2×2 operands
A, B and the identity the cell (0,0,0,1) of the output receives A[0,0]·B[0,1] = 10, while
the defining sum over j of A[i,j]·B[k,l]·C[j,m], which the direct loops compute for this
expression, is A[0,1]·B[0,0] = 2 there. -/
theorem outer_product_labels_by_position :
    einsum.parser ⟨"ij,kl,jm".toList⟩ =
      .ok ⟨[[['i'], ['j']], [['k'], ['l']], [['j'], ['m']]], [['i'], ['k'], ['l'], ['m']],
        [['i'], ['k'], ['l'], ['m']], [⟨[⟨0, 1⟩, ⟨2, 0⟩]⟩]⟩ ∧
    einsum.network ⟨"ij,kl,jm".toList⟩ =
      .ok ([⟨0⟩, ⟨1⟩, ⟨2⟩],
        ⟨[⟨⟨0⟩, 2⟩, ⟨⟨1⟩, 2⟩, ⟨⟨2⟩, 2⟩], 3, [⟨⟨⟨0⟩, 1⟩, ⟨⟨2⟩, 0⟩⟩]⟩) ∧
    (⟨[⟨⟨0⟩, 2⟩, ⟨⟨1⟩, 2⟩, ⟨⟨2⟩, 2⟩], 3, [⟨⟨⟨0⟩, 1⟩, ⟨⟨2⟩, 0⟩⟩]⟩ :
        tensor_network).connected_components =
      .ok [⟨[⟨⟨0⟩, 2⟩, ⟨⟨2⟩, 2⟩], 4, [⟨⟨⟨0⟩, 1⟩, ⟨⟨2⟩, 0⟩⟩]⟩, ⟨[⟨⟨1⟩, 2⟩], 3, []⟩] ∧
    einsum.all_ok
        ([(⟨[⟨⟨0⟩, 2⟩, ⟨⟨2⟩, 2⟩], 4, [⟨⟨⟨0⟩, 1⟩, ⟨⟨2⟩, 0⟩⟩]⟩ : connected_tensor_network),
          ⟨[⟨⟨1⟩, 2⟩], 3, []⟩].map
          (einsum.connected_component_info_of [⟨0⟩, ⟨1⟩, ⟨2⟩] 2)) =
      .ok [⟨2, 1, none⟩, ⟨2, 0, some 1⟩] ∧
    einsum.connected_components_estr
        ⟨[[['i'], ['j']], [['k'], ['l']], [['j'], ['m']]], [['i'], ['k'], ['l'], ['m']],
          [['i'], ['k'], ['l'], ['m']], [⟨[⟨0, 1⟩, ⟨2, 0⟩]⟩]⟩
        [⟨2, 1, none⟩, ⟨2, 0, some 1⟩] = .ok ⟨"ik,lm->iklm".toList⟩ ∧
    einsum.cell (einsum.call ⟨"ij,kl,jm".toList⟩ (filled [2, 2, 2, 2] 0)
      [matrix [[1, 2], [3, 4]], matrix [[1, 10], [100, 1000]], matrix [[1, 0], [0, 1]]])
      [0, 0, 0, 1] = some 10 ∧
    (∑ j in Finset.range 2,
      (matrix [[1, 2], [3, 4]]).data [0, j] * (matrix [[1, 10], [100, 1000]]).data [0, 0] *
        (matrix [[1, 0], [0, 1]]).data [j, 1]) = 2 ∧
    einsum.cell (einsum.direct
      ⟨[[['i'], ['j']], [['k'], ['l']], [['j'], ['m']]], [['i'], ['k'], ['l'], ['m']],
        [['i'], ['k'], ['l'], ['m']], [⟨[⟨0, 1⟩, ⟨2, 0⟩]⟩]⟩ 2 (filled [2, 2, 2, 2] 0)
      [matrix [[1, 2], [3, 4]], matrix [[1, 10], [100, 1000]], matrix [[1, 0], [0, 1]]])
      [0, 0, 0, 1] = some 2 := by
  refine ⟨by decide, by decide, by decide, by decide, by decide, by decide, by decide,
    by decide⟩

/-- C19, evaluation at the failing input: in the network of "ij,jk,ll" the second
component (ordinal 1) is the node of the factor 2 with its internal edge, so that
`one_node_factor_ordinal` is 2 and the labels of that factor are l, l.  The sub-expression
handed to the call for this component is "jk", the labels of the factor 1, with the
factor 2 as operand.  The views of the call of "ij,jk,ll" on 2×2 operands are accepted, and
the call is rejected all the same: the views handed with "jk" (the rank 0 output of the
component and a 2×2 operand) are not compatible with it, as they would be with "ll". -/
theorem one_node_component_labels_by_ordinal :
    einsum.parser ⟨"ij,jk,ll".toList⟩ =
      .ok ⟨[[['i'], ['j']], [['j'], ['k']], [['l'], ['l']]], [['i'], ['k']], [['i'], ['k']],
        [⟨[⟨0, 1⟩, ⟨1, 0⟩]⟩, ⟨[⟨2, 0⟩, ⟨2, 1⟩]⟩]⟩ ∧
    einsum.network ⟨"ij,jk,ll".toList⟩ =
      .ok ([⟨0⟩, ⟨1⟩, ⟨2⟩],
        ⟨[⟨⟨0⟩, 2⟩, ⟨⟨1⟩, 2⟩, ⟨⟨2⟩, 2⟩], 3,
          [⟨⟨⟨0⟩, 1⟩, ⟨⟨1⟩, 0⟩⟩, ⟨⟨⟨2⟩, 0⟩, ⟨⟨2⟩, 1⟩⟩]⟩) ∧
    (⟨[⟨⟨0⟩, 2⟩, ⟨⟨1⟩, 2⟩, ⟨⟨2⟩, 2⟩], 3,
        [⟨⟨⟨0⟩, 1⟩, ⟨⟨1⟩, 0⟩⟩, ⟨⟨⟨2⟩, 0⟩, ⟨⟨2⟩, 1⟩⟩]⟩ : tensor_network).connected_components =
      .ok [⟨[⟨⟨0⟩, 2⟩, ⟨⟨1⟩, 2⟩], 4, [⟨⟨⟨0⟩, 1⟩, ⟨⟨1⟩, 0⟩⟩]⟩,
        ⟨[⟨⟨2⟩, 2⟩], 3, [⟨⟨⟨2⟩, 0⟩, ⟨⟨2⟩, 1⟩⟩]⟩] ∧
    einsum.connected_component_info_of [⟨0⟩, ⟨1⟩, ⟨2⟩] 2
        ⟨[⟨⟨2⟩, 2⟩], 3, [⟨⟨⟨2⟩, 0⟩, ⟨⟨2⟩, 1⟩⟩]⟩ = .ok ⟨0, 1, some 2⟩ ∧
    (⟨0, 1, some 2⟩ : einsum.connected_component_info).case_B = true ∧
    (∀ (call : str.fixed_string → mdspan → List mdspan → Except logic_error mdspan)
        (A B C out : mdspan),
      einsum.handle_connected_component call
        ⟨[[['i'], ['j']], [['j'], ['k']], [['l'], ['l']]], [['i'], ['k']], [['i'], ['k']],
          [⟨[⟨0, 1⟩, ⟨1, 0⟩]⟩, ⟨[⟨2, 0⟩, ⟨2, 1⟩]⟩]⟩
        [⟨0⟩, ⟨1⟩, ⟨2⟩]
        [⟨[⟨⟨0⟩, 2⟩, ⟨⟨1⟩, 2⟩], 4, [⟨⟨⟨0⟩, 1⟩, ⟨⟨1⟩, 0⟩⟩]⟩,
          ⟨[⟨⟨2⟩, 2⟩], 3, [⟨⟨⟨2⟩, 0⟩, ⟨⟨2⟩, 1⟩⟩]⟩]
        2 [A, B, C] 1 ⟨0, 1, some 2⟩ out = call ⟨"jk".toList⟩ out [C]) ∧
    einsum_compatible ⟨"ij,jk,ll".toList⟩ [2, 2] [[2, 2], [2, 2], [2, 2]] = .ok true ∧
    einsum_compatible ⟨"jk".toList⟩ [] [[2, 2]] = .ok false ∧
    einsum_compatible ⟨"ll".toList⟩ [] [[2, 2]] = .ok true ∧
    einsum.call ⟨"ij,jk,ll".toList⟩ (filled [2, 2] 0)
      [matrix [[1, 2], [3, 4]], matrix [[1, 10], [100, 1000]], matrix [[1, 0], [0, 1]]] =
      .error .not_einsum_compatible := by
  refine ⟨by decide, by decide, by decide, by decide, by decide, ?_, by decide, by decide,
    by decide, rfl⟩
  intro call A B C out
  rfl

/-- C20, evaluation at the failing input: the network of "ij,jk,kl->il" is one connected
component, planned as the step "ab,bd" on the factors 0 and 1 followed by the step "ab,ca"
on the factor 2 and the result of the first step, written into the output of the caller.
The output of the last step has the dimensions b, c: the slot 1 of the factor 2, which
carries l, followed by the slot 0 of the factor 0, which carries i, whereas the output
labels are i, l.  With A, the identity and the identity as operands the cell (0,1)
receives A[1,0] = 3, and the direct loops give A[0,1] = 2. -/
theorem single_component_output_order :
    einsum.network ⟨"ij,jk,kl->il".toList⟩ =
      .ok ([⟨0⟩, ⟨1⟩, ⟨2⟩],
        ⟨[⟨⟨0⟩, 2⟩, ⟨⟨1⟩, 2⟩, ⟨⟨2⟩, 2⟩], 3,
          [⟨⟨⟨0⟩, 1⟩, ⟨⟨1⟩, 0⟩⟩, ⟨⟨⟨1⟩, 1⟩, ⟨⟨2⟩, 0⟩⟩]⟩) ∧
    (⟨[⟨⟨0⟩, 2⟩, ⟨⟨1⟩, 2⟩, ⟨⟨2⟩, 2⟩], 3,
        [⟨⟨⟨0⟩, 1⟩, ⟨⟨1⟩, 0⟩⟩, ⟨⟨⟨1⟩, 1⟩, ⟨⟨2⟩, 0⟩⟩]⟩ : tensor_network).connected_components =
      .ok [⟨[⟨⟨0⟩, 2⟩, ⟨⟨1⟩, 2⟩, ⟨⟨2⟩, 2⟩], 5,
        [⟨⟨⟨0⟩, 1⟩, ⟨⟨1⟩, 0⟩⟩, ⟨⟨⟨1⟩, 1⟩, ⟨⟨2⟩, 0⟩⟩]⟩] ∧
    einsum.pairwise_contractions [⟨0⟩, ⟨1⟩, ⟨2⟩]
        [⟨[⟨⟨0⟩, 2⟩, ⟨⟨1⟩, 2⟩, ⟨⟨2⟩, 2⟩], 5,
          [⟨⟨⟨0⟩, 1⟩, ⟨⟨1⟩, 0⟩⟩, ⟨⟨⟨1⟩, 1⟩, ⟨⟨2⟩, 0⟩⟩]⟩] 2 0 ⟨2, 2, none⟩ =
      .ok [⟨3, 2, 0, 1, ⟨"ab,bd".toList⟩⟩, ⟨4, 2, 2, 3, ⟨"ab,ca".toList⟩⟩] ∧
    (einsum.parser ⟨"ab,bd".toList⟩).map (fun p => p.output_index_labels_) =
      .ok [['a'], ['d']] ∧
    (einsum.parser ⟨"ab,ca".toList⟩).map (fun p => p.output_index_labels_) =
      .ok [['b'], ['c']] ∧
    (einsum.parser ⟨"ij,jk,kl->il".toList⟩).map (fun p => p.output_index_labels_) =
      .ok [['i'], ['l']] ∧
    einsum.cell (einsum.call ⟨"ij,jk,kl->il".toList⟩ (filled [2, 2] 0)
      [matrix [[1, 2], [3, 4]], matrix [[1, 0], [0, 1]], matrix [[1, 0], [0, 1]]]) [0, 1]
      = some 3 ∧
    einsum.cell (einsum.direct
      ⟨[[['i'], ['j']], [['j'], ['k']], [['k'], ['l']]], [['i'], ['l']], [['i'], ['l']],
        [⟨[⟨0, 1⟩, ⟨1, 0⟩]⟩, ⟨[⟨1, 1⟩, ⟨2, 0⟩]⟩]⟩ 2 (filled [2, 2] 0)
      [matrix [[1, 2], [3, 4]], matrix [[1, 0], [0, 1]], matrix [[1, 0], [0, 1]]]) [0, 1]
      = some 2 := by
  refine ⟨by decide, by decide, by decide, by decide, by decide, by decide, by decide,
    by decide⟩

/-! ## The members of `tensor_network` -/

/-- C21: `add_edge(a, b)` fails exactly when a and b are one index location, or no node of
the network has the id of a or none has the id of b, or the index of a is not below the
rank of the node of a or the index of b not below the rank of the node of b, or an edge of
the network already has a or b as one of its ends; a call that does not fail appends the
edge from a to b and changes nothing else.  In particular an edge touching an index
location used by an edge of the network is rejected. -/
theorem add_edge_fails_iff (net : tensor_network) (a b : index_location) :
    ((∃ err, net.add_edge a b = .error err) ↔
      (a = b ∨
        net.nodes_.find? (fun n => n.id = a.id) = none ∨
        net.nodes_.find? (fun n => n.id = b.id) = none ∨
        (∃ na, net.nodes_.find? (fun n => n.id = a.id) = some na ∧ na.rank ≤ a.index) ∨
        (∃ nb, net.nodes_.find? (fun n => n.id = b.id) = some nb ∧ nb.rank ≤ b.index) ∨
        ∃ e ∈ net.edges_, e.left = a ∨ e.left = b ∨ e.right = a ∨ e.right = b)) ∧
    ((¬ ∃ err, net.add_edge a b = .error err) →
      net.add_edge a b = .ok ⟨net.nodes_, net.next_id_, net.edges_ ++ [⟨a, b⟩]⟩) ∧
    (∀ e ∈ net.edges_, (e.left = a ∨ e.left = b ∨ e.right = a ∨ e.right = b) →
      ∃ err, net.add_edge a b = .error err) := by
  have hiff : (∃ err, net.add_edge a b = .error err) ↔
      (a = b ∨
        net.nodes_.find? (fun n => n.id = a.id) = none ∨
        net.nodes_.find? (fun n => n.id = b.id) = none ∨
        (∃ na, net.nodes_.find? (fun n => n.id = a.id) = some na ∧ na.rank ≤ a.index) ∨
        (∃ nb, net.nodes_.find? (fun n => n.id = b.id) = some nb ∧ nb.rank ≤ b.index) ∨
        ∃ e ∈ net.edges_, e.left = a ∨ e.left = b ∨ e.right = a ∨ e.right = b) := by
    constructor
    · rintro ⟨err, herr⟩
      by_contra hcon
      simp only [not_or, not_exists, not_and] at hcon
      obtain ⟨h1, h2, h3, h4, h5, h6⟩ := hcon
      cases ha : net.nodes_.find? (fun n => n.id = a.id) with
      | none => exact h2 ha
      | some na =>
        cases hb : net.nodes_.find? (fun n => n.id = b.id) with
        | none => exact h3 hb
        | some nb =>
          have hra := h4 na ha
          have hrb := h5 nb hb
          have := add_edge_ok net a b na nb h1 ha hb (by omega) (by omega)
            (fun e he => by
              have := h6 e he
              simp only [not_or] at this
              exact this)
          rw [this] at herr
          cases herr
    · intro h
      cases hres : net.add_edge a b with
      | error err => exact ⟨err, rfl⟩
      | ok net2 =>
        exfalso
        obtain ⟨hab, ⟨na, hna, hra⟩, ⟨nb, hnb, hrb⟩, hfree, _⟩ := add_edge_inv net net2 a b hres
        rcases h with h | h | h | ⟨na2, h, h2⟩ | ⟨nb2, h, h2⟩ | ⟨e, he, h⟩
        · exact hab h
        · rw [h] at hna; cases hna
        · rw [h] at hnb; cases hnb
        · rw [h] at hna
          simp only [Option.some.injEq] at hna
          subst hna
          omega
        · rw [h] at hnb
          simp only [Option.some.injEq] at hnb
          subst hnb
          omega
        · obtain ⟨h1, h2, h3, h4⟩ := hfree e he
          rcases h with h | h | h | h
          · exact h1 h
          · exact h2 h
          · exact h3 h
          · exact h4 h
  refine ⟨hiff, ?_, ?_⟩
  · intro h
    cases hres : net.add_edge a b with
    | error err => exact absurd ⟨err, hres⟩ h
    | ok net2 =>
      obtain ⟨_, _, _, _, h2⟩ := add_edge_inv net net2 a b hres
      rw [h2]
  · intro e he h
    exact hiff.mpr (Or.inr (Or.inr (Or.inr (Or.inr (Or.inr ⟨e, he, h⟩)))))

/-- Witness of `add_edge_fails_iff`: on the network of two nodes joined by an edge from the
index 0 of the first node, a second edge from that index is rejected. -/
theorem add_edge_fails_iff_witness :
    ∃ err, (⟨[⟨⟨0⟩, 2⟩, ⟨⟨1⟩, 1⟩], 2, [⟨⟨⟨0⟩, 0⟩, ⟨⟨1⟩, 0⟩⟩]⟩ : tensor_network).add_edge
      ⟨⟨0⟩, 0⟩ ⟨⟨0⟩, 1⟩ = .error err :=
  (add_edge_fails_iff ⟨[⟨⟨0⟩, 2⟩, ⟨⟨1⟩, 1⟩], 2, [⟨⟨⟨0⟩, 0⟩, ⟨⟨1⟩, 0⟩⟩]⟩ ⟨⟨0⟩, 0⟩ ⟨⟨0⟩, 1⟩).2.2
    ⟨⟨⟨0⟩, 0⟩, ⟨⟨1⟩, 0⟩⟩ (by decide) (Or.inl rfl)

/-! ## Networks built through the public members -/

theorem built_append (calls : List network_call) (c : network_call) :
    tensor_network.built (calls ++ [c]) =
      match tensor_network.built calls with
      | .error err => .error err
      | .ok net => network_call.apply net c := by
  unfold tensor_network.built
  rw [List.foldlM_append]
  cases List.foldlM network_call.apply tensor_network.empty calls with
  | error err => rfl
  | ok net =>
    simp only [bind, Except.bind, List.foldlM_cons, List.foldlM_nil, pure, Except.pure]
    cases network_call.apply net c <;> rfl

theorem nodes_added_append (calls : List network_call) (c : network_call) :
    network_call.nodes_added (calls ++ [c]) =
      network_call.nodes_added calls +
        (match c with
        | .add_node _ => 1
        | .add_edge _ _ => 0) := by
  unfold network_call.nodes_added
  rw [List.countP_append]
  cases c <;> simp

theorem well_formed_add_node (net : tensor_network) (rank : Nat) (hwf : well_formed net)
    (hfresh : ∀ n ∈ net.nodes_, n.id.id ≠ net.next_id_) : well_formed (net.add_node rank).2 := by
  constructor
  · show ((net.nodes_ ++ [(⟨⟨net.next_id_⟩, rank⟩ : node)]).map (fun n => n.id)).Nodup
    rw [List.map_append, List.nodup_append]
    refine ⟨hwf.ids_nodup, by simp, ?_⟩
    intro a ha hb
    simp only [List.map_cons, List.map_nil, List.mem_singleton] at hb
    obtain ⟨n, hn, hna⟩ := List.mem_map.mp ha
    apply hfresh n hn
    rw [hna, hb]
  · exact hwf.ends_differ
  · intro e he
    obtain ⟨n, hn, h⟩ := hwf.left_valid e he
    exact ⟨n, List.mem_append_left _ hn, h⟩
  · intro e he
    obtain ⟨n, hn, h⟩ := hwf.right_valid e he
    exact ⟨n, List.mem_append_left _ hn, h⟩
  · exact hwf.apart

theorem well_formed_empty : well_formed tensor_network.empty := by
  constructor
  · exact List.nodup_nil
  · intro e he; cases he
  · intro e he; cases he
  · intro e he; cases he
  · exact List.Pairwise.nil

/-- The networks built by calls of `add_node` and `add_edge`: the ids of the nodes are the
ordinals of the calls of `add_node`, in order. -/
theorem built_spec (calls : List network_call) :
    ∀ net, tensor_network.built calls = .ok net → network_call.nodes_added calls < 2 ^ 64 →
      net.nodes_.map (fun n => n.id.id) = List.range (network_call.nodes_added calls) ∧
      net.next_id_ = network_call.nodes_added calls ∧ well_formed net := by
  induction calls using List.reverseRecOn with
  | nil =>
    intro net h _
    simp only [tensor_network.built, List.foldlM_nil, pure, Except.pure, Except.ok.injEq] at h
    subst h
    exact ⟨rfl, rfl, well_formed_empty⟩
  | append_singleton calls c ih =>
    intro net h hk
    rw [built_append] at h
    rw [nodes_added_append] at hk ⊢
    cases hb : tensor_network.built calls with
    | error err => rw [hb] at h; cases h
    | ok net0 =>
      rw [hb] at h
      simp only at h
      obtain ⟨h1, h2, h3⟩ := ih net0 hb (by omega)
      cases c with
      | add_node rank =>
        simp only [network_call.apply, Except.ok.injEq] at h
        subst h
        simp only at hk
        have hs : size_add net0.next_id_ 1 = net0.next_id_ + 1 := by
          unfold size_add size_t_card
          exact Nat.mod_eq_of_lt (by omega)
        refine ⟨?_, ?_, ?_⟩
        · show (net0.nodes_ ++ [(⟨⟨net0.next_id_⟩, rank⟩ : node)]).map (fun n => n.id.id) = _
          rw [List.map_append, h1]
          show _ = List.range (network_call.nodes_added calls + 1)
          rw [List.range_succ, h2]
          rfl
        · show size_add net0.next_id_ 1 = network_call.nodes_added calls + 1
          rw [hs, h2]
        · apply well_formed_add_node net0 rank h3
          intro n hn
          have : n.id.id ∈ net0.nodes_.map (fun n => n.id.id) := List.mem_map.mpr ⟨n, hn, rfl⟩
          rw [h1, List.mem_range] at this
          omega
      | add_edge a b =>
        simp only [network_call.apply] at h
        obtain ⟨_, _, _, _, hnet⟩ := add_edge_inv net0 net a b h
        refine ⟨?_, ?_, well_formed_add_edge net0 net a b h3 h⟩
        · rw [hnet]; simpa using h1
        · rw [hnet]; simpa using h2

/-- C22: on a network built from the empty one by calls of `add_node` and `add_edge`, the
call of `add_node(rank)` that follows k earlier calls of `add_node` returns the id k,
appends the node of id k and of the given rank at the end of the nodes, and leaves the
earlier nodes and the edges as they were. -/
theorem add_node_kth (calls : List network_call) (net : tensor_network) (rank : Nat)
    (hb : tensor_network.built calls = .ok net)
    (hk : network_call.nodes_added calls < 2 ^ 64) :
    tensor_network.built (calls ++ [network_call.add_node rank]) = .ok (net.add_node rank).2 ∧
    (net.add_node rank).1 = ⟨network_call.nodes_added calls⟩ ∧
    (net.add_node rank).2.nodes_ =
      net.nodes_ ++ [⟨⟨network_call.nodes_added calls⟩, rank⟩] ∧
    (net.add_node rank).2.edges_ = net.edges_ := by
  obtain ⟨_, h2, _⟩ := built_spec calls net hb hk
  refine ⟨?_, ?_, ?_, rfl⟩
  · rw [built_append, hb]
    rfl
  · show (⟨net.next_id_⟩ : node_id) = _
    rw [h2]
  · show net.nodes_ ++ [(⟨⟨net.next_id_⟩, rank⟩ : node)] = _
    rw [h2]

/-- Witness of `add_node_kth`: the third node added to a network with two nodes and an
edge gets the id 2. -/
theorem add_node_kth_witness :
    tensor_network.built
        ([.add_node 2, .add_node 1, .add_edge ⟨⟨0⟩, 1⟩ ⟨⟨1⟩, 0⟩] ++ [network_call.add_node 3]) =
      .ok ((⟨[⟨⟨0⟩, 2⟩, ⟨⟨1⟩, 1⟩], 2, [⟨⟨⟨0⟩, 1⟩, ⟨⟨1⟩, 0⟩⟩]⟩ : tensor_network).add_node 3).2 ∧
    ((⟨[⟨⟨0⟩, 2⟩, ⟨⟨1⟩, 1⟩], 2, [⟨⟨⟨0⟩, 1⟩, ⟨⟨1⟩, 0⟩⟩]⟩ : tensor_network).add_node 3).1 =
      ⟨network_call.nodes_added [.add_node 2, .add_node 1, .add_edge ⟨⟨0⟩, 1⟩ ⟨⟨1⟩, 0⟩]⟩ ∧
    ((⟨[⟨⟨0⟩, 2⟩, ⟨⟨1⟩, 1⟩], 2, [⟨⟨⟨0⟩, 1⟩, ⟨⟨1⟩, 0⟩⟩]⟩ : tensor_network).add_node 3).2.nodes_ =
      [⟨⟨0⟩, 2⟩, ⟨⟨1⟩, 1⟩] ++
        [⟨⟨network_call.nodes_added [.add_node 2, .add_node 1, .add_edge ⟨⟨0⟩, 1⟩ ⟨⟨1⟩, 0⟩]⟩, 3⟩] ∧
    ((⟨[⟨⟨0⟩, 2⟩, ⟨⟨1⟩, 1⟩], 2, [⟨⟨⟨0⟩, 1⟩, ⟨⟨1⟩, 0⟩⟩]⟩ : tensor_network).add_node 3).2.edges_ =
      [⟨⟨⟨0⟩, 1⟩, ⟨⟨1⟩, 0⟩⟩] :=
  add_node_kth [.add_node 2, .add_node 1, .add_edge ⟨⟨0⟩, 1⟩ ⟨⟨1⟩, 0⟩]
    ⟨[⟨⟨0⟩, 2⟩, ⟨⟨1⟩, 1⟩], 2, [⟨⟨⟨0⟩, 1⟩, ⟨⟨1⟩, 0⟩⟩]⟩ 3 (by decide) (by decide)

/-- In a list of edges that pairwise have no end in common, an index location is an end of
one edge at most. -/
theorem ends_once (edges : List edge) (h : edges.Pairwise edge.apart) (loc : index_location) :
    edges.countP (fun e => e.left = loc || e.right = loc) ≤ 1 := by
  induction edges with
  | nil => simp
  | cons e rest ih =>
    rw [List.pairwise_cons] at h
    rw [List.countP_cons]
    by_cases he : (e.left = loc || e.right = loc) = true
    · rw [if_pos he]
      have h0 : rest.countP (fun e => e.left = loc || e.right = loc) = 0 := by
        rw [List.countP_eq_zero]
        intro e2 he2 hcon
        obtain ⟨h1, h2, h3, h4⟩ := h.1 e2 he2
        simp only [Bool.or_eq_true, decide_eq_true_eq] at he hcon
        rcases he with he | he <;> rcases hcon with hc | hc
        · exact h1 (by rw [hc, he])
        · exact h3 (by rw [hc, he])
        · exact h2 (by rw [hc, he])
        · exact h4 (by rw [hc, he])
      omega
    · rw [if_neg he]
      have := ih h.2
      omega

/-- C23: every network built from the empty one by calls of `add_node` and calls of
`add_edge` that do not throw has nodes of pairwise different ids, all below the next id;
the two ends of every edge are different index locations, each of an existing node and
with an index below the rank of that node; and no index location is an end of more than
one edge. -/
theorem built_network_invariant (calls : List network_call) (net : tensor_network)
    (hb : tensor_network.built calls = .ok net)
    (hk : network_call.nodes_added calls < 2 ^ 64) :
    (net.nodes_.map (fun n => n.id)).Nodup ∧
    (∀ n ∈ net.nodes_, n.id.id < net.next_id_) ∧
    (∀ e ∈ net.edges_, e.left ≠ e.right ∧
      (∃ n ∈ net.nodes_, n.id = e.left.id ∧ e.left.index < n.rank) ∧
      (∃ n ∈ net.nodes_, n.id = e.right.id ∧ e.right.index < n.rank)) ∧
    (∀ loc : index_location,
      net.edges_.countP (fun e => e.left = loc || e.right = loc) ≤ 1) ∧
    net.edges_.Pairwise edge.apart := by
  obtain ⟨h1, h2, h3⟩ := built_spec calls net hb hk
  refine ⟨h3.ids_nodup, ?_, ?_, ends_once _ h3.apart, h3.apart⟩
  · intro n hn
    have : n.id.id ∈ net.nodes_.map (fun n => n.id.id) := List.mem_map.mpr ⟨n, hn, rfl⟩
    rw [h1, List.mem_range] at this
    rw [h2]
    exact this
  · intro e he
    exact ⟨h3.ends_differ e he, h3.left_valid e he, h3.right_valid e he⟩

/-- Witness of `built_network_invariant`: two nodes joined by an edge. -/
theorem built_network_invariant_witness :
    ([⟨⟨0⟩, 2⟩, ⟨⟨1⟩, 1⟩].map (fun n : node => n.id)).Nodup ∧
    (∀ n ∈ ([⟨⟨0⟩, 2⟩, ⟨⟨1⟩, 1⟩] : List node), n.id.id < 2) ∧
    (∀ e ∈ [(⟨⟨⟨0⟩, 1⟩, ⟨⟨1⟩, 0⟩⟩ : edge)], e.left ≠ e.right ∧
      (∃ n ∈ ([⟨⟨0⟩, 2⟩, ⟨⟨1⟩, 1⟩] : List node), n.id = e.left.id ∧ e.left.index < n.rank) ∧
      (∃ n ∈ ([⟨⟨0⟩, 2⟩, ⟨⟨1⟩, 1⟩] : List node), n.id = e.right.id ∧ e.right.index < n.rank)) ∧
    (∀ loc : index_location,
      [(⟨⟨⟨0⟩, 1⟩, ⟨⟨1⟩, 0⟩⟩ : edge)].countP (fun e => e.left = loc || e.right = loc) ≤ 1) ∧
    [(⟨⟨⟨0⟩, 1⟩, ⟨⟨1⟩, 0⟩⟩ : edge)].Pairwise edge.apart :=
  built_network_invariant [.add_node 2, .add_node 1, .add_edge ⟨⟨0⟩, 1⟩ ⟨⟨1⟩, 0⟩]
    ⟨[⟨⟨0⟩, 2⟩, ⟨⟨1⟩, 1⟩], 2, [⟨⟨⟨0⟩, 1⟩, ⟨⟨1⟩, 0⟩⟩]⟩ (by decide) (by decide)

/-! ## The rank of a network -/

theorem foldl_size_add (l : List Nat) (a : Nat) :
    l.foldl size_add (a % 2 ^ 64) = (a + l.sum) % 2 ^ 64 := by
  induction l generalizing a with
  | nil => simp
  | cons x l ih =>
    rw [List.foldl_cons, List.sum_cons]
    have : size_add (a % 2 ^ 64) x = (a + x) % 2 ^ 64 := by
      unfold size_add size_t_card
      omega
    rw [this, ih, Nat.add_assoc]

theorem rank_wout_reductions_eq (net : tensor_network) :
    net.rank_wout_reductions = (net.nodes_.map (fun n => n.rank)).sum % 2 ^ 64 := by
  unfold tensor_network.rank_wout_reductions
  have := foldl_size_add (net.nodes_.map (fun n => n.rank)) 0
  simpa using this

/-- The ends of the edges of a network, edge by edge. -/
theorem ends_nodup (edges : List edge) (hd : ∀ e ∈ edges, e.left ≠ e.right)
    (h : edges.Pairwise edge.apart) : (edges.flatMap (fun e => [e.left, e.right])).Nodup := by
  induction edges with
  | nil => simp
  | cons e rest ih =>
    rw [List.pairwise_cons] at h
    rw [List.flatMap_cons, List.nodup_append]
    refine ⟨?_, ih (fun e2 he2 => hd e2 (List.mem_cons_of_mem _ he2)) h.2, ?_⟩
    · have := hd e (List.mem_cons_self _ _)
      simp [this]
    · intro a ha hb
      obtain ⟨e2, he2, ha2⟩ := List.mem_flatMap.mp hb
      obtain ⟨h1, h2, h3, h4⟩ := h.1 e2 he2
      simp only [List.mem_cons, List.mem_singleton, List.not_mem_nil, or_false] at ha ha2
      rcases ha with ha | ha <;> rcases ha2 with hc | hc
      · exact h1 (by rw [← hc, ha])
      · exact h3 (by rw [← hc, ha])
      · exact h2 (by rw [← hc, ha])
      · exact h4 (by rw [← hc, ha])

theorem ends_length (edges : List edge) :
    (edges.flatMap (fun e => [e.left, e.right])).length = 2 * edges.length := by
  induction edges with
  | nil => rfl
  | cons e rest ih =>
    rw [List.flatMap_cons, List.length_append, ih]
    simp only [List.length_cons, List.length_nil]
    omega

theorem slots_length (nodes : List node) :
    (nodes.flatMap (fun n =>
      (List.range n.rank).map (fun i => (⟨n.id, i⟩ : index_location)))).length =
      (nodes.map (fun n => n.rank)).sum := by
  induction nodes with
  | nil => rfl
  | cons n rest ih =>
    rw [List.flatMap_cons, List.length_append, ih]
    simp

/-- In a well formed network the ends of the edges are different index locations of the
nodes, so that there are at most as many of them as the ranks of the nodes add up to. -/
theorem twice_edges_le (net : tensor_network) (hwf : well_formed net) :
    2 * net.edges_.length ≤ (net.nodes_.map (fun n => n.rank)).sum := by
  rw [← ends_length, ← slots_length]
  apply List.Subperm.length_le
  apply List.Nodup.subperm (ends_nodup _ hwf.ends_differ hwf.apart)
  intro loc hloc
  obtain ⟨e, he, hl⟩ := List.mem_flatMap.mp hloc
  simp only [List.mem_cons, List.mem_singleton, List.not_mem_nil, or_false] at hl
  rw [List.mem_flatMap]
  rcases hl with hl | hl
  · obtain ⟨n, hn, hid, hr⟩ := hwf.left_valid e he
    refine ⟨n, hn, List.mem_map.mpr ⟨e.left.index, List.mem_range.mpr hr, ?_⟩⟩
    rw [hl, hid]
  · obtain ⟨n, hn, hid, hr⟩ := hwf.right_valid e he
    refine ⟨n, hn, List.mem_map.mpr ⟨e.right.index, List.mem_range.mpr hr, ?_⟩⟩
    rw [hl, hid]

/-- C24: `rank()` subtracts, in `std::size_t`, twice the number of edges from the sum of
the ranks of the nodes; on every well formed network twice the number of edges is at most
the sum of the ranks of the nodes, so that the subtraction does not wrap, and when that sum
is representable in `std::size_t` the value returned is the sum of the ranks minus twice
the number of edges. -/
theorem rank_without_wrap (net : tensor_network) (hwf : well_formed net) :
    net.rank = size_sub ((net.nodes_.map (fun n => n.rank)).sum % 2 ^ 64)
      ((2 * net.edges_.length) % 2 ^ 64) ∧
    2 * net.edges_.length ≤ (net.nodes_.map (fun n => n.rank)).sum ∧
    ((net.nodes_.map (fun n => n.rank)).sum < 2 ^ 64 →
      net.rank = (net.nodes_.map (fun n => n.rank)).sum - 2 * net.edges_.length ∧
      net.rank + 2 * net.edges_.length = (net.nodes_.map (fun n => n.rank)).sum) := by
  have h1 : net.rank = size_sub ((net.nodes_.map (fun n => n.rank)).sum % 2 ^ 64)
      ((2 * net.edges_.length) % 2 ^ 64) := by
    unfold tensor_network.rank
    rw [rank_wout_reductions_eq]
    rfl
  have h2 := twice_edges_le net hwf
  refine ⟨h1, h2, ?_⟩
  intro h3
  rw [h1]
  unfold size_sub size_t_card
  omega

/-- Witness of `rank_without_wrap`: two nodes of rank 2 joined by an edge have rank 2. -/
theorem rank_without_wrap_witness :
    (⟨[⟨⟨0⟩, 2⟩, ⟨⟨1⟩, 2⟩], 2, [⟨⟨⟨0⟩, 1⟩, ⟨⟨1⟩, 0⟩⟩]⟩ : tensor_network).rank = 4 - 2 * 1 ∧
    (⟨[⟨⟨0⟩, 2⟩, ⟨⟨1⟩, 2⟩], 2, [⟨⟨⟨0⟩, 1⟩, ⟨⟨1⟩, 0⟩⟩]⟩ : tensor_network).rank + 2 * 1 = 4 :=
  (rank_without_wrap ⟨[⟨⟨0⟩, 2⟩, ⟨⟨1⟩, 2⟩], 2, [⟨⟨⟨0⟩, 1⟩, ⟨⟨1⟩, 0⟩⟩]⟩
    ((built_spec [.add_node 2, .add_node 2, .add_edge ⟨⟨0⟩, 1⟩ ⟨⟨1⟩, 0⟩] _
      (by decide) (by decide)).2.2)).2.2 (by decide)

/-! ## The cost of a pairwise contraction -/

theorem cost_exponent (r1 r2 k : Nat) (hk : k ≤ r1 + r2) (hr : r1 + r2 < 2 ^ 64) :
    size_sub (size_add r1 r2) k = r1 + r2 - k := by
  unfold size_sub size_add size_t_card
  omega

theorem cost_mod (c : pairwise_contraction_type) (D : Nat)
    (hk : c.edges_.length ≤ c.lhs_.rank + c.rhs_.rank)
    (hr : c.lhs_.rank + c.rhs_.rank < 2 ^ 64) :
    c.cost D = D ^ (c.lhs_.rank + c.rhs_.rank - c.edges_.length) % 2 ^ 64 := by
  unfold pairwise_contraction_type.cost
  rw [cost_exponent _ _ _ hk hr, integer_pow_mod]

theorem contraction_cost_mod (pcs : List pairwise_contraction_type) (D : Nat) :
    contraction_cost pcs D = (pcs.map (fun c => c.cost D)).sum % 2 ^ 64 := by
  unfold contraction_cost
  have := foldl_size_add (pcs.map (fun c => c.cost D)) 0
  simpa using this

/-- C30, as stated: with extent 2 the step built for two nodes of rank 2 and one reduced
edge carries the cost 8 = 2^(2 + 2 − 1), not 4 = 2^(2 + 2 − 2·1). -/
theorem cost_is_not_output_size :
    (pairwise_contraction_type.create ⟨⟨0⟩, 2⟩ ⟨⟨1⟩, 2⟩ [⟨⟨⟨0⟩, 1⟩, ⟨⟨1⟩, 0⟩⟩]).map
      (fun c => c.cost 2) = .ok 8 ∧
    (8 : Nat) ≠ 2 ^ (2 + 2 - 2 * 1) := by
  decide

/-- C30 (amended): the cost that a step built by the constructor for the nodes lhs and rhs
and the edges it reduces carries is extent^(lhs.rank + rhs.rank − #reduced edges),
computed in `std::size_t`: every reduced edge takes one from the exponent, not two. -/
theorem cost_of_created_step (lhs rhs : node) (reduction_edges : List edge) (D : Nat)
    (c : pairwise_contraction_type)
    (hc : pairwise_contraction_type.create lhs rhs reduction_edges = .ok c)
    (hk : reduction_edges.length ≤ lhs.rank + rhs.rank)
    (hr : lhs.rank + rhs.rank < 2 ^ 64) :
    c.cost D = D ^ (lhs.rank + rhs.rank - reduction_edges.length) % 2 ^ 64 ∧
    (D ^ (lhs.rank + rhs.rank - reduction_edges.length) < 2 ^ 64 →
      c.cost D = D ^ (lhs.rank + rhs.rank - reduction_edges.length)) := by
  unfold pairwise_contraction_type.create at hc
  split_ifs at hc
  simp only [Except.ok.injEq] at hc
  subst hc
  have h := cost_mod ⟨lhs, rhs, none, reduction_edges⟩ D hk hr
  simp only at h
  refine ⟨h, ?_⟩
  intro h2
  rw [h, Nat.mod_eq_of_lt h2]

/-- Witness of `cost_of_created_step`: two nodes of rank 2, one reduced edge, extent 2. -/
theorem cost_of_created_step_witness :
    (⟨⟨⟨0⟩, 2⟩, ⟨⟨1⟩, 2⟩, none, [⟨⟨⟨0⟩, 1⟩, ⟨⟨1⟩, 0⟩⟩]⟩ : pairwise_contraction_type).cost 2 =
      2 ^ (2 + 2 - 1) :=
  (cost_of_created_step ⟨⟨0⟩, 2⟩ ⟨⟨1⟩, 2⟩ [⟨⟨⟨0⟩, 1⟩, ⟨⟨1⟩, 0⟩⟩] 2
    ⟨⟨⟨0⟩, 2⟩, ⟨⟨1⟩, 2⟩, none, [⟨⟨⟨0⟩, 1⟩, ⟨⟨1⟩, 0⟩⟩]⟩ (by decide) (by decide)
    (by decide)).2 (by decide)

/-! ## The network of a parsed expression: when it is built -/

/-- The ids and the nodes that `einsum::network` creates. -/
theorem network_nodes_eq (fl : List factor_index_labels_vec) (hn : fl.length < 2 ^ 64) :
    einsum.network_nodes fl =
      (fl.enum.map (fun t => (⟨t.1⟩ : node_id)),
        (⟨fl.enum.map (fun t => (⟨⟨t.1⟩, t.2.length⟩ : node)), fl.length, []⟩ :
          tensor_network)) := by
  unfold einsum.network_nodes
  rw [network_nodes_from fl [] tensor_network.empty
    (by simp only [tensor_network.empty]; omega)]
  simp [tensor_network.empty, List.enum]

/-- The node and the id of the factor of a cursor. -/
theorem node_of_cursor (fl : List factor_index_labels_vec) (hn : fl.length < 2 ^ 64)
    (c : index_cursor) (labels : factor_index_labels_vec) (l : index_label)
    (h1 : fl[c.factor]? = some labels) (h2 : labels[c.index]? = some l) :
    (einsum.network_nodes fl).1[c.factor]? = some ⟨c.factor⟩ ∧
    (einsum.network_nodes fl).2.nodes_.find? (fun n => n.id = ⟨c.factor⟩) =
      some ⟨⟨c.factor⟩, labels.length⟩ ∧
    c.index < labels.length := by
  have hnd := (network_nodes_spec fl hn).2.2
  rw [network_nodes_eq fl hn] at hnd ⊢
  refine ⟨?_, ?_, (List.getElem?_eq_some_iff.mp h2).1⟩
  · simp only [List.getElem?_map, List.getElem?_enum, h1, Option.map_some']
  · have hmem : (⟨⟨c.factor⟩, labels.length⟩ : node) ∈
        fl.enum.map (fun t => (⟨⟨t.1⟩, t.2.length⟩ : node)) :=
      List.mem_map.mpr ⟨(c.factor, labels), List.mem_enum_iff_getElem?.mpr h1, rfl⟩
    exact find_of_mem_nodup _ hnd _ hmem

theorem network_edge_pair (ids : List node_id) (net : tensor_network) (g : contraction)
    (l r : index_cursor) (hd : g.data_ = [l, r])
    (hl : ids[l.factor]? = some ⟨l.factor⟩) (hr : ids[r.factor]? = some ⟨r.factor⟩) :
    einsum.network_edge ids net g =
      net.add_edge ⟨⟨l.factor⟩, l.index⟩ ⟨⟨r.factor⟩, r.index⟩ := by
  unfold einsum.network_edge sstd.constexpr_set.get_data
  rw [hd]
  simp only [List.get?_eq_getElem?, hl, hr]

/-- The loop of `einsum::network` over the contraction groups: a group of two cursors adds
its edge, and the only failure is that of a group that has not two cursors. -/
theorem network_fold_ok (s : List Char) (p : einsum_parsed) (hlen : s.length < 2 ^ 64)
    (hp : einsum_parsed.parse s = .ok p) (hfac : p.factor_index_labels_.length < 2 ^ 64)
    (todo done : List contraction) (hgs : p.contractions_ = done ++ todo)
    (net0 : tensor_network)
    (hnodes : net0.nodes_ = (einsum.network_nodes p.factor_index_labels_).2.nodes_)
    (hedges : ∀ e ∈ net0.edges_, ∃ g ∈ done, ∃ l r : index_cursor, g.data_ = [l, r] ∧
      e = ⟨⟨⟨l.factor⟩, l.index⟩, ⟨⟨r.factor⟩, r.index⟩⟩) :
    ((∀ g ∈ todo, g.data_.length = 2) ∧
      ∃ net, todo.foldlM
        (einsum.network_edge (einsum.network_nodes p.factor_index_labels_).1) net0 = .ok net) ∨
    ((∃ g ∈ todo, g.data_.length ≠ 2) ∧
      todo.foldlM (einsum.network_edge (einsum.network_nodes p.factor_index_labels_).1) net0 =
        .error .reduction_not_two_indices) := by
  induction todo generalizing done net0 with
  | nil => exact Or.inl ⟨by simp, net0, rfl⟩
  | cons g rest ih =>
    have hg : p.contractions_[done.length]? = some g := by
      rw [hgs, List.getElem?_append_right (Nat.le_refl _), Nat.sub_self]
      exact List.getElem?_cons_zero
    by_cases h2 : g.data_.length = 2
    · obtain ⟨l, r, hd⟩ : ∃ l r, g.data_ = [l, r] := by
        match hdata : g.data_, h2 with
        | [l, r], _ => exact ⟨l, r, rfl⟩
      obtain ⟨lab, hlab, _⟩ := group_of_label s p hlen hp _ g hg
      have hnd : g.data_.Nodup := by
        rw [hlab]
        exact cursors_of_label_nodup _ lab
      have hml : l ∈ g.data_ := by rw [hd]; simp
      have hmr : r ∈ g.data_ := by rw [hd]; simp
      have hml2 := hml
      have hmr2 := hmr
      rw [hlab, mem_cursors_iff] at hml2 hmr2
      obtain ⟨ll, hll, hll2⟩ := hml2
      obtain ⟨lr, hlr, hlr2⟩ := hmr2
      obtain ⟨hidl, hfl, hil⟩ := node_of_cursor _ hfac l ll lab hll hll2
      obtain ⟨hidr, hfr, hir⟩ := node_of_cursor _ hfac r lr lab hlr hlr2
      have hne : l ≠ r := by
        rw [hd] at hnd
        intro h
        rw [h] at hnd
        simp at hnd
      have hab : (⟨⟨l.factor⟩, l.index⟩ : index_location) ≠ ⟨⟨r.factor⟩, r.index⟩ := by
        intro h
        apply hne
        cases l
        cases r
        simp only [index_location.mk.injEq, node_id.mk.injEq] at h
        simp only [index_cursor.mk.injEq]
        exact h
      have hother : ∀ (g2 : contraction) (c c2 : index_cursor), g2 ∈ done → c2 ∈ g2.data_ →
          c ∈ g.data_ →
          (⟨⟨c2.factor⟩, c2.index⟩ : index_location) ≠ ⟨⟨c.factor⟩, c.index⟩ := by
        intro g2 c c2 hg2 hc2 hc h
        have hcc : c2 = c := by
          cases c
          cases c2
          simp only [index_location.mk.injEq, node_id.mk.injEq] at h
          simp only [index_cursor.mk.injEq]
          exact h
        subst hcc
        obtain ⟨j, hj⟩ := List.mem_iff_getElem?.mp hg2
        have hjlt : j < done.length := (List.getElem?_eq_some_iff.mp hj).1
        have hj2 : p.contractions_[j]? = some g2 := by
          rw [hgs, List.getElem?_append_left hjlt]
          exact hj
        have := group_unique s p hlen hp j done.length g2 g c2 hj2 hg hc2 hc
        omega
      have hfree : ∀ e ∈ net0.edges_,
          e.left ≠ (⟨⟨l.factor⟩, l.index⟩ : index_location) ∧
          e.left ≠ (⟨⟨r.factor⟩, r.index⟩ : index_location) ∧
          e.right ≠ (⟨⟨l.factor⟩, l.index⟩ : index_location) ∧
          e.right ≠ (⟨⟨r.factor⟩, r.index⟩ : index_location) := by
        intro e he
        obtain ⟨g2, hg2, l2, r2, hd2, he2⟩ := hedges e he
        have hl2 : l2 ∈ g2.data_ := by rw [hd2]; simp
        have hr2 : r2 ∈ g2.data_ := by rw [hd2]; simp
        rw [he2]
        exact ⟨hother g2 l l2 hg2 hl2 hml, hother g2 r l2 hg2 hl2 hmr,
          hother g2 l r2 hg2 hr2 hml, hother g2 r r2 hg2 hr2 hmr⟩
      have hstep := add_edge_ok net0 ⟨⟨l.factor⟩, l.index⟩ ⟨⟨r.factor⟩, r.index⟩
        ⟨⟨l.factor⟩, ll.length⟩ ⟨⟨r.factor⟩, lr.length⟩ hab (by rw [hnodes]; exact hfl)
        (by rw [hnodes]; exact hfr) hil hir hfree
      rw [List.foldlM_cons, network_edge_pair _ net0 g l r hd hidl hidr, hstep]
      have hih := ih (done ++ [g]) (by rw [hgs]; simp)
        ⟨net0.nodes_, net0.next_id_,
          net0.edges_ ++ [⟨⟨⟨l.factor⟩, l.index⟩, ⟨⟨r.factor⟩, r.index⟩⟩]⟩ hnodes
        (by
          intro e he
          rcases List.mem_append.mp he with h | h
          · obtain ⟨g2, hg2, rest2⟩ := hedges e h
            exact ⟨g2, List.mem_append_left _ hg2, rest2⟩
          · rw [List.mem_singleton] at h
            exact ⟨g, List.mem_append_right _ (List.mem_singleton_self _), l, r, hd, h⟩)
      rcases hih with ⟨hall, net, hnet⟩ | ⟨⟨g3, hg3, hg3l⟩, herr⟩
      · left
        refine ⟨?_, net, hnet⟩
        intro g4 hg4
        rcases List.mem_cons.mp hg4 with h | h
        · rw [h]; exact h2
        · exact hall g4 h
      · right
        exact ⟨⟨g3, List.mem_cons_of_mem _ hg3, hg3l⟩, herr⟩
    · right
      refine ⟨⟨g, List.mem_cons_self _ _, h2⟩, ?_⟩
      rw [List.foldlM_cons, network_edge_not_two _ net0 g h2]
      rfl

/-- C27: for a parsed expression, `einsum::network` (one node per factor, of rank the
number of labels of the factor, and one edge per contraction group) is built exactly when
every contraction group has two cursors; when it is not built the failure is the one of a
group that has not two cursors, never a failure of `add_edge`. -/
theorem network_built_iff (s : List Char) (p : einsum_parsed) (hlen : s.length < 2 ^ 64)
    (hp : einsum_parsed.parse s = .ok p) (hfac : p.factor_index_labels_.length < 2 ^ 64) :
    ((∃ r, einsum.network_of p = .ok r) ↔ ∀ g ∈ p.contractions_, g.data_.length = 2) ∧
    (∀ err, einsum.network_of p = .error err →
      err = .reduction_not_two_indices ∧ ∃ g ∈ p.contractions_, g.data_.length ≠ 2) ∧
    (∀ (ids : List node_id) (net : tensor_network), einsum.network_of p = .ok (ids, net) →
      net.nodes_.map (fun n => n.rank) = p.factor_index_labels_.map List.length ∧
      net.edges_.length = p.contractions_.length) := by
  have hfold := network_fold_ok s p hlen hp hfac p.contractions_ [] (by simp)
    (einsum.network_nodes p.factor_index_labels_).2 rfl
    (by
      intro e he
      rw [(network_nodes_spec _ hfac).2.1] at he
      cases he)
  refine ⟨⟨?_, ?_⟩, ?_, ?_⟩
  · rintro ⟨r, hr⟩ g hg
    obtain ⟨ids, net⟩ := r
    exact network_of_groups p ids net hr g hg
  · intro hall
    rcases hfold with ⟨_, net, hnet⟩ | ⟨⟨g, hg, hne⟩, _⟩
    · refine ⟨((einsum.network_nodes p.factor_index_labels_).1, net), ?_⟩
      unfold einsum.network_of
      simp only [hnet]
    · exact absurd (hall g hg) hne
  · intro err herr
    rcases hfold with ⟨_, net, hnet⟩ | ⟨hex, hfail⟩
    · unfold einsum.network_of at herr
      simp only [hnet] at herr
      cases herr
    · unfold einsum.network_of at herr
      simp only [hfail, Except.error.injEq] at herr
      exact ⟨herr.symm, hex⟩
  · intro ids net hnet
    obtain ⟨_, _, hedges, _⟩ := network_of_spec p ids net hfac hnet
    refine ⟨?_, hedges⟩
    unfold einsum.network_of at hnet
    simp only at hnet
    cases h : p.contractions_.foldlM
        (einsum.network_edge (einsum.network_nodes p.factor_index_labels_).1)
        (einsum.network_nodes p.factor_index_labels_).2 with
    | error err => rw [h] at hnet; cases hnet
    | ok net1 =>
      rw [h] at hnet
      simp only [Except.ok.injEq, Prod.mk.injEq] at hnet
      obtain ⟨_, hn1⟩ := hnet
      subst hn1
      obtain ⟨_, hn, _⟩ := network_fold_spec _ _ _ _ (well_formed_network_nodes _ hfac) h
      rw [hn, network_nodes_eq _ hfac]
      simp only [List.map_map]
      have : ((fun n : node => n.rank) ∘ fun t : Nat × factor_index_labels_vec =>
          (⟨⟨t.1⟩, t.2.length⟩ : node)) = List.length ∘ Prod.snd := by
        funext t; rfl
      rw [this, ← List.map_map, List.enum_map_snd]

/-- Witness of `network_built_iff`: the network of "ij,jk->ik" is built. -/
theorem network_built_iff_witness :
    ∃ r, einsum.network_of
      ⟨[[['i'], ['j']], [['j'], ['k']]], [['i'], ['k']], [['i'], ['k']], [⟨[⟨0, 1⟩, ⟨1, 0⟩]⟩]⟩
      = .ok r :=
  (network_built_iff "ij,jk->ik".toList
    ⟨[[['i'], ['j']], [['j'], ['k']]], [['i'], ['k']], [['i'], ['k']], [⟨[⟨0, 1⟩, ⟨1, 0⟩]⟩]⟩
    (by decide) (by decide) (by decide)).1.mpr (by decide)

/-! ## The components of a network: lists with an element replaced and one erased -/

theorem perm_eraseIdx {α : Type} (xs : List α) (i : Nat) (a : α) (h : xs[i]? = some a) :
    xs.Perm (a :: xs.eraseIdx i) := by
  induction xs generalizing i with
  | nil => simp at h
  | cons x t ih =>
    cases i with
    | zero =>
      simp only [List.getElem?_cons_zero, Option.some.injEq] at h
      subst h
      exact List.Perm.refl _
    | succ i =>
      simp only [List.getElem?_cons_succ] at h
      simp only [List.eraseIdx_cons_succ]
      exact ((ih i h).cons x).trans (List.Perm.swap a x _)

theorem eraseIdx_set_self {α : Type} (xs : List α) (i : Nat) (c : α) :
    (xs.set i c).eraseIdx i = xs.eraseIdx i := by
  induction xs generalizing i with
  | nil => rfl
  | cons x t ih =>
    cases i with
    | zero => rfl
    | succ i => simp only [List.set_cons_succ, List.eraseIdx_cons_succ, ih]

theorem set_perm {α : Type} (xs : List α) (i : Nat) (a c : α) (h : xs[i]? = some a) :
    (xs.set i c).Perm (c :: xs.eraseIdx i) := by
  have hi : i < xs.length := (List.getElem?_eq_some_iff.mp h).1
  have := perm_eraseIdx (xs.set i c) i c (by simp [hi])
  rw [eraseIdx_set_self] at this
  exact this

/-- Replacing the element at `i` by `c` and erasing the element at `j`. -/
theorem merge_perm {α : Type} (xs : List α) (i j : Nat) (a b c : α) (hij : i ≠ j)
    (hi : xs[i]? = some a) (hj : xs[j]? = some b) :
    ∃ rest, xs.Perm (a :: b :: rest) ∧ ((xs.set i c).eraseIdx j).Perm (c :: rest) := by
  induction xs generalizing i j with
  | nil => simp at hi
  | cons x t ih =>
    cases i with
    | zero =>
      cases j with
      | zero => exact absurd rfl hij
      | succ j =>
        simp only [List.getElem?_cons_zero, Option.some.injEq] at hi
        simp only [List.getElem?_cons_succ] at hj
        subst hi
        refine ⟨t.eraseIdx j, (perm_eraseIdx t j b hj).cons x, ?_⟩
        simp only [List.set_cons_zero, List.eraseIdx_cons_succ]
        exact List.Perm.refl _
    | succ i =>
      cases j with
      | zero =>
        simp only [List.getElem?_cons_zero, Option.some.injEq] at hj
        simp only [List.getElem?_cons_succ] at hi
        subst hj
        refine ⟨t.eraseIdx i, ((perm_eraseIdx t i a hi).cons x).trans (List.Perm.swap a x _), ?_⟩
        simp only [List.set_cons_succ, List.eraseIdx_cons_zero]
        exact set_perm t i a c hi
      | succ j =>
        simp only [List.getElem?_cons_succ] at hi hj
        obtain ⟨rest, h1, h2⟩ := ih i j (fun h => hij (by rw [h])) hi hj
        refine ⟨x :: rest, ?_, ?_⟩
        · exact (h1.cons x).trans
            ((List.Perm.swap a x _).trans ((List.Perm.swap b x _).cons a))
        · simp only [List.set_cons_succ, List.eraseIdx_cons_succ]
          exact (h2.cons x).trans (List.Perm.swap c x _)

theorem map_head_set {α : Type} (xs : List (List α)) (i : Nat) (a c : List α)
    (h : xs[i]? = some a) (hc : c.head? = a.head?) :
    (xs.set i c).map List.head? = xs.map List.head? := by
  apply List.ext_getElem?
  intro k
  rw [List.getElem?_map, List.getElem?_map, List.getElem?_set]
  by_cases hk : i = k
  · subst hk
    have hi : i < xs.length := (List.getElem?_eq_some_iff.mp h).1
    simp [hi, h, hc]
  · simp [hk]

theorem map_eraseIdx_eq {α β : Type} (f : α → β) (xs : List α) (i : Nat) :
    (xs.eraseIdx i).map f = (xs.map f).eraseIdx i := by
  induction xs generalizing i with
  | nil => rfl
  | cons x t ih =>
    cases i with
    | zero => rfl
    | succ i => simp only [List.eraseIdx_cons_succ, List.map_cons, ih]

/-- In a list whose elements carry lists that have no repetition when concatenated, something
lies in the list of one element only. -/
theorem unique_of_nodup_flatten {α β : Type} (f : α → List β) (L : List α)
    (h : (L.map f).flatten.Nodup) (c1 c2 : α) (h1 : c1 ∈ L) (h2 : c2 ∈ L) (x : β)
    (x1 : x ∈ f c1) (x2 : x ∈ f c2) : c1 = c2 := by
  induction L with
  | nil => cases h1
  | cons l rest ih =>
    rw [List.map_cons, List.flatten_cons, List.nodup_append] at h
    obtain ⟨_, hrest, hdis⟩ := h
    rcases List.mem_cons.mp h1 with e1 | e1 <;> rcases List.mem_cons.mp h2 with e2 | e2
    · rw [e1, e2]
    · exfalso
      subst e1
      exact hdis x1 (List.mem_flatten.mpr ⟨f c2, List.mem_map.mpr ⟨c2, e2, rfl⟩, x2⟩)
    · exfalso
      subst e2
      exact hdis x2 (List.mem_flatten.mpr ⟨f c1, List.mem_map.mpr ⟨c1, e1, rfl⟩, x1⟩)
    · exact ih hrest e1 e2

/-! ## The components of a network: the loop over the edges -/

theorem contains_iff (c : tensor_network) (id : node_id) :
    c.contains id = true ↔ ∃ n ∈ c.nodes_, n.id = id := by
  unfold tensor_network.contains
  rw [List.any_eq_true]
  constructor
  · rintro ⟨n, hn, h⟩
    exact ⟨n, hn, by simpa using h⟩
  · rintro ⟨n, hn, h⟩
    exact ⟨n, hn, by simpa using h⟩

theorem find_component_ok (comps : List connected_tensor_network) (id : node_id)
    (hex : ∃ c ∈ comps, c.contains id = true) :
    ∃ i c, tensor_network.find_component comps id = .ok i ∧ comps[i]? = some c ∧
      c.contains id = true := by
  unfold tensor_network.find_component
  have h1 := List.findIdx?_eq_some_of_exists (p := fun c : tensor_network => c.contains id) hex
  rw [h1]
  have h2 := List.findIdx?_of_eq_some h1
  cases h3 : comps[List.findIdx (fun c : tensor_network => c.contains id) comps]? with
  | none => rw [h3] at h2; simp at h2
  | some c =>
    rw [h3] at h2
    exact ⟨_, c, rfl, h3, h2⟩

theorem joins_symm (edges : List edge) (a b : node_id) (h : edge.joins edges a b) :
    edge.joins edges b a := by
  obtain ⟨e, he, h1⟩ := h
  exact ⟨e, he, h1.symm⟩

theorem path_symm (edges : List edge) (a b : node_id) (h : edge.path edges a b) :
    edge.path edges b a :=
  Relation.ReflTransGen.symmetric (fun x y hxy => joins_symm edges x y hxy) h

theorem path_trans (edges : List edge) (a b c : node_id) (h1 : edge.path edges a b)
    (h2 : edge.path edges b c) : edge.path edges a c :=
  Relation.ReflTransGen.trans h1 h2

theorem path_mono (edges more : List edge) (a b : node_id) (h : edge.path edges a b) :
    edge.path (edges ++ more) a b :=
  Relation.ReflTransGen.mono
    (fun x y hxy => by
      obtain ⟨e, he, h1⟩ := hxy
      exact ⟨e, List.mem_append_left _ he, h1⟩) h

theorem path_edge (edges : List edge) (e : edge) (he : e ∈ edges) :
    edge.path edges e.left.id e.right.id :=
  Relation.ReflTransGen.single ⟨e, he, Or.inl ⟨rfl, rfl⟩⟩

theorem map_set_same {α β : Type} (f : α → β) (xs : List α) (i : Nat) (a c : α)
    (h : xs[i]? = some a) (hc : f c = f a) : (xs.set i c).map f = xs.map f := by
  apply List.ext_getElem?
  intro k
  rw [List.getElem?_map, List.getElem?_map, List.getElem?_set]
  by_cases hk : i = k
  · subst hk
    have hi : i < xs.length := (List.getElem?_eq_some_iff.mp h).1
    simp [hi, h, hc]
  · simp [hk]

/-- The invariant after an edge that joins two nodes of one component. -/
theorem components_inv_same (net : tensor_network) (done : List edge) (e : edge)
    (comps : List connected_tensor_network) (inv : components_inv net done comps)
    (i : Nat) (c : connected_tensor_network) (hc : comps[i]? = some c)
    (hl : c.contains e.left.id = true) (hr : c.contains e.right.id = true) :
    components_inv net (done ++ [e])
      (comps.set i (⟨c.nodes_, c.next_id_, c.edges_ ++ [e]⟩ : connected_tensor_network)) := by
  have hmem : ∀ c2 ∈ comps.set i (⟨c.nodes_, c.next_id_, c.edges_ ++ [e]⟩ :
      connected_tensor_network),
      c2 ∈ comps ∨ c2 = (⟨c.nodes_, c.next_id_, c.edges_ ++ [e]⟩ : connected_tensor_network) :=
    fun c2 h => List.mem_or_eq_of_mem_set h
  have hcm : c ∈ comps := List.getElem?_mem hc
  have hnodes : (comps.set i (⟨c.nodes_, c.next_id_, c.edges_ ++ [e]⟩ :
      connected_tensor_network)).map (fun c => c.nodes_) = comps.map (fun c => c.nodes_) :=
    map_set_same _ comps i c _ hc rfl
  constructor
  · rw [hnodes]
    exact inv.nodes_perm
  · have h1 := ((set_perm comps i c (⟨c.nodes_, c.next_id_, c.edges_ ++ [e]⟩ :
        connected_tensor_network) hc).map (fun c => c.edges_)).flatten
    have h2 := ((perm_eraseIdx comps i c hc).map (fun c => c.edges_)).flatten
    simp only [List.map_cons, List.flatten_cons] at h1 h2
    refine h1.trans ?_
    have h3 : (c.edges_ ++ [e] ++ ((comps.eraseIdx i).map (fun c => c.edges_)).flatten).Perm
        ((c.edges_ ++ ((comps.eraseIdx i).map (fun c => c.edges_)).flatten) ++ [e]) := by
      rw [List.append_assoc, List.append_assoc]
      exact List.Perm.append_left _ List.perm_append_comm
    exact h3.trans ((h2.symm.trans inv.edges_perm).append_right [e])
  · intro c2 hc2
    rcases hmem c2 hc2 with h | h
    · exact inv.nonempty c2 h
    · rw [h]
      exact inv.nonempty c hcm
  · intro c2 hc2 e2 he2
    rcases hmem c2 hc2 with h | h
    · exact inv.ends_inside c2 h e2 he2
    · subst h
      rcases List.mem_append.mp he2 with h2 | h2
      · exact inv.ends_inside c hcm e2 h2
      · rw [List.mem_singleton] at h2
        subst h2
        exact ⟨hl, hr⟩
  · intro c2 hc2 n hn m hm
    apply path_mono
    rcases hmem c2 hc2 with h | h
    · exact inv.joined c2 h n hn m hm
    · subst h
      exact inv.joined c hcm n hn m hm
  · have : (comps.set i (⟨c.nodes_, c.next_id_, c.edges_ ++ [e]⟩ :
        connected_tensor_network)).map (fun c => c.nodes_.head?) =
        comps.map (fun c => c.nodes_.head?) := map_set_same _ comps i c _ hc rfl
    rw [this]
    exact inv.heads

/-- The invariant after an edge that joins nodes of two components. -/
theorem components_inv_merge (net : tensor_network) (done : List edge) (e : edge)
    (comps : List connected_tensor_network) (inv : components_inv net done comps)
    (i j : Nat) (hij : i ≠ j) (L R : connected_tensor_network)
    (hL : comps[i]? = some L) (hR : comps[j]? = some R)
    (hl : L.contains e.left.id = true) (hr : R.contains e.right.id = true) :
    components_inv net (done ++ [e]) ((comps.set i (L.connect R e)).eraseIdx j) := by
  obtain ⟨rest, hp1, hp2⟩ := merge_perm comps i j L R (L.connect R e) hij hL hR
  have hLm : L ∈ comps := List.getElem?_mem hL
  have hRm : R ∈ comps := List.getElem?_mem hR
  have hrest : ∀ c ∈ rest, c ∈ comps := fun c hc =>
    hp1.mem_iff.mpr (List.mem_cons_of_mem _ (List.mem_cons_of_mem _ hc))
  have hmem : ∀ c ∈ (comps.set i (L.connect R e)).eraseIdx j,
      c = L.connect R e ∨ c ∈ comps := by
    intro c hc
    rcases List.mem_cons.mp (hp2.mem_iff.mp hc) with h | h
    · exact Or.inl h
    · exact Or.inr (hrest c h)
  obtain ⟨x, hx, hxid⟩ := (contains_iff L _).mp hl
  obtain ⟨y, hy, hyid⟩ := (contains_iff R _).mp hr
  constructor
  · have h1 := (hp2.map (fun c => c.nodes_)).flatten
    have h2 := (hp1.map (fun c => c.nodes_)).flatten
    simp only [List.map_cons, List.flatten_cons, tensor_network.connect] at h1 h2
    refine h1.trans ?_
    rw [List.append_assoc]
    exact h2.symm.trans inv.nodes_perm
  · have h1 := (hp2.map (fun c => c.edges_)).flatten
    have h2 := (hp1.map (fun c => c.edges_)).flatten
    simp only [List.map_cons, List.flatten_cons, tensor_network.connect] at h1 h2
    refine h1.trans ?_
    have h3 : (L.edges_ ++ R.edges_ ++ [e] ++ (rest.map (fun c => c.edges_)).flatten).Perm
        ((L.edges_ ++ (R.edges_ ++ (rest.map (fun c => c.edges_)).flatten)) ++ [e]) := by
      simp only [List.append_assoc]
      exact List.Perm.append_left _ (List.Perm.append_left _ List.perm_append_comm)
    exact h3.trans ((h2.symm.trans inv.edges_perm).append_right [e])
  · intro c hc
    rcases hmem c hc with h | h
    · rw [h]
      simp only [tensor_network.connect]
      intro h0
      exact inv.nonempty L hLm (List.append_eq_nil.mp h0).1
    · exact inv.nonempty c h
  · intro c hc e2 he2
    rcases hmem c hc with h | h
    · subst h
      have hsubL : ∀ id, L.contains id = true → (L.connect R e).contains id = true := by
        intro id h1
        obtain ⟨n, hn, hnid⟩ := (contains_iff L id).mp h1
        exact (contains_iff _ id).mpr ⟨n, List.mem_append_left _ hn, hnid⟩
      have hsubR : ∀ id, R.contains id = true → (L.connect R e).contains id = true := by
        intro id h1
        obtain ⟨n, hn, hnid⟩ := (contains_iff R id).mp h1
        exact (contains_iff _ id).mpr ⟨n, List.mem_append_right _ hn, hnid⟩
      simp only [tensor_network.connect] at he2
      rcases List.mem_append.mp he2 with h2 | h2
      · rcases List.mem_append.mp h2 with h3 | h3
        · have := inv.ends_inside L hLm e2 h3
          exact ⟨hsubL _ this.1, hsubL _ this.2⟩
        · have := inv.ends_inside R hRm e2 h3
          exact ⟨hsubR _ this.1, hsubR _ this.2⟩
      · rw [List.mem_singleton] at h2
        subst h2
        exact ⟨hsubL _ hl, hsubR _ hr⟩
    · exact inv.ends_inside c h e2 he2
  · intro c hc n hn m hm
    rcases hmem c hc with h | h
    · subst h
      have hxy : edge.path (done ++ [e]) x.id y.id := by
        rw [hxid, hyid]
        exact path_edge _ e (List.mem_append_right _ (List.mem_singleton_self _))
      have hLp : ∀ a ∈ L.nodes_, ∀ b ∈ L.nodes_, edge.path (done ++ [e]) a.id b.id :=
        fun a ha b hb => path_mono _ _ _ _ (inv.joined L hLm a ha b hb)
      have hRp : ∀ a ∈ R.nodes_, ∀ b ∈ R.nodes_, edge.path (done ++ [e]) a.id b.id :=
        fun a ha b hb => path_mono _ _ _ _ (inv.joined R hRm a ha b hb)
      simp only [tensor_network.connect] at hn hm
      rcases List.mem_append.mp hn with h1 | h1 <;> rcases List.mem_append.mp hm with h2 | h2
      · exact hLp n h1 m h2
      · exact path_trans _ _ _ _ (hLp n h1 x hx) (path_trans _ _ _ _ hxy (hRp y hy m h2))
      · exact path_trans _ _ _ _ (hRp n h1 y hy)
          (path_trans _ _ _ _ (path_symm _ _ _ hxy) (hLp x hx m h2))
      · exact hRp n h1 m h2
    · exact path_mono _ _ _ _ (inv.joined c h n hn m hm)
  · have h1 : (comps.set i (L.connect R e)).map (fun c => c.nodes_.head?) =
        comps.map (fun c => c.nodes_.head?) := by
      apply map_set_same _ comps i L _ hL
      simp only [tensor_network.connect, List.head?_append]
      cases hLn : L.nodes_ with
      | nil => exact absurd hLn (inv.nonempty L hLm)
      | cons a t => rfl
    rw [map_eraseIdx_eq, h1]
    exact (List.eraseIdx_sublist _ _).trans inv.heads

theorem component_of_node (net : tensor_network) (done : List edge)
    (comps : List connected_tensor_network) (inv : components_inv net done comps)
    (n : node) (hn : n ∈ net.nodes_) : ∃ c ∈ comps, n ∈ c.nodes_ := by
  have := inv.nodes_perm.mem_iff.mpr hn
  obtain ⟨l, hl, hnl⟩ := List.mem_flatten.mp this
  obtain ⟨c, hc, hcl⟩ := List.mem_map.mp hl
  exact ⟨c, hc, by rw [hcl]; exact hnl⟩

theorem node_of_component (net : tensor_network) (done : List edge)
    (comps : List connected_tensor_network) (inv : components_inv net done comps)
    (c : connected_tensor_network) (hc : c ∈ comps) (n : node) (hn : n ∈ c.nodes_) :
    n ∈ net.nodes_ :=
  inv.nodes_perm.mem_iff.mp
    (List.mem_flatten.mpr ⟨c.nodes_, List.mem_map.mpr ⟨c, hc, rfl⟩, hn⟩)

theorem edge_of_component (net : tensor_network) (done : List edge)
    (comps : List connected_tensor_network) (inv : components_inv net done comps)
    (c : connected_tensor_network) (hc : c ∈ comps) (e : edge) (he : e ∈ c.edges_) :
    e ∈ done :=
  inv.edges_perm.mem_iff.mp
    (List.mem_flatten.mpr ⟨c.edges_, List.mem_map.mpr ⟨c, hc, rfl⟩, he⟩)

/-- One step of the loop of `connected_components` on a well formed network. -/
theorem connect_components_step (net : tensor_network) (hwf : well_formed net)
    (done todo : List edge) (e : edge) (hedges : net.edges_ = done ++ e :: todo)
    (comps : List connected_tensor_network) (inv : components_inv net done comps) :
    ∃ comps2, tensor_network.connect_components comps e = .ok comps2 ∧
      components_inv net (done ++ [e]) comps2 := by
  have he : e ∈ net.edges_ := by
    rw [hedges]
    exact List.mem_append_right _ (List.mem_cons_self _ _)
  obtain ⟨n, hn, hnid, hnr⟩ := hwf.left_valid e he
  obtain ⟨m, hm, hmid, hmr⟩ := hwf.right_valid e he
  obtain ⟨cl, hcl, hncl⟩ := component_of_node net done comps inv n hn
  obtain ⟨cr, hcr, hmcr⟩ := component_of_node net done comps inv m hm
  obtain ⟨i, L, hfi, hL, hl⟩ := find_component_ok comps e.left.id
    ⟨cl, hcl, (contains_iff cl _).mpr ⟨n, hncl, hnid⟩⟩
  obtain ⟨j, R, hfj, hR, hr⟩ := find_component_ok comps e.right.id
    ⟨cr, hcr, (contains_iff cr _).mpr ⟨m, hmcr, hmid⟩⟩
  unfold tensor_network.connect_components
  rw [hfi, hfj]
  simp only [List.get?_eq_getElem?, hL, hR]
  by_cases hij : i = j
  · subst hij
    rw [hL] at hR
    simp only [Option.some.injEq] at hR
    subst hR
    have hLm : L ∈ comps := List.getElem?_mem hL
    have hfound : ∀ (loc : index_location) (k : node), k ∈ net.nodes_ → k.id = loc.id →
        loc.index < k.rank → L.contains loc.id = true →
        ∃ na, L.nodes_.find? (fun x => x.id = loc.id) = some na ∧ loc.index < na.rank := by
      intro loc k hk hkid hkr hcon
      obtain ⟨x, hx, hxid⟩ := (contains_iff L _).mp hcon
      cases hf : L.nodes_.find? (fun x => x.id = loc.id) with
      | none =>
        exfalso
        have := List.find?_eq_none.mp hf x hx
        simp only [decide_eq_true_eq] at this
        exact this hxid
      | some na =>
        refine ⟨na, rfl, ?_⟩
        have h1 := List.find?_some hf
        simp only [decide_eq_true_eq] at h1
        have h2 := node_of_component net done comps inv L hLm na (List.mem_of_find?_eq_some hf)
        have : na = k := List.inj_on_of_nodup_map hwf.ids_nodup h2 hk (by rw [h1, hkid])
        rw [this]
        exact hkr
    obtain ⟨na, hna, hra⟩ := hfound e.left n hn hnid hnr hl
    obtain ⟨nb, hnb, hrb⟩ := hfound e.right m hm hmid hmr hr
    have hap := (List.pairwise_append.mp (hedges ▸ hwf.apart)).2.2
    have hadd := add_edge_ok L e.left e.right na nb (hwf.ends_differ e he) hna hnb hra hrb
      (by
        intro e2 he2
        have hd := edge_of_component net done comps inv L hLm e2 he2
        obtain ⟨h1, h2, h3, h4⟩ := hap e2 hd e (List.mem_cons_self _ _)
        exact ⟨fun h => h1 h.symm, fun h => h3 h.symm, fun h => h2 h.symm, fun h => h4 h.symm⟩)
    simp only [if_true, hadd]
    exact ⟨_, rfl, components_inv_same net done e comps inv i L hL hl hr⟩
  · simp only [if_neg hij]
    exact ⟨_, rfl, components_inv_merge net done e comps inv i j hij L R hL hR hl hr⟩

/-- The loop of `connected_components` over the edges of a well formed network. -/
theorem connected_components_fold (net : tensor_network) (hwf : well_formed net)
    (todo done : List edge) (hedges : net.edges_ = done ++ todo)
    (comps : List connected_tensor_network) (inv : components_inv net done comps) :
    ∃ cc, todo.foldlM tensor_network.connect_components comps = .ok cc ∧
      components_inv net net.edges_ cc := by
  induction todo generalizing done comps with
  | nil =>
    rw [List.append_nil] at hedges
    rw [hedges]
    exact ⟨comps, rfl, inv⟩
  | cons e rest ih =>
    obtain ⟨comps2, h1, inv2⟩ := connect_components_step net hwf done rest e hedges comps inv
    obtain ⟨cc, h2, inv3⟩ := ih (done ++ [e]) (by rw [hedges]; simp) comps2 inv2
    refine ⟨cc, ?_, inv3⟩
    rw [List.foldlM_cons, h1]
    exact h2

theorem components_inv_init (net : tensor_network) :
    components_inv net []
      (net.nodes_.map (fun n => (⟨[n], net.next_id_, []⟩ : connected_tensor_network))) := by
  constructor
  · simp only [List.map_map]
    have : (List.map ((fun c : connected_tensor_network => c.nodes_) ∘
        fun n => (⟨[n], net.next_id_, []⟩ : connected_tensor_network)) net.nodes_).flatten =
        net.nodes_ := by
      induction net.nodes_ with
      | nil => rfl
      | cons a t ih => simp only [List.map_cons, List.flatten_cons, ih]; rfl
    rw [this]
  · simp only [List.map_map]
    have : (List.map ((fun c : connected_tensor_network => c.edges_) ∘
        fun n => (⟨[n], net.next_id_, []⟩ : connected_tensor_network)) net.nodes_).flatten =
        [] := by
      induction net.nodes_ with
      | nil => rfl
      | cons a t ih => simp only [List.map_cons, List.flatten_cons, ih]; rfl
    rw [this]
  · intro c hc
    obtain ⟨n, _, hn⟩ := List.mem_map.mp hc
    rw [← hn]
    simp
  · intro c hc e he
    obtain ⟨n, _, hn⟩ := List.mem_map.mp hc
    rw [← hn] at he
    cases he
  · intro c hc n hn m hm
    obtain ⟨k, _, hk⟩ := List.mem_map.mp hc
    rw [← hk] at hn hm
    simp only [List.mem_singleton] at hn hm
    rw [hn, hm]
    exact Relation.ReflTransGen.refl
  · simp only [List.map_map]
    have : ((fun c : connected_tensor_network => c.nodes_.head?) ∘
        fun n => (⟨[n], net.next_id_, []⟩ : connected_tensor_network)) = some := by
      funext n; rfl
    rw [this]

/-- On a well formed network `connected_components` returns, with components that satisfy
the invariant of its loop for all the edges. -/
theorem connected_components_inv (net : tensor_network) (hwf : well_formed net) :
    ∃ cc, net.connected_components = .ok cc ∧ components_inv net net.edges_ cc := by
  unfold tensor_network.connected_components
  exact connected_components_fold net hwf net.edges_ [] (by simp) _ (components_inv_init net)

theorem nodes_nodup (net : tensor_network) (hwf : well_formed net) : net.nodes_.Nodup :=
  List.Nodup.of_map _ hwf.ids_nodup

theorem component_unique (net : tensor_network) (hwf : well_formed net)
    (cc : List connected_tensor_network) (inv : components_inv net net.edges_ cc)
    (c1 c2 : connected_tensor_network) (h1 : c1 ∈ cc) (h2 : c2 ∈ cc) (n : node)
    (n1 : n ∈ c1.nodes_) (n2 : n ∈ c2.nodes_) : c1 = c2 :=
  unique_of_nodup_flatten (fun c : connected_tensor_network => c.nodes_) cc
    (inv.nodes_perm.nodup_iff.mpr (nodes_nodup net hwf)) c1 c2 h1 h2 n n1 n2

/-- Nodes joined by a path of edges lie in one component. -/
theorem same_component_of_path (net : tensor_network) (hwf : well_formed net)
    (cc : List connected_tensor_network) (inv : components_inv net net.edges_ cc)
    (n : node) (hn : n ∈ net.nodes_) (b : node_id) (hpath : edge.path net.edges_ n.id b) :
    ∀ m ∈ net.nodes_, m.id = b → ∃ c ∈ cc, n ∈ c.nodes_ ∧ m ∈ c.nodes_ := by
  unfold edge.path at hpath
  induction hpath with
  | refl =>
    intro m hm hmid
    have : m = n := List.inj_on_of_nodup_map hwf.ids_nodup hm hn hmid
    subst this
    obtain ⟨c, hc, hmc⟩ := component_of_node net _ cc inv m hm
    exact ⟨c, hc, hmc, hmc⟩
  | @tail mid last _ hstep ih =>
    intro m hm hmid
    obtain ⟨e, he, hends⟩ := hstep
    have hef := inv.edges_perm.mem_iff.mpr he
    obtain ⟨l, hl, hel⟩ := List.mem_flatten.mp hef
    obtain ⟨ce, hce, hcel⟩ := List.mem_map.mp hl
    rw [← hcel] at hel
    obtain ⟨hcl, hcr⟩ := inv.ends_inside ce hce e hel
    obtain ⟨xl, hxl, hxlid⟩ := (contains_iff ce _).mp hcl
    obtain ⟨xr, hxr, hxrid⟩ := (contains_iff ce _).mp hcr
    have key : ∀ x y : node, x ∈ ce.nodes_ → y ∈ ce.nodes_ → x.id = mid → y.id = m.id →
        ∃ c ∈ cc, n ∈ c.nodes_ ∧ m ∈ c.nodes_ := by
      intro x y hx hy hxid hyid
      have hxn := node_of_component net _ cc inv ce hce x hx
      have hyn := node_of_component net _ cc inv ce hce y hy
      obtain ⟨c0, hc0, hnc0, hxc0⟩ := ih x hxn hxid
      have h0 : c0 = ce := component_unique net hwf cc inv c0 ce hc0 hce x hxc0 hx
      have hym : y = m := List.inj_on_of_nodup_map hwf.ids_nodup hyn hm hyid
      subst h0
      subst hym
      exact ⟨c0, hc0, hnc0, hy⟩
    rcases hends with ⟨h1, h2⟩ | ⟨h1, h2⟩
    · exact key xl xr hxl hxr (by rw [hxlid, h1]) (by rw [hxrid, h2, hmid])
    · exact key xr xl hxr hxl (by rw [hxrid, h2]) (by rw [hxlid, h1, hmid])

/-- C25: on every well formed network `connected_components` returns, and its components
hold the nodes of the network, each with its rank and in one component only, and the edges
of the network, each in one component only, the one that contains the nodes of both its
ends; two nodes of the network lie in one component exactly when a path of edges of the
network joins them. -/
theorem connected_components_spec (net : tensor_network) (hwf : well_formed net) :
    ∃ cc, net.connected_components = .ok cc ∧
      (cc.map (fun c => c.nodes_)).flatten.Perm net.nodes_ ∧
      (∀ c1 ∈ cc, ∀ c2 ∈ cc, ∀ n ∈ c1.nodes_, n ∈ c2.nodes_ → c1 = c2) ∧
      (cc.map (fun c => c.edges_)).flatten.Perm net.edges_ ∧
      (∀ c1 ∈ cc, ∀ c2 ∈ cc, ∀ e ∈ c1.edges_, e ∈ c2.edges_ → c1 = c2) ∧
      (∀ c ∈ cc, ∀ e ∈ c.edges_,
        (∃ n ∈ c.nodes_, n.id = e.left.id) ∧ (∃ n ∈ c.nodes_, n.id = e.right.id)) ∧
      (∀ n ∈ net.nodes_, ∀ m ∈ net.nodes_,
        ((∃ c ∈ cc, n ∈ c.nodes_ ∧ m ∈ c.nodes_) ↔ edge.path net.edges_ n.id m.id)) := by
  obtain ⟨cc, hcc, inv⟩ := connected_components_inv net hwf
  have hends : ∀ c ∈ cc, ∀ e ∈ c.edges_,
      (∃ n ∈ c.nodes_, n.id = e.left.id) ∧ (∃ n ∈ c.nodes_, n.id = e.right.id) := by
    intro c hc e he
    obtain ⟨h1, h2⟩ := inv.ends_inside c hc e he
    exact ⟨(contains_iff c _).mp h1, (contains_iff c _).mp h2⟩
  refine ⟨cc, hcc, inv.nodes_perm, ?_, inv.edges_perm, ?_, hends, ?_⟩
  · intro c1 h1 c2 h2 n n1 n2
    exact component_unique net hwf cc inv c1 c2 h1 h2 n n1 n2
  · intro c1 h1 c2 h2 e e1 e2
    obtain ⟨⟨x, hx, hxid⟩, _⟩ := hends c1 h1 e e1
    obtain ⟨⟨y, hy, hyid⟩, _⟩ := hends c2 h2 e e2
    have hxn := node_of_component net _ cc inv c1 h1 x hx
    have hyn := node_of_component net _ cc inv c2 h2 y hy
    have : x = y := List.inj_on_of_nodup_map hwf.ids_nodup hxn hyn (by rw [hxid, hyid])
    subst this
    exact component_unique net hwf cc inv c1 c2 h1 h2 x hx hy
  · intro n hn m hm
    constructor
    · rintro ⟨c, hc, hnc, hmc⟩
      exact inv.joined c hc n hnc m hmc
    · intro hpath
      exact same_component_of_path net hwf cc inv n hn m.id hpath m hm rfl

/-- Witness of `connected_components_spec`: the network of "ij,kl,jm", whose nodes 0 and 2
are joined by an edge. -/
theorem connected_components_spec_witness :
    ∃ cc, (⟨[⟨⟨0⟩, 2⟩, ⟨⟨1⟩, 2⟩, ⟨⟨2⟩, 2⟩], 3, [⟨⟨⟨0⟩, 1⟩, ⟨⟨2⟩, 0⟩⟩]⟩ :
        tensor_network).connected_components = .ok cc ∧
      (cc.map (fun c => c.nodes_)).flatten.Perm [⟨⟨0⟩, 2⟩, ⟨⟨1⟩, 2⟩, ⟨⟨2⟩, 2⟩] ∧
      (cc.map (fun c => c.edges_)).flatten.Perm [⟨⟨⟨0⟩, 1⟩, ⟨⟨2⟩, 0⟩⟩] :=
  (connected_components_spec ⟨[⟨⟨0⟩, 2⟩, ⟨⟨1⟩, 2⟩, ⟨⟨2⟩, 2⟩], 3, [⟨⟨⟨0⟩, 1⟩, ⟨⟨2⟩, 0⟩⟩]⟩
    ((built_spec [.add_node 2, .add_node 2, .add_node 2, .add_edge ⟨⟨0⟩, 1⟩ ⟨⟨2⟩, 0⟩] _
      (by decide) (by decide)).2.2)).imp
    (fun _ h => ⟨h.1, h.2.1, h.2.2.2.1⟩)

/-- C26, as stated: in the network of three nodes with one edge from the node 2 to the node
0, the component of the nodes 2 and 0, which holds the node inserted first, is returned
after the component of the node 1. -/
theorem components_not_ordered_by_first_node :
    tensor_network.built [.add_node 1, .add_node 1, .add_node 1,
        .add_edge ⟨⟨2⟩, 0⟩ ⟨⟨0⟩, 0⟩] =
      .ok ⟨[⟨⟨0⟩, 1⟩, ⟨⟨1⟩, 1⟩, ⟨⟨2⟩, 1⟩], 3, [⟨⟨⟨2⟩, 0⟩, ⟨⟨0⟩, 0⟩⟩]⟩ ∧
    (⟨[⟨⟨0⟩, 1⟩, ⟨⟨1⟩, 1⟩, ⟨⟨2⟩, 1⟩], 3, [⟨⟨⟨2⟩, 0⟩, ⟨⟨0⟩, 0⟩⟩]⟩ :
        tensor_network).connected_components =
      .ok [⟨[⟨⟨1⟩, 1⟩], 3, []⟩, ⟨[⟨⟨2⟩, 1⟩, ⟨⟨0⟩, 1⟩], 4, [⟨⟨⟨2⟩, 0⟩, ⟨⟨0⟩, 0⟩⟩]⟩] := by
  decide

/-- C26 (amended): on every well formed network the components that `connected_components`
returns are not empty and follow the order of their first nodes: the first nodes of the
node lists of the returned components, taken in the order of the result, occur in that
order among the nodes of the network.  The first node of a component is the node whose
component took the others in, the component of the left end of an edge taking in the
component of its right end. -/
theorem components_ordered_by_head (net : tensor_network) (hwf : well_formed net) :
    ∃ cc, net.connected_components = .ok cc ∧
      (∀ c ∈ cc, c.nodes_ ≠ []) ∧
      (cc.map (fun c => c.nodes_.head?)).Sublist (net.nodes_.map some) := by
  obtain ⟨cc, hcc, inv⟩ := connected_components_inv net hwf
  exact ⟨cc, hcc, inv.nonempty, inv.heads⟩

/-- Witness of `components_ordered_by_head`: three nodes, an edge from the node 2 to the
node 0. -/
theorem components_ordered_by_head_witness :
    ∃ cc, (⟨[⟨⟨0⟩, 1⟩, ⟨⟨1⟩, 1⟩, ⟨⟨2⟩, 1⟩], 3, [⟨⟨⟨2⟩, 0⟩, ⟨⟨0⟩, 0⟩⟩]⟩ :
        tensor_network).connected_components = .ok cc ∧
      (∀ c ∈ cc, c.nodes_ ≠ []) ∧
      (cc.map (fun c => c.nodes_.head?)).Sublist
        (([⟨⟨0⟩, 1⟩, ⟨⟨1⟩, 1⟩, ⟨⟨2⟩, 1⟩] : List node).map some) :=
  components_ordered_by_head ⟨[⟨⟨0⟩, 1⟩, ⟨⟨1⟩, 1⟩, ⟨⟨2⟩, 1⟩], 3, [⟨⟨⟨2⟩, 0⟩, ⟨⟨0⟩, 0⟩⟩]⟩
    ((built_spec [.add_node 1, .add_node 1, .add_node 1, .add_edge ⟨⟨2⟩, 0⟩ ⟨⟨0⟩, 0⟩] _
      (by decide) (by decide)).2.2)

/-! ## The planner: the pairs of joined nodes -/

/-- The group of the pair of nodes `n1`, `n2`, when it is accepted. -/
theorem group_pair_eq (self : connected_tensor_network) (n1 n2 : node)
    (acc : List (node × node) × List (List edge)) :
    connected_tensor_network.group_pair self n1 acc n2 =
      if (self.edges_.filter (fun e =>
          connected_tensor_network.edge_part_of_node_pair e n1.id n2.id)).all
          (fun e => !connected_tensor_network.internode_edge e) then acc
      else (acc.1 ++ [(n1, n2)], acc.2 ++ [self.edges_.filter (fun e =>
          connected_tensor_network.edge_part_of_node_pair e n1.id n2.id)]) := rfl

/-- The inner loop of `group_edges_pairwise`. -/
theorem group_inner (self : connected_tensor_network) (n1 : node) (l : List node)
    (acc : List (node × node) × List (List edge)) (hacc : acc.1.length = acc.2.length) :
    ∃ new : List ((node × node) × List edge),
      l.foldl (connected_tensor_network.group_pair self n1) acc =
        (acc.1 ++ new.map (fun t => t.1), acc.2 ++ new.map (fun t => t.2)) ∧
      ∀ t, t ∈ new ↔ ∃ n2 ∈ l, t = ((n1, n2), self.edges_.filter (fun e =>
          connected_tensor_network.edge_part_of_node_pair e n1.id n2.id)) ∧
        ∃ e ∈ self.edges_,
          connected_tensor_network.edge_part_of_node_pair e n1.id n2.id = true ∧
          connected_tensor_network.internode_edge e = true := by
  induction l generalizing acc with
  | nil => exact ⟨[], by simp, by simp⟩
  | cons n2 rest ih =>
    rw [List.foldl_cons, group_pair_eq]
    by_cases hall : (self.edges_.filter (fun e =>
          connected_tensor_network.edge_part_of_node_pair e n1.id n2.id)).all
          (fun e => !connected_tensor_network.internode_edge e) = true
    · rw [if_pos hall]
      obtain ⟨new, h1, h2⟩ := ih acc hacc
      refine ⟨new, h1, ?_⟩
      intro t
      rw [h2]
      constructor
      · rintro ⟨n3, hn3, h3⟩
        exact ⟨n3, List.mem_cons_of_mem _ hn3, h3⟩
      · rintro ⟨n3, hn3, ht, e, he, hp, hi⟩
        rcases List.mem_cons.mp hn3 with h | h
        · exfalso
          subst h
          rw [List.all_eq_true] at hall
          have := hall e (List.mem_filter.mpr ⟨he, hp⟩)
          rw [hi] at this
          simp at this
        · exact ⟨n3, h, ht, e, he, hp, hi⟩
    · rw [if_neg hall]
      obtain ⟨new, h1, h2⟩ := ih (acc.1 ++ [(n1, n2)], acc.2 ++ [self.edges_.filter (fun e =>
          connected_tensor_network.edge_part_of_node_pair e n1.id n2.id)])
        (by simp [hacc])
      refine ⟨((n1, n2), self.edges_.filter (fun e =>
          connected_tensor_network.edge_part_of_node_pair e n1.id n2.id)) :: new, ?_, ?_⟩
      · rw [h1]
        simp
      · intro t
        rw [List.mem_cons, h2]
        constructor
        · rintro (h | ⟨n3, hn3, h3⟩)
          · refine ⟨n2, List.mem_cons_self _ _, h, ?_⟩
            rw [Bool.not_eq_true, List.all_eq_false] at hall
            obtain ⟨e, he, hi⟩ := hall
            obtain ⟨he1, he2⟩ := List.mem_filter.mp he
            exact ⟨e, he1, he2, by simpa using hi⟩
          · exact ⟨n3, List.mem_cons_of_mem _ hn3, h3⟩
        · rintro ⟨n3, hn3, ht, hex⟩
          rcases List.mem_cons.mp hn3 with h | h
          · left
            rw [ht, h]
          · right
            exact ⟨n3, h, ht, hex⟩

/-- The outer loop of `group_edges_pairwise`. -/
theorem group_outer (self : connected_tensor_network) (ts : List (Nat × node))
    (acc : List (node × node) × List (List edge)) (hacc : acc.1.length = acc.2.length) :
    ∃ new : List ((node × node) × List edge),
      ts.foldl (fun acc t =>
          (self.nodes_.drop (t.1 + 1)).foldl (connected_tensor_network.group_pair self t.2) acc)
        acc = (acc.1 ++ new.map (fun t => t.1), acc.2 ++ new.map (fun t => t.2)) ∧
      ∀ t, t ∈ new ↔ ∃ k ∈ ts, ∃ n2 ∈ self.nodes_.drop (k.1 + 1),
        t = ((k.2, n2), self.edges_.filter (fun e =>
          connected_tensor_network.edge_part_of_node_pair e k.2.id n2.id)) ∧
        ∃ e ∈ self.edges_,
          connected_tensor_network.edge_part_of_node_pair e k.2.id n2.id = true ∧
          connected_tensor_network.internode_edge e = true := by
  induction ts generalizing acc with
  | nil => exact ⟨[], by simp, by simp⟩
  | cons k rest ih =>
    rw [List.foldl_cons]
    obtain ⟨new1, h1, h2⟩ := group_inner self k.2 (self.nodes_.drop (k.1 + 1)) acc hacc
    rw [h1]
    obtain ⟨new2, h3, h4⟩ := ih (acc.1 ++ new1.map (fun t => t.1), acc.2 ++ new1.map (fun t => t.2))
      (by simp [hacc])
    refine ⟨new1 ++ new2, ?_, ?_⟩
    · rw [h3]
      simp
    · intro t
      rw [List.mem_append, h2, h4]
      constructor
      · rintro (⟨n2, hn2, h⟩ | ⟨k2, hk2, h⟩)
        · exact ⟨k, List.mem_cons_self _ _, n2, hn2, h⟩
        · exact ⟨k2, List.mem_cons_of_mem _ hk2, h⟩
      · rintro ⟨k2, hk2, h⟩
        rcases List.mem_cons.mp hk2 with h5 | h5
        · left
          subst h5
          exact h
        · right
          exact ⟨k2, h5, h⟩

theorem zip_fst_snd {α β : Type} (l : List (α × β)) :
    (l.map (fun t => t.1)).zip (l.map (fun t => t.2)) = l := by
  induction l with
  | nil => rfl
  | cons a t ih => simp only [List.map_cons, List.zip_cons_cons, ih]

theorem mem_drop_iff {α : Type} (l : List α) (i : Nat) (x : α) :
    x ∈ l.drop (i + 1) ↔ ∃ j, i < j ∧ l[j]? = some x := by
  rw [List.mem_iff_getElem?]
  constructor
  · rintro ⟨k, hk⟩
    rw [List.getElem?_drop] at hk
    exact ⟨i + 1 + k, by omega, hk⟩
  · rintro ⟨j, hj, hx⟩
    refine ⟨j - (i + 1), ?_⟩
    rw [List.getElem?_drop]
    have : i + 1 + (j - (i + 1)) = j := by omega
    rw [this]
    exact hx

/-- What `group_edges_pairwise` returns: the pairs of nodes joined by an edge, the earlier
node of the network first, each with the edges that have both ends at the pair. -/
theorem group_edges_pairwise_spec (self : connected_tensor_network) (hsize : 2 ≤ self.size) :
    ∃ cands : List ((node × node) × List edge),
      (∀ t, t ∈ cands ↔ ∃ (i j : Nat) (lhs rhs : node), i < j ∧ self.nodes_[i]? = some lhs ∧
        self.nodes_[j]? = some rhs ∧
        t = ((lhs, rhs), self.edges_.filter (fun e =>
          connected_tensor_network.edge_part_of_node_pair e lhs.id rhs.id)) ∧
        ∃ e ∈ self.edges_,
          connected_tensor_network.edge_part_of_node_pair e lhs.id rhs.id = true ∧
          connected_tensor_network.internode_edge e = true) ∧
      (cands = [] → self.group_edges_pairwise = .error .no_group) ∧
      (cands ≠ [] → ∃ pairs groups, self.group_edges_pairwise = .ok (pairs, groups) ∧
        pairs.zip groups = cands) := by
  obtain ⟨new, h1, h2⟩ := group_outer self self.nodes_.enum ([], []) rfl
  simp only [List.nil_append] at h1
  refine ⟨new, ?_, ?_, ?_⟩
  · intro t
    rw [h2]
    constructor
    · rintro ⟨k, hk, n2, hn2, ht, hex⟩
      obtain ⟨j, hj, hjx⟩ := (mem_drop_iff _ _ _).mp hn2
      exact ⟨k.1, j, k.2, n2, hj, List.mem_enum_iff_getElem?.mp hk, hjx, ht, hex⟩
    · rintro ⟨i, j, lhs, rhs, hij, hl, hr, ht, hex⟩
      exact ⟨(i, lhs), List.mem_enum_iff_getElem?.mpr hl, rhs,
        (mem_drop_iff _ _ _).mpr ⟨j, hij, hr⟩, ht, hex⟩
  · intro hnil
    unfold connected_tensor_network.group_edges_pairwise
    rw [if_neg (by omega)]
    simp only [h1, hnil, List.map_nil, if_true]
  · intro hne
    refine ⟨new.map (fun t => t.1), new.map (fun t => t.2), ?_, zip_fst_snd new⟩
    unfold connected_tensor_network.group_edges_pairwise
    rw [if_neg (by omega)]
    simp only [h1]
    rw [if_neg (by simpa using hne), if_neg (by simp)]

/-! ## The planner: the index positions of the contracted node -/

/-- The loops of `pairwise_contraction` that shift the positions: the positions that are
left are numbered consecutively. -/
theorem shift_fold (ps : List (Option Nat)) (c base : Nat) (acc : List (Option Nat))
    (hval : ∀ (i v : Nat), ps[i]? = some (some v) → v = base + i)
    (hc : c ≤ base) (hb : base + ps.length < 2 ^ 64) :
    ∃ Q : List (Option Nat),
      ps.foldl connected_tensor_network.shift_position (c, acc) =
        (c + ps.countP (fun p => p.isNone), acc ++ Q) ∧
      Q.length = ps.length ∧
      (∀ i : Nat, ps[i]? = some none → Q[i]? = some none) ∧
      (∀ i v : Nat, ps[i]? = some (some v) → ∃ p, Q[i]? = some (some p)) ∧
      Q.filterMap id = List.range' (base - c) (ps.countP (fun p => p.isSome)) := by
  induction ps generalizing c base acc with
  | nil => exact ⟨[], by simp, rfl, by simp, by simp, by simp⟩
  | cons x t ih =>
    have hval2 : ∀ (i v : Nat), t[i]? = some (some v) → v = (base + 1) + i := by
      intro i v h
      have := hval (i + 1) v (by simpa using h)
      omega
    simp only [List.length_cons] at hb
    cases x with
    | none =>
      have hs : size_add c 1 = c + 1 := by
        unfold size_add size_t_card
        exact Nat.mod_eq_of_lt (by omega)
      obtain ⟨Q, h1, h2, h3, h4, h5⟩ := ih (c + 1) (base + 1) (acc ++ [none]) hval2 (by omega)
        (by omega)
      refine ⟨none :: Q, ?_, by simp [h2], ?_, ?_, ?_⟩
      · rw [List.foldl_cons]
        simp only [connected_tensor_network.shift_position, hs, h1, List.countP_cons,
          Option.isNone_none, if_true, List.append_assoc, List.singleton_append]
        congr 1
        omega
      · intro i hi
        cases i with
        | zero => exact List.getElem?_cons_zero
        | succ i => simpa using h3 i (by simpa using hi)
      · intro i v hi
        cases i with
        | zero => simp at hi
        | succ i => simpa using h4 i v (by simpa using hi)
      · simp only [List.filterMap_cons, id, h5, List.countP_cons, Option.isSome_none,
          Bool.false_eq_true, if_false, Nat.add_zero]
        congr 1
        omega
    | some v =>
      have hv : v = base := by
        have := hval 0 v (by simp)
        omega
      subst hv
      have hs : size_sub v c = v - c := by
        unfold size_sub size_t_card
        omega
      obtain ⟨Q, h1, h2, h3, h4, h5⟩ := ih c (v + 1) (acc ++ [some (v - c)]) hval2 (by omega)
        (by omega)
      refine ⟨some (v - c) :: Q, ?_, by simp [h2], ?_, ?_, ?_⟩
      · rw [List.foldl_cons]
        simp only [connected_tensor_network.shift_position, hs, h1, List.countP_cons,
          Option.isNone_some, Bool.false_eq_true, if_false, List.append_assoc,
          List.singleton_append, Nat.add_zero]
      · intro i hi
        cases i with
        | zero => simp at hi
        | succ i => simpa using h3 i (by simpa using hi)
      · intro i w hi
        cases i with
        | zero => exact ⟨v - c, List.getElem?_cons_zero⟩
        | succ i => simpa using h4 i w (by simpa using hi)
      · simp only [List.filterMap_cons, id, h5, List.countP_cons, Option.isSome_some, if_true]
        rw [List.range'_succ]
        congr 2
        omega

/-- In a list of optional positions whose positions are a range, a position determines
its place and is below the number of positions. -/
theorem positions_of_range (L : List (Option Nat)) (s m : Nat)
    (h : L.filterMap id = List.range' s m) :
    (∀ (i p : Nat), L[i]? = some (some p) → s ≤ p ∧ p < s + m) ∧
    (∀ (i j p : Nat), L[i]? = some (some p) → L[j]? = some (some p) → i = j) := by
  induction L generalizing s m with
  | nil => exact ⟨by simp, by simp⟩
  | cons x t ih =>
    cases x with
    | none =>
      simp only [List.filterMap_cons, id] at h
      obtain ⟨h1, h2⟩ := ih s m h
      constructor
      · intro i p hi
        cases i with
        | zero => simp at hi
        | succ i => exact h1 i p (by simpa using hi)
      · intro i j p hi hj
        cases i with
        | zero => simp at hi
        | succ i =>
          cases j with
          | zero => simp at hj
          | succ j =>
            have := h2 i j p (by simpa using hi) (by simpa using hj)
            omega
    | some v =>
      simp only [List.filterMap_cons, id] at h
      cases m with
      | zero => simp at h
      | succ m =>
        rw [List.range'_succ] at h
        simp only [List.cons.injEq] at h
        obtain ⟨hv, ht⟩ := h
        subst hv
        obtain ⟨h1, h2⟩ := ih (v + 1) m ht
        constructor
        · intro i p hi
          cases i with
          | zero =>
            simp only [List.getElem?_cons_zero, Option.some.injEq] at hi
            omega
          | succ i =>
            have := h1 i p (by simpa using hi)
            omega
        · intro i j p hi hj
          cases i with
          | zero =>
            cases j with
            | zero => rfl
            | succ j =>
              simp only [List.getElem?_cons_zero, Option.some.injEq] at hi
              have := h1 j p (by simpa using hj)
              omega
          | succ i =>
            cases j with
            | zero =>
              simp only [List.getElem?_cons_zero, Option.some.injEq] at hj
              have := h1 i p (by simpa using hi)
              omega
            | succ j =>
              have := h2 i j p (by simpa using hi) (by simpa using hj)
              omega

theorem marked_positions_length (id : node_id) (base r : Nat) (E : List index_location) :
    (marked_positions id base r E).length = r := by
  simp [marked_positions]

theorem marked_positions_get (id : node_id) (base r : Nat) (E : List index_location)
    (i : Nat) (hi : i < r) :
    (marked_positions id base r E)[i]? =
      some (if (⟨id, i⟩ : index_location) ∈ E then none else some (base + i)) := by
  unfold marked_positions
  rw [List.getElem?_map, List.getElem?_range hi]
  rfl

theorem marked_positions_set (id : node_id) (base r : Nat) (E : List index_location)
    (loc : index_location) (hid : loc.id = id) :
    (marked_positions id base r E).set loc.index none = marked_positions id base r (loc :: E) := by
  apply List.ext_getElem?
  intro i
  by_cases hi : i < r
  · rw [List.getElem?_set, marked_positions_get _ _ _ _ i hi, marked_positions_get _ _ _ _ i hi,
      marked_positions_length]
    by_cases hk : loc.index = i
    · have : (⟨id, i⟩ : index_location) = loc := by
        cases loc
        simp only at hid hk
        simp only [index_location.mk.injEq]
        exact ⟨hid.symm, hk.symm⟩
      simp [hk, hi, this]
    · have : (⟨id, i⟩ : index_location) ≠ loc := by
        intro h
        apply hk
        rw [← h]
      simp [hk, this]
  · have h1 : (marked_positions id base r (loc :: E))[i]? = none := by
      rw [List.getElem?_eq_none_iff, marked_positions_length]
      omega
    have h2 : ((marked_positions id base r E).set loc.index none)[i]? = none := by
      rw [List.getElem?_eq_none_iff, List.length_set, marked_positions_length]
      omega
    rw [h1, h2]

theorem marked_positions_other (id : node_id) (base r : Nat) (E : List index_location)
    (loc : index_location) (hid : loc.id ≠ id) :
    marked_positions id base r (loc :: E) = marked_positions id base r E := by
  unfold marked_positions
  apply List.map_congr_left
  intro i _
  have : (⟨id, i⟩ : index_location) ≠ loc := by
    intro h
    apply hid
    rw [← h]
  simp [this]

theorem marked_positions_congr (id : node_id) (base r : Nat) (E E2 : List index_location)
    (h : ∀ i, (⟨id, i⟩ : index_location) ∈ E ↔ (⟨id, i⟩ : index_location) ∈ E2) :
    marked_positions id base r E = marked_positions id base r E2 := by
  unfold marked_positions
  apply List.map_congr_left
  intro i _
  by_cases h1 : (⟨id, i⟩ : index_location) ∈ E
  · rw [if_pos h1, if_pos ((h i).mp h1)]
  · rw [if_neg h1, if_neg (fun h2 => h1 ((h i).mpr h2))]

/-- Clearing one end of a contracted edge. -/
theorem clear_end (lhs rhs : node_id) (hne : lhs ≠ rhs) (r1 r2 : Nat)
    (E : List index_location) (loc : index_location)
    (hl : (loc.id = lhs ∧ loc.index < r1) ∨ (loc.id = rhs ∧ loc.index < r2)) :
    (if loc.id = lhs then
        if loc.index < (marked_positions lhs 0 r1 E).length then
          Except.ok ((marked_positions lhs 0 r1 E).set loc.index none,
            marked_positions rhs r1 r2 E)
        else Except.error logic_error.out_of_range
      else if loc.id = rhs then
        if loc.index < (marked_positions rhs r1 r2 E).length then
          Except.ok (marked_positions lhs 0 r1 E,
            (marked_positions rhs r1 r2 E).set loc.index none)
        else Except.error logic_error.out_of_range
      else Except.error logic_error.contracted_edge_elsewhere) =
      Except.ok (marked_positions lhs 0 r1 (loc :: E), marked_positions rhs r1 r2 (loc :: E)) := by
  have hne2 : rhs ≠ lhs := fun h => hne h.symm
  rcases hl with ⟨h1, h2⟩ | ⟨h1, h2⟩
  · rw [if_pos h1, marked_positions_length, if_pos h2, marked_positions_set lhs 0 r1 E loc h1,
      marked_positions_other rhs r1 r2 E loc (by rw [h1]; exact hne)]
  · rw [if_neg (by rw [h1]; exact hne2), if_pos h1, marked_positions_length, if_pos h2,
      marked_positions_set rhs r1 r2 E loc h1,
      marked_positions_other lhs 0 r1 E loc (by rw [h1]; exact hne2)]

/-- Clearing the two ends of a contracted edge. -/
theorem clear_contracted_marks (lhs rhs : node_id) (hne : lhs ≠ rhs) (r1 r2 : Nat)
    (E : List index_location) (e : edge)
    (hl : (e.left.id = lhs ∧ e.left.index < r1) ∨ (e.left.id = rhs ∧ e.left.index < r2))
    (hr : (e.right.id = lhs ∧ e.right.index < r1) ∨ (e.right.id = rhs ∧ e.right.index < r2)) :
    connected_tensor_network.clear_contracted lhs rhs
        (marked_positions lhs 0 r1 E, marked_positions rhs r1 r2 E) e =
      .ok (marked_positions lhs 0 r1 (e.right :: e.left :: E),
        marked_positions rhs r1 r2 (e.right :: e.left :: E)) := by
  unfold connected_tensor_network.clear_contracted
  simp only
  rw [clear_end lhs rhs hne r1 r2 E e.left hl]
  simp only
  exact clear_end lhs rhs hne r1 r2 (e.left :: E) e.right hr

/-- The loop of `pairwise_contraction` over the contracted edges. -/
theorem clear_fold (lhs rhs : node_id) (hne : lhs ≠ rhs) (r1 r2 : Nat)
    (pce : List edge) (E : List index_location)
    (hvalid : ∀ e ∈ pce,
      ((e.left.id = lhs ∧ e.left.index < r1) ∨ (e.left.id = rhs ∧ e.left.index < r2)) ∧
      ((e.right.id = lhs ∧ e.right.index < r1) ∨ (e.right.id = rhs ∧ e.right.index < r2))) :
    ∃ E2 : List index_location,
      pce.foldlM (connected_tensor_network.clear_contracted lhs rhs)
        (marked_positions lhs 0 r1 E, marked_positions rhs r1 r2 E) =
        .ok (marked_positions lhs 0 r1 E2, marked_positions rhs r1 r2 E2) ∧
      ∀ loc, loc ∈ E2 ↔ loc ∈ E ∨ ∃ e ∈ pce, loc = e.left ∨ loc = e.right := by
  induction pce generalizing E with
  | nil => exact ⟨E, rfl, by simp⟩
  | cons e rest ih =>
    obtain ⟨hl, hr⟩ := hvalid e (List.mem_cons_self _ _)
    obtain ⟨E2, h1, h2⟩ := ih (e.right :: e.left :: E)
      (fun e2 he2 => hvalid e2 (List.mem_cons_of_mem _ he2))
    refine ⟨E2, ?_, ?_⟩
    · rw [List.foldlM_cons, clear_contracted_marks lhs rhs hne r1 r2 E e hl hr]
      exact h1
    · intro loc
      rw [h2]
      simp only [List.mem_cons]
      constructor
      · rintro ((h | h | h) | ⟨e2, he2, h⟩)
        · exact Or.inr ⟨e, Or.inl rfl, Or.inr h⟩
        · exact Or.inr ⟨e, Or.inl rfl, Or.inl h⟩
        · exact Or.inl h
        · exact Or.inr ⟨e2, Or.inr he2, h⟩
      · rintro (h | ⟨e2, he2 | he2, h⟩)
        · exact Or.inl (Or.inr (Or.inr h))
        · subst he2
          rcases h with h | h
          · exact Or.inl (Or.inr (Or.inl h))
          · exact Or.inl (Or.inl h)
        · exact Or.inr ⟨e2, he2, h⟩

theorem marked_nones (id : node_id) (base r : Nat) (E : List index_location) :
    (marked_positions id base r E).countP (fun p => p.isNone) =
      (((List.range r).filter (fun i => decide ((⟨id, i⟩ : index_location) ∈ E))).map
        (fun i => (⟨id, i⟩ : index_location))).length := by
  unfold marked_positions
  rw [List.countP_map, List.length_map, List.countP_eq_length_filter]
  congr 1
  apply List.filter_congr
  intro i _
  by_cases h : (⟨id, i⟩ : index_location) ∈ E <;> simp [h]

theorem marked_somes (id : node_id) (base r : Nat) (E : List index_location) :
    (marked_positions id base r E).countP (fun p => p.isSome) +
      (marked_positions id base r E).countP (fun p => p.isNone) = r := by
  have h := List.length_eq_countP_add_countP (fun p : Option Nat => p.isSome)
    (marked_positions id base r E)
  rw [marked_positions_length] at h
  have h2 : (marked_positions id base r E).countP (fun p => decide ¬ p.isSome = true) =
      (marked_positions id base r E).countP (fun p => p.isNone) := by
    apply List.countP_congr
    intro p _
    cases p <;> simp
  rw [h2] at h
  exact h.symm

/-- The cleared positions are as many as the ends of the contracted edges. -/
theorem count_marks (lhs rhs : node_id) (hne : lhs ≠ rhs) (r1 r2 : Nat)
    (E : List index_location) (hnd : E.Nodup)
    (hvalid : ∀ loc ∈ E, (loc.id = lhs ∧ loc.index < r1) ∨ (loc.id = rhs ∧ loc.index < r2)) :
    (marked_positions lhs 0 r1 E).countP (fun p => p.isNone) +
      (marked_positions rhs r1 r2 E).countP (fun p => p.isNone) = E.length := by
  rw [marked_nones, marked_nones, ← List.length_append]
  apply List.Perm.length_eq
  rw [List.perm_ext_iff_of_nodup _ hnd]
  · intro loc
    simp only [List.mem_append, List.mem_map, List.mem_filter, List.mem_range,
      decide_eq_true_eq]
    constructor
    · rintro (⟨i, ⟨_, h⟩, rfl⟩ | ⟨i, ⟨_, h⟩, rfl⟩)
      · exact h
      · exact h
    · intro h
      rcases hvalid loc h with ⟨h1, h2⟩ | ⟨h1, h2⟩
      · left
        refine ⟨loc.index, ⟨h2, ?_⟩, ?_⟩
        · rw [← h1]; exact h
        · rw [← h1]
      · right
        refine ⟨loc.index, ⟨h2, ?_⟩, ?_⟩
        · rw [← h1]; exact h
        · rw [← h1]
  · rw [List.nodup_append]
    refine ⟨?_, ?_, ?_⟩
    · apply List.Nodup.map
      · intro a b h
        simpa using h
      · exact (List.nodup_range r1).filter _
    · apply List.Nodup.map
      · intro a b h
        simpa using h
      · exact (List.nodup_range r2).filter _
    · intro loc h1 h2
      obtain ⟨i, _, hi⟩ := List.mem_map.mp h1
      obtain ⟨j, _, hj⟩ := List.mem_map.mp h2
      apply hne
      have := congrArg index_location.id (hi.trans hj.symm)
      exact this

theorem marked_positions_nil_lhs (lhs : node_id) (r1 : Nat) :
    (List.range r1).map some = marked_positions lhs 0 r1 [] := by
  unfold marked_positions
  apply List.map_congr_left
  intro i _
  simp

theorem marked_positions_nil_rhs (rhs : node_id) (r1 r2 : Nat) (hr : r1 + r2 < 2 ^ 64) :
    (List.range r2).map (fun i => some (size_add r1 i)) = marked_positions rhs r1 r2 [] := by
  unfold marked_positions
  apply List.map_congr_left
  intro i hi
  have hi2 := List.mem_range.mp hi
  have : size_add r1 i = r1 + i := by
    unfold size_add size_t_card
    exact Nat.mod_eq_of_lt (by omega)
  simp [this]

/-- The positions that `pairwise_contraction` gives to the indices of lhs and rhs that are
not contracted: pairwise different positions below the rank of the new node. -/
theorem new_index_positions_spec (lhs rhs : node_id) (hne : lhs ≠ rhs) (r1 r2 : Nat)
    (hr : r1 + r2 < 2 ^ 64) (pce : List edge)
    (hvalid : ∀ e ∈ pce,
      ((e.left.id = lhs ∧ e.left.index < r1) ∨ (e.left.id = rhs ∧ e.left.index < r2)) ∧
      ((e.right.id = lhs ∧ e.right.index < r1) ∨ (e.right.id = rhs ∧ e.right.index < r2)))
    (hnd : (pce.flatMap (fun e => [e.left, e.right])).Nodup) :
    ∃ lp rp : List (Option Nat),
      connected_tensor_network.new_index_positions lhs rhs r1 r2 pce = .ok (lp, rp) ∧
      2 * pce.length ≤ r1 + r2 ∧
      (∀ i : Nat, i < r1 → (∀ e ∈ pce, e.left ≠ ⟨lhs, i⟩ ∧ e.right ≠ ⟨lhs, i⟩) →
        ∃ p, lp[i]? = some (some p) ∧ p < r1 + r2 - 2 * pce.length) ∧
      (∀ i : Nat, i < r2 → (∀ e ∈ pce, e.left ≠ ⟨rhs, i⟩ ∧ e.right ≠ ⟨rhs, i⟩) →
        ∃ p, rp[i]? = some (some p) ∧ p < r1 + r2 - 2 * pce.length) ∧
      (∀ i j p : Nat, lp[i]? = some (some p) → lp[j]? = some (some p) → i = j) ∧
      (∀ i j p : Nat, rp[i]? = some (some p) → rp[j]? = some (some p) → i = j) ∧
      (∀ i j p : Nat, lp[i]? = some (some p) → rp[j]? = some (some p) → False) := by
  obtain ⟨E2, hfold, hmem⟩ := clear_fold lhs rhs hne r1 r2 pce [] hvalid
  have hE : ∀ loc, loc ∈ E2 ↔ loc ∈ pce.flatMap (fun e => [e.left, e.right]) := by
    intro loc
    rw [hmem, List.mem_flatMap]
    simp only [List.not_mem_nil, false_or, List.mem_cons, or_false]
  rw [marked_positions_congr lhs 0 r1 E2 _ (fun i => hE _),
    marked_positions_congr rhs r1 r2 E2 _ (fun i => hE _)] at hfold
  have hEv : ∀ loc ∈ pce.flatMap (fun e => [e.left, e.right]),
      (loc.id = lhs ∧ loc.index < r1) ∨ (loc.id = rhs ∧ loc.index < r2) := by
    intro loc hloc
    obtain ⟨e, he, hl⟩ := List.mem_flatMap.mp hloc
    simp only [List.mem_cons, List.not_mem_nil, or_false] at hl
    rcases hl with h | h
    · rw [h]; exact (hvalid e he).1
    · rw [h]; exact (hvalid e he).2
  have hcount := count_marks lhs rhs hne r1 r2 _ hnd hEv
  rw [ends_length] at hcount
  have hs1 := marked_somes lhs 0 r1 (pce.flatMap (fun e => [e.left, e.right]))
  have hs2 := marked_somes rhs r1 r2 (pce.flatMap (fun e => [e.left, e.right]))
  obtain ⟨Q1, hq1, hl1, _, hsome1, hf1⟩ := shift_fold
    (marked_positions lhs 0 r1 (pce.flatMap (fun e => [e.left, e.right]))) 0 0 []
    (by
      intro i v h
      have hi : i < r1 := by
        have := (List.getElem?_eq_some_iff.mp h).1
        rw [marked_positions_length] at this
        exact this
      rw [marked_positions_get _ _ _ _ i hi] at h
      simp only [Option.some.injEq] at h
      split_ifs at h
      simp only [Option.some.injEq] at h
      omega)
    (Nat.le_refl _) (by rw [marked_positions_length]; omega)
  obtain ⟨Q2, hq2, hl2, _, hsome2, hf2⟩ := shift_fold
    (marked_positions rhs r1 r2 (pce.flatMap (fun e => [e.left, e.right])))
    ((marked_positions lhs 0 r1 (pce.flatMap (fun e => [e.left, e.right]))).countP
      (fun p => p.isNone)) r1 []
    (by
      intro i v h
      have hi : i < r2 := by
        have := (List.getElem?_eq_some_iff.mp h).1
        rw [marked_positions_length] at this
        exact this
      rw [marked_positions_get _ _ _ _ i hi] at h
      simp only [Option.some.injEq] at h
      split_ifs at h
      simp only [Option.some.injEq] at h
      omega)
    (by omega) (by rw [marked_positions_length]; omega)
  rw [marked_positions_length] at hl1 hl2
  simp only [Nat.zero_add, List.nil_append, Nat.sub_zero] at hq1 hq2 hf1
  have hall : (Q1 ++ Q2).filterMap id = List.range' 0 (r1 + r2 - 2 * pce.length) := by
    rw [List.filterMap_append, hf1, hf2]
    have h1 : r1 - (marked_positions lhs 0 r1 (pce.flatMap (fun e => [e.left, e.right]))).countP
        (fun p => p.isNone) = 0 + (marked_positions lhs 0 r1
          (pce.flatMap (fun e => [e.left, e.right]))).countP (fun p => p.isSome) := by omega
    rw [h1, List.range'_append_1]
    congr 1
    omega
  obtain ⟨hbound, hinj⟩ := positions_of_range _ _ _ hall
  refine ⟨Q1, Q2, ?_, by omega, ?_, ?_, ?_, ?_, ?_⟩
  · unfold connected_tensor_network.new_index_positions
    simp only
    rw [marked_positions_nil_lhs lhs r1, marked_positions_nil_rhs rhs r1 r2 hr, hfold]
    simp only [hq1, hq2]
  · intro i hi hfree
    have hget := marked_positions_get lhs 0 r1 (pce.flatMap (fun e => [e.left, e.right])) i hi
    have hnot : (⟨lhs, i⟩ : index_location) ∉ pce.flatMap (fun e => [e.left, e.right]) := by
      intro h
      obtain ⟨e, he, hl⟩ := List.mem_flatMap.mp h
      simp only [List.mem_cons, List.not_mem_nil, or_false] at hl
      rcases hl with h2 | h2
      · exact (hfree e he).1 h2.symm
      · exact (hfree e he).2 h2.symm
    rw [if_neg hnot] at hget
    obtain ⟨p, hp⟩ := hsome1 i _ hget
    refine ⟨p, hp, ?_⟩
    have := (hbound i p (by rw [List.getElem?_append_left (by omega)]; exact hp)).2
    omega
  · intro i hi hfree
    have hget := marked_positions_get rhs r1 r2 (pce.flatMap (fun e => [e.left, e.right])) i hi
    have hnot : (⟨rhs, i⟩ : index_location) ∉ pce.flatMap (fun e => [e.left, e.right]) := by
      intro h
      obtain ⟨e, he, hl⟩ := List.mem_flatMap.mp h
      simp only [List.mem_cons, List.not_mem_nil, or_false] at hl
      rcases hl with h2 | h2
      · exact (hfree e he).1 h2.symm
      · exact (hfree e he).2 h2.symm
    rw [if_neg hnot] at hget
    obtain ⟨p, hp⟩ := hsome2 i _ hget
    refine ⟨p, hp, ?_⟩
    have := (hbound (r1 + i) p (by
      rw [List.getElem?_append_right (by omega), hl1, Nat.add_sub_cancel_left]; exact hp)).2
    omega
  · intro i j p hi hj
    have hi2 : i < Q1.length := (List.getElem?_eq_some_iff.mp hi).1
    have hj2 : j < Q1.length := (List.getElem?_eq_some_iff.mp hj).1
    exact hinj i j p (by rw [List.getElem?_append_left hi2]; exact hi)
      (by rw [List.getElem?_append_left hj2]; exact hj)
  · intro i j p hi hj
    have := hinj (r1 + i) (r1 + j) p
      (by rw [List.getElem?_append_right (by omega), hl1, Nat.add_sub_cancel_left]; exact hi)
      (by rw [List.getElem?_append_right (by omega), hl1, Nat.add_sub_cancel_left]; exact hj)
    omega
  · intro i j p hi hj
    have hi2 : i < Q1.length := (List.getElem?_eq_some_iff.mp hi).1
    have := hinj i (r1 + j) p (by rw [List.getElem?_append_left hi2]; exact hi)
      (by rw [List.getElem?_append_right (by omega), hl1, Nat.add_sub_cancel_left]; exact hj)
    omega

/-! ## The planner: the edges of the contracted node -/

theorem reconnect_eq (lhs rhs new_node_id : node_id) (lp rp : List (Option Nat))
    (self : connected_tensor_network) (e e2 : edge)
    (h : connected_tensor_network.reconnected lhs rhs new_node_id lp rp e = some e2) :
    connected_tensor_network.reconnect lhs rhs new_node_id lp rp self e =
      self.add_edge e2.left e2.right := by
  unfold connected_tensor_network.reconnected at h
  unfold connected_tensor_network.reconnect
  by_cases h1 : e.left.id = lhs ∨ e.left.id = rhs
  · rw [if_pos h1] at h
    simp only [if_pos h1, List.get?_eq_getElem?]
    cases hl : (if e.left.id = lhs then lp else rp)[e.left.index]? with
    | none => rw [hl] at h; cases h
    | some o =>
      cases o with
      | none => rw [hl] at h; cases h
      | some p =>
        rw [hl] at h
        simp only [Option.some.injEq] at h
        rw [← h]
  · rw [if_neg h1] at h
    by_cases h2 : e.right.id = lhs ∨ e.right.id = rhs
    · rw [if_pos h2] at h
      simp only [if_neg h1, if_pos h2, List.get?_eq_getElem?]
      cases hl : (if e.right.id = lhs then lp else rp)[e.right.index]? with
      | none => rw [hl] at h; cases h
      | some o =>
        cases o with
        | none => rw [hl] at h; cases h
        | some p =>
          rw [hl] at h
          simp only [Option.some.injEq] at h
          rw [← h]
    · rw [if_neg h2] at h
      cases h

/-- The loop of `pairwise_contraction` over `partaker_noncontracted_edges`. -/
theorem reconnect_fold (lhs rhs new_node_id : node_id) (lp rp : List (Option Nat))
    (pnce : List edge) (base : List edge)
    (hrec : ∀ e ∈ pnce, ∃ e2,
      connected_tensor_network.reconnected lhs rhs new_node_id lp rp e = some e2)
    (todo done : List edge) (hp : pnce = done ++ todo) (cur : tensor_network)
    (hwf : well_formed cur)
    (hedges : cur.edges_ = base ++
      done.filterMap (connected_tensor_network.reconnected lhs rhs new_node_id lp rp))
    (hok : ∀ e ∈ pnce, ∀ e2,
      connected_tensor_network.reconnected lhs rhs new_node_id lp rp e = some e2 →
      e2.left ≠ e2.right ∧
      (∃ na, cur.nodes_.find? (fun n => n.id = e2.left.id) = some na ∧ e2.left.index < na.rank) ∧
      (∃ nb, cur.nodes_.find? (fun n => n.id = e2.right.id) = some nb ∧
        e2.right.index < nb.rank) ∧
      ∀ e0 ∈ base, edge.apart e0 e2)
    (hpair : (pnce.filterMap
      (connected_tensor_network.reconnected lhs rhs new_node_id lp rp)).Pairwise edge.apart) :
    ∃ net2, todo.foldlM (connected_tensor_network.reconnect lhs rhs new_node_id lp rp) cur =
        .ok net2 ∧
      well_formed net2 ∧ net2.nodes_ = cur.nodes_ ∧ net2.next_id_ = cur.next_id_ ∧
      net2.edges_ = base ++
        pnce.filterMap (connected_tensor_network.reconnected lhs rhs new_node_id lp rp) := by
  induction todo generalizing done cur with
  | nil =>
    rw [List.append_nil] at hp
    rw [hp]
    exact ⟨cur, rfl, hwf, rfl, rfl, hedges⟩
  | cons e rest ih =>
    have he : e ∈ pnce := by rw [hp]; exact List.mem_append_right _ (List.mem_cons_self _ _)
    obtain ⟨e2, he2⟩ := hrec e he
    obtain ⟨hne, ⟨na, hna, hra⟩, ⟨nb, hnb, hrb⟩, hbase⟩ := hok e he e2 he2
    have hpair2 := hpair
    rw [hp, List.filterMap_append, List.filterMap_cons, he2, List.pairwise_append] at hpair2
    have hadd := add_edge_ok cur e2.left e2.right na nb hne hna hnb hra hrb
      (by
        intro e0 he0
        rw [hedges] at he0
        have hap : edge.apart e0 e2 := by
          rcases List.mem_append.mp he0 with h | h
          · exact hbase e0 h
          · exact hpair2.2.2 e0 h e2 (List.mem_cons_self _ _)
        obtain ⟨h1, h2, h3, h4⟩ := hap
        exact ⟨fun h => h1 h.symm, fun h => h3 h.symm, fun h => h2 h.symm, fun h => h4 h.symm⟩)
    have hstep := reconnect_eq lhs rhs new_node_id lp rp cur e e2 he2
    have hwf2 := well_formed_add_edge cur _ e2.left e2.right hwf hadd
    obtain ⟨net2, h1, h2, h3, h4, h5⟩ := ih (done ++ [e]) (by rw [hp]; simp)
      ⟨cur.nodes_, cur.next_id_, cur.edges_ ++ [⟨e2.left, e2.right⟩]⟩ hwf2
      (by
        show cur.edges_ ++ [(⟨e2.left, e2.right⟩ : edge)] = _
        rw [hedges, List.filterMap_append, List.filterMap_cons, he2]
        simp)
      hok
    refine ⟨net2, ?_, h2, h3, h4, h5⟩
    rw [List.foldlM_cons, hstep, hadd]
    exact h1

/-! ## The planner: one contraction on a well formed component -/

theorem node_unique (nodes : List node) (hnd : (nodes.map (fun n => n.id)).Nodup)
    (n m : node) (hn : n ∈ nodes) (hm : m ∈ nodes) (h : n.id = m.id) : n = m := by
  have h1 := find_of_mem_nodup nodes hnd n hn
  have h2 := find_of_mem_nodup nodes hnd m hm
  rw [h, h2] at h1
  exact (Option.some.inj h1).symm

theorem end_at_node (net : tensor_network) (hwf : well_formed net) (x : node)
    (hx : x ∈ net.nodes_) (e : edge) (he : e ∈ net.edges_) :
    (e.left.id = x.id → e.left.index < x.rank) ∧
    (e.right.id = x.id → e.right.index < x.rank) := by
  constructor
  · intro h
    obtain ⟨n, hn, hid, hlt⟩ := hwf.left_valid e he
    have := node_unique net.nodes_ hwf.ids_nodup n x hn hx (hid.trans h)
    rw [← this]
    exact hlt
  · intro h
    obtain ⟨n, hn, hid, hlt⟩ := hwf.right_valid e he
    have := node_unique net.nodes_ hwf.ids_nodup n x hn hx (hid.trans h)
    rw [← this]
    exact hlt

theorem apart_symm (e1 e2 : edge) (h : edge.apart e1 e2) : edge.apart e2 e1 :=
  ⟨h.1.symm, h.2.2.1.symm, h.2.1.symm, h.2.2.2.symm⟩

theorem edges_apart (edges : List edge) (h : edges.Pairwise edge.apart) (e1 e2 : edge)
    (h1 : e1 ∈ edges) (h2 : e2 ∈ edges) (hne : e1 ≠ e2) : edge.apart e1 e2 :=
  List.Pairwise.forall (fun a b hab => apart_symm a b hab) h h1 h2 hne

theorem reconnected_some (lhs rhs new_node_id : node_id) (lp rp : List (Option Nat))
    (e e2 : edge)
    (h : connected_tensor_network.reconnected lhs rhs new_node_id lp rp e = some e2) :
    ∃ (pe be : index_location) (p : Nat),
      ((pe = e.left ∧ be = e.right) ∨
        (pe = e.right ∧ be = e.left ∧ ¬ (e.left.id = lhs ∨ e.left.id = rhs))) ∧
      (pe.id = lhs ∨ pe.id = rhs) ∧
      (if pe.id = lhs then lp else rp)[pe.index]? = some (some p) ∧
      e2 = ⟨be, ⟨new_node_id, p⟩⟩ := by
  unfold connected_tensor_network.reconnected at h
  by_cases h1 : e.left.id = lhs ∨ e.left.id = rhs
  · rw [if_pos h1] at h
    cases hl : (if e.left.id = lhs then lp else rp)[e.left.index]? with
    | none => rw [hl] at h; cases h
    | some o =>
      cases o with
      | none => rw [hl] at h; cases h
      | some p =>
        rw [hl] at h
        simp only [Option.some.injEq] at h
        exact ⟨e.left, e.right, p, Or.inl ⟨rfl, rfl⟩, h1, hl, h.symm⟩
  · rw [if_neg h1] at h
    by_cases h2 : e.right.id = lhs ∨ e.right.id = rhs
    · rw [if_pos h2] at h
      cases hl : (if e.right.id = lhs then lp else rp)[e.right.index]? with
      | none => rw [hl] at h; cases h
      | some o =>
        cases o with
        | none => rw [hl] at h; cases h
        | some p =>
          rw [hl] at h
          simp only [Option.some.injEq] at h
          exact ⟨e.right, e.left, p, Or.inr ⟨rfl, rfl, h1⟩, h2, hl, h.symm⟩
    · rw [if_neg h2] at h
      cases h

theorem reconnected_of_lookup (lhs rhs new_node_id : node_id) (lp rp : List (Option Nat))
    (e : edge)
    (hl : (e.left.id = lhs ∨ e.left.id = rhs) →
      ∃ p, (if e.left.id = lhs then lp else rp)[e.left.index]? = some (some p))
    (hr : (e.right.id = lhs ∨ e.right.id = rhs) →
      ∃ p, (if e.right.id = lhs then lp else rp)[e.right.index]? = some (some p))
    (hp : (e.left.id = lhs ∨ e.left.id = rhs) ∨ (e.right.id = lhs ∨ e.right.id = rhs)) :
    ∃ e2, connected_tensor_network.reconnected lhs rhs new_node_id lp rp e = some e2 := by
  unfold connected_tensor_network.reconnected
  by_cases h1 : e.left.id = lhs ∨ e.left.id = rhs
  · obtain ⟨p, hp1⟩ := hl h1
    rw [if_pos h1, hp1]
    exact ⟨_, rfl⟩
  · have h2 : e.right.id = lhs ∨ e.right.id = rhs := by
      rcases hp with h | h
      · exact absurd h h1
      · exact h
    obtain ⟨p, hp1⟩ := hr h2
    rw [if_neg h1, if_pos h2, hp1]
    exact ⟨_, rfl⟩

theorem mem_bystander_nodes (nodes : List node) (a b : node_id) (n : node) :
    n ∈ nodes.filter (fun n => !(decide (n.id = a) || decide (n.id = b))) ↔
      n ∈ nodes ∧ n.id ≠ a ∧ n.id ≠ b := by
  simp [List.mem_filter]

theorem mem_bystander_edges (edges : List edge) (a b : node_id) (e : edge) :
    e ∈ edges.filter (fun e => !((decide (e.left.id = a) || decide (e.right.id = a)) ||
        (decide (e.left.id = b) || decide (e.right.id = b)))) ↔
      e ∈ edges ∧ e.left.id ≠ a ∧ e.right.id ≠ a ∧ e.left.id ≠ b ∧ e.right.id ≠ b := by
  simp [List.mem_filter]
  tauto

theorem mem_contracted_edges (edges : List edge) (a b : node_id) (e : edge) :
    e ∈ (edges.filter (fun e => (decide (e.left.id = a) || decide (e.right.id = a)) ||
        (decide (e.left.id = b) || decide (e.right.id = b)))).filter
        (fun e => (decide (e.left.id = a) || decide (e.left.id = b)) &&
          (decide (e.right.id = a) || decide (e.right.id = b))) ↔
      e ∈ edges ∧ (e.left.id = a ∨ e.left.id = b) ∧ (e.right.id = a ∨ e.right.id = b) := by
  simp [List.mem_filter]
  tauto

theorem mem_noncontracted_edges (edges : List edge) (a b : node_id) (e : edge) :
    e ∈ (edges.filter (fun e => (decide (e.left.id = a) || decide (e.right.id = a)) ||
        (decide (e.left.id = b) || decide (e.right.id = b)))).filter
        (fun e => !((decide (e.left.id = a) || decide (e.left.id = b)) &&
          (decide (e.right.id = a) || decide (e.right.id = b)))) ↔
      e ∈ edges ∧ ((e.left.id = a ∨ e.left.id = b) ∨ (e.right.id = a ∨ e.right.id = b)) ∧
        ¬ ((e.left.id = a ∨ e.left.id = b) ∧ (e.right.id = a ∨ e.right.id = b)) := by
  simp [List.mem_filter]
  tauto

theorem lookup_of_free_end (net : tensor_network) (hwf : well_formed net) (lhs rhs : node)
    (hl : lhs ∈ net.nodes_) (hr : rhs ∈ net.nodes_)
    (lp rp : List (Option Nat)) (R : Nat) (pce : List edge)
    (hpce : ∀ e ∈ pce, e ∈ net.edges_ ∧
      (e.left.id = lhs.id ∨ e.left.id = rhs.id) ∧ (e.right.id = lhs.id ∨ e.right.id = rhs.id))
    (hL : ∀ i : Nat, i < lhs.rank →
      (∀ e ∈ pce, e.left ≠ ⟨lhs.id, i⟩ ∧ e.right ≠ ⟨lhs.id, i⟩) →
        ∃ p, lp[i]? = some (some p) ∧ p < R)
    (hR : ∀ i : Nat, i < rhs.rank →
      (∀ e ∈ pce, e.left ≠ ⟨rhs.id, i⟩ ∧ e.right ≠ ⟨rhs.id, i⟩) →
        ∃ p, rp[i]? = some (some p) ∧ p < R)
    (e : edge) (he : e ∈ net.edges_)
    (hnc : ¬ ((e.left.id = lhs.id ∨ e.left.id = rhs.id) ∧
      (e.right.id = lhs.id ∨ e.right.id = rhs.id)))
    (loc : index_location) (hloc : loc = e.left ∨ loc = e.right)
    (hP : loc.id = lhs.id ∨ loc.id = rhs.id) :
    ∃ p, (if loc.id = lhs.id then lp else rp)[loc.index]? = some (some p) ∧ p < R := by
  have hfree : ∀ e2 ∈ pce, e2.left ≠ loc ∧ e2.right ≠ loc := by
    intro e2 he2
    obtain ⟨hm, hc⟩ := hpce e2 he2
    have hne : e ≠ e2 := by
      intro h
      rw [h] at hnc
      exact hnc hc
    have ha := edges_apart net.edges_ hwf.apart e e2 he hm hne
    rcases hloc with h | h
    · rw [h]
      exact ⟨ha.1, ha.2.2.1⟩
    · rw [h]
      exact ⟨ha.2.1, ha.2.2.2⟩
  have hidx : (loc.id = lhs.id → loc.index < lhs.rank) ∧
      (loc.id = rhs.id → loc.index < rhs.rank) := by
    rcases hloc with h | h
    · rw [h]
      exact ⟨(end_at_node net hwf lhs hl e he).1, (end_at_node net hwf rhs hr e he).1⟩
    · rw [h]
      exact ⟨(end_at_node net hwf lhs hl e he).2, (end_at_node net hwf rhs hr e he).2⟩
  by_cases h1 : loc.id = lhs.id
  · rw [if_pos h1]
    apply hL loc.index (hidx.1 h1)
    intro e2 he2
    have : (⟨lhs.id, loc.index⟩ : index_location) = loc := by rw [← h1]
    rw [this]
    exact hfree e2 he2
  · have h2 : loc.id = rhs.id := hP.resolve_left h1
    rw [if_neg h1]
    apply hR loc.index (hidx.2 h2)
    intro e2 he2
    have : (⟨rhs.id, loc.index⟩ : index_location) = loc := by rw [← h2]
    rw [this]
    exact hfree e2 he2

theorem lookup_inj (lhs rhs : node_id) (lp rp : List (Option Nat))
    (hLL : ∀ i j p : Nat, lp[i]? = some (some p) → lp[j]? = some (some p) → i = j)
    (hRR : ∀ i j p : Nat, rp[i]? = some (some p) → rp[j]? = some (some p) → i = j)
    (hLR : ∀ i j p : Nat, lp[i]? = some (some p) → rp[j]? = some (some p) → False)
    (a b : index_location) (p : Nat)
    (ha : a.id = lhs ∨ a.id = rhs) (hb : b.id = lhs ∨ b.id = rhs)
    (h1 : (if a.id = lhs then lp else rp)[a.index]? = some (some p))
    (h2 : (if b.id = lhs then lp else rp)[b.index]? = some (some p)) : a = b := by
  obtain ⟨aid, ai⟩ := a
  obtain ⟨bid, bi⟩ := b
  simp only at ha hb h1 h2
  by_cases ha1 : aid = lhs
  · by_cases hb1 : bid = lhs
    · rw [if_pos ha1] at h1
      rw [if_pos hb1] at h2
      rw [ha1, hb1, hLL ai bi p h1 h2]
    · rw [if_pos ha1] at h1
      rw [if_neg hb1] at h2
      exact absurd (hLR ai bi p h1 h2) id
  · by_cases hb1 : bid = lhs
    · rw [if_neg ha1] at h1
      rw [if_pos hb1] at h2
      exact absurd (hLR bi ai p h2 h1) id
    · rw [if_neg ha1] at h1
      rw [if_neg hb1] at h2
      rw [ha.resolve_left ha1, hb.resolve_left hb1, hRR ai bi p h1 h2]

theorem well_formed_bystanders (net : tensor_network) (hwf : well_formed net) (a b : node_id)
    (next : Nat) :
    well_formed ⟨net.nodes_.filter (fun n => !(decide (n.id = a) || decide (n.id = b))), next,
      net.edges_.filter (fun e => !((decide (e.left.id = a) || decide (e.right.id = a)) ||
        (decide (e.left.id = b) || decide (e.right.id = b))))⟩ := by
  refine ⟨?_, ?_, ?_, ?_, ?_⟩
  · exact List.Nodup.sublist (List.Sublist.map _ (List.filter_sublist _)) hwf.ids_nodup
  · intro e he
    exact hwf.ends_differ e ((mem_bystander_edges _ _ _ _).1 he).1
  · intro e he
    obtain ⟨hm, h1, h2, h3, h4⟩ := (mem_bystander_edges _ _ _ _).1 he
    obtain ⟨n, hn, hid, hlt⟩ := hwf.left_valid e hm
    refine ⟨n, (mem_bystander_nodes _ _ _ _).2 ⟨hn, ?_, ?_⟩, hid, hlt⟩
    · rw [hid]; exact h1
    · rw [hid]; exact h3
  · intro e he
    obtain ⟨hm, h1, h2, h3, h4⟩ := (mem_bystander_edges _ _ _ _).1 he
    obtain ⟨n, hn, hid, hlt⟩ := hwf.right_valid e hm
    refine ⟨n, (mem_bystander_nodes _ _ _ _).2 ⟨hn, ?_, ?_⟩, hid, hlt⟩
    · rw [hid]; exact h2
    · rw [hid]; exact h4
  · exact List.Pairwise.sublist (List.filter_sublist _) hwf.apart

theorem well_formed_next (nodes : List node) (edges : List edge) (n1 n2 : Nat)
    (h : well_formed ⟨nodes, n1, edges⟩) : well_formed ⟨nodes, n2, edges⟩ :=
  ⟨h.ids_nodup, h.ends_differ, h.left_valid, h.right_valid, h.apart⟩

theorem reconnect_phase (net : tensor_network) (hwf : well_formed net)
    (hbelow : ∀ n ∈ net.nodes_, n.id.id < net.next_id_)
    (lhs rhs : node) (hl : lhs ∈ net.nodes_) (hr : rhs ∈ net.nodes_)
    (lp rp : List (Option Nat)) (R next2 : Nat) (pce : List edge)
    (hpce : ∀ e ∈ pce, e ∈ net.edges_ ∧
      (e.left.id = lhs.id ∨ e.left.id = rhs.id) ∧ (e.right.id = lhs.id ∨ e.right.id = rhs.id))
    (hL : ∀ i : Nat, i < lhs.rank →
      (∀ e ∈ pce, e.left ≠ ⟨lhs.id, i⟩ ∧ e.right ≠ ⟨lhs.id, i⟩) →
        ∃ p, lp[i]? = some (some p) ∧ p < R)
    (hR : ∀ i : Nat, i < rhs.rank →
      (∀ e ∈ pce, e.left ≠ ⟨rhs.id, i⟩ ∧ e.right ≠ ⟨rhs.id, i⟩) →
        ∃ p, rp[i]? = some (some p) ∧ p < R)
    (hLL : ∀ i j p : Nat, lp[i]? = some (some p) → lp[j]? = some (some p) → i = j)
    (hRR : ∀ i j p : Nat, rp[i]? = some (some p) → rp[j]? = some (some p) → i = j)
    (hLR : ∀ i j p : Nat, lp[i]? = some (some p) → rp[j]? = some (some p) → False) :
    ∃ net2 : connected_tensor_network,
      ((net.edges_.filter (fun e =>
          (decide (e.left.id = lhs.id) || decide (e.right.id = lhs.id)) ||
          (decide (e.left.id = rhs.id) || decide (e.right.id = rhs.id)))).filter
        (fun e => !((decide (e.left.id = lhs.id) || decide (e.left.id = rhs.id)) &&
          (decide (e.right.id = lhs.id) || decide (e.right.id = rhs.id))))).foldlM
        (connected_tensor_network.reconnect lhs.id rhs.id ⟨net.next_id_⟩ lp rp)
        (⟨net.nodes_.filter (fun n => !(decide (n.id = lhs.id) || decide (n.id = rhs.id))) ++
            [⟨⟨net.next_id_⟩, R⟩], next2,
          net.edges_.filter (fun e =>
            !((decide (e.left.id = lhs.id) || decide (e.right.id = lhs.id)) ||
              (decide (e.left.id = rhs.id) || decide (e.right.id = rhs.id))))⟩ :
          connected_tensor_network) = .ok net2 ∧
      well_formed net2 ∧
      net2.nodes_ =
        net.nodes_.filter (fun n => !(decide (n.id = lhs.id) || decide (n.id = rhs.id))) ++
          [⟨⟨net.next_id_⟩, R⟩] ∧
      net2.next_id_ = next2 ∧
      net2.edges_ =
        net.edges_.filter (fun e =>
            !((decide (e.left.id = lhs.id) || decide (e.right.id = lhs.id)) ||
              (decide (e.left.id = rhs.id) || decide (e.right.id = rhs.id)))) ++
          ((net.edges_.filter (fun e =>
              (decide (e.left.id = lhs.id) || decide (e.right.id = lhs.id)) ||
              (decide (e.left.id = rhs.id) || decide (e.right.id = rhs.id)))).filter
            (fun e => !((decide (e.left.id = lhs.id) || decide (e.left.id = rhs.id)) &&
              (decide (e.right.id = lhs.id) || decide (e.right.id = rhs.id))))).filterMap
            (connected_tensor_network.reconnected lhs.id rhs.id ⟨net.next_id_⟩ lp rp) := by
  have hstart : well_formed
      (⟨net.nodes_.filter (fun n => !(decide (n.id = lhs.id) || decide (n.id = rhs.id))) ++
          [⟨⟨net.next_id_⟩, R⟩], next2,
        net.edges_.filter (fun e =>
          !((decide (e.left.id = lhs.id) || decide (e.right.id = lhs.id)) ||
            (decide (e.left.id = rhs.id) || decide (e.right.id = rhs.id))))⟩ :
        connected_tensor_network) := by
    have h1 := well_formed_bystanders net hwf lhs.id rhs.id net.next_id_
    have h2 := well_formed_add_node _ R h1 (by
      intro n hn
      have := hbelow n ((mem_bystander_nodes _ _ _ _).1 hn).1
      show n.id.id ≠ net.next_id_
      omega)
    exact well_formed_next _ _ _ _ h2
  -- the facts about one reconnected edge
  have hone : ∀ e ∈ (net.edges_.filter (fun e =>
          (decide (e.left.id = lhs.id) || decide (e.right.id = lhs.id)) ||
          (decide (e.left.id = rhs.id) || decide (e.right.id = rhs.id)))).filter
        (fun e => !((decide (e.left.id = lhs.id) || decide (e.left.id = rhs.id)) &&
          (decide (e.right.id = lhs.id) || decide (e.right.id = rhs.id)))), ∀ e2,
      connected_tensor_network.reconnected lhs.id rhs.id ⟨net.next_id_⟩ lp rp e = some e2 →
      ∃ (pe be : index_location) (p : Nat), e ∈ net.edges_ ∧
        ((pe = e.left ∧ be = e.right) ∨ (pe = e.right ∧ be = e.left)) ∧
        (pe.id = lhs.id ∨ pe.id = rhs.id) ∧ be.id ≠ lhs.id ∧ be.id ≠ rhs.id ∧
        (if pe.id = lhs.id then lp else rp)[pe.index]? = some (some p) ∧ p < R ∧
        e2 = ⟨be, ⟨⟨net.next_id_⟩, p⟩⟩ := by
    intro e he e2 he2
    obtain ⟨hm, hp, hnc⟩ := (mem_noncontracted_edges _ _ _ _).1 he
    obtain ⟨pe, be, p, hcase, hP, hlook, heq⟩ := reconnected_some _ _ _ _ _ _ _ he2
    have hloc : pe = e.left ∨ pe = e.right := by
      rcases hcase with h | h
      · exact Or.inl h.1
      · exact Or.inr h.1
    obtain ⟨p2, hp2, hlt⟩ := lookup_of_free_end net hwf lhs rhs hl hr lp rp R pce hpce hL hR
      e hm hnc pe hloc hP
    rw [hlook] at hp2
    have hpp : p = p2 := Option.some.inj (Option.some.inj hp2)
    have hbe : be.id ≠ lhs.id ∧ be.id ≠ rhs.id := by
      rcases hcase with ⟨h1, h2⟩ | ⟨h1, h2, h3⟩
      · rw [h1] at hP
        rw [h2]
        constructor
        · intro h; exact hnc ⟨hP, Or.inl h⟩
        · intro h; exact hnc ⟨hP, Or.inr h⟩
      · rw [h2]
        constructor
        · intro h; exact h3 (Or.inl h)
        · intro h; exact h3 (Or.inr h)
    refine ⟨pe, be, p, hm, ?_, hP, hbe.1, hbe.2, hlook, hpp ▸ hlt, heq⟩
    rcases hcase with h | h
    · exact Or.inl h
    · exact Or.inr ⟨h.1, h.2.1⟩
  refine reconnect_fold lhs.id rhs.id ⟨net.next_id_⟩ lp rp _
    (net.edges_.filter (fun e =>
      !((decide (e.left.id = lhs.id) || decide (e.right.id = lhs.id)) ||
        (decide (e.left.id = rhs.id) || decide (e.right.id = rhs.id))))) ?_ _ []
    (List.nil_append _).symm _ hstart (by simp) ?_ ?_
  · -- every edge is reconnected
    intro e he
    obtain ⟨hm, hp, hnc⟩ := (mem_noncontracted_edges _ _ _ _).1 he
    apply reconnected_of_lookup
    · intro h
      obtain ⟨p, hp1, _⟩ := lookup_of_free_end net hwf lhs rhs hl hr lp rp R pce hpce hL hR
        e hm hnc e.left (Or.inl rfl) h
      exact ⟨p, hp1⟩
    · intro h
      obtain ⟨p, hp1, _⟩ := lookup_of_free_end net hwf lhs rhs hl hr lp rp R pce hpce hL hR
        e hm hnc e.right (Or.inr rfl) h
      exact ⟨p, hp1⟩
    · exact hp
  · -- every added edge is a valid new edge
    intro e he e2 he2
    obtain ⟨pe, be, p, hm, hcase, hP, hb1, hb2, hlook, hlt, heq⟩ := hone e he e2 he2
    have hbvalid : ∃ n ∈ net.nodes_, n.id = be.id ∧ be.index < n.rank := by
      rcases hcase with ⟨_, h⟩ | ⟨_, h⟩
      · rw [h]; exact hwf.right_valid e hm
      · rw [h]; exact hwf.left_valid e hm
    obtain ⟨n, hn, hnid, hnlt⟩ := hbvalid
    have hbid : be.id.id < net.next_id_ := by
      rw [← hnid]; exact hbelow n hn
    rw [heq]
    refine ⟨?_, ⟨n, ?_, hnlt⟩, ⟨⟨⟨net.next_id_⟩, R⟩, ?_, hlt⟩, ?_⟩
    · intro h
      have : be.id.id = net.next_id_ := congrArg (fun l : index_location => l.id.id) h
      omega
    · have hn2 : n ∈ net.nodes_.filter
          (fun n => !(decide (n.id = lhs.id) || decide (n.id = rhs.id))) ++
            [(⟨⟨net.next_id_⟩, R⟩ : node)] := by
        apply List.mem_append_left
        refine (mem_bystander_nodes _ _ _ _).2 ⟨hn, ?_, ?_⟩
        · rw [hnid]; exact hb1
        · rw [hnid]; exact hb2
      have := find_of_mem_nodup _ hstart.ids_nodup n hn2
      rw [hnid] at this
      exact this
    · have hn2 : (⟨⟨net.next_id_⟩, R⟩ : node) ∈ net.nodes_.filter
          (fun n => !(decide (n.id = lhs.id) || decide (n.id = rhs.id))) ++
            [(⟨⟨net.next_id_⟩, R⟩ : node)] :=
        List.mem_append_right _ (List.mem_singleton_self _)
      exact find_of_mem_nodup _ hstart.ids_nodup _ hn2
    · intro e0 he0
      obtain ⟨hm0, h1, h2, h3, h4⟩ := (mem_bystander_edges _ _ _ _).1 he0
      have hne0 : e0 ≠ e := by
        intro h
        rw [h] at h1 h2 h3 h4
        rcases hcase with ⟨hc, _⟩ | ⟨hc, _⟩
        · rw [hc] at hP
          rcases hP with hP | hP
          · exact h1 hP
          · exact h3 hP
        · rw [hc] at hP
          rcases hP with hP | hP
          · exact h2 hP
          · exact h4 hP
      have ha := edges_apart net.edges_ hwf.apart e0 e hm0 hm hne0
      have hl0 : e0.left.id.id < net.next_id_ := by
        obtain ⟨n0, hn0, hid0, _⟩ := hwf.left_valid e0 hm0
        rw [← hid0]; exact hbelow n0 hn0
      have hr0 : e0.right.id.id < net.next_id_ := by
        obtain ⟨n0, hn0, hid0, _⟩ := hwf.right_valid e0 hm0
        rw [← hid0]; exact hbelow n0 hn0
      have hbl : be ≠ e0.left ∧ be ≠ e0.right := by
        rcases hcase with ⟨_, h⟩ | ⟨_, h⟩
        · rw [h]; exact ⟨ha.2.2.1, ha.2.2.2⟩
        · rw [h]; exact ⟨ha.1, ha.2.1⟩
      refine ⟨hbl.1, hbl.2, ?_, ?_⟩
      · intro h
        have : net.next_id_ = e0.left.id.id := congrArg (fun l : index_location => l.id.id) h
        omega
      · intro h
        have : net.next_id_ = e0.right.id.id := congrArg (fun l : index_location => l.id.id) h
        omega
  · -- the added edges are pairwise apart
    have hpw : List.Pairwise (fun a b => a ∈ (net.edges_.filter (fun e =>
          (decide (e.left.id = lhs.id) || decide (e.right.id = lhs.id)) ||
          (decide (e.left.id = rhs.id) || decide (e.right.id = rhs.id)))).filter
        (fun e => !((decide (e.left.id = lhs.id) || decide (e.left.id = rhs.id)) &&
          (decide (e.right.id = lhs.id) || decide (e.right.id = rhs.id)))) ∧
        b ∈ (net.edges_.filter (fun e =>
          (decide (e.left.id = lhs.id) || decide (e.right.id = lhs.id)) ||
          (decide (e.left.id = rhs.id) || decide (e.right.id = rhs.id)))).filter
        (fun e => !((decide (e.left.id = lhs.id) || decide (e.left.id = rhs.id)) &&
          (decide (e.right.id = lhs.id) || decide (e.right.id = rhs.id)))) ∧ edge.apart a b)
        ((net.edges_.filter (fun e =>
          (decide (e.left.id = lhs.id) || decide (e.right.id = lhs.id)) ||
          (decide (e.left.id = rhs.id) || decide (e.right.id = rhs.id)))).filter
        (fun e => !((decide (e.left.id = lhs.id) || decide (e.left.id = rhs.id)) &&
          (decide (e.right.id = lhs.id) || decide (e.right.id = rhs.id))))) :=
      List.Pairwise.imp_of_mem (fun ha hb hab => ⟨ha, hb, hab⟩) (List.Pairwise.sublist
        ((List.filter_sublist _).trans (List.filter_sublist _)) hwf.apart)
    refine List.Pairwise.filterMap _ ?_ hpw
    · intro a b ⟨ha, hb, hab⟩ x hx y hy
      obtain ⟨pe1, be1, p1, hm1, hcase1, hP1, hb11, hb12, hlook1, hlt1, heq1⟩ :=
        hone a ha x (Option.mem_def.1 hx)
      obtain ⟨pe2, be2, p2, hm2, hcase2, hP2, hb21, hb22, hlook2, hlt2, heq2⟩ :=
        hone b hb y (Option.mem_def.1 hy)
      have hbe : be2 ≠ be1 := by
        rcases hcase1 with ⟨_, h1⟩ | ⟨_, h1⟩ <;> rcases hcase2 with ⟨_, h2⟩ | ⟨_, h2⟩ <;>
          rw [h1, h2]
        · exact hab.2.2.2
        · exact hab.2.1
        · exact hab.2.2.1
        · exact hab.1
      have hpe : pe2 ≠ pe1 := by
        rcases hcase1 with ⟨h1, _⟩ | ⟨h1, _⟩ <;> rcases hcase2 with ⟨h2, _⟩ | ⟨h2, _⟩ <;>
          rw [h1, h2]
        · exact hab.1
        · exact hab.2.2.1
        · exact hab.2.1
        · exact hab.2.2.2
      have hb1 : be1.id.id < net.next_id_ := by
        rcases hcase1 with ⟨_, h⟩ | ⟨_, h⟩
        · obtain ⟨n0, hn0, hid0, _⟩ := hwf.right_valid a hm1
          rw [h, ← hid0]; exact hbelow n0 hn0
        · obtain ⟨n0, hn0, hid0, _⟩ := hwf.left_valid a hm1
          rw [h, ← hid0]; exact hbelow n0 hn0
      have hb2 : be2.id.id < net.next_id_ := by
        rcases hcase2 with ⟨_, h⟩ | ⟨_, h⟩
        · obtain ⟨n0, hn0, hid0, _⟩ := hwf.right_valid b hm2
          rw [h, ← hid0]; exact hbelow n0 hn0
        · obtain ⟨n0, hn0, hid0, _⟩ := hwf.left_valid b hm2
          rw [h, ← hid0]; exact hbelow n0 hn0
      rw [heq1, heq2]
      refine ⟨hbe, ?_, ?_, ?_⟩
      · intro h
        have : be2.id.id = net.next_id_ := congrArg (fun l : index_location => l.id.id) h
        omega
      · intro h
        have : net.next_id_ = be1.id.id := congrArg (fun l : index_location => l.id.id) h
        omega
      · intro h
        have hpp : p2 = p1 := congrArg (fun l : index_location => l.index) h
        rw [hpp] at hlook2
        exact hpe (lookup_inj lhs.id rhs.id lp rp hLL hRR hLR pe2 pe1 p1 hP2 hP1 hlook2 hlook1)

theorem sum_filter_le (l : List node) (p : node → Bool) :
    ((l.filter p).map (fun n => n.rank)).sum ≤ (l.map (fun n => n.rank)).sum := by
  induction l with
  | nil => simp
  | cons a l ih =>
    by_cases h : p a = true
    · rw [List.filter_cons_of_pos h]
      simp only [List.map_cons, List.sum_cons]
      omega
    · rw [List.filter_cons_of_neg h]
      simp only [List.map_cons, List.sum_cons]
      omega

theorem pair_ranks_le (nodes : List node) (lhs rhs : node) (hl : lhs ∈ nodes) (hr : rhs ∈ nodes)
    (hne : lhs.id ≠ rhs.id) :
    ((nodes.filter (fun n => !(decide (n.id = lhs.id) || decide (n.id = rhs.id)))).map
        (fun n => n.rank)).sum + (lhs.rank + rhs.rank) ≤ (nodes.map (fun n => n.rank)).sum ∧
    (nodes.filter (fun n => !(decide (n.id = lhs.id) || decide (n.id = rhs.id)))).length + 2 ≤
      nodes.length := by
  have hne2 : rhs ≠ lhs := by
    intro h
    rw [h] at hne
    exact hne rfl
  have h1 : nodes.Perm (lhs :: nodes.erase lhs) := List.perm_cons_erase hl
  have h2 : rhs ∈ nodes.erase lhs := (List.mem_erase_of_ne hne2).2 hr
  have h3 : (nodes.erase lhs).Perm (rhs :: (nodes.erase lhs).erase rhs) := List.perm_cons_erase h2
  have h4 : nodes.Perm (lhs :: rhs :: (nodes.erase lhs).erase rhs) :=
    h1.trans (List.Perm.cons lhs h3)
  have h5 := List.Perm.filter (fun n => !(decide (n.id = lhs.id) || decide (n.id = rhs.id))) h4
  have h6 : (lhs :: rhs :: (nodes.erase lhs).erase rhs).filter
      (fun n => !(decide (n.id = lhs.id) || decide (n.id = rhs.id))) =
      ((nodes.erase lhs).erase rhs).filter
        (fun n => !(decide (n.id = lhs.id) || decide (n.id = rhs.id))) := by
    rw [List.filter_cons_of_neg (by simp), List.filter_cons_of_neg (by simp)]
  rw [h6] at h5
  constructor
  · have hs1 := List.Perm.sum_eq (List.Perm.map (fun n => n.rank) h5)
    have hs2 := List.Perm.sum_eq (List.Perm.map (fun n => n.rank) h4)
    have hs3 := sum_filter_le ((nodes.erase lhs).erase rhs)
      (fun n => !(decide (n.id = lhs.id) || decide (n.id = rhs.id)))
    simp only [List.map_cons, List.sum_cons] at hs2
    omega
  · have hs1 := List.Perm.length_eq h5
    have hs2 := List.Perm.length_eq h4
    have hs3 := List.length_filter_le (fun n => !(decide (n.id = lhs.id) || decide (n.id = rhs.id)))
      ((nodes.erase lhs).erase rhs)
    simp only [List.length_cons] at hs2
    omega

theorem contracted_edges_eq (edges : List edge) (a b : node_id) :
    (edges.filter (fun e => (decide (e.left.id = a) || decide (e.right.id = a)) ||
        (decide (e.left.id = b) || decide (e.right.id = b)))).filter
        (fun e => (decide (e.left.id = a) || decide (e.left.id = b)) &&
          (decide (e.right.id = a) || decide (e.right.id = b))) =
      edges.filter (fun e => connected_tensor_network.edge_part_of_node_pair e a b) := by
  rw [List.filter_filter]
  apply List.filter_congr
  intro e _
  unfold connected_tensor_network.edge_part_of_node_pair
  by_cases h1 : e.left.id = a <;> by_cases h2 : e.left.id = b <;>
    by_cases h3 : e.right.id = a <;> by_cases h4 : e.right.id = b <;> simp [h1, h2, h3, h4]

theorem reconnected_total (net : tensor_network) (hwf : well_formed net)
    (lhs rhs : node) (hl : lhs ∈ net.nodes_) (hr : rhs ∈ net.nodes_)
    (new_node_id : node_id)
    (lp rp : List (Option Nat)) (R : Nat) (pce : List edge)
    (hpce : ∀ e ∈ pce, e ∈ net.edges_ ∧
      (e.left.id = lhs.id ∨ e.left.id = rhs.id) ∧ (e.right.id = lhs.id ∨ e.right.id = rhs.id))
    (hL : ∀ i : Nat, i < lhs.rank →
      (∀ e ∈ pce, e.left ≠ ⟨lhs.id, i⟩ ∧ e.right ≠ ⟨lhs.id, i⟩) →
        ∃ p, lp[i]? = some (some p) ∧ p < R)
    (hR : ∀ i : Nat, i < rhs.rank →
      (∀ e ∈ pce, e.left ≠ ⟨rhs.id, i⟩ ∧ e.right ≠ ⟨rhs.id, i⟩) →
        ∃ p, rp[i]? = some (some p) ∧ p < R)
    (e : edge)
    (he : e ∈ (net.edges_.filter (fun e =>
          (decide (e.left.id = lhs.id) || decide (e.right.id = lhs.id)) ||
          (decide (e.left.id = rhs.id) || decide (e.right.id = rhs.id)))).filter
        (fun e => !((decide (e.left.id = lhs.id) || decide (e.left.id = rhs.id)) &&
          (decide (e.right.id = lhs.id) || decide (e.right.id = rhs.id))))) :
    ∃ e2, connected_tensor_network.reconnected lhs.id rhs.id new_node_id lp rp e = some e2 ∧
      e2.ids = (if e.left.id = lhs.id ∨ e.left.id = rhs.id then (e.right.id, new_node_id)
        else (e.left.id, new_node_id)) := by
  obtain ⟨hm, hp, hnc⟩ := (mem_noncontracted_edges _ _ _ _).1 he
  have h1 : ∃ e2, connected_tensor_network.reconnected lhs.id rhs.id new_node_id lp rp e =
      some e2 := by
    apply reconnected_of_lookup
    · intro h
      obtain ⟨p, hp1, _⟩ := lookup_of_free_end net hwf lhs rhs hl hr lp rp R pce hpce hL hR
        e hm hnc e.left (Or.inl rfl) h
      exact ⟨p, hp1⟩
    · intro h
      obtain ⟨p, hp1, _⟩ := lookup_of_free_end net hwf lhs rhs hl hr lp rp R pce hpce hL hR
        e hm hnc e.right (Or.inr rfl) h
      exact ⟨p, hp1⟩
    · exact hp
  obtain ⟨e2, he2⟩ := h1
  refine ⟨e2, he2, ?_⟩
  obtain ⟨pe, be, p, hcase, hP, _, heq⟩ := reconnected_some _ _ _ _ _ _ _ he2
  rw [heq]
  rcases hcase with ⟨h1, h2⟩ | ⟨h1, h2, h3⟩
  · rw [h1] at hP
    rw [if_pos hP, h2]
    rfl
  · rw [if_neg h3, h2]
    rfl

theorem map_filterMap_eq {α β γ : Type} (l : List α) (f : α → Option β) (h : β → γ) (g : α → γ)
    (H : ∀ a ∈ l, ∃ b, f a = some b ∧ h b = g a) : (l.filterMap f).map h = l.map g := by
  induction l with
  | nil => rfl
  | cons a l ih =>
    obtain ⟨b, hb, hg⟩ := H a (List.mem_cons_self _ _)
    rw [List.filterMap_cons, hb, List.map_cons, List.map_cons, hg,
      ih (fun x hx => H x (List.mem_cons_of_mem _ hx))]

theorem pairwise_contraction_spec (net : connected_tensor_network)
    (hg : well_formed_component net) (lhs rhs : node) (hl : lhs ∈ net.nodes_)
    (hr : rhs ∈ net.nodes_) (hne : lhs.id ≠ rhs.id) :
    ∃ net2 : connected_tensor_network,
      net.pairwise_contraction lhs.id rhs.id = .ok (⟨net.next_id_⟩, net2) ∧
      well_formed net2 ∧
      net2.nodes_ =
        net.nodes_.filter (fun n => !(decide (n.id = lhs.id) || decide (n.id = rhs.id))) ++
          [⟨⟨net.next_id_⟩, lhs.rank + rhs.rank - 2 * (net.edges_.filter (fun e =>
            connected_tensor_network.edge_part_of_node_pair e lhs.id rhs.id)).length⟩] ∧
      net2.next_id_ = net.next_id_ + 1 ∧
      net2.edges_.map edge.ids =
        contracted_ids lhs.id rhs.id ⟨net.next_id_⟩ (net.edges_.map edge.ids) ∧
      2 * (net.edges_.filter (fun e =>
        connected_tensor_network.edge_part_of_node_pair e lhs.id rhs.id)).length ≤
          lhs.rank + rhs.rank := by
  have hwf := hg.wf
  have hrk := pair_ranks_le net.nodes_ lhs rhs hl hr hne
  have hranks := hg.ranks
  have hroom := hg.room
  have hr12 : lhs.rank + rhs.rank < 2 ^ 64 := by omega
  have hfl := find_of_mem_nodup net.nodes_ hwf.ids_nodup lhs hl
  have hfr := find_of_mem_nodup net.nodes_ hwf.ids_nodup rhs hr
  have hpce : ∀ e ∈ (net.edges_.filter (fun e =>
        (decide (e.left.id = lhs.id) || decide (e.right.id = lhs.id)) ||
        (decide (e.left.id = rhs.id) || decide (e.right.id = rhs.id)))).filter
        (fun e => (decide (e.left.id = lhs.id) || decide (e.left.id = rhs.id)) &&
          (decide (e.right.id = lhs.id) || decide (e.right.id = rhs.id))),
      e ∈ net.edges_ ∧ (e.left.id = lhs.id ∨ e.left.id = rhs.id) ∧
        (e.right.id = lhs.id ∨ e.right.id = rhs.id) :=
    fun e he => (mem_contracted_edges _ _ _ _).1 he
  obtain ⟨lp, rp, hnip, hk, hL, hR, hLL, hRR, hLR⟩ :=
    new_index_positions_spec lhs.id rhs.id hne lhs.rank rhs.rank hr12 _
      (by
        intro e he
        obtain ⟨hm, h1, h2⟩ := hpce e he
        have hl1 := end_at_node net hwf lhs hl e hm
        have hr1 := end_at_node net hwf rhs hr e hm
        constructor
        · rcases h1 with h | h
          · exact Or.inl ⟨h, hl1.1 h⟩
          · exact Or.inr ⟨h, hr1.1 h⟩
        · rcases h2 with h | h
          · exact Or.inl ⟨h, hl1.2 h⟩
          · exact Or.inr ⟨h, hr1.2 h⟩)
      (ends_nodup _ (fun e he => hwf.ends_differ e (hpce e he).1)
        (List.Pairwise.sublist ((List.filter_sublist _).trans (List.filter_sublist _))
          hwf.apart))
  obtain ⟨net2, hfold, hwf2, hnodes, hnext, hedges⟩ :=
    reconnect_phase net hwf hg.ids_below lhs rhs hl hr lp rp _ (net.next_id_ + 1) _ hpce
      hL hR hLL hRR hLR
  have hrank : size_sub (size_add lhs.rank rhs.rank)
      (size_mul 2 ((net.edges_.filter (fun e =>
        (decide (e.left.id = lhs.id) || decide (e.right.id = lhs.id)) ||
        (decide (e.left.id = rhs.id) || decide (e.right.id = rhs.id)))).filter
        (fun e => (decide (e.left.id = lhs.id) || decide (e.left.id = rhs.id)) &&
          (decide (e.right.id = lhs.id) || decide (e.right.id = rhs.id)))).length) =
      lhs.rank + rhs.rank - 2 * ((net.edges_.filter (fun e =>
        (decide (e.left.id = lhs.id) || decide (e.right.id = lhs.id)) ||
        (decide (e.left.id = rhs.id) || decide (e.right.id = rhs.id)))).filter
        (fun e => (decide (e.left.id = lhs.id) || decide (e.left.id = rhs.id)) &&
          (decide (e.right.id = lhs.id) || decide (e.right.id = rhs.id)))).length := by
    have h1 : size_mul 2 ((net.edges_.filter (fun e =>
        (decide (e.left.id = lhs.id) || decide (e.right.id = lhs.id)) ||
        (decide (e.left.id = rhs.id) || decide (e.right.id = rhs.id)))).filter
        (fun e => (decide (e.left.id = lhs.id) || decide (e.left.id = rhs.id)) &&
          (decide (e.right.id = lhs.id) || decide (e.right.id = rhs.id)))).length =
        2 * ((net.edges_.filter (fun e =>
        (decide (e.left.id = lhs.id) || decide (e.right.id = lhs.id)) ||
        (decide (e.left.id = rhs.id) || decide (e.right.id = rhs.id)))).filter
        (fun e => (decide (e.left.id = lhs.id) || decide (e.left.id = rhs.id)) &&
          (decide (e.right.id = lhs.id) || decide (e.right.id = rhs.id)))).length := by
      unfold size_mul size_t_card
      exact Nat.mod_eq_of_lt (by omega)
    rw [h1]
    exact cost_exponent _ _ _ hk hr12
  have hnext1 : size_add net.next_id_ 1 = net.next_id_ + 1 := by
    unfold size_add size_t_card
    have : 0 < net.nodes_.length := List.length_pos_of_mem hl
    exact Nat.mod_eq_of_lt (by omega)
  refine ⟨net2, ?_, hwf2, ?_, hnext, ?_, ?_⟩
  · unfold connected_tensor_network.pairwise_contraction
    rw [if_neg hne, hfl, hfr]
    simp only [tensor_network.add_node, hrank, hnext1, hnip, hfold]
  · rw [hnodes, contracted_edges_eq]
  · rw [hedges, List.map_append]
    unfold contracted_ids
    congr 1
    · rw [List.filter_map]
      rfl
    · rw [List.filter_map, List.filter_map, List.map_map]
      exact map_filterMap_eq _ _ _ _ (fun e he => by
        obtain ⟨e2, h1, h2⟩ := reconnected_total net hwf lhs rhs hl hr ⟨net.next_id_⟩ lp rp _ _
          hpce hL hR e he
        exact ⟨e2, h1, h2⟩)
  · rw [← contracted_edges_eq]
    exact hk

theorem joins_iff_ids (edges : List edge) (x y : node_id) :
    edge.joins edges x y ↔ (x, y) ∈ edges.map edge.ids ∨ (y, x) ∈ edges.map edge.ids := by
  unfold edge.joins
  simp only [List.mem_map, edge.ids, Prod.mk.injEq]
  constructor
  · rintro ⟨e, he, h | h⟩
    · exact Or.inl ⟨e, he, h⟩
    · exact Or.inr ⟨e, he, h⟩
  · rintro (⟨e, he, h⟩ | ⟨e, he, h⟩)
    · exact ⟨e, he, Or.inl h⟩
    · exact ⟨e, he, Or.inr h⟩

theorem mem_contracted_ids (a b new_node_id : node_id) (E : List (node_id × node_id))
    (p : node_id × node_id) (hp : p ∈ E) :
    (p.1 ≠ a ∧ p.2 ≠ a ∧ p.1 ≠ b ∧ p.2 ≠ b → p ∈ contracted_ids a b new_node_id E) ∧
    ((p.1 = a ∨ p.1 = b) → ¬ (p.2 = a ∨ p.2 = b) →
      (p.2, new_node_id) ∈ contracted_ids a b new_node_id E) ∧
    (¬ (p.1 = a ∨ p.1 = b) → (p.2 = a ∨ p.2 = b) →
      (p.1, new_node_id) ∈ contracted_ids a b new_node_id E) := by
  unfold contracted_ids
  refine ⟨?_, ?_, ?_⟩
  · intro h
    apply List.mem_append_left
    rw [List.mem_filter]
    refine ⟨hp, ?_⟩
    simp [h.1, h.2.1, h.2.2.1, h.2.2.2]
  · intro h1 h2
    apply List.mem_append_right
    rw [List.mem_map]
    refine ⟨p, ?_, by rw [if_pos h1]⟩
    rw [List.mem_filter, List.mem_filter]
    refine ⟨⟨hp, ?_⟩, ?_⟩
    · rcases h1 with h | h <;> simp [h]
    · have h3 : ¬ p.2 = a := fun h => h2 (Or.inl h)
      have h4 : ¬ p.2 = b := fun h => h2 (Or.inr h)
      simp [h3, h4]
  · intro h1 h2
    apply List.mem_append_right
    rw [List.mem_map]
    refine ⟨p, ?_, by rw [if_neg h1]⟩
    rw [List.mem_filter, List.mem_filter]
    refine ⟨⟨hp, ?_⟩, ?_⟩
    · rcases h2 with h | h <;> simp [h]
    · have h3 : ¬ p.1 = a := fun h => h1 (Or.inl h)
      have h4 : ¬ p.1 = b := fun h => h1 (Or.inr h)
      simp [h3, h4]

theorem joins_contracted (edges edges2 : List edge) (a b new_node_id : node_id)
    (hshape : edges2.map edge.ids = contracted_ids a b new_node_id (edges.map edge.ids))
    (x y : node_id) (h : edge.joins edges x y) :
    edge.path edges2 (if x = a ∨ x = b then new_node_id else x)
      (if y = a ∨ y = b then new_node_id else y) := by
  have key : ∀ p ∈ edges.map edge.ids,
      edge.path edges2 (if p.1 = a ∨ p.1 = b then new_node_id else p.1)
        (if p.2 = a ∨ p.2 = b then new_node_id else p.2) := by
    intro p hp
    obtain ⟨h1, h2, h3⟩ := mem_contracted_ids a b new_node_id _ p hp
    rw [← hshape] at h1 h2 h3
    by_cases hx : p.1 = a ∨ p.1 = b
    · by_cases hy : p.2 = a ∨ p.2 = b
      · rw [if_pos hx, if_pos hy]
        exact Relation.ReflTransGen.refl
      · rw [if_pos hx, if_neg hy]
        exact Relation.ReflTransGen.single
          ((joins_iff_ids edges2 _ _).2 (Or.inr (h2 hx hy)))
    · by_cases hy : p.2 = a ∨ p.2 = b
      · rw [if_neg hx, if_pos hy]
        exact Relation.ReflTransGen.single
          ((joins_iff_ids edges2 _ _).2 (Or.inl (h3 hx hy)))
      · rw [if_neg hx, if_neg hy]
        have h4 := h1 ⟨fun h => hx (Or.inl h), fun h => hy (Or.inl h),
          fun h => hx (Or.inr h), fun h => hy (Or.inr h)⟩
        exact Relation.ReflTransGen.single ((joins_iff_ids edges2 _ _).2 (Or.inl h4))
  rcases (joins_iff_ids edges x y).1 h with h | h
  · exact key (x, y) h
  · exact path_symm _ _ _ (key (y, x) h)

theorem path_contracted (edges edges2 : List edge) (a b new_node_id : node_id)
    (hshape : edges2.map edge.ids = contracted_ids a b new_node_id (edges.map edge.ids))
    (x y : node_id) (h : edge.path edges x y) :
    edge.path edges2 (if x = a ∨ x = b then new_node_id else x)
      (if y = a ∨ y = b then new_node_id else y) :=
  Relation.ReflTransGen.lift' (fun x => if x = a ∨ x = b then new_node_id else x)
    (fun x y hxy => joins_contracted edges edges2 a b new_node_id hshape x y hxy) h

theorem contraction_step (net : connected_tensor_network)
    (hg : well_formed_component net) (lhs rhs : node) (hl : lhs ∈ net.nodes_)
    (hr : rhs ∈ net.nodes_) (hne : lhs.id ≠ rhs.id) :
    ∃ net2 : connected_tensor_network,
      net.pairwise_contraction lhs.id rhs.id = .ok (⟨net.next_id_⟩, net2) ∧
      net2.nodes_.find? (fun n => n.id = ⟨net.next_id_⟩) =
        some ⟨⟨net.next_id_⟩, lhs.rank + rhs.rank - 2 * (net.edges_.filter (fun e =>
          connected_tensor_network.edge_part_of_node_pair e lhs.id rhs.id)).length⟩ ∧
      well_formed_component net2 ∧
      net2.size + 1 ≤ net.size ∧ 1 ≤ net2.size ∧
      net2.nodes_ =
        net.nodes_.filter (fun n => !(decide (n.id = lhs.id) || decide (n.id = rhs.id))) ++
          [⟨⟨net.next_id_⟩, lhs.rank + rhs.rank - 2 * (net.edges_.filter (fun e =>
            connected_tensor_network.edge_part_of_node_pair e lhs.id rhs.id)).length⟩] ∧
      net2.next_id_ = net.next_id_ + 1 ∧
      net2.edges_.map edge.ids =
        contracted_ids lhs.id rhs.id ⟨net.next_id_⟩ (net.edges_.map edge.ids) := by
  obtain ⟨net2, hc, hwf2, hnodes, hnext, hshape, hk⟩ :=
    pairwise_contraction_spec net hg lhs rhs hl hr hne
  have hrk := pair_ranks_le net.nodes_ lhs rhs hl hr hne
  have hranks := hg.ranks
  have hroom := hg.room
  have hnew : (⟨⟨net.next_id_⟩, lhs.rank + rhs.rank - 2 * (net.edges_.filter (fun e =>
      connected_tensor_network.edge_part_of_node_pair e lhs.id rhs.id)).length⟩ : node) ∈
      net2.nodes_ := by
    rw [hnodes]
    exact List.mem_append_right _ (List.mem_singleton_self _)
  have hsize : net2.nodes_.length =
      (net.nodes_.filter
        (fun n => !(decide (n.id = lhs.id) || decide (n.id = rhs.id)))).length + 1 := by
    rw [hnodes, List.length_append, List.length_singleton]
  have hfrom : ∀ n ∈ net2.nodes_, ∃ n0 ∈ net.nodes_,
      n.id = (if n0.id = lhs.id ∨ n0.id = rhs.id then (⟨net.next_id_⟩ : node_id) else n0.id) := by
    intro n hn
    rw [hnodes, List.mem_append, List.mem_singleton] at hn
    rcases hn with hn | hn
    · obtain ⟨hm, h1, h2⟩ := (mem_bystander_nodes _ _ _ _).1 hn
      refine ⟨n, hm, ?_⟩
      rw [if_neg]
      rintro (h | h)
      · exact h1 h
      · exact h2 h
    · refine ⟨lhs, hl, ?_⟩
      rw [if_pos (Or.inl rfl), hn]
  refine ⟨net2, hc, find_of_mem_nodup _ hwf2.ids_nodup _ hnew, ⟨hwf2, ?_, ?_, ?_, ?_⟩, ?_, ?_,
    hnodes, hnext, hshape⟩
  · intro n hn
    rw [hnext]
    rw [hnodes, List.mem_append, List.mem_singleton] at hn
    rcases hn with hn | hn
    · have := hg.ids_below n ((mem_bystander_nodes _ _ _ _).1 hn).1
      omega
    · rw [hn]
      exact Nat.lt_succ_self _
  · rw [hnext, hsize]
    omega
  · rw [hnodes, List.map_append, List.sum_append, List.map_singleton, List.sum_singleton]
    show _ + (lhs.rank + rhs.rank - 2 * (net.edges_.filter (fun e =>
      connected_tensor_network.edge_part_of_node_pair e lhs.id rhs.id)).length) < 2 ^ 64
    omega
  · intro n hn m hm
    obtain ⟨n0, hn0, hnid⟩ := hfrom n hn
    obtain ⟨m0, hm0, hmid⟩ := hfrom m hm
    rw [hnid, hmid]
    exact path_contracted net.edges_ net2.edges_ lhs.id rhs.id ⟨net.next_id_⟩ hshape _ _
      (hg.connected n0 hn0 m0 hm0)
  · show net2.nodes_.length + 1 ≤ net.nodes_.length
    omega
  · show 1 ≤ net2.nodes_.length
    omega

/-! ## The planner: plans of networks of the same shape -/

theorem plan_cons_inv (net : connected_tensor_network) (c : pairwise_contraction_type)
    (tail : List pairwise_contraction_type) (h : contraction_plan net (c :: tail)) :
    ∃ (lhs rhs out : node) (id : node_id) (net2 : connected_tensor_network),
      lhs ∈ net.nodes_ ∧ rhs ∈ net.nodes_ ∧
      (∃ e ∈ net.edges_,
        connected_tensor_network.edge_part_of_node_pair e lhs.id rhs.id = true ∧
        connected_tensor_network.internode_edge e = true) ∧
      net.pairwise_contraction lhs.id rhs.id = .ok (id, net2) ∧
      net2.nodes_.find? (fun n => n.id = id) = some out ∧
      contraction_plan net2 tail ∧
      c = ⟨lhs, rhs, some out, net.edges_.filter
        (fun e => connected_tensor_network.edge_part_of_node_pair e lhs.id rhs.id)⟩ := by
  cases h with
  | step _ net2 lhs rhs out id _ hl hr hjoin hc hout htail =>
    exact ⟨lhs, rhs, out, id, net2, hl, hr, hjoin, hc, hout, htail, rfl⟩

theorem plan_nil_inv (net : connected_tensor_network) (h : contraction_plan net []) :
    net.size = 1 := by
  cases h with
  | done _ h => exact h

theorem joined_ids_ne (e : edge) (a b : node_id)
    (h1 : connected_tensor_network.edge_part_of_node_pair e a b = true)
    (h2 : connected_tensor_network.internode_edge e = true) : a ≠ b := by
  unfold connected_tensor_network.edge_part_of_node_pair at h1
  unfold connected_tensor_network.internode_edge at h2
  simp only [Bool.and_eq_true, Bool.or_eq_true, decide_eq_true_eq] at h1
  simp only [ne_eq, decide_not, Bool.not_eq_true', decide_eq_false_iff_not] at h2
  intro h
  rw [h] at h1
  apply h2
  rcases h1 with ⟨h3 | h3, h4 | h4⟩ <;> rw [h3, h4]

theorem group_length_ids (edges : List edge) (a b : node_id) :
    (edges.filter (fun e => connected_tensor_network.edge_part_of_node_pair e a b)).length =
      ((edges.map edge.ids).filter (fun p => (decide (p.1 = a) || decide (p.1 = b)) &&
        (decide (p.2 = a) || decide (p.2 = b)))).length := by
  rw [List.filter_map, List.length_map]
  rfl

theorem group_flip (edges : List edge) (a b : node_id) :
    edges.filter (fun e => connected_tensor_network.edge_part_of_node_pair e a b) =
      edges.filter (fun e => connected_tensor_network.edge_part_of_node_pair e b a) := by
  apply List.filter_congr
  intro e _
  unfold connected_tensor_network.edge_part_of_node_pair
  by_cases h1 : e.left.id = a <;> by_cases h2 : e.left.id = b <;>
    by_cases h3 : e.right.id = a <;> by_cases h4 : e.right.id = b <;> simp [h1, h2, h3, h4]

theorem contracted_ids_flip (a b new_node_id : node_id) (E : List (node_id × node_id)) :
    contracted_ids a b new_node_id E = contracted_ids b a new_node_id E := by
  unfold contracted_ids
  congr 1
  · apply List.filter_congr
    intro p _
    by_cases h1 : p.1 = a <;> by_cases h2 : p.1 = b <;>
      by_cases h3 : p.2 = a <;> by_cases h4 : p.2 = b <;> simp [h1, h2, h3, h4]
  · rw [List.filter_filter, List.filter_filter]
    have hf : E.filter (fun p => !((decide (p.1 = a) || decide (p.1 = b)) &&
          (decide (p.2 = a) || decide (p.2 = b))) &&
        ((decide (p.1 = a) || decide (p.2 = a)) || (decide (p.1 = b) || decide (p.2 = b)))) =
        E.filter (fun p => !((decide (p.1 = b) || decide (p.1 = a)) &&
          (decide (p.2 = b) || decide (p.2 = a))) &&
        ((decide (p.1 = b) || decide (p.2 = b)) || (decide (p.1 = a) || decide (p.2 = a)))) := by
      apply List.filter_congr
      intro p _
      by_cases h1 : p.1 = a <;> by_cases h2 : p.1 = b <;>
        by_cases h3 : p.2 = a <;> by_cases h4 : p.2 = b <;> simp [h1, h2, h3, h4]
    rw [hf]
    apply List.map_congr_left
    intro p _
    by_cases h1 : p.1 = a <;> by_cases h2 : p.1 = b <;> simp [h1, h2]

theorem bystander_nodes_flip (nodes : List node) (a b : node_id) :
    nodes.filter (fun n => !(decide (n.id = a) || decide (n.id = b))) =
      nodes.filter (fun n => !(decide (n.id = b) || decide (n.id = a))) := by
  apply List.filter_congr
  intro n _
  by_cases h1 : n.id = a <;> by_cases h2 : n.id = b <;> simp [h1, h2]

theorem same_shape_refl (a : tensor_network) : same_shape a a := ⟨rfl, rfl, rfl⟩

theorem same_shape_symm (a b : tensor_network) (h : same_shape a b) : same_shape b a :=
  ⟨h.1.symm, h.2.1.symm, h.2.2.symm⟩

theorem same_shape_trans (a b c : tensor_network) (h1 : same_shape a b) (h2 : same_shape b c) :
    same_shape a c :=
  ⟨h1.1.trans h2.1, h1.2.1.trans h2.2.1, h1.2.2.trans h2.2.2⟩

theorem joined_of_same_shape (a b : tensor_network) (h : same_shape a b) (x y : node_id)
    (hj : ∃ e ∈ a.edges_, connected_tensor_network.edge_part_of_node_pair e x y = true ∧
      connected_tensor_network.internode_edge e = true) :
    ∃ e ∈ b.edges_, connected_tensor_network.edge_part_of_node_pair e x y = true ∧
      connected_tensor_network.internode_edge e = true := by
  obtain ⟨e, he, h1, h2⟩ := hj
  have hm : e.ids ∈ b.edges_.map edge.ids := by
    rw [← h.2.2]
    exact List.mem_map_of_mem _ he
  obtain ⟨e2, he2, hid⟩ := List.mem_map.1 hm
  have hl : e2.left.id = e.left.id := congrArg Prod.fst hid
  have hr : e2.right.id = e.right.id := congrArg Prod.snd hid
  refine ⟨e2, he2, ?_, ?_⟩
  · unfold connected_tensor_network.edge_part_of_node_pair at h1 ⊢
    rw [hl, hr]
    exact h1
  · unfold connected_tensor_network.internode_edge at h2 ⊢
    rw [hl, hr]
    exact h2

theorem group_length_same_shape (a b : tensor_network) (h : same_shape a b) (x y : node_id) :
    (a.edges_.filter (fun e => connected_tensor_network.edge_part_of_node_pair e x y)).length =
      (b.edges_.filter
        (fun e => connected_tensor_network.edge_part_of_node_pair e x y)).length := by
  rw [group_length_ids, group_length_ids, h.2.2]

theorem contraction_same_shape (net net1 : connected_tensor_network)
    (hg : well_formed_component net) (hg1 : well_formed_component net1)
    (hs : same_shape net net1) (lhs rhs : node) (hl : lhs ∈ net.nodes_)
    (hr : rhs ∈ net.nodes_) (hne : lhs.id ≠ rhs.id) (x y : node)
    (hxy : (x = lhs ∧ y = rhs) ∨ (x = rhs ∧ y = lhs)) (id id1 : node_id)
    (net2 net3 : connected_tensor_network)
    (hc : net.pairwise_contraction lhs.id rhs.id = .ok (id, net2))
    (hc1 : net1.pairwise_contraction x.id y.id = .ok (id1, net3)) :
    well_formed_component net2 ∧ well_formed_component net3 ∧ same_shape net2 net3 ∧
      net2.size + 1 ≤ net.size := by
  obtain ⟨n2, h1, _, hg2, hsz, _, hnodes2, hnext2, hshape2⟩ :=
    contraction_step net hg lhs rhs hl hr hne
  rw [hc] at h1
  have e2 : net2 = n2 := congrArg Prod.snd (Except.ok.inj h1)
  have hx : x ∈ net1.nodes_ := by
    rw [← hs.1]
    rcases hxy with ⟨h, _⟩ | ⟨h, _⟩ <;> rw [h] <;> assumption
  have hy : y ∈ net1.nodes_ := by
    rw [← hs.1]
    rcases hxy with ⟨_, h⟩ | ⟨_, h⟩ <;> rw [h] <;> assumption
  have hne1 : x.id ≠ y.id := by
    rcases hxy with ⟨h3, h4⟩ | ⟨h3, h4⟩ <;> rw [h3, h4]
    · exact hne
    · exact hne.symm
  obtain ⟨n3, h2, _, hg3, _, _, hnodes3, hnext3, hshape3⟩ :=
    contraction_step net1 hg1 x y hx hy hne1
  rw [hc1] at h2
  have e3 : net3 = n3 := congrArg Prod.snd (Except.ok.inj h2)
  rw [e2, e3]
  refine ⟨hg2, hg3, ⟨?_, ?_, ?_⟩, hsz⟩
  · rw [hnodes2, hnodes3, ← hs.1, ← hs.2.1, ← group_length_same_shape net net1 hs]
    rcases hxy with ⟨h3, h4⟩ | ⟨h3, h4⟩ <;> rw [h3, h4]
    rw [bystander_nodes_flip, group_flip, Nat.add_comm rhs.rank lhs.rank]
  · rw [hnext2, hnext3, hs.2.1]
  · rw [hshape2, hshape3, ← hs.2.2, ← hs.2.1]
    rcases hxy with ⟨h3, h4⟩ | ⟨h3, h4⟩ <;> rw [h3, h4]
    rw [contracted_ids_flip]

theorem plan_transfer (net : connected_tensor_network) (plan : List pairwise_contraction_type)
    (h : contraction_plan net plan) :
    ∀ net1 : connected_tensor_network, well_formed_component net →
      well_formed_component net1 → same_shape net net1 →
      ∃ plan1, contraction_plan net1 plan1 ∧
        ∀ D, exact_contraction_cost plan1 D = exact_contraction_cost plan D := by
  induction h with
  | done net h =>
    intro net1 _ _ hs
    refine ⟨[], contraction_plan.done net1 ?_, fun D => rfl⟩
    unfold tensor_network.size at h ⊢
    rw [← hs.1]
    exact h
  | step net net2 lhs rhs out id tail hl hr hjoin hc hout _ ih =>
    intro net1 hg hg1 hs
    obtain ⟨e, he, hj1, hj2⟩ := hjoin
    have hne : lhs.id ≠ rhs.id := joined_ids_ne e _ _ hj1 hj2
    have hl1 : lhs ∈ net1.nodes_ := by rw [← hs.1]; exact hl
    have hr1 : rhs ∈ net1.nodes_ := by rw [← hs.1]; exact hr
    obtain ⟨net3, hc1, hout1, _, _, _, _, _, _⟩ := contraction_step net1 hg1 lhs rhs hl1 hr1 hne
    obtain ⟨hg2, hg3, hs2, _⟩ := contraction_same_shape net net1 hg hg1 hs lhs rhs hl hr hne
      lhs rhs (Or.inl ⟨rfl, rfl⟩) id _ net2 net3 hc hc1
    obtain ⟨tail1, hp1, hcost⟩ := ih net3 hg2 hg3 hs2
    refine ⟨_, contraction_plan.step net1 net3 lhs rhs _ _ tail1 hl1 hr1
      (joined_of_same_shape net net1 hs _ _ ⟨e, he, hj1, hj2⟩) hc1 hout1 hp1, ?_⟩
    intro D
    unfold exact_contraction_cost at hcost ⊢
    rw [List.map_cons, List.map_cons, List.sum_cons, List.sum_cons, hcost D]
    unfold pairwise_contraction_type.exact_cost
    simp only
    rw [group_length_same_shape net net1 hs]

/-! ## The planner: the loop over the candidate pairs -/

theorem create_group (lhs rhs : node) (edges : List edge) :
    pairwise_contraction_type.create lhs rhs
      (edges.filter (fun e => connected_tensor_network.edge_part_of_node_pair e lhs.id rhs.id)) =
      .ok ⟨lhs, rhs, none,
        edges.filter (fun e => connected_tensor_network.edge_part_of_node_pair e lhs.id rhs.id)⟩ := by
  unfold pairwise_contraction_type.create
  rw [if_neg]
  rw [Bool.not_eq_true, List.any_eq_false]
  intro e he
  have h := (List.mem_filter.1 he).2
  unfold connected_tensor_network.edge_part_of_node_pair at h
  simp only [Bool.and_eq_true, Bool.or_eq_true, decide_eq_true_eq] at h
  obtain ⟨h1, h2⟩ := h
  have h3 : ¬ (e.left.id ≠ lhs.id ∧ e.left.id ≠ rhs.id) := by
    rintro ⟨h3, h4⟩
    rcases h1 with h1 | h1
    · exact h3 h1
    · exact h4 h1
  have h4 : ¬ (e.right.id ≠ lhs.id ∧ e.right.id ≠ rhs.id) := by
    rintro ⟨h3, h4⟩
    rcases h2 with h2 | h2
    · exact h3 h2
    · exact h4 h2
  simp only [ne_eq, decide_not, Bool.or_eq_true, Bool.and_eq_true, Bool.not_eq_true',
    decide_eq_false_iff_not]
  rintro (h | h)
  · exact h3 h
  · exact h4 h

theorem exact_cost_cons (c : pairwise_contraction_type) (tail : List pairwise_contraction_type)
    (D : Nat) :
    exact_contraction_cost (c :: tail) D = c.exact_cost D + exact_contraction_cost tail D := by
  unfold exact_contraction_cost
  rw [List.map_cons, List.sum_cons]

theorem sequence_step_spec (net : connected_tensor_network) (D : Nat)
    (hg : well_formed_component net)
    (hexact : ∀ plan, contraction_plan net plan → exact_contraction_cost plan D < 2 ^ 64 - 1)
    (tail_of : connected_tensor_network → Except logic_error (List pairwise_contraction_type))
    (htail : ∀ net2 : connected_tensor_network, well_formed_component net2 → 1 ≤ net2.size →
      net2.size + 1 ≤ net.size →
      (∀ plan, contraction_plan net2 plan → exact_contraction_cost plan D < 2 ^ 64 - 1) →
      ∃ tail, tail_of net2 = .ok tail ∧ contraction_plan net2 tail ∧
        contraction_cost tail D = exact_contraction_cost tail D ∧
        ∀ plan, contraction_plan net2 plan →
          exact_contraction_cost tail D ≤ exact_contraction_cost plan D)
    (lhs rhs : node) (hl : lhs ∈ net.nodes_) (hr : rhs ∈ net.nodes_)
    (hjoin : ∃ e ∈ net.edges_,
      connected_tensor_network.edge_part_of_node_pair e lhs.id rhs.id = true ∧
      connected_tensor_network.internode_edge e = true)
    (best : List pairwise_contraction_type × Nat)
    (hb : best.2 < 2 ^ 64 - 1 →
      contraction_plan net best.1 ∧ exact_contraction_cost best.1 D = best.2) :
    ∃ best2 : List pairwise_contraction_type × Nat,
      connected_tensor_network.sequence_step net D tail_of best
        ((lhs, rhs), net.edges_.filter
          (fun e => connected_tensor_network.edge_part_of_node_pair e lhs.id rhs.id)) =
        .ok best2 ∧
      best2.2 ≤ best.2 ∧ best2.2 < 2 ^ 64 - 1 ∧
      contraction_plan net best2.1 ∧ exact_contraction_cost best2.1 D = best2.2 ∧
      ∀ (c : pairwise_contraction_type) (tail : List pairwise_contraction_type),
        contraction_plan net (c :: tail) →
        ((c.lhs_ = lhs ∧ c.rhs_ = rhs) ∨ (c.lhs_ = rhs ∧ c.rhs_ = lhs)) →
        best2.2 ≤ exact_contraction_cost (c :: tail) D := by
  obtain ⟨e, he, hj1, hj2⟩ := hjoin
  have hne : lhs.id ≠ rhs.id := joined_ids_ne e _ _ hj1 hj2
  obtain ⟨net2, hc, hout, hg2, hsz, hsz1, _, _, _⟩ := contraction_step net hg lhs rhs hl hr hne
  obtain ⟨_, _, _, _, _, _, hk⟩ := pairwise_contraction_spec net hg lhs rhs hl hr hne
  have hrk := pair_ranks_le net.nodes_ lhs rhs hl hr hne
  have hranks := hg.ranks
  have hr12 : lhs.rank + rhs.rank < 2 ^ 64 := by omega
  -- plans of the contracted network give plans of the network
  have hstep : ∀ plan2, contraction_plan net2 plan2 →
      contraction_plan net (⟨lhs, rhs, some _, net.edges_.filter
        (fun e => connected_tensor_network.edge_part_of_node_pair e lhs.id rhs.id)⟩ :: plan2) :=
    fun plan2 hp2 => contraction_plan.step net net2 lhs rhs _ _ plan2 hl hr ⟨e, he, hj1, hj2⟩
      hc hout hp2
  have hcst : ∀ (o : Option node),
      (⟨lhs, rhs, o, net.edges_.filter (fun e =>
        connected_tensor_network.edge_part_of_node_pair e lhs.id rhs.id)⟩ :
        pairwise_contraction_type).exact_cost D =
      D ^ (lhs.rank + rhs.rank - (net.edges_.filter (fun e =>
        connected_tensor_network.edge_part_of_node_pair e lhs.id rhs.id)).length) :=
    fun o => rfl
  have hexact2 : ∀ plan2, contraction_plan net2 plan2 →
      exact_contraction_cost plan2 D < 2 ^ 64 - 1 := by
    intro plan2 hp2
    have := hexact _ (hstep plan2 hp2)
    rw [exact_cost_cons] at this
    omega
  obtain ⟨tail, htl, hpt, hct, hopt⟩ := htail net2 hg2 hsz1 hsz hexact2
  have hP := hexact _ (hstep tail hpt)
  rw [exact_cost_cons, hcst] at hP
  have hhead : (⟨lhs, rhs, none, net.edges_.filter (fun e =>
      connected_tensor_network.edge_part_of_node_pair e lhs.id rhs.id)⟩ :
      pairwise_contraction_type).cost D =
      D ^ (lhs.rank + rhs.rank - (net.edges_.filter (fun e =>
        connected_tensor_network.edge_part_of_node_pair e lhs.id rhs.id)).length) := by
    rw [cost_mod _ D (by dsimp only; omega) hr12]
    dsimp only
    exact Nat.mod_eq_of_lt (by omega)
  have hsum : size_add (D ^ (lhs.rank + rhs.rank - (net.edges_.filter (fun e =>
        connected_tensor_network.edge_part_of_node_pair e lhs.id rhs.id)).length))
      (exact_contraction_cost tail D) =
      D ^ (lhs.rank + rhs.rank - (net.edges_.filter (fun e =>
        connected_tensor_network.edge_part_of_node_pair e lhs.id rhs.id)).length) +
      exact_contraction_cost tail D := by
    unfold size_add size_t_card
    exact Nat.mod_eq_of_lt (by omega)
  -- every plan that starts with the pair costs at least the best plan through the pair
  have hkey : ∀ (c : pairwise_contraction_type) (tail2 : List pairwise_contraction_type),
      contraction_plan net (c :: tail2) →
      ((c.lhs_ = lhs ∧ c.rhs_ = rhs) ∨ (c.lhs_ = rhs ∧ c.rhs_ = lhs)) →
      D ^ (lhs.rank + rhs.rank - (net.edges_.filter (fun e =>
        connected_tensor_network.edge_part_of_node_pair e lhs.id rhs.id)).length) +
        exact_contraction_cost tail D ≤ exact_contraction_cost (c :: tail2) D := by
    intro c tail2 hp hm
    obtain ⟨x, y, out2, id2, net3, hx, hy, _, hc2, _, hp2, hceq⟩ := plan_cons_inv net c tail2 hp
    rw [hceq] at hm
    simp only at hm
    obtain ⟨_, hg3, hs, _⟩ := contraction_same_shape net net hg hg (same_shape_refl net)
      lhs rhs hl hr hne x y hm _ id2 net2 net3 hc hc2
    obtain ⟨plan1, hp1, hcost1⟩ := plan_transfer net3 tail2 hp2 net2 hg3 hg2
      (same_shape_symm _ _ hs)
    have h1 := hopt plan1 hp1
    rw [hcost1 D] at h1
    rw [exact_cost_cons, hceq]
    have h2 : (⟨x, y, some out2, net.edges_.filter (fun e =>
        connected_tensor_network.edge_part_of_node_pair e x.id y.id)⟩ :
        pairwise_contraction_type).exact_cost D =
        D ^ (lhs.rank + rhs.rank - (net.edges_.filter (fun e =>
          connected_tensor_network.edge_part_of_node_pair e lhs.id rhs.id)).length) := by
      unfold pairwise_contraction_type.exact_cost
      simp only
      rcases hm with ⟨h3, h4⟩ | ⟨h3, h4⟩ <;> rw [h3, h4]
      rw [group_flip, Nat.add_comm rhs.rank lhs.rank]
    rw [h2]
    omega
  unfold connected_tensor_network.sequence_step
  simp only [create_group, hhead]
  by_cases h1 : D ^ (lhs.rank + rhs.rank - (net.edges_.filter (fun e =>
        connected_tensor_network.edge_part_of_node_pair e lhs.id rhs.id)).length) < best.2
  · rw [if_pos h1]
    simp only [hc, hout, htl, hct, hsum]
    by_cases h2 : D ^ (lhs.rank + rhs.rank - (net.edges_.filter (fun e =>
        connected_tensor_network.edge_part_of_node_pair e lhs.id rhs.id)).length) +
        exact_contraction_cost tail D < best.2
    · rw [if_pos h2]
      refine ⟨_, rfl, Nat.le_of_lt h2, hP, hstep tail hpt, ?_, hkey⟩
      show exact_contraction_cost (_ :: tail) D = _
      rw [exact_cost_cons]
      rfl
    · rw [if_neg h2]
      have hb2 : best.2 < 2 ^ 64 - 1 := by omega
      refine ⟨best, rfl, Nat.le_refl _, hb2, (hb hb2).1, (hb hb2).2, ?_⟩
      intro c tail2 hp hm
      have := hkey c tail2 hp hm
      omega
  · rw [if_neg h1]
    have hb2 : best.2 < 2 ^ 64 - 1 := by omega
    refine ⟨best, rfl, Nat.le_refl _, hb2, (hb hb2).1, (hb hb2).2, ?_⟩
    intro c tail2 hp hm
    have := hkey c tail2 hp hm
    omega

theorem sequence_fold_spec (net : connected_tensor_network) (D : Nat)
    (hg : well_formed_component net)
    (hexact : ∀ plan, contraction_plan net plan → exact_contraction_cost plan D < 2 ^ 64 - 1)
    (tail_of : connected_tensor_network → Except logic_error (List pairwise_contraction_type))
    (htail : ∀ net2 : connected_tensor_network, well_formed_component net2 → 1 ≤ net2.size →
      net2.size + 1 ≤ net.size →
      (∀ plan, contraction_plan net2 plan → exact_contraction_cost plan D < 2 ^ 64 - 1) →
      ∃ tail, tail_of net2 = .ok tail ∧ contraction_plan net2 tail ∧
        contraction_cost tail D = exact_contraction_cost tail D ∧
        ∀ plan, contraction_plan net2 plan →
          exact_contraction_cost tail D ≤ exact_contraction_cost plan D)
    (cands : List ((node × node) × List edge))
    (hc : ∀ t ∈ cands, t.1.1 ∈ net.nodes_ ∧ t.1.2 ∈ net.nodes_ ∧
      (∃ e ∈ net.edges_,
        connected_tensor_network.edge_part_of_node_pair e t.1.1.id t.1.2.id = true ∧
        connected_tensor_network.internode_edge e = true) ∧
      t.2 = net.edges_.filter
        (fun e => connected_tensor_network.edge_part_of_node_pair e t.1.1.id t.1.2.id))
    (best : List pairwise_contraction_type × Nat)
    (hb : best.2 < 2 ^ 64 - 1 →
      contraction_plan net best.1 ∧ exact_contraction_cost best.1 D = best.2) :
    ∃ best2 : List pairwise_contraction_type × Nat,
      cands.foldlM (connected_tensor_network.sequence_step net D tail_of) best = .ok best2 ∧
      best2.2 ≤ best.2 ∧
      (best2.2 < 2 ^ 64 - 1 →
        contraction_plan net best2.1 ∧ exact_contraction_cost best2.1 D = best2.2) ∧
      (cands ≠ [] → best2.2 < 2 ^ 64 - 1) ∧
      ∀ (c : pairwise_contraction_type) (tail : List pairwise_contraction_type),
        contraction_plan net (c :: tail) →
        (∃ t ∈ cands, (c.lhs_ = t.1.1 ∧ c.rhs_ = t.1.2) ∨ (c.lhs_ = t.1.2 ∧ c.rhs_ = t.1.1)) →
        best2.2 ≤ exact_contraction_cost (c :: tail) D := by
  induction cands generalizing best with
  | nil =>
    refine ⟨best, rfl, Nat.le_refl _, hb, fun h => absurd rfl h, ?_⟩
    rintro c tail _ ⟨t, ht, _⟩
    cases ht
  | cons t rest ih =>
    obtain ⟨h1, h2, h3, h4⟩ := hc t (List.mem_cons_self _ _)
    obtain ⟨best1, hs1, hle1, hlt1, hp1, hx1, hk1⟩ :=
      sequence_step_spec net D hg hexact tail_of htail t.1.1 t.1.2 h1 h2 h3 best hb
    rw [← h4] at hs1
    obtain ⟨best2, hs2, hle2, hb2, _, hk2⟩ :=
      ih (fun u hu => hc u (List.mem_cons_of_mem _ hu)) best1 (fun _ => ⟨hp1, hx1⟩)
    refine ⟨best2, ?_, Nat.le_trans hle2 hle1, hb2, fun _ => Nat.lt_of_le_of_lt hle2 hlt1, ?_⟩
    · rw [List.foldlM_cons]
      show (connected_tensor_network.sequence_step net D tail_of best t >>= _) = _
      have ht : ((t.1.1, t.1.2), t.2) = t := rfl
      rw [ht] at hs1
      rw [hs1]
      exact hs2
    · rintro c tail hp ⟨u, hu, hm⟩
      rcases List.mem_cons.1 hu with h | h
      · rw [h] at hm
        exact Nat.le_trans hle2 (hk1 c tail hp hm)
      · exact hk2 c tail hp ⟨u, h, hm⟩

/-! ## The planner: the candidate pairs -/

theorem joined_flip (edges : List edge) (a b : node_id)
    (h : ∃ e ∈ edges, connected_tensor_network.edge_part_of_node_pair e a b = true ∧
      connected_tensor_network.internode_edge e = true) :
    ∃ e ∈ edges, connected_tensor_network.edge_part_of_node_pair e b a = true ∧
      connected_tensor_network.internode_edge e = true := by
  obtain ⟨e, he, h1, h2⟩ := h
  refine ⟨e, he, ?_, h2⟩
  have := group_flip [e] a b
  simp only [List.filter_cons, List.filter_nil, h1, if_true] at this
  by_contra h3
  simp [h3] at this

theorem candidate_of_joined (net : connected_tensor_network)
    (cands : List ((node × node) × List edge))
    (hmem : ∀ t, t ∈ cands ↔ ∃ (i j : Nat) (lhs rhs : node), i < j ∧
      net.nodes_[i]? = some lhs ∧ net.nodes_[j]? = some rhs ∧
      t = ((lhs, rhs), net.edges_.filter (fun e =>
        connected_tensor_network.edge_part_of_node_pair e lhs.id rhs.id)) ∧
      ∃ e ∈ net.edges_,
        connected_tensor_network.edge_part_of_node_pair e lhs.id rhs.id = true ∧
        connected_tensor_network.internode_edge e = true)
    (x y : node) (hx : x ∈ net.nodes_) (hy : y ∈ net.nodes_)
    (hjoin : ∃ e ∈ net.edges_,
      connected_tensor_network.edge_part_of_node_pair e x.id y.id = true ∧
      connected_tensor_network.internode_edge e = true) :
    ∃ t ∈ cands, (x = t.1.1 ∧ y = t.1.2) ∨ (x = t.1.2 ∧ y = t.1.1) := by
  obtain ⟨i, hi⟩ := List.getElem?_of_mem hx
  obtain ⟨j, hj⟩ := List.getElem?_of_mem hy
  have hne : x.id ≠ y.id := by
    obtain ⟨e, _, h1, h2⟩ := hjoin
    exact joined_ids_ne e _ _ h1 h2
  have hij : i ≠ j := by
    intro h
    rw [h, hj] at hi
    rw [Option.some.inj hi] at hne
    exact hne rfl
  rcases Nat.lt_or_gt_of_ne hij with h | h
  · exact ⟨_, (hmem _).2 ⟨i, j, x, y, h, hi, hj, rfl, hjoin⟩, Or.inl ⟨rfl, rfl⟩⟩
  · exact ⟨_, (hmem _).2 ⟨j, i, y, x, h, hj, hi, rfl, joined_flip _ _ _ hjoin⟩,
      Or.inr ⟨rfl, rfl⟩⟩

theorem path_of_self_loops (edges : List edge) (h : ∀ e ∈ edges, e.left.id = e.right.id)
    (a b : node_id) (hp : edge.path edges a b) : a = b := by
  induction hp with
  | refl => rfl
  | tail _ hstep ih =>
    obtain ⟨e, he, h1 | h1⟩ := hstep
    · rw [ih, ← h1.1, ← h1.2]
      exact h e he
    · rw [ih, ← h1.1, ← h1.2]
      exact (h e he).symm

theorem exists_joined (net : connected_tensor_network) (hg : well_formed_component net)
    (hsize : 2 ≤ net.size) :
    ∃ x ∈ net.nodes_, ∃ y ∈ net.nodes_, ∃ e ∈ net.edges_,
      connected_tensor_network.edge_part_of_node_pair e x.id y.id = true ∧
      connected_tensor_network.internode_edge e = true := by
  have hex : ∃ e ∈ net.edges_, e.left.id ≠ e.right.id := by
    by_contra hno
    have hall : ∀ e ∈ net.edges_, e.left.id = e.right.id := by
      intro e he
      by_contra h
      exact hno ⟨e, he, h⟩
    unfold tensor_network.size at hsize
    match hn : net.nodes_, hsize with
    | n0 :: n1 :: rest, _ =>
      have h0 : n0 ∈ net.nodes_ := by rw [hn]; exact List.mem_cons_self _ _
      have h1 : n1 ∈ net.nodes_ := by
        rw [hn]; exact List.mem_cons_of_mem _ (List.mem_cons_self _ _)
      have hp := path_of_self_loops net.edges_ hall _ _ (hg.connected n0 h0 n1 h1)
      have hnd := hg.wf.ids_nodup
      rw [hn] at hnd
      simp only [List.map_cons, List.nodup_cons, List.mem_cons, not_or] at hnd
      exact hnd.1.1 hp
  obtain ⟨e, he, hne⟩ := hex
  obtain ⟨x, hx, hxid, _⟩ := hg.wf.left_valid e he
  obtain ⟨y, hy, hyid, _⟩ := hg.wf.right_valid e he
  refine ⟨x, hx, y, hy, e, he, ?_, ?_⟩
  · unfold connected_tensor_network.edge_part_of_node_pair
    simp [hxid, hyid]
  · unfold connected_tensor_network.internode_edge
    simpa using hne

/-! ## The planner: the costs of a plan -/

theorem plan_cost_exact (net : connected_tensor_network) (plan : List pairwise_contraction_type)
    (D : Nat) (h : contraction_plan net plan) :
    well_formed_component net → exact_contraction_cost plan D < 2 ^ 64 →
      contraction_cost plan D = exact_contraction_cost plan D := by
  induction h with
  | done net h =>
    intro _ _
    rfl
  | step net net2 lhs rhs out id tail hl hr hjoin hc hout _ ih =>
    intro hg hlt
    obtain ⟨e, he, hj1, hj2⟩ := hjoin
    have hne : lhs.id ≠ rhs.id := joined_ids_ne e _ _ hj1 hj2
    obtain ⟨hg2, _, _, _⟩ := contraction_same_shape net net hg hg (same_shape_refl net)
      lhs rhs hl hr hne lhs rhs (Or.inl ⟨rfl, rfl⟩) id id net2 net2 hc hc
    obtain ⟨_, _, _, _, _, _, hk⟩ := pairwise_contraction_spec net hg lhs rhs hl hr hne
    have hrk := pair_ranks_le net.nodes_ lhs rhs hl hr hne
    have hranks := hg.ranks
    have hr12 : lhs.rank + rhs.rank < 2 ^ 64 := by omega
    rw [exact_cost_cons] at hlt ⊢
    have ih2 := ih hg2 (by omega)
    have hhead := cost_mod ⟨lhs, rhs, some out, net.edges_.filter (fun e =>
      connected_tensor_network.edge_part_of_node_pair e lhs.id rhs.id)⟩ D
      (by dsimp only; omega) hr12
    have hhead2 : (⟨lhs, rhs, some out, net.edges_.filter (fun e =>
        connected_tensor_network.edge_part_of_node_pair e lhs.id rhs.id)⟩ :
        pairwise_contraction_type).cost D =
        (⟨lhs, rhs, some out, net.edges_.filter (fun e =>
        connected_tensor_network.edge_part_of_node_pair e lhs.id rhs.id)⟩ :
        pairwise_contraction_type).exact_cost D := by
      rw [hhead]
      exact Nat.mod_eq_of_lt (by
        show pairwise_contraction_type.exact_cost _ D < 2 ^ 64
        omega)
    rw [contraction_cost_mod] at ih2 ⊢
    rw [List.map_cons, List.sum_cons, hhead2]
    omega

/-! ## The planner: the sequence returned -/

theorem planner_bounded_spec (D : Nat) (fuel : Nat) :
    ∀ net : connected_tensor_network, well_formed_component net → 1 ≤ net.size →
      net.size ≤ fuel →
      (∀ plan, contraction_plan net plan → exact_contraction_cost plan D < 2 ^ 64 - 1) →
      ∃ best, connected_tensor_network.pairwise_contraction_sequence_bounded fuel net D =
          .ok best ∧ contraction_plan net best ∧
        contraction_cost best D = exact_contraction_cost best D ∧
        ∀ plan, contraction_plan net plan →
          exact_contraction_cost best D ≤ exact_contraction_cost plan D := by
  induction fuel with
  | zero =>
    intro net _ h1 h2 _
    omega
  | succ fuel ih =>
    intro net hg h1 h2 hexact
    rw [connected_tensor_network.pairwise_contraction_sequence_bounded]
    by_cases hs : net.size = 1
    · rw [if_pos hs]
      refine ⟨[], rfl, contraction_plan.done net hs, rfl, ?_⟩
      intro plan _
      exact Nat.zero_le _
    · rw [if_neg hs]
      have hsize : 2 ≤ net.size := by omega
      obtain ⟨cands, hmem, _, hok⟩ := group_edges_pairwise_spec net hsize
      obtain ⟨x, hx, y, hy, hjoin⟩ := exists_joined net hg hsize
      obtain ⟨t0, ht0, _⟩ := candidate_of_joined net cands hmem x y hx hy hjoin
      have hcne : cands ≠ [] := List.ne_nil_of_mem ht0
      obtain ⟨pairs, groups, hgp, hzip⟩ := hok hcne
      rw [hgp]
      simp only [hzip]
      obtain ⟨best2, hfold, _, hb2, hlt2, hk2⟩ := sequence_fold_spec net D hg hexact
        (fun c => connected_tensor_network.pairwise_contraction_sequence_bounded fuel c D)
        (fun net2 hg2 hs1 hs2 hex => ih net2 hg2 hs1 (by omega) hex)
        cands
        (by
          intro t ht
          obtain ⟨i, j, lhs, rhs, _, hi, hj, heq, hj2⟩ := (hmem t).1 ht
          rw [heq]
          exact ⟨List.getElem?_mem hi, List.getElem?_mem hj, hj2, rfl⟩)
        ([], 2 ^ 64 - 1) (fun h => absurd h (Nat.lt_irrefl _))
      rw [hfold]
      obtain ⟨hp, hcost⟩ := hb2 (hlt2 hcne)
      refine ⟨best2.1, rfl, hp, ?_, ?_⟩
      · exact plan_cost_exact net best2.1 D hp hg (by have := hexact _ hp; omega)
      · intro plan hplan
        rw [hcost]
        cases plan with
        | nil => exact absurd (plan_nil_inv net hplan) hs
        | cons c tail =>
          obtain ⟨u, v, out, id, net2, hu, hv, hj, _, _, _, hceq⟩ := plan_cons_inv net c tail hplan
          obtain ⟨t, ht, hm⟩ := candidate_of_joined net cands hmem u v hu hv hj
          refine hk2 c tail hplan ⟨t, ht, ?_⟩
          rw [hceq]
          exact hm

theorem planner_spec (net : connected_tensor_network) (D : Nat)
    (hnet : well_formed_component net) (hsize : 2 ≤ net.size)
    (hexact : ∀ plan, contraction_plan net plan → exact_contraction_cost plan D < 2 ^ 64 - 1) :
    ∃ best, net.pairwise_contraction_sequence D = .ok best ∧ contraction_plan net best ∧
      ∀ plan, contraction_plan net plan →
        contraction_cost plan D = exact_contraction_cost plan D ∧
        contraction_cost best D ≤ contraction_cost plan D := by
  obtain ⟨best, h1, h2, h3, h4⟩ := planner_bounded_spec D (net.size + 1) net hnet (by omega)
    (by omega) hexact
  refine ⟨best, h1, h2, ?_⟩
  intro plan hp
  have h5 := plan_cost_exact net plan D hp hnet (by have := hexact _ hp; omega)
  refine ⟨h5, ?_⟩
  rw [h3, h5]
  exact h4 plan hp

theorem plan_cost_bound (net : connected_tensor_network) (plan : List pairwise_contraction_type)
    (D : Nat) (hD : 1 ≤ D) (h : contraction_plan net plan) :
    well_formed_component net →
      exact_contraction_cost plan D + D ^ (net.nodes_.map (fun n => n.rank)).sum ≤
        net.size * D ^ (net.nodes_.map (fun n => n.rank)).sum := by
  induction h with
  | done net h =>
    intro _
    rw [h]
    show 0 + _ ≤ _
    omega
  | step net net2 lhs rhs out id tail hl hr hjoin hc hout _ ih =>
    intro hg
    obtain ⟨e, he, hj1, hj2⟩ := hjoin
    have hne : lhs.id ≠ rhs.id := joined_ids_ne e _ _ hj1 hj2
    obtain ⟨n2, hc2, _, hg2, hsz, hsz1, hnodes, _, _⟩ := contraction_step net hg lhs rhs hl hr hne
    rw [hc] at hc2
    have e2 : net2 = n2 := congrArg Prod.snd (Except.ok.inj hc2)
    rw [← e2] at hg2 hsz hsz1 hnodes
    have hrk := pair_ranks_le net.nodes_ lhs rhs hl hr hne
    have hS : (net2.nodes_.map (fun n => n.rank)).sum ≤ (net.nodes_.map (fun n => n.rank)).sum := by
      rw [hnodes, List.map_append, List.sum_append, List.map_singleton, List.sum_singleton]
      show _ + (lhs.rank + rhs.rank - 2 * (net.edges_.filter (fun e =>
        connected_tensor_network.edge_part_of_node_pair e lhs.id rhs.id)).length) ≤ _
      omega
    have ih2 := ih hg2
    have hp1 : D ^ (net2.nodes_.map (fun n => n.rank)).sum ≤
        D ^ (net.nodes_.map (fun n => n.rank)).sum := Nat.pow_le_pow_right hD hS
    have hp2 : D ^ (lhs.rank + rhs.rank - (net.edges_.filter (fun e =>
        connected_tensor_network.edge_part_of_node_pair e lhs.id rhs.id)).length) ≤
        D ^ (net.nodes_.map (fun n => n.rank)).sum := Nat.pow_le_pow_right hD (by omega)
    rw [exact_cost_cons]
    have hc1 : (⟨lhs, rhs, some out, net.edges_.filter (fun e =>
        connected_tensor_network.edge_part_of_node_pair e lhs.id rhs.id)⟩ :
        pairwise_contraction_type).exact_cost D =
        D ^ (lhs.rank + rhs.rank - (net.edges_.filter (fun e =>
          connected_tensor_network.edge_part_of_node_pair e lhs.id rhs.id)).length) := rfl
    rw [hc1]
    obtain ⟨m, hm⟩ : ∃ m, net2.size = m + 1 := ⟨net2.size - 1, by omega⟩
    rw [hm, Nat.succ_mul] at ih2
    have h1 : m * D ^ (net2.nodes_.map (fun n => n.rank)).sum ≤
        m * D ^ (net.nodes_.map (fun n => n.rank)).sum := Nat.mul_le_mul_left _ hp1
    have h2 : (m + 2) * D ^ (net.nodes_.map (fun n => n.rank)).sum ≤
        net.size * D ^ (net.nodes_.map (fun n => n.rank)).sum :=
      Nat.mul_le_mul_right _ (by omega)
    rw [Nat.add_mul] at h2
    omega

theorem chain_component :
    well_formed_component ⟨[⟨⟨0⟩, 2⟩, ⟨⟨1⟩, 2⟩, ⟨⟨2⟩, 2⟩], 3,
      [⟨⟨⟨0⟩, 1⟩, ⟨⟨1⟩, 0⟩⟩, ⟨⟨⟨1⟩, 1⟩, ⟨⟨2⟩, 0⟩⟩]⟩ := by
  have p01 : edge.path [⟨⟨⟨0⟩, 1⟩, ⟨⟨1⟩, 0⟩⟩, ⟨⟨⟨1⟩, 1⟩, ⟨⟨2⟩, 0⟩⟩] ⟨0⟩ ⟨1⟩ :=
    path_edge _ ⟨⟨⟨0⟩, 1⟩, ⟨⟨1⟩, 0⟩⟩ (by decide)
  have p12 : edge.path [⟨⟨⟨0⟩, 1⟩, ⟨⟨1⟩, 0⟩⟩, ⟨⟨⟨1⟩, 1⟩, ⟨⟨2⟩, 0⟩⟩] ⟨1⟩ ⟨2⟩ :=
    path_edge _ ⟨⟨⟨1⟩, 1⟩, ⟨⟨2⟩, 0⟩⟩ (by decide)
  have p02 := path_trans _ _ _ _ p01 p12
  refine ⟨(built_spec [.add_node 2, .add_node 2, .add_node 2, .add_edge ⟨⟨0⟩, 1⟩ ⟨⟨1⟩, 0⟩,
      .add_edge ⟨⟨1⟩, 1⟩ ⟨⟨2⟩, 0⟩] _ (by decide) (by decide)).2.2, by decide, by decide,
    by decide, ?_⟩
  intro n hn m hm
  simp only [List.mem_cons, List.mem_singleton, List.not_mem_nil, or_false] at hn hm
  rcases hn with rfl | rfl | rfl <;> rcases hm with rfl | rfl | rfl
  · exact Relation.ReflTransGen.refl
  · exact p01
  · exact p02
  · exact path_symm _ _ _ p01
  · exact Relation.ReflTransGen.refl
  · exact p12
  · exact path_symm _ _ _ p02
  · exact path_symm _ _ _ p12
  · exact Relation.ReflTransGen.refl

/-- C28: for every well formed connected component with at least two nodes (ids below the
next id, room for the ids of the contractions, a representable sum of ranks) and every
extent D such that the exact total cost of every sequence of pairwise contractions of the
component is below the maximum of `std::size_t`, `pairwise_contraction_sequence(D)`
returns a sequence; the sequence reduces the component to one node by contracting, step by
step, two nodes joined by an edge; and its total cost is at most the total cost of every
such sequence, the total costs that `contraction_cost` computes being the exact ones. -/
theorem planner_optimal (net : connected_tensor_network) (D : Nat)
    (hnet : well_formed_component net) (hsize : 2 ≤ net.size)
    (hexact : ∀ plan, contraction_plan net plan → exact_contraction_cost plan D < 2 ^ 64 - 1) :
    ∃ best, net.pairwise_contraction_sequence D = .ok best ∧ contraction_plan net best ∧
      ∀ plan, contraction_plan net plan →
        contraction_cost plan D = exact_contraction_cost plan D ∧
        contraction_cost best D ≤ contraction_cost plan D := by
  obtain ⟨best, h1, h2, h3, h4⟩ := planner_bounded_spec D (net.size + 1) net hnet (by omega)
    (by omega) hexact
  refine ⟨best, h1, h2, ?_⟩
  intro plan hp
  have h5 := plan_cost_exact net plan D hp hnet (by have := hexact _ hp; omega)
  refine ⟨h5, ?_⟩
  rw [h3, h5]
  exact h4 plan hp

/-- Witness of `planner_optimal`: the chain of three nodes of rank 2 of "ij,jk,kl", with the
extent 2, where every sequence of contractions costs at most 2 · 2^6. -/
theorem planner_optimal_witness :
    ∃ best, connected_tensor_network.pairwise_contraction_sequence
        ⟨[⟨⟨0⟩, 2⟩, ⟨⟨1⟩, 2⟩, ⟨⟨2⟩, 2⟩], 3,
          [⟨⟨⟨0⟩, 1⟩, ⟨⟨1⟩, 0⟩⟩, ⟨⟨⟨1⟩, 1⟩, ⟨⟨2⟩, 0⟩⟩]⟩ 2 = .ok best ∧
      contraction_plan ⟨[⟨⟨0⟩, 2⟩, ⟨⟨1⟩, 2⟩, ⟨⟨2⟩, 2⟩], 3,
        [⟨⟨⟨0⟩, 1⟩, ⟨⟨1⟩, 0⟩⟩, ⟨⟨⟨1⟩, 1⟩, ⟨⟨2⟩, 0⟩⟩]⟩ best ∧
      ∀ plan, contraction_plan ⟨[⟨⟨0⟩, 2⟩, ⟨⟨1⟩, 2⟩, ⟨⟨2⟩, 2⟩], 3,
        [⟨⟨⟨0⟩, 1⟩, ⟨⟨1⟩, 0⟩⟩, ⟨⟨⟨1⟩, 1⟩, ⟨⟨2⟩, 0⟩⟩]⟩ plan →
        contraction_cost plan 2 = exact_contraction_cost plan 2 ∧
        contraction_cost best 2 ≤ contraction_cost plan 2 :=
  planner_optimal ⟨[⟨⟨0⟩, 2⟩, ⟨⟨1⟩, 2⟩, ⟨⟨2⟩, 2⟩], 3,
      [⟨⟨⟨0⟩, 1⟩, ⟨⟨1⟩, 0⟩⟩, ⟨⟨⟨1⟩, 1⟩, ⟨⟨2⟩, 0⟩⟩]⟩ 2 chain_component (by decide)
    (fun plan hp => by
      have h := plan_cost_bound _ plan 2 (by decide) hp chain_component
      have h2 : (⟨[⟨⟨0⟩, 2⟩, ⟨⟨1⟩, 2⟩, ⟨⟨2⟩, 2⟩], 3,
          [⟨⟨⟨0⟩, 1⟩, ⟨⟨1⟩, 0⟩⟩, ⟨⟨⟨1⟩, 1⟩, ⟨⟨2⟩, 0⟩⟩]⟩ : connected_tensor_network).size *
          2 ^ ((⟨[⟨⟨0⟩, 2⟩, ⟨⟨1⟩, 2⟩, ⟨⟨2⟩, 2⟩], 3,
          [⟨⟨⟨0⟩, 1⟩, ⟨⟨1⟩, 0⟩⟩, ⟨⟨⟨1⟩, 1⟩, ⟨⟨2⟩, 0⟩⟩]⟩ :
            connected_tensor_network).nodes_.map (fun n => n.rank)).sum = 192 := by decide
      rw [h2] at h
      have h3 : exact_contraction_cost plan 2 ≤ 192 := Nat.le_trans (Nat.le_add_right _ _) h
      omega)

/-! ## `flags_t` -/

theorem testBit_bit_not (bits x i : Nat) :
    (sstd.bit_not bits x).testBit i = (decide (i < bits) && !x.testBit i) := by
  unfold sstd.bit_not
  rw [Nat.testBit_two_pow_sub_succ (Nat.mod_lt _ (Nat.two_pow_pos bits)), Nat.testBit_mod_two_pow]
  by_cases h : i < bits <;> simp [h]

theorem flags_contains_iff (bits : Nat) (s : sstd.flags_t bits) (f : Nat) :
    s.contains f = true ↔
      ∀ i, i < bits → f.testBit i = true → s.current_flags.testBit i = true := by
  unfold sstd.flags_t.contains
  simp only [Bool.not_eq_true', decide_eq_false_iff_not, ne_eq, Decidable.not_not]
  constructor
  · intro h i hi hf
    have h1 := congrArg (fun n => Nat.testBit n i) h
    simp only [Nat.testBit_and, Nat.testBit_mod_two_pow, testBit_bit_not, Nat.zero_testBit,
      hi, hf, decide_True, Bool.true_and] at h1
    simpa using h1
  · intro h
    apply Nat.eq_of_testBit_eq
    intro i
    simp only [Nat.testBit_and, Nat.testBit_mod_two_pow, testBit_bit_not, Nat.zero_testBit]
    by_cases hi : i < bits
    · by_cases hf : f.testBit i = true
      · simp [hi, hf, h i hi hf]
      · simp [hi, hf]
    · simp [hi]

theorem flags_add_bits (bits : Nat) (s : sstd.flags_t bits) (f i : Nat) :
    (s.add f).current_flags.testBit i =
      (decide (i < bits) && (s.current_flags.testBit i || f.testBit i)) := by
  unfold sstd.flags_t.add
  simp only [Nat.testBit_mod_two_pow, Nat.testBit_or]

theorem flags_remove_bits (bits : Nat) (s : sstd.flags_t bits) (f i : Nat) :
    (s.remove f).current_flags.testBit i =
      (decide (i < bits) && (s.current_flags.testBit i && !f.testBit i)) := by
  unfold sstd.flags_t.remove
  simp only [Nat.testBit_mod_two_pow, Nat.testBit_and, testBit_bit_not]
  by_cases hi : i < bits <;> simp [hi]

/-- C34: in the example of the documentation of `flags_t`, with the flags a = 0 and b = 1
of an enum over `uint8_t`, after `add(b)` and `add(a | b)` the set contains `a | b`, and
after `remove(a)` the code still answers true for `a | b` (and for `b`), where the
documentation of the class states false: removing the flag 0 removes nothing. -/
theorem flags_example_remove_zero :
    (((sstd.flags_t.create 8 0).add 1).add (sstd.flags.or 8 0 1)).contains
      (sstd.flags.or 8 0 1) = true ∧
    ((((sstd.flags_t.create 8 0).add 1).add (sstd.flags.or 8 0 1)).remove 0).contains
      (sstd.flags.or 8 0 1) = true ∧
    ((((sstd.flags_t.create 8 0).add 1).add (sstd.flags.or 8 0 1)).remove 0).contains 1 =
      true := by
  decide

/-- The members `add`, `remove` and `contains` of `flags_t` on flags of an underlying type
of `bits` bits: s contains f after `add(f)`; if f has a bit set, s does not contain `f | g`
after `remove(f)`; and if f has no bit set, `remove(f)` leaves s as it was, so that s
contains `f | g` afterwards exactly when it contained g before. -/
theorem flags_add_remove (bits : Nat) (s : sstd.flags_t bits) (f g : Nat)
    (hs : s.current_flags < 2 ^ bits) :
    (s.add f).contains f = true ∧
    (f % 2 ^ bits ≠ 0 → (s.remove f).contains (sstd.flags.or bits f g) = false) ∧
    (f % 2 ^ bits = 0 → s.remove f = s ∧
      (s.remove f).contains (sstd.flags.or bits f g) = s.contains g) := by
  refine ⟨?_, ?_, ?_⟩
  · rw [flags_contains_iff]
    intro i hi hf
    rw [flags_add_bits]
    simp [hi, hf]
  · intro hf
    obtain ⟨i, hi⟩ := Nat.ne_zero_implies_bit_true hf
    rw [Nat.testBit_mod_two_pow] at hi
    simp only [Bool.and_eq_true, decide_eq_true_eq] at hi
    cases hc : (s.remove f).contains (sstd.flags.or bits f g) with
    | false => rfl
    | true =>
      rw [flags_contains_iff] at hc
      have h1 := hc i hi.1 (by
        unfold sstd.flags.or
        simp [Nat.testBit_mod_two_pow, hi.1, hi.2])
      rw [flags_remove_bits] at h1
      simp [hi.2] at h1
  · intro hf
    have hbit : ∀ i, i < bits → f.testBit i = false := by
      intro i hi
      have h1 := congrArg (fun n => Nat.testBit n i) hf
      simp only [Nat.testBit_mod_two_pow, Nat.zero_testBit, hi, decide_True,
        Bool.true_and] at h1
      exact h1
    have hrem : s.remove f = s := by
      cases s with
      | mk c =>
        have : (sstd.flags_t.remove ⟨c⟩ f : sstd.flags_t bits).current_flags = c := by
          apply Nat.eq_of_testBit_eq
          intro i
          rw [flags_remove_bits]
          by_cases hi : i < bits
          · simp [hi, hbit i hi]
          · have hlt : c < 2 ^ bits := hs
            have : c.testBit i = false :=
              Nat.testBit_lt_two_pow (Nat.lt_of_lt_of_le hlt
                (Nat.pow_le_pow_right (by decide) (Nat.le_of_not_lt hi)))
            simp [hi, this]
        unfold sstd.flags_t.remove at this ⊢
        simp only at this
        rw [this]
    refine ⟨hrem, ?_⟩
    rw [hrem]
    have hiff : (s.contains (sstd.flags.or bits f g) = true ↔ s.contains g = true) := by
      rw [flags_contains_iff, flags_contains_iff]
      constructor
      · intro h i hi hg
        exact h i hi (by unfold sstd.flags.or; simp [Nat.testBit_mod_two_pow, hi, hg])
      · intro h i hi hfg
        unfold sstd.flags.or at hfg
        simp only [Nat.testBit_mod_two_pow, Nat.testBit_or, hi, decide_True, Bool.true_and,
          hbit i hi, Bool.false_or] at hfg
        exact h i hi hfg
    cases h1 : s.contains (sstd.flags.or bits f g) <;> cases h2 : s.contains g <;>
      simp_all

/-- Witness of `flags_add_remove`: flags over `uint8_t`, the set {1, 2}, f = 2 and g = 4. -/
theorem flags_add_remove_witness :
    ((⟨3⟩ : sstd.flags_t 8).add 2).contains 2 = true ∧
    (2 % 2 ^ 8 ≠ 0 → ((⟨3⟩ : sstd.flags_t 8).remove 2).contains (sstd.flags.or 8 2 4) = false) ∧
    (2 % 2 ^ 8 = 0 → (⟨3⟩ : sstd.flags_t 8).remove 2 = ⟨3⟩ ∧
      ((⟨3⟩ : sstd.flags_t 8).remove 2).contains (sstd.flags.or 8 2 4) =
        (⟨3⟩ : sstd.flags_t 8).contains 4) :=
  flags_add_remove 8 ⟨3⟩ 2 4 (by decide)

/-! ## `natural_polynomial` -/

/-- C40, at the polynomial 1 + x, built by the public members as
`natural_polynomial(0) + natural_polynomial(1)`: its product with itself has the
coefficients 1, 1, 1 instead of 1, 2, 1, because `operator*` assigns each product of two
coefficients to its place instead of adding it, so that at x = 1 the product evaluates to
3 while the two factors evaluate to 2 each. -/
theorem polynomial_product_overwrites :
    sstd.natural_polynomial.create 0 = .ok ⟨[1]⟩ ∧
    sstd.natural_polynomial.create 1 = .ok ⟨[0, 1]⟩ ∧
    sstd.natural_polynomial.add ⟨[1]⟩ ⟨[0, 1]⟩ = ⟨[1, 1]⟩ ∧
    sstd.natural_polynomial.mul ⟨[1, 1]⟩ ⟨[1, 1]⟩ = ⟨[1, 1, 1]⟩ ∧
    (sstd.natural_polynomial.mul ⟨[1, 1]⟩ ⟨[1, 1]⟩).evalf 1 = 3 ∧
    sstd.natural_polynomial.evalf ⟨[1, 1]⟩ 1 * sstd.natural_polynomial.evalf ⟨[1, 1]⟩ 1 = 4 := by
  decide

/-! ## The frame of `add_edge` -/

theorem add_edge_call_eq (net : tensor_network) (a b : index_location) :
    net.add_edge a b =
      match (net.add_edge_call a b).2 with
      | .ok _ => .ok (net.add_edge_call a b).1
      | .error err => .error err := by
  unfold tensor_network.add_edge tensor_network.add_edge_call
  by_cases h1 : a = b
  · simp only [if_pos h1]
  · simp only [if_neg h1]
    cases net.nodes_.find? (fun n => n.id = a.id) with
    | none => rfl
    | some na =>
      cases net.nodes_.find? (fun n => n.id = b.id) with
      | none => rfl
      | some nb =>
        simp only
        by_cases h2 : na.rank ≤ a.index ∨ nb.rank ≤ b.index
        · simp only [if_pos h2]
        · simp only [if_neg h2]
          by_cases h3 : (net.edges_.any
              (fun e => e.left = a || e.left = b || e.right = a || e.right = b)) = true
          · simp only [if_pos h3]
          · simp only [if_neg h3]

/-- C39: a call `add_edge(a, b)` that throws leaves the network as it was, with the same
nodes, the same edges and the same next id, and a call that does not throw changes the
network only by appending the edge from a to b at the end of the edges; the value of the
embedding `add_edge` is the network left by a call that does not throw. -/
theorem add_edge_frame (net : tensor_network) (a b : index_location) :
    (∀ err, (net.add_edge_call a b).2 = .error err → (net.add_edge_call a b).1 = net) ∧
    ((net.add_edge_call a b).2 = .ok () →
      (net.add_edge_call a b).1 = ⟨net.nodes_, net.next_id_, net.edges_ ++ [⟨a, b⟩]⟩ ∧
      net.add_edge a b = .ok (net.add_edge_call a b).1) ∧
    (∀ err, (net.add_edge_call a b).2 = .error err → net.add_edge a b = .error err) := by
  have heq := add_edge_call_eq net a b
  refine ⟨?_, ?_, ?_⟩
  · intro err h
    unfold tensor_network.add_edge_call at h ⊢
    by_cases h1 : a = b
    · simp only [if_pos h1]
    · simp only [if_neg h1] at h ⊢
      cases hfa : net.nodes_.find? (fun n => n.id = a.id) with
      | none => rfl
      | some na =>
        cases hfb : net.nodes_.find? (fun n => n.id = b.id) with
        | none => rfl
        | some nb =>
          rw [hfa, hfb] at h
          simp only at h ⊢
          by_cases h2 : na.rank ≤ a.index ∨ nb.rank ≤ b.index
          · simp only [if_pos h2]
          · simp only [if_neg h2] at h ⊢
            by_cases h3 : (net.edges_.any
                (fun e => e.left = a || e.left = b || e.right = a || e.right = b)) = true
            · simp only [if_pos h3]
            · simp only [if_neg h3] at h
              cases h
  · intro h
    rw [h] at heq
    refine ⟨?_, heq⟩
    unfold tensor_network.add_edge_call at h ⊢
    by_cases h1 : a = b
    · simp only [if_pos h1] at h
      cases h
    · simp only [if_neg h1] at h ⊢
      cases hfa : net.nodes_.find? (fun n => n.id = a.id) with
      | none => rw [hfa] at h; cases h
      | some na =>
        cases hfb : net.nodes_.find? (fun n => n.id = b.id) with
        | none => rw [hfa, hfb] at h; cases h
        | some nb =>
          rw [hfa, hfb] at h
          simp only at h ⊢
          by_cases h2 : na.rank ≤ a.index ∨ nb.rank ≤ b.index
          · simp only [if_pos h2] at h
            cases h
          · simp only [if_neg h2] at h ⊢
            by_cases h3 : (net.edges_.any
                (fun e => e.left = a || e.left = b || e.right = a || e.right = b)) = true
            · simp only [if_pos h3] at h
              cases h
            · simp only [if_neg h3]
  · intro err h
    rw [h] at heq
    exact heq

/-- Witness of `add_edge_frame`: on the network of two nodes joined by an edge from the
index 0 of the first node, a second edge from that index throws and leaves the network as
it was. -/
theorem add_edge_frame_witness :
    ((⟨[⟨⟨0⟩, 2⟩, ⟨⟨1⟩, 1⟩], 2, [⟨⟨⟨0⟩, 0⟩, ⟨⟨1⟩, 0⟩⟩]⟩ : tensor_network).add_edge_call
      ⟨⟨0⟩, 0⟩ ⟨⟨0⟩, 1⟩).1 = ⟨[⟨⟨0⟩, 2⟩, ⟨⟨1⟩, 1⟩], 2, [⟨⟨⟨0⟩, 0⟩, ⟨⟨1⟩, 0⟩⟩]⟩ :=
  (add_edge_frame ⟨[⟨⟨0⟩, 2⟩, ⟨⟨1⟩, 1⟩], 2, [⟨⟨⟨0⟩, 0⟩, ⟨⟨1⟩, 0⟩⟩]⟩ ⟨⟨0⟩, 0⟩ ⟨⟨0⟩, 1⟩).1
    .second_edge_to_index (by decide)

/-! ## One contraction on a well formed network -/

theorem bystander_exact (nodes : List node) (hnd : (nodes.map (fun n => n.id)).Nodup)
    (lhs rhs : node) (hl : lhs ∈ nodes) (hr : rhs ∈ nodes) (hne : lhs.id ≠ rhs.id) :
    ((nodes.filter (fun n => !(decide (n.id = lhs.id) || decide (n.id = rhs.id)))).map
        (fun n => n.rank)).sum + (lhs.rank + rhs.rank) = (nodes.map (fun n => n.rank)).sum ∧
    (nodes.filter (fun n => !(decide (n.id = lhs.id) || decide (n.id = rhs.id)))).length + 2 =
      nodes.length := by
  have hne2 : rhs ≠ lhs := by
    intro h
    rw [h] at hne
    exact hne rfl
  have h1 : nodes.Perm (lhs :: nodes.erase lhs) := List.perm_cons_erase hl
  have h2 : rhs ∈ nodes.erase lhs := (List.mem_erase_of_ne hne2).2 hr
  have h3 : (nodes.erase lhs).Perm (rhs :: (nodes.erase lhs).erase rhs) := List.perm_cons_erase h2
  have h4 : nodes.Perm (lhs :: rhs :: (nodes.erase lhs).erase rhs) :=
    h1.trans (List.Perm.cons lhs h3)
  have hnd2 : ((lhs :: rhs :: (nodes.erase lhs).erase rhs).map (fun n => n.id)).Nodup :=
    (List.Perm.nodup_iff (List.Perm.map _ h4)).1 hnd
  simp only [List.map_cons, List.nodup_cons, List.mem_cons, List.mem_map, not_or, not_exists,
    not_and] at hnd2
  have h5 := List.Perm.filter (fun n => !(decide (n.id = lhs.id) || decide (n.id = rhs.id))) h4
  have h6 : (lhs :: rhs :: (nodes.erase lhs).erase rhs).filter
      (fun n => !(decide (n.id = lhs.id) || decide (n.id = rhs.id))) =
      (nodes.erase lhs).erase rhs := by
    rw [List.filter_cons_of_neg (by simp), List.filter_cons_of_neg (by simp),
      List.filter_eq_self]
    intro n hn
    have e1 : ¬ n.id = lhs.id := hnd2.1.2 n hn
    have e2 : ¬ n.id = rhs.id := hnd2.2.1 n hn
    simp [e1, e2]
  rw [h6] at h5
  constructor
  · have hs1 := List.Perm.sum_eq (List.Perm.map (fun n => n.rank) h5)
    have hs2 := List.Perm.sum_eq (List.Perm.map (fun n => n.rank) h4)
    simp only [List.map_cons, List.sum_cons] at hs2
    omega
  · have hs1 := List.Perm.length_eq h5
    have hs2 := List.Perm.length_eq h4
    simp only [List.length_cons] at hs2
    omega

theorem forall2_filterMap {α β : Type} (R : α → β → Prop) (f : α → Option β) (l : List α)
    (H : ∀ a ∈ l, ∃ b, f a = some b ∧ R a b) : List.Forall₂ R l (l.filterMap f) := by
  induction l with
  | nil => exact List.Forall₂.nil
  | cons a l ih =>
    obtain ⟨b, hb, hr⟩ := H a (List.mem_cons_self _ _)
    rw [List.filterMap_cons, hb]
    exact List.Forall₂.cons hr (ih (fun x hx => H x (List.mem_cons_of_mem _ hx)))

theorem reconnected_detail (net : tensor_network) (hwf : well_formed net)
    (lhs rhs : node) (hl : lhs ∈ net.nodes_) (hr : rhs ∈ net.nodes_)
    (new_node_id : node_id)
    (lp rp : List (Option Nat)) (R : Nat) (pce : List edge)
    (hpce : ∀ e ∈ pce, e ∈ net.edges_ ∧
      (e.left.id = lhs.id ∨ e.left.id = rhs.id) ∧ (e.right.id = lhs.id ∨ e.right.id = rhs.id))
    (hL : ∀ i : Nat, i < lhs.rank →
      (∀ e ∈ pce, e.left ≠ ⟨lhs.id, i⟩ ∧ e.right ≠ ⟨lhs.id, i⟩) →
        ∃ p, lp[i]? = some (some p) ∧ p < R)
    (hR : ∀ i : Nat, i < rhs.rank →
      (∀ e ∈ pce, e.left ≠ ⟨rhs.id, i⟩ ∧ e.right ≠ ⟨rhs.id, i⟩) →
        ∃ p, rp[i]? = some (some p) ∧ p < R)
    (e : edge)
    (he : e ∈ (net.edges_.filter (fun e =>
          (decide (e.left.id = lhs.id) || decide (e.right.id = lhs.id)) ||
          (decide (e.left.id = rhs.id) || decide (e.right.id = rhs.id)))).filter
        (fun e => !((decide (e.left.id = lhs.id) || decide (e.left.id = rhs.id)) &&
          (decide (e.right.id = lhs.id) || decide (e.right.id = rhs.id))))) :
    ∃ (e2 : edge) (pe be : index_location) (p : Nat),
      connected_tensor_network.reconnected lhs.id rhs.id new_node_id lp rp e = some e2 ∧
      ((pe = e.left ∧ be = e.right) ∨ (pe = e.right ∧ be = e.left)) ∧
      (pe.id = lhs.id ∨ pe.id = rhs.id) ∧ be.id ≠ lhs.id ∧ be.id ≠ rhs.id ∧
      (if pe.id = lhs.id then lp else rp)[pe.index]? = some (some p) ∧ p < R ∧
      e2 = ⟨be, ⟨new_node_id, p⟩⟩ := by
  obtain ⟨hm, hp, hnc⟩ := (mem_noncontracted_edges _ _ _ _).1 he
  obtain ⟨e2, he2, _⟩ := reconnected_total net hwf lhs rhs hl hr new_node_id lp rp R pce hpce
    hL hR e he
  obtain ⟨pe, be, p, hcase, hP, hlook, heq⟩ := reconnected_some _ _ _ _ _ _ _ he2
  have hloc : pe = e.left ∨ pe = e.right := by
    rcases hcase with h | h
    · exact Or.inl h.1
    · exact Or.inr h.1
  obtain ⟨p2, hp2, hlt⟩ := lookup_of_free_end net hwf lhs rhs hl hr lp rp R pce hpce hL hR
    e hm hnc pe hloc hP
  rw [hlook] at hp2
  have hpp : p = p2 := Option.some.inj (Option.some.inj hp2)
  have hbe : be.id ≠ lhs.id ∧ be.id ≠ rhs.id := by
    rcases hcase with ⟨h1, h2⟩ | ⟨h1, h2, h3⟩
    · rw [h1] at hP
      rw [h2]
      constructor
      · intro h; exact hnc ⟨hP, Or.inl h⟩
      · intro h; exact hnc ⟨hP, Or.inr h⟩
    · rw [h2]
      constructor
      · intro h; exact h3 (Or.inl h)
      · intro h; exact h3 (Or.inr h)
  refine ⟨e2, pe, be, p, he2, ?_, hP, hbe.1, hbe.2, hlook, hpp ▸ hlt, heq⟩
  rcases hcase with h | h
  · exact Or.inl h
  · exact Or.inr ⟨h.1, h.2.1⟩

/-- The network that `pairwise_contraction` leaves, on a well formed network whose ids are
below the next id, for two different nodes whose ranks have a representable sum. -/
theorem contraction_effect (net : connected_tensor_network) (hwf : well_formed net)
    (hbelow : ∀ n ∈ net.nodes_, n.id.id < net.next_id_)
    (lhs rhs : node) (hl : lhs ∈ net.nodes_) (hr : rhs ∈ net.nodes_) (hne : lhs.id ≠ rhs.id)
    (hr12 : lhs.rank + rhs.rank < 2 ^ 64) :
    ∃ (net2 : connected_tensor_network) (repl : List edge),
      net.pairwise_contraction lhs.id rhs.id = .ok (⟨net.next_id_⟩, net2) ∧
      well_formed net2 ∧
      net2.nodes_ =
        net.nodes_.filter (fun n => !(decide (n.id = lhs.id) || decide (n.id = rhs.id))) ++
          [⟨⟨net.next_id_⟩, lhs.rank + rhs.rank - 2 * (net.edges_.filter (fun e =>
            connected_tensor_network.edge_part_of_node_pair e lhs.id rhs.id)).length⟩] ∧
      net2.next_id_ = size_add net.next_id_ 1 ∧
      net2.edges_ = net.edges_.filter (fun e =>
          !((decide (e.left.id = lhs.id) || decide (e.right.id = lhs.id)) ||
            (decide (e.left.id = rhs.id) || decide (e.right.id = rhs.id)))) ++ repl ∧
      List.Forall₂ (fun e e2 : edge =>
          e2.right.id = ⟨net.next_id_⟩ ∧
          e2.right.index < lhs.rank + rhs.rank - 2 * (net.edges_.filter (fun e =>
            connected_tensor_network.edge_part_of_node_pair e lhs.id rhs.id)).length ∧
          e2.left.id ≠ lhs.id ∧ e2.left.id ≠ rhs.id ∧
          (e2.left = e.left ∨ e2.left = e.right))
        ((net.edges_.filter (fun e =>
            (decide (e.left.id = lhs.id) || decide (e.right.id = lhs.id)) ||
            (decide (e.left.id = rhs.id) || decide (e.right.id = rhs.id)))).filter
          (fun e => !((decide (e.left.id = lhs.id) || decide (e.left.id = rhs.id)) &&
            (decide (e.right.id = lhs.id) || decide (e.right.id = rhs.id))))) repl ∧
      2 * (net.edges_.filter (fun e =>
        connected_tensor_network.edge_part_of_node_pair e lhs.id rhs.id)).length ≤
          lhs.rank + rhs.rank := by
  have hfl := find_of_mem_nodup net.nodes_ hwf.ids_nodup lhs hl
  have hfr := find_of_mem_nodup net.nodes_ hwf.ids_nodup rhs hr
  have hpce : ∀ e ∈ (net.edges_.filter (fun e =>
        (decide (e.left.id = lhs.id) || decide (e.right.id = lhs.id)) ||
        (decide (e.left.id = rhs.id) || decide (e.right.id = rhs.id)))).filter
        (fun e => (decide (e.left.id = lhs.id) || decide (e.left.id = rhs.id)) &&
          (decide (e.right.id = lhs.id) || decide (e.right.id = rhs.id))),
      e ∈ net.edges_ ∧ (e.left.id = lhs.id ∨ e.left.id = rhs.id) ∧
        (e.right.id = lhs.id ∨ e.right.id = rhs.id) :=
    fun e he => (mem_contracted_edges _ _ _ _).1 he
  obtain ⟨lp, rp, hnip, hk, hL, hR, hLL, hRR, hLR⟩ :=
    new_index_positions_spec lhs.id rhs.id hne lhs.rank rhs.rank hr12 _
      (by
        intro e he
        obtain ⟨hm, h1, h2⟩ := hpce e he
        have hl1 := end_at_node net hwf lhs hl e hm
        have hr1 := end_at_node net hwf rhs hr e hm
        constructor
        · rcases h1 with h | h
          · exact Or.inl ⟨h, hl1.1 h⟩
          · exact Or.inr ⟨h, hr1.1 h⟩
        · rcases h2 with h | h
          · exact Or.inl ⟨h, hl1.2 h⟩
          · exact Or.inr ⟨h, hr1.2 h⟩)
      (ends_nodup _ (fun e he => hwf.ends_differ e (hpce e he).1)
        (List.Pairwise.sublist ((List.filter_sublist _).trans (List.filter_sublist _))
          hwf.apart))
  obtain ⟨net2, hfold, hwf2, hnodes, hnext, hedges⟩ :=
    reconnect_phase net hwf hbelow lhs rhs hl hr lp rp _ (size_add net.next_id_ 1) _ hpce
      hL hR hLL hRR hLR
  have hrank : size_sub (size_add lhs.rank rhs.rank)
      (size_mul 2 ((net.edges_.filter (fun e =>
        (decide (e.left.id = lhs.id) || decide (e.right.id = lhs.id)) ||
        (decide (e.left.id = rhs.id) || decide (e.right.id = rhs.id)))).filter
        (fun e => (decide (e.left.id = lhs.id) || decide (e.left.id = rhs.id)) &&
          (decide (e.right.id = lhs.id) || decide (e.right.id = rhs.id)))).length) =
      lhs.rank + rhs.rank - 2 * ((net.edges_.filter (fun e =>
        (decide (e.left.id = lhs.id) || decide (e.right.id = lhs.id)) ||
        (decide (e.left.id = rhs.id) || decide (e.right.id = rhs.id)))).filter
        (fun e => (decide (e.left.id = lhs.id) || decide (e.left.id = rhs.id)) &&
          (decide (e.right.id = lhs.id) || decide (e.right.id = rhs.id)))).length := by
    have h1 : size_mul 2 ((net.edges_.filter (fun e =>
        (decide (e.left.id = lhs.id) || decide (e.right.id = lhs.id)) ||
        (decide (e.left.id = rhs.id) || decide (e.right.id = rhs.id)))).filter
        (fun e => (decide (e.left.id = lhs.id) || decide (e.left.id = rhs.id)) &&
          (decide (e.right.id = lhs.id) || decide (e.right.id = rhs.id)))).length =
        2 * ((net.edges_.filter (fun e =>
        (decide (e.left.id = lhs.id) || decide (e.right.id = lhs.id)) ||
        (decide (e.left.id = rhs.id) || decide (e.right.id = rhs.id)))).filter
        (fun e => (decide (e.left.id = lhs.id) || decide (e.left.id = rhs.id)) &&
          (decide (e.right.id = lhs.id) || decide (e.right.id = rhs.id)))).length := by
      unfold size_mul size_t_card
      exact Nat.mod_eq_of_lt (by omega)
    rw [h1]
    exact cost_exponent _ _ _ hk hr12
  refine ⟨net2, _, ?_, hwf2, ?_, hnext, hedges, ?_, ?_⟩
  · unfold connected_tensor_network.pairwise_contraction
    rw [if_neg hne, hfl, hfr]
    simp only [tensor_network.add_node, hrank, hnip, hfold]
  · rw [hnodes, contracted_edges_eq]
  · apply forall2_filterMap
    intro e he
    obtain ⟨e2, pe, be, p, h1, hcase, hP, hb1, hb2, hlook, hlt, heq⟩ :=
      reconnected_detail net hwf lhs rhs hl hr ⟨net.next_id_⟩ lp rp _ _ hpce hL hR e he
    refine ⟨e2, h1, ?_⟩
    rw [heq, ← contracted_edges_eq]
    refine ⟨rfl, hlt, hb1, hb2, ?_⟩
    rcases hcase with ⟨_, h⟩ | ⟨_, h⟩
    · exact Or.inr h
    · exact Or.inl h
  · rw [← contracted_edges_eq]
    exact hk

theorem rank_exact (net : tensor_network) (hwf : well_formed net)
    (hranks : (net.nodes_.map (fun n => n.rank)).sum < 2 ^ 64) :
    net.rank = (net.nodes_.map (fun n => n.rank)).sum - 2 * net.edges_.length ∧
    2 * net.edges_.length ≤ (net.nodes_.map (fun n => n.rank)).sum := by
  have h2 := twice_edges_le net hwf
  refine ⟨?_, h2⟩
  unfold tensor_network.rank
  rw [rank_wout_reductions_eq]
  unfold size_sub size_mul size_t_card
  omega

theorem partaker_edges_length (edges : List edge) (a b : node_id) :
    edges.length =
      (edges.filter (fun e =>
        !((decide (e.left.id = a) || decide (e.right.id = a)) ||
          (decide (e.left.id = b) || decide (e.right.id = b))))).length +
      (edges.filter (fun e => connected_tensor_network.edge_part_of_node_pair e a b)).length +
      ((edges.filter (fun e =>
          (decide (e.left.id = a) || decide (e.right.id = a)) ||
          (decide (e.left.id = b) || decide (e.right.id = b)))).filter
        (fun e => !((decide (e.left.id = a) || decide (e.left.id = b)) &&
          (decide (e.right.id = a) || decide (e.right.id = b))))).length := by
  have h1 := List.length_eq_length_filter_add (l := edges) (fun e =>
      (decide (e.left.id = a) || decide (e.right.id = a)) ||
      (decide (e.left.id = b) || decide (e.right.id = b)))
  have h2 := List.length_eq_length_filter_add (l := edges.filter (fun e =>
      (decide (e.left.id = a) || decide (e.right.id = a)) ||
      (decide (e.left.id = b) || decide (e.right.id = b))))
    (fun e => (decide (e.left.id = a) || decide (e.left.id = b)) &&
      (decide (e.right.id = a) || decide (e.right.id = b)))
  rw [contracted_edges_eq] at h2
  omega

/-- The network that `pairwise_contraction` leaves: its nodes, its rank and its edges. -/
theorem contraction_exact (net : connected_tensor_network) (hwf : well_formed net)
    (hbelow : ∀ n ∈ net.nodes_, n.id.id < net.next_id_)
    (hranks : (net.nodes_.map (fun n => n.rank)).sum < 2 ^ 64)
    (lhs rhs : node) (hl : lhs ∈ net.nodes_) (hr : rhs ∈ net.nodes_) (hne : lhs.id ≠ rhs.id) :
    ∃ (net2 : connected_tensor_network) (repl : List edge),
      net.pairwise_contraction lhs.id rhs.id = .ok (⟨net.next_id_⟩, net2) ∧
      well_formed net2 ∧
      net2.nodes_ =
        net.nodes_.filter (fun n => !(decide (n.id = lhs.id) || decide (n.id = rhs.id))) ++
          [⟨⟨net.next_id_⟩, lhs.rank + rhs.rank - 2 * (net.edges_.filter (fun e =>
            connected_tensor_network.edge_part_of_node_pair e lhs.id rhs.id)).length⟩] ∧
      2 * (net.edges_.filter (fun e =>
        connected_tensor_network.edge_part_of_node_pair e lhs.id rhs.id)).length ≤
          lhs.rank + rhs.rank ∧
      net2.size + 1 = net.size ∧
      net2.rank = net.rank ∧
      net2.edges_ = net.edges_.filter (fun e =>
          !((decide (e.left.id = lhs.id) || decide (e.right.id = lhs.id)) ||
            (decide (e.left.id = rhs.id) || decide (e.right.id = rhs.id)))) ++ repl ∧
      List.Forall₂ (fun e e2 : edge =>
          e2.right.id = ⟨net.next_id_⟩ ∧
          e2.right.index < lhs.rank + rhs.rank - 2 * (net.edges_.filter (fun e =>
            connected_tensor_network.edge_part_of_node_pair e lhs.id rhs.id)).length ∧
          e2.left.id ≠ lhs.id ∧ e2.left.id ≠ rhs.id ∧
          (e2.left = e.left ∨ e2.left = e.right))
        ((net.edges_.filter (fun e =>
            (decide (e.left.id = lhs.id) || decide (e.right.id = lhs.id)) ||
            (decide (e.left.id = rhs.id) || decide (e.right.id = rhs.id)))).filter
          (fun e => !((decide (e.left.id = lhs.id) || decide (e.left.id = rhs.id)) &&
            (decide (e.right.id = lhs.id) || decide (e.right.id = rhs.id))))) repl := by
  have hex := bystander_exact net.nodes_ hwf.ids_nodup lhs rhs hl hr hne
  obtain ⟨net2, repl, hc, hwf2, hnodes, hnext, hedges, hrel, hk⟩ :=
    contraction_effect net hwf hbelow lhs rhs hl hr hne (by omega)
  have hsum2 : (net2.nodes_.map (fun n => n.rank)).sum + 2 * (net.edges_.filter (fun e =>
      connected_tensor_network.edge_part_of_node_pair e lhs.id rhs.id)).length =
      (net.nodes_.map (fun n => n.rank)).sum := by
    rw [hnodes, List.map_append, List.sum_append, List.map_singleton, List.sum_singleton]
    show _ + (lhs.rank + rhs.rank - 2 * (net.edges_.filter (fun e =>
      connected_tensor_network.edge_part_of_node_pair e lhs.id rhs.id)).length) + _ = _
    omega
  have hlen := partaker_edges_length net.edges_ lhs.id rhs.id
  have hrl := List.Forall₂.length_eq hrel
  have hlen2 : net2.edges_.length + (net.edges_.filter (fun e =>
      connected_tensor_network.edge_part_of_node_pair e lhs.id rhs.id)).length =
      net.edges_.length := by
    rw [hedges, List.length_append]
    omega
  obtain ⟨hrank1, hle1⟩ := rank_exact net hwf hranks
  obtain ⟨hrank2, hle2⟩ := rank_exact net2 hwf2 (by omega)
  refine ⟨net2, repl, hc, hwf2, hnodes, hk, ?_, ?_, hedges, hrel⟩
  · show net2.nodes_.length + 1 = net.nodes_.length
    rw [hnodes, List.length_append, List.length_singleton]
    omega
  · rw [hrank1, hrank2]
    omega

/-- C36: on a well formed network whose ids are below the next id and whose ranks have a
representable sum, `pairwise_contraction` of two different nodes lhs and rhs of the network,
of ranks r1 and r2 and with c edges that have both ends at lhs or rhs, returns the previous
next id and leaves a well formed network: lhs and rhs are replaced by one node, of that id,
which no node had before, and of rank r1 + r2 − 2c, put after the other nodes, which are kept
in their order; there is one node less; `rank()` is unchanged; the edges with no end at lhs
or rhs are kept in their order, and after them comes, for every edge with one end at lhs or
rhs, an edge from the other end of that edge to an index of the new node below its rank, two
such edges never to the same index. -/
theorem contraction_invariants (net : connected_tensor_network) (hwf : well_formed net)
    (hbelow : ∀ n ∈ net.nodes_, n.id.id < net.next_id_)
    (hranks : (net.nodes_.map (fun n => n.rank)).sum < 2 ^ 64)
    (lhs rhs : node) (hl : lhs ∈ net.nodes_) (hr : rhs ∈ net.nodes_) (hne : lhs.id ≠ rhs.id) :
    ∃ (net2 : connected_tensor_network) (repl : List edge),
      net.pairwise_contraction lhs.id rhs.id = .ok (⟨net.next_id_⟩, net2) ∧
      well_formed net2 ∧
      (∀ n ∈ net.nodes_, n.id ≠ ⟨net.next_id_⟩) ∧
      net2.nodes_ =
        net.nodes_.filter (fun n => !(decide (n.id = lhs.id) || decide (n.id = rhs.id))) ++
          [⟨⟨net.next_id_⟩, lhs.rank + rhs.rank - 2 * (net.edges_.filter (fun e =>
            connected_tensor_network.edge_part_of_node_pair e lhs.id rhs.id)).length⟩] ∧
      2 * (net.edges_.filter (fun e =>
        connected_tensor_network.edge_part_of_node_pair e lhs.id rhs.id)).length ≤
          lhs.rank + rhs.rank ∧
      net2.size + 1 = net.size ∧
      net2.rank = net.rank ∧
      net2.edges_ = net.edges_.filter (fun e =>
          !((decide (e.left.id = lhs.id) || decide (e.right.id = lhs.id)) ||
            (decide (e.left.id = rhs.id) || decide (e.right.id = rhs.id)))) ++ repl ∧
      List.Forall₂ (fun e e2 : edge =>
          e2.right.id = ⟨net.next_id_⟩ ∧
          e2.right.index < lhs.rank + rhs.rank - 2 * (net.edges_.filter (fun e =>
            connected_tensor_network.edge_part_of_node_pair e lhs.id rhs.id)).length ∧
          e2.left.id ≠ lhs.id ∧ e2.left.id ≠ rhs.id ∧
          (e2.left = e.left ∨ e2.left = e.right))
        ((net.edges_.filter (fun e =>
            (decide (e.left.id = lhs.id) || decide (e.right.id = lhs.id)) ||
            (decide (e.left.id = rhs.id) || decide (e.right.id = rhs.id)))).filter
          (fun e => !((decide (e.left.id = lhs.id) || decide (e.left.id = rhs.id)) &&
            (decide (e.right.id = lhs.id) || decide (e.right.id = rhs.id))))) repl ∧
      (repl.map (fun e => e.right)).Nodup := by
  obtain ⟨net2, repl, hc, hwf2, hnodes, hk, hsize, hrank, hedges, hrel⟩ :=
    contraction_exact net hwf hbelow hranks lhs rhs hl hr hne
  refine ⟨net2, repl, hc, hwf2, ?_, hnodes, hk, hsize, hrank, hedges, hrel, ?_⟩
  · intro n hn h
    have := hbelow n hn
    rw [h] at this
    exact Nat.lt_irrefl _ this
  · have hap := hwf2.apart
    rw [hedges, List.pairwise_append] at hap
    have hd : ∀ e ∈ repl, e.left ≠ e.right := fun e he =>
      hwf2.ends_differ e (by rw [hedges]; exact List.mem_append_right _ he)
    have hnd := ends_nodup repl hd hap.2.1
    have hsub : (repl.map (fun e => e.right)).Sublist
        (repl.flatMap (fun e => [e.left, e.right])) := by
      clear hrel hnd hd hap hedges
      induction repl with
      | nil => exact List.Sublist.slnil
      | cons e rest ih =>
        simp only [List.map_cons, List.flatMap_cons, List.cons_append, List.nil_append]
        exact List.Sublist.cons _ (List.Sublist.cons₂ _ ih)
    exact List.Nodup.sublist hsub hnd

/-- Witness of `contraction_invariants`: the first two nodes of the chain of three nodes of
rank 2 of "ij,jk,kl". -/
theorem contraction_invariants_witness :
    ∃ (net2 : connected_tensor_network) (repl : List edge),
      connected_tensor_network.pairwise_contraction
        ⟨[⟨⟨0⟩, 2⟩, ⟨⟨1⟩, 2⟩, ⟨⟨2⟩, 2⟩], 3,
          [⟨⟨⟨0⟩, 1⟩, ⟨⟨1⟩, 0⟩⟩, ⟨⟨⟨1⟩, 1⟩, ⟨⟨2⟩, 0⟩⟩]⟩ ⟨0⟩ ⟨1⟩ = .ok (⟨3⟩, net2) ∧
      net2.nodes_ = [⟨⟨2⟩, 2⟩, ⟨⟨3⟩, 2⟩] ∧
      net2.edges_ = repl ∧ (repl.map (fun e => e.right)).Nodup :=
  (contraction_invariants ⟨[⟨⟨0⟩, 2⟩, ⟨⟨1⟩, 2⟩, ⟨⟨2⟩, 2⟩], 3,
      [⟨⟨⟨0⟩, 1⟩, ⟨⟨1⟩, 0⟩⟩, ⟨⟨⟨1⟩, 1⟩, ⟨⟨2⟩, 0⟩⟩]⟩ chain_component.wf (by decide) (by decide)
      ⟨⟨0⟩, 2⟩ ⟨⟨1⟩, 2⟩ (by decide) (by decide) (by decide)).imp
    (fun _ h => h.imp (fun _ h2 => ⟨h2.1, h2.2.2.2.1, h2.2.2.2.2.2.2.2.1, h2.2.2.2.2.2.2.2.2.2⟩))

theorem contains_false_iff (net : tensor_network) (id : node_id) :
    net.contains id = false ↔ net.nodes_.find? (fun n => n.id = id) = none := by
  unfold tensor_network.contains
  rw [List.find?_eq_none, List.any_eq_false]

theorem contains_true_iff (net : tensor_network) (id : node_id) :
    net.contains id = true ↔ ∃ n ∈ net.nodes_, n.id = id := by
  unfold tensor_network.contains
  rw [List.any_eq_true]
  simp only [decide_eq_true_eq]

/-- C33: on a well formed network whose ids are below the next id and whose ranks have a
representable sum, connected or not, `pairwise_contraction(lhs, rhs)` throws exactly when
lhs and rhs are one id or one of them is not the id of a node of the network; for the ids
of two different nodes it returns the previous next id, whether an edge joins the two nodes
or not. -/
theorem pairwise_contraction_fails_iff (net : connected_tensor_network) (hwf : well_formed net)
    (hbelow : ∀ n ∈ net.nodes_, n.id.id < net.next_id_)
    (hranks : (net.nodes_.map (fun n => n.rank)).sum < 2 ^ 64) (lhs rhs : node_id) :
    ((∃ err, net.pairwise_contraction lhs rhs = .error err) ↔
      (lhs = rhs ∨ net.contains lhs = false ∨ net.contains rhs = false)) ∧
    (lhs = rhs → net.pairwise_contraction lhs rhs = .error .contract_with_itself) ∧
    (lhs ≠ rhs → (net.contains lhs = false ∨ net.contains rhs = false) →
      net.pairwise_contraction lhs rhs = .error .contract_missing_node) ∧
    (lhs ≠ rhs → net.contains lhs = true → net.contains rhs = true →
      ∃ net2, net.pairwise_contraction lhs rhs = .ok (⟨net.next_id_⟩, net2)) := by
  have h1 : lhs = rhs → net.pairwise_contraction lhs rhs = .error .contract_with_itself := by
    intro h
    unfold connected_tensor_network.pairwise_contraction
    rw [if_pos h]
  have h2 : lhs ≠ rhs → (net.contains lhs = false ∨ net.contains rhs = false) →
      net.pairwise_contraction lhs rhs = .error .contract_missing_node := by
    intro hne h
    unfold connected_tensor_network.pairwise_contraction
    rw [if_neg hne]
    rcases h with h | h
    · rw [(contains_false_iff net lhs).1 h]
    · rw [(contains_false_iff net rhs).1 h]
      cases net.nodes_.find? (fun n => n.id = lhs) <;> rfl
  have h3 : lhs ≠ rhs → net.contains lhs = true → net.contains rhs = true →
      ∃ net2, net.pairwise_contraction lhs rhs = .ok (⟨net.next_id_⟩, net2) := by
    intro hne hl hr
    obtain ⟨nl, hnl, hlid⟩ := (contains_true_iff net lhs).1 hl
    obtain ⟨nr, hnr, hrid⟩ := (contains_true_iff net rhs).1 hr
    have hrk := pair_ranks_le net.nodes_ nl nr hnl hnr (by rw [hlid, hrid]; exact hne)
    obtain ⟨net2, _, hc, _⟩ := contraction_effect net hwf hbelow nl nr hnl hnr
      (by rw [hlid, hrid]; exact hne) (by omega)
    rw [hlid, hrid] at hc
    exact ⟨net2, hc⟩
  refine ⟨⟨?_, ?_⟩, h1, h2, h3⟩
  · rintro ⟨err, herr⟩
    by_cases hne : lhs = rhs
    · exact Or.inl hne
    · right
      by_cases hl : net.contains lhs = true
      · by_cases hr : net.contains rhs = true
        · obtain ⟨net2, hc⟩ := h3 hne hl hr
          rw [hc] at herr
          cases herr
        · exact Or.inr (by simpa using hr)
      · exact Or.inl (by simpa using hl)
  · rintro (h | h)
    · exact ⟨_, h1 h⟩
    · by_cases hne : lhs = rhs
      · exact ⟨_, h1 hne⟩
      · exact ⟨_, h2 hne h⟩

/-- Witness of `pairwise_contraction_fails_iff`: in the chain of three nodes of "ij,jk,kl"
the outer nodes 0 and 2, which no edge joins, are contracted into the node 3. -/
theorem pairwise_contraction_fails_iff_witness :
    ∃ net2, connected_tensor_network.pairwise_contraction
        ⟨[⟨⟨0⟩, 2⟩, ⟨⟨1⟩, 2⟩, ⟨⟨2⟩, 2⟩], 3,
          [⟨⟨⟨0⟩, 1⟩, ⟨⟨1⟩, 0⟩⟩, ⟨⟨⟨1⟩, 1⟩, ⟨⟨2⟩, 0⟩⟩]⟩ ⟨0⟩ ⟨2⟩ = .ok (⟨3⟩, net2) :=
  (pairwise_contraction_fails_iff ⟨[⟨⟨0⟩, 2⟩, ⟨⟨1⟩, 2⟩, ⟨⟨2⟩, 2⟩], 3,
      [⟨⟨⟨0⟩, 1⟩, ⟨⟨1⟩, 0⟩⟩, ⟨⟨⟨1⟩, 1⟩, ⟨⟨2⟩, 0⟩⟩]⟩ chain_component.wf (by decide) (by decide)
      ⟨0⟩ ⟨2⟩).2.2.2 (by decide) (by decide) (by decide)

/-! ## The planner: the length of a plan and its replay -/

theorem forall2_right_mem {α β : Type} (R : α → β → Prop) (l1 : List α) (l2 : List β)
    (h : List.Forall₂ R l1 l2) : ∀ b ∈ l2, ∃ a ∈ l1, R a b := by
  induction h with
  | nil =>
    intro b hb
    cases hb
  | cons hr _ ih =>
    intro b hb
    rcases List.mem_cons.1 hb with h | h
    · rw [h]
      exact ⟨_, List.mem_cons_self _ _, hr⟩
    · obtain ⟨a, ha, hab⟩ := ih b h
      exact ⟨a, List.mem_cons_of_mem _ ha, hab⟩

theorem replay_cons (net net2 : connected_tensor_network) (c : pairwise_contraction_type)
    (tail : List pairwise_contraction_type) (id : node_id)
    (h : net.pairwise_contraction c.lhs_.id c.rhs_.id = .ok (id, net2)) :
    net.replay (c :: tail) = net2.replay tail := by
  unfold connected_tensor_network.replay
  rw [List.foldlM_cons]
  simp only [pairwise_contraction_type.lhs_id, pairwise_contraction_type.rhs_id, h]
  rfl

theorem plan_replay (net : connected_tensor_network) (plan : List pairwise_contraction_type)
    (h : contraction_plan net plan) :
    well_formed_component net →
      plan.length + 1 = net.size ∧
      (plan ≠ [] → ∃ (final : connected_tensor_network) (out : node),
        net.replay plan = .ok final ∧ final.nodes_ = [out] ∧ final.edges_ = [] ∧
        plan.getLast?.bind (fun c => c.out_) = some out ∧ out.rank = net.rank) := by
  induction h with
  | done net h =>
    intro _
    refine ⟨?_, fun hne => absurd rfl hne⟩
    rw [h]
    rfl
  | step net net2 lhs rhs out id tail hl hr hjoin hc hout _ ih =>
    intro hg
    obtain ⟨e, he, hj1, hj2⟩ := hjoin
    have hne : lhs.id ≠ rhs.id := joined_ids_ne e _ _ hj1 hj2
    obtain ⟨n2, hc2, hfind, hg2, _, _, _, _, _⟩ := contraction_step net hg lhs rhs hl hr hne
    rw [hc] at hc2
    have e2 : net2 = n2 := congrArg Prod.snd (Except.ok.inj hc2)
    have eid : id = ⟨net.next_id_⟩ := congrArg Prod.fst (Except.ok.inj hc2)
    rw [← e2] at hfind hg2
    obtain ⟨n3, repl, hc3, hwf2, hnodes, hk, hsize, hrank, hedges, hrel⟩ :=
      contraction_exact net hg.wf hg.ids_below hg.ranks lhs rhs hl hr hne
    rw [hc] at hc3
    have e3 : net2 = n3 := congrArg Prod.snd (Except.ok.inj hc3)
    rw [← e3] at hwf2 hnodes hsize hrank hedges
    obtain ⟨ih1, ih2⟩ := ih hg2
    refine ⟨by rw [List.length_cons]; omega, fun _ => ?_⟩
    rw [replay_cons net net2 _ tail id hc]
    rw [eid, hfind] at hout
    cases tail with
    | nil =>
      have hs1 : net2.nodes_.length = 1 := by
        have := ih1
        simp only [List.length_nil] at this
        exact this.symm
      have hbn : net.nodes_.filter
          (fun n => !(decide (n.id = lhs.id) || decide (n.id = rhs.id))) = [] := by
        rw [hnodes, List.length_append, List.length_singleton] at hs1
        exact List.length_eq_zero.1 (by omega)
      have hno : ∀ loc : index_location, (∃ n ∈ net.nodes_, n.id = loc.id) →
          loc.id ≠ lhs.id → loc.id ≠ rhs.id → False := by
        rintro loc ⟨n, hn, hid⟩ h1 h2
        have : n ∈ net.nodes_.filter
            (fun n => !(decide (n.id = lhs.id) || decide (n.id = rhs.id))) :=
          (mem_bystander_nodes _ _ _ _).2 ⟨hn, by rw [hid]; exact h1, by rw [hid]; exact h2⟩
        rw [hbn] at this
        cases this
      have hed : net2.edges_ = [] := by
        rw [hedges]
        have hb : net.edges_.filter (fun e =>
            !((decide (e.left.id = lhs.id) || decide (e.right.id = lhs.id)) ||
              (decide (e.left.id = rhs.id) || decide (e.right.id = rhs.id)))) = [] := by
          apply List.eq_nil_iff_forall_not_mem.2
          intro x hx
          obtain ⟨hm, h1, _, h3, _⟩ := (mem_bystander_edges _ _ _ _).1 hx
          obtain ⟨n, hn, hid, _⟩ := hg.wf.left_valid x hm
          exact hno x.left ⟨n, hn, hid⟩ h1 h3
        have hr2 : repl = [] := by
          apply List.eq_nil_iff_forall_not_mem.2
          intro x hx
          obtain ⟨y, hy, _, _, h1, h2, h3⟩ := forall2_right_mem _ _ _ hrel x hx
          have hym := ((mem_noncontracted_edges _ _ _ _).1 hy).1
          rcases h3 with h3 | h3
          · obtain ⟨n, hn, hid, _⟩ := hg.wf.left_valid y hym
            rw [← h3] at hid
            exact hno x.left ⟨n, hn, hid⟩ h1 h2
          · obtain ⟨n, hn, hid, _⟩ := hg.wf.right_valid y hym
            rw [← h3] at hid
            exact hno x.left ⟨n, hn, hid⟩ h1 h2
        rw [hb, hr2]
        rfl
      have hnd2 : net2.nodes_ = [out] := by
        rw [hnodes, hbn, List.nil_append, Option.some.inj hout]
      refine ⟨net2, out, rfl, hnd2, hed, rfl, ?_⟩
      rw [← hrank]
      have hr1 := (rank_exact net2 hwf2 hg2.ranks).1
      rw [hr1, hnd2, hed]
      simp
    | cons c2 rest =>
      obtain ⟨final, out2, h1, h2, h3, h4, h5⟩ := ih2 (List.cons_ne_nil _ _)
      refine ⟨final, out2, h1, h2, h3, ?_, by rw [h5, hrank]⟩
      rw [List.getLast?_cons_cons]
      exact h4

/-- C31, as stated: for the component of two nodes of rank 1 joined by one edge and the
extent 2^64 − 1, the only step costs 2^64 − 1, which is not below the initial
`best_sequence_cost`, and `pairwise_contraction_sequence` returns the empty sequence, not
one step. -/
theorem sequence_empty_at_sentinel_cost :
    connected_tensor_network.pairwise_contraction_sequence
      ⟨[⟨⟨0⟩, 1⟩, ⟨⟨1⟩, 1⟩], 2, [⟨⟨⟨0⟩, 0⟩, ⟨⟨1⟩, 0⟩⟩]⟩ (2 ^ 64 - 1) = .ok [] ∧
    (pairwise_contraction_type.create ⟨⟨0⟩, 1⟩ ⟨⟨1⟩, 1⟩ [⟨⟨⟨0⟩, 0⟩, ⟨⟨1⟩, 0⟩⟩]).map
      (fun c => c.cost (2 ^ 64 - 1)) = .ok (2 ^ 64 - 1) := by
  decide

/-- C31 (amended): for every well formed connected component with n nodes,
`pairwise_contraction_sequence` returns the empty sequence when n = 1, whatever edges the
node has and whatever the extent; when n ≥ 2 and the exact total cost of every sequence of
pairwise contractions of the component is below the maximum of `std::size_t`, it returns
n − 1 steps, and replaying them in order with `pairwise_contraction` leaves a network with
one node, the output node of the last step, and no edge, the rank of that node being the
`rank()` of the component. -/
theorem sequence_length_and_replay (net : connected_tensor_network) (D : Nat)
    (hnet : well_formed_component net) :
    (net.size = 1 → net.pairwise_contraction_sequence D = .ok []) ∧
    (2 ≤ net.size →
      (∀ plan, contraction_plan net plan → exact_contraction_cost plan D < 2 ^ 64 - 1) →
      ∃ (best : List pairwise_contraction_type) (final : connected_tensor_network) (out : node),
        net.pairwise_contraction_sequence D = .ok best ∧ best.length + 1 = net.size ∧
        net.replay best = .ok final ∧ final.nodes_ = [out] ∧ final.edges_ = [] ∧
        best.getLast?.bind (fun c => c.out_) = some out ∧ out.rank = net.rank) := by
  constructor
  · intro h
    unfold connected_tensor_network.pairwise_contraction_sequence
    rw [h]
    show connected_tensor_network.pairwise_contraction_sequence_bounded (1 + 1) net D = _
    rw [connected_tensor_network.pairwise_contraction_sequence_bounded, if_pos h]
  · intro hsize hexact
    obtain ⟨best, h1, h2, _, _⟩ := planner_bounded_spec D (net.size + 1) net hnet (by omega)
      (by omega) hexact
    obtain ⟨hlen, hrep⟩ := plan_replay net best h2 hnet
    have hne : best ≠ [] := by
      intro h
      rw [h] at hlen
      simp only [List.length_nil] at hlen
      omega
    obtain ⟨final, out, h3, h4, h5, h6, h7⟩ := hrep hne
    exact ⟨best, final, out, h1, hlen, h3, h4, h5, h6, h7⟩

/-- Witness of `sequence_length_and_replay`: the chain of three nodes of rank 2 of
"ij,jk,kl" with the extent 2. -/
theorem sequence_length_and_replay_witness :
    ∃ (best : List pairwise_contraction_type) (final : connected_tensor_network) (out : node),
      connected_tensor_network.pairwise_contraction_sequence
        ⟨[⟨⟨0⟩, 2⟩, ⟨⟨1⟩, 2⟩, ⟨⟨2⟩, 2⟩], 3,
          [⟨⟨⟨0⟩, 1⟩, ⟨⟨1⟩, 0⟩⟩, ⟨⟨⟨1⟩, 1⟩, ⟨⟨2⟩, 0⟩⟩]⟩ 2 = .ok best ∧
      best.length + 1 = 3 ∧
      connected_tensor_network.replay
        ⟨[⟨⟨0⟩, 2⟩, ⟨⟨1⟩, 2⟩, ⟨⟨2⟩, 2⟩], 3,
          [⟨⟨⟨0⟩, 1⟩, ⟨⟨1⟩, 0⟩⟩, ⟨⟨⟨1⟩, 1⟩, ⟨⟨2⟩, 0⟩⟩]⟩ best = .ok final ∧
      final.nodes_ = [out] ∧ final.edges_ = [] ∧
      best.getLast?.bind (fun c => c.out_) = some out ∧ out.rank = 2 :=
  (sequence_length_and_replay ⟨[⟨⟨0⟩, 2⟩, ⟨⟨1⟩, 2⟩, ⟨⟨2⟩, 2⟩], 3,
      [⟨⟨⟨0⟩, 1⟩, ⟨⟨1⟩, 0⟩⟩, ⟨⟨⟨1⟩, 1⟩, ⟨⟨2⟩, 0⟩⟩]⟩ 2 chain_component).2 (by decide)
    (fun plan hp => by
      have h := plan_cost_bound _ plan 2 (by decide) hp chain_component
      have h2 : (⟨[⟨⟨0⟩, 2⟩, ⟨⟨1⟩, 2⟩, ⟨⟨2⟩, 2⟩], 3,
          [⟨⟨⟨0⟩, 1⟩, ⟨⟨1⟩, 0⟩⟩, ⟨⟨⟨1⟩, 1⟩, ⟨⟨2⟩, 0⟩⟩]⟩ : connected_tensor_network).size *
          2 ^ ((⟨[⟨⟨0⟩, 2⟩, ⟨⟨1⟩, 2⟩, ⟨⟨2⟩, 2⟩], 3,
          [⟨⟨⟨0⟩, 1⟩, ⟨⟨1⟩, 0⟩⟩, ⟨⟨⟨1⟩, 1⟩, ⟨⟨2⟩, 0⟩⟩]⟩ :
            connected_tensor_network).nodes_.map (fun n => n.rank)).sum = 192 := by decide
      rw [h2] at h
      have h3 : exact_contraction_cost plan 2 ≤ 192 := Nat.le_trans (Nat.le_add_right _ _) h
      omega)

/-! ## The pairs and groups of `group_edges_pairwise` -/

theorem mem_all_pairs {α : Type} (l : List α) (a b : α) (h : (a, b) ∈ all_pairs l) :
    a ∈ l ∧ b ∈ l := by
  induction l with
  | nil => cases h
  | cons x rest ih =>
    unfold all_pairs at h
    rcases List.mem_append.1 h with h | h
    · obtain ⟨c, hc, heq⟩ := List.mem_map.1 h
      simp only [Prod.mk.injEq] at heq
      rw [← heq.1, ← heq.2]
      exact ⟨List.mem_cons_self _ _, List.mem_cons_of_mem _ hc⟩
    · obtain ⟨h1, h2⟩ := ih h
      exact ⟨List.mem_cons_of_mem _ h1, List.mem_cons_of_mem _ h2⟩

theorem all_pairs_nodup {α : Type} (l : List α) (hnd : l.Nodup) : (all_pairs l).Nodup := by
  induction l with
  | nil => exact List.nodup_nil
  | cons x rest ih =>
    rw [List.nodup_cons] at hnd
    unfold all_pairs
    rw [List.nodup_append]
    refine ⟨?_, ih hnd.2, ?_⟩
    · exact List.Nodup.map (fun a b h => (Prod.mk.inj h).2) hnd.2
    · intro p hp hq
      obtain ⟨c, _, heq⟩ := List.mem_map.1 hp
      rw [← heq] at hq
      exact hnd.1 (mem_all_pairs rest x c hq).1

theorem all_pairs_ne {α : Type} (l : List α) (hnd : l.Nodup) (a b : α)
    (h : (a, b) ∈ all_pairs l) : a ≠ b ∧ (b, a) ∉ all_pairs l := by
  induction l with
  | nil => cases h
  | cons x rest ih =>
    rw [List.nodup_cons] at hnd
    unfold all_pairs at h ⊢
    rcases List.mem_append.1 h with h | h
    · obtain ⟨c, hc, heq⟩ := List.mem_map.1 h
      simp only [Prod.mk.injEq] at heq
      rw [← heq.1, ← heq.2]
      refine ⟨fun e => hnd.1 (e ▸ hc), fun hq => ?_⟩
      rcases List.mem_append.1 hq with hq | hq
      · obtain ⟨d, hd, heq2⟩ := List.mem_map.1 hq
        simp only [Prod.mk.injEq] at heq2
        exact hnd.1 (heq2.1 ▸ hc)
      · exact hnd.1 (mem_all_pairs rest c x hq).2
    · obtain ⟨h1, h2⟩ := ih hnd.2 h
      refine ⟨h1, fun hq => ?_⟩
      rcases List.mem_append.1 hq with hq | hq
      · obtain ⟨d, hd, heq2⟩ := List.mem_map.1 hq
        simp only [Prod.mk.injEq] at heq2
        exact hnd.1 (heq2.1 ▸ (mem_all_pairs rest a b h).2)
      · exact h2 hq

theorem all_pairs_total {α : Type} (l : List α) (a b : α) (ha : a ∈ l) (hb : b ∈ l)
    (hne : a ≠ b) : (a, b) ∈ all_pairs l ∨ (b, a) ∈ all_pairs l := by
  induction l with
  | nil => cases ha
  | cons x rest ih =>
    unfold all_pairs
    rcases List.mem_cons.1 ha with ha | ha
    · rcases List.mem_cons.1 hb with hb | hb
      · exact absurd (ha.trans hb.symm) hne
      · left
        rw [ha]
        exact List.mem_append_left _ (List.mem_map_of_mem _ hb)
    · rcases List.mem_cons.1 hb with hb | hb
      · right
        rw [hb]
        exact List.mem_append_left _ (List.mem_map_of_mem _ ha)
      · rcases ih ha hb with h | h
        · exact Or.inl (List.mem_append_right _ h)
        · exact Or.inr (List.mem_append_right _ h)

theorem all_pairs_sublist {α : Type} (l : List α) (a b : α) :
    (a, b) ∈ all_pairs l ↔ [a, b].Sublist l := by
  induction l with
  | nil =>
    constructor
    · intro h
      cases h
    · intro h
      cases h
  | cons x rest ih =>
    unfold all_pairs
    rw [List.mem_append, ih]
    constructor
    · rintro (h | h)
      · obtain ⟨c, hc, heq⟩ := List.mem_map.1 h
        simp only [Prod.mk.injEq] at heq
        rw [← heq.1, ← heq.2]
        exact List.Sublist.cons₂ _ (List.singleton_sublist.2 hc)
      · exact List.Sublist.cons _ h
    · intro h
      cases h with
      | cons _ h2 => exact Or.inr h2
      | cons₂ _ h2 =>
        exact Or.inl (List.mem_map.2 ⟨b, List.singleton_sublist.1 h2, rfl⟩)

theorem joined_eq (self : connected_tensor_network) (n1 n2 : node) :
    (self.edges_.filter (fun e =>
        connected_tensor_network.edge_part_of_node_pair e n1.id n2.id)).all
        (fun e => !connected_tensor_network.internode_edge e) = !self.joined (n1, n2) := by
  unfold connected_tensor_network.joined connected_tensor_network.group_of
  simp only
  induction self.edges_.filter (fun e =>
      connected_tensor_network.edge_part_of_node_pair e n1.id n2.id) with
  | nil => rfl
  | cons e rest ih =>
    rw [List.all_cons, List.any_cons, ih]
    cases connected_tensor_network.internode_edge e <;> simp

/-- The inner loop of `group_edges_pairwise`, as the list it appends. -/
theorem group_inner_eq (self : connected_tensor_network) (n1 : node) (l : List node)
    (acc : List (node × node) × List (List edge)) :
    l.foldl (connected_tensor_network.group_pair self n1) acc =
      (acc.1 ++ ((l.map (fun n2 => (n1, n2))).filter self.joined),
        acc.2 ++ ((l.map (fun n2 => (n1, n2))).filter self.joined).map self.group_of) := by
  induction l generalizing acc with
  | nil => simp
  | cons n2 rest ih =>
    rw [List.foldl_cons, group_pair_eq, joined_eq, ih]
    cases hj : self.joined (n1, n2) with
    | false =>
      simp only [Bool.not_false, if_true, List.map_cons]
      rw [List.filter_cons_of_neg (by rw [hj]; simp)]
    | true =>
      simp only [Bool.not_true, Bool.false_eq_true, if_false, List.map_cons]
      rw [List.filter_cons_of_pos hj]
      simp only [List.map_cons, List.append_assoc, List.singleton_append]
      rfl

/-- The outer loop of `group_edges_pairwise`, as the list it appends. -/
theorem group_outer_eq (self : connected_tensor_network) (l pre : List node)
    (hsplit : self.nodes_ = pre ++ l) (acc : List (node × node) × List (List edge)) :
    (l.enumFrom pre.length).foldl (fun acc t =>
        (self.nodes_.drop (t.1 + 1)).foldl (connected_tensor_network.group_pair self t.2) acc)
      acc =
      (acc.1 ++ (all_pairs l).filter self.joined,
        acc.2 ++ ((all_pairs l).filter self.joined).map self.group_of) := by
  induction l generalizing pre acc with
  | nil => simp [all_pairs]
  | cons n rest ih =>
    have hdrop : self.nodes_.drop (pre.length + 1) = rest := by
      rw [hsplit, List.drop_append_eq_append_drop]
      simp
    rw [List.enumFrom_cons, List.foldl_cons]
    simp only [hdrop]
    rw [group_inner_eq]
    have h2 := ih (pre ++ [n]) (by rw [hsplit]; simp)
      (acc.1 ++ ((rest.map (fun n2 => (n, n2))).filter self.joined),
        acc.2 ++ ((rest.map (fun n2 => (n, n2))).filter self.joined).map self.group_of)
    rw [List.length_append, List.length_singleton] at h2
    rw [h2]
    have hap : all_pairs (n :: rest) = rest.map (fun b => (n, b)) ++ all_pairs rest := rfl
    rw [hap]
    simp only [List.filter_append, List.map_append, List.append_assoc]

theorem group_edges_pairwise_eq (self : connected_tensor_network) :
    self.group_edges_pairwise =
      if self.size ≤ 1 then .error .grouping_single_node
      else if (all_pairs self.nodes_).filter self.joined = [] then .error .no_group
      else .ok ((all_pairs self.nodes_).filter self.joined,
        ((all_pairs self.nodes_).filter self.joined).map self.group_of) := by
  unfold connected_tensor_network.group_edges_pairwise
  by_cases h1 : self.size ≤ 1
  · rw [if_pos h1, if_pos h1]
  · rw [if_neg h1, if_neg h1]
    have h2 := group_outer_eq self self.nodes_ [] rfl ([], [])
    simp only [List.length_nil, List.nil_append] at h2
    simp only [List.enum, h2]
    by_cases h3 : (all_pairs self.nodes_).filter self.joined = []
    · rw [if_pos h3, if_pos (by rw [h3]; rfl)]
    · rw [if_neg h3, if_neg (by simpa using h3), if_neg (by simp)]

theorem joined_iff (self : connected_tensor_network) (p : node × node) :
    self.joined p = true ↔ ∃ e ∈ self.edges_,
      connected_tensor_network.edge_part_of_node_pair e p.1.id p.2.id = true ∧
      connected_tensor_network.internode_edge e = true := by
  unfold connected_tensor_network.joined connected_tensor_network.group_of
  rw [List.any_eq_true]
  constructor
  · rintro ⟨e, he, hi⟩
    obtain ⟨h1, h2⟩ := List.mem_filter.1 he
    exact ⟨e, h1, h2, hi⟩
  · rintro ⟨e, h1, h2, hi⟩
    exact ⟨e, List.mem_filter.2 ⟨h1, h2⟩, hi⟩

/-- C35: `group_edges_pairwise` throws on a network of at most one node, and on a network
of at least two nodes none of whose pairs of nodes is joined by an edge between two
different nodes; otherwise it returns as many groups as pairs: the pairs are the pairs of
two places of the node list, the earlier node first and in the order of the two nested
loops, that are joined by an edge between two different nodes, and the group of a pair
holds, in their order, the edges with both ends at the two nodes, self loops included.  On
a well formed network every pair is listed once, in one order only, and every two
different nodes joined by an edge are listed; a well formed component of at least two
nodes always has such a pair. -/
theorem group_edges_pairwise_groups (net : connected_tensor_network) :
    (net.size ≤ 1 → net.group_edges_pairwise = .error .grouping_single_node) ∧
    (2 ≤ net.size → (all_pairs net.nodes_).filter net.joined = [] →
      net.group_edges_pairwise = .error .no_group) ∧
    (2 ≤ net.size → (all_pairs net.nodes_).filter net.joined ≠ [] →
      ∃ pairs groups, net.group_edges_pairwise = .ok (pairs, groups) ∧
        pairs.length = groups.length ∧
        pairs = (all_pairs net.nodes_).filter net.joined ∧
        groups = pairs.map net.group_of) ∧
    (∀ p : node × node, ∀ e, e ∈ net.group_of p ↔ e ∈ net.edges_ ∧
      (e.left.id = p.1.id ∨ e.left.id = p.2.id) ∧
      (e.right.id = p.1.id ∨ e.right.id = p.2.id)) ∧
    (∀ n1 n2 : node, (n1, n2) ∈ (all_pairs net.nodes_).filter net.joined ↔
      [n1, n2].Sublist net.nodes_ ∧ ∃ e ∈ net.edges_, e.left.id ≠ e.right.id ∧
        (e.left.id = n1.id ∨ e.left.id = n2.id) ∧ (e.right.id = n1.id ∨ e.right.id = n2.id)) ∧
    (well_formed net →
      ((all_pairs net.nodes_).filter net.joined).Nodup ∧
      (∀ n1 n2 : node, (n1, n2) ∈ (all_pairs net.nodes_).filter net.joined →
        n1 ≠ n2 ∧ (n2, n1) ∉ (all_pairs net.nodes_).filter net.joined) ∧
      (∀ n1 ∈ net.nodes_, ∀ n2 ∈ net.nodes_, n1 ≠ n2 →
        (∃ e ∈ net.edges_, e.left.id ≠ e.right.id ∧
          (e.left.id = n1.id ∨ e.left.id = n2.id) ∧
          (e.right.id = n1.id ∨ e.right.id = n2.id)) →
        (n1, n2) ∈ (all_pairs net.nodes_).filter net.joined ∨
          (n2, n1) ∈ (all_pairs net.nodes_).filter net.joined)) ∧
    (well_formed_component net → 2 ≤ net.size →
      (all_pairs net.nodes_).filter net.joined ≠ []) := by
  have heq := group_edges_pairwise_eq net
  have hj : ∀ n1 n2 : node, net.joined (n1, n2) = true ↔
      ∃ e ∈ net.edges_, e.left.id ≠ e.right.id ∧
        (e.left.id = n1.id ∨ e.left.id = n2.id) ∧ (e.right.id = n1.id ∨ e.right.id = n2.id) := by
    intro n1 n2
    rw [joined_iff]
    constructor
    · rintro ⟨e, he, h1, h2⟩
      unfold connected_tensor_network.edge_part_of_node_pair at h1
      unfold connected_tensor_network.internode_edge at h2
      simp only [Bool.and_eq_true, Bool.or_eq_true, decide_eq_true_eq] at h1
      simp only [ne_eq, decide_not, Bool.not_eq_true', decide_eq_false_iff_not] at h2
      exact ⟨e, he, h2, h1.1, h1.2⟩
    · rintro ⟨e, he, h2, h1⟩
      refine ⟨e, he, ?_, ?_⟩
      · unfold connected_tensor_network.edge_part_of_node_pair
        simp only [Bool.and_eq_true, Bool.or_eq_true, decide_eq_true_eq]
        exact h1
      · unfold connected_tensor_network.internode_edge
        simp only [ne_eq, decide_not, Bool.not_eq_true', decide_eq_false_iff_not]
        exact h2
  have hmem : ∀ n1 n2 : node, (n1, n2) ∈ (all_pairs net.nodes_).filter net.joined ↔
      [n1, n2].Sublist net.nodes_ ∧ ∃ e ∈ net.edges_, e.left.id ≠ e.right.id ∧
        (e.left.id = n1.id ∨ e.left.id = n2.id) ∧ (e.right.id = n1.id ∨ e.right.id = n2.id) := by
    intro n1 n2
    rw [List.mem_filter, all_pairs_sublist, hj]
  refine ⟨?_, ?_, ?_, ?_, hmem, ?_, ?_⟩
  · intro h
    rw [heq, if_pos h]
  · intro h1 h2
    rw [heq, if_neg (by omega), if_pos h2]
  · intro h1 h2
    refine ⟨_, _, ?_, ?_, rfl, rfl⟩
    · rw [heq, if_neg (by omega), if_neg h2]
    · rw [List.length_map]
  · intro p e
    unfold connected_tensor_network.group_of connected_tensor_network.edge_part_of_node_pair
    rw [List.mem_filter]
    simp only [Bool.and_eq_true, Bool.or_eq_true, decide_eq_true_eq]
  · intro hwf
    have hnd : net.nodes_.Nodup := List.Nodup.of_map _ hwf.ids_nodup
    refine ⟨List.Nodup.filter _ (all_pairs_nodup _ hnd), ?_, ?_⟩
    · intro n1 n2 h
      obtain ⟨h1, h2⟩ := all_pairs_ne _ hnd n1 n2 (List.mem_filter.1 h).1
      exact ⟨h1, fun hq => h2 (List.mem_filter.1 hq).1⟩
    · intro n1 hn1 n2 hn2 hne hex
      rcases all_pairs_total _ n1 n2 hn1 hn2 hne with h | h
      · exact Or.inl (List.mem_filter.2 ⟨h, (hj n1 n2).2 hex⟩)
      · refine Or.inr (List.mem_filter.2 ⟨h, (hj n2 n1).2 ?_⟩)
        obtain ⟨e, he, h1, h2, h3⟩ := hex
        exact ⟨e, he, h1, h2.symm, h3.symm⟩
  · intro hg hsize
    obtain ⟨x, hx, y, hy, e, he, h1, h2⟩ := exists_joined net hg hsize
    have hne : x ≠ y := by
      intro h
      rw [h] at h1
      exact joined_ids_ne e _ _ h1 h2 rfl
    have hnd : net.nodes_.Nodup := List.Nodup.of_map _ hg.wf.ids_nodup
    have hjx : net.joined (x, y) = true := (joined_iff net (x, y)).2 ⟨e, he, h1, h2⟩
    have hjy : net.joined (y, x) = true :=
      (joined_iff net (y, x)).2 (joined_flip _ _ _ ⟨e, he, h1, h2⟩)
    rcases all_pairs_total _ x y hx hy hne with h | h
    · exact List.ne_nil_of_mem (List.mem_filter.2 ⟨h, hjx⟩)
    · exact List.ne_nil_of_mem (List.mem_filter.2 ⟨h, hjy⟩)

/-- Witness of `group_edges_pairwise_groups`: the chain of three nodes of "ij,jk,kl" has
the two pairs of neighbours, each with its edge. -/
theorem group_edges_pairwise_groups_witness :
    ∃ pairs groups, connected_tensor_network.group_edges_pairwise
        ⟨[⟨⟨0⟩, 2⟩, ⟨⟨1⟩, 2⟩, ⟨⟨2⟩, 2⟩], 3,
          [⟨⟨⟨0⟩, 1⟩, ⟨⟨1⟩, 0⟩⟩, ⟨⟨⟨1⟩, 1⟩, ⟨⟨2⟩, 0⟩⟩]⟩ = .ok (pairs, groups) ∧
      pairs.length = groups.length ∧
      pairs = [(⟨⟨0⟩, 2⟩, ⟨⟨1⟩, 2⟩), (⟨⟨1⟩, 2⟩, ⟨⟨2⟩, 2⟩)] ∧
      groups = [[⟨⟨⟨0⟩, 1⟩, ⟨⟨1⟩, 0⟩⟩], [⟨⟨⟨1⟩, 1⟩, ⟨⟨2⟩, 0⟩⟩]] :=
  (group_edges_pairwise_groups ⟨[⟨⟨0⟩, 2⟩, ⟨⟨1⟩, 2⟩, ⟨⟨2⟩, 2⟩], 3,
      [⟨⟨⟨0⟩, 1⟩, ⟨⟨1⟩, 0⟩⟩, ⟨⟨⟨1⟩, 1⟩, ⟨⟨2⟩, 0⟩⟩]⟩).2.2.1 (by decide) (by decide) |>.imp
    (fun _ h => h.imp (fun _ h2 => ⟨h2.1, h2.2.1, h2.2.2.1, by rw [h2.2.2.2, h2.2.2.1]; rfl⟩))

/-! ## The labels of `index_labels` -/

theorem toNat_ofNat_small (k : Nat) (h : k < 256) : (Char.ofNat k).toNat = k := by
  have hv : k.isValidChar := Or.inl (by omega)
  unfold Char.ofNat
  rw [dif_pos hv]
  unfold Char.ofNatAux Char.toNat
  simp only [UInt32.toNat]
  rfl

theorem consecutive_labels_length (first : Char) (n : Nat) :
    (pairwise_contraction_type.consecutive_labels first n).length = n := by
  induction n generalizing first with
  | zero => rfl
  | succ n ih =>
    unfold pairwise_contraction_type.consecutive_labels
    rw [List.length_cons, ih]

theorem increment_char8_ofNat (k : Nat) :
    pairwise_contraction_type.increment_char8 (Char.ofNat (k % 256)) =
      Char.ofNat ((k + 1) % 256) := by
  unfold pairwise_contraction_type.increment_char8
  rw [toNat_ofNat_small _ (Nat.mod_lt _ (by decide))]
  congr 1
  omega

theorem consecutive_labels_get (k n i : Nat) (hi : i < n) :
    (pairwise_contraction_type.consecutive_labels (Char.ofNat (k % 256)) n)[i]? =
      some (Char.ofNat ((k + i) % 256)) := by
  induction n generalizing k i with
  | zero => omega
  | succ n ih =>
    unfold pairwise_contraction_type.consecutive_labels
    cases i with
    | zero => rw [List.getElem?_cons_zero, Nat.add_zero]
    | succ i =>
      rw [List.getElem?_cons_succ, increment_char8_ofNat, ih (k + 1) i (by omega)]
      congr 2
      omega

theorem consecutive_labels_last (k n : Nat) (hn : 1 ≤ n) :
    (pairwise_contraction_type.consecutive_labels (Char.ofNat (k % 256)) n).getLast? =
      some (Char.ofNat ((k + (n - 1)) % 256)) := by
  rw [List.getLast?_eq_getElem?, consecutive_labels_length]
  exact consecutive_labels_get k n (n - 1) (by omega)

theorem slot_cases (c : pairwise_contraction_type) (hne : c.lhs_.id ≠ c.rhs_.id)
    (loc : index_location) (h : c.slot loc) :
    (loc.id = c.lhs_.id ∧ loc.id ≠ c.rhs_.id ∧ loc.index < c.lhs_.rank) ∨
    (loc.id = c.rhs_.id ∧ loc.id ≠ c.lhs_.id ∧ loc.index < c.rhs_.rank) := by
  rcases h with ⟨h1, h2⟩ | ⟨h1, h2⟩
  · exact Or.inl ⟨h1, by rw [h1]; exact hne, h2⟩
  · exact Or.inr ⟨h1, by rw [h1]; exact hne.symm, h2⟩

theorem label_edge_step (c : pairwise_contraction_type) (hne : c.lhs_.id ≠ c.rhs_.id)
    (done : List edge) (strs : List Char × List Char) (inv : labels_inv c done strs)
    (e : edge) (hl : c.slot e.left) (hr : c.slot e.right)
    (hfresh : ∀ e2 ∈ done, e2.right ≠ e.left ∧ e2.right ≠ e.right) :
    ∃ strs2, c.label_edge strs e = .ok strs2 ∧ labels_inv c (done ++ [e]) strs2 := by
  have hread : (if e.left.id = c.lhs_.id then strs.1.get? e.left.index
      else strs.2.get? e.left.index) = some (c.first_label e.left) := by
    have := inv.kept e.left hl (fun e2 he2 => (hfresh e2 he2).1)
    unfold pairwise_contraction_type.label_at at this
    simp only [List.get?_eq_getElem?]
    exact this
  -- the labels after the write
  have hwrite : ∃ strs2, c.label_edge strs e = .ok strs2 ∧
      strs2.1.length = c.lhs_.rank ∧ strs2.2.length = c.rhs_.rank ∧
      ∀ loc, c.slot loc → c.label_at strs2 loc =
        if loc = e.right then some (c.first_label e.left) else c.label_at strs loc := by
    unfold pairwise_contraction_type.label_edge
    simp only [hread]
    rcases slot_cases c hne e.right hr with ⟨h1, h2, h3⟩ | ⟨h1, h2, h3⟩
    · rw [if_neg h2, if_pos (by rw [inv.len1]; exact h3)]
      refine ⟨_, rfl, by simp [inv.len1], inv.len2, ?_⟩
      intro loc hloc
      unfold pairwise_contraction_type.label_at
      simp only
      by_cases heq : loc = e.right
      · rw [if_pos heq, heq, if_pos h1, List.getElem?_set_self]
        simp [inv.len1, h3]
      · rw [if_neg heq]
        by_cases hid : loc.id = c.lhs_.id
        · rw [if_pos hid, if_pos hid, List.getElem?_set_ne]
          intro hidx
          apply heq
          cases loc with
          | mk lid lidx =>
            cases hre : e.right with
            | mk rid ridx =>
              rw [hre] at h1 hidx
              simp only at hid h1 hidx
              rw [hid, h1, hidx]
        · rw [if_neg hid, if_neg hid]
    · rw [if_pos h1, if_pos (by rw [inv.len2]; exact h3)]
      refine ⟨_, rfl, inv.len1, by simp [inv.len2], ?_⟩
      intro loc hloc
      unfold pairwise_contraction_type.label_at
      simp only
      by_cases heq : loc = e.right
      · rw [if_pos heq, heq, if_neg h2, List.getElem?_set_self]
        simp [inv.len2, h3]
      · rw [if_neg heq]
        by_cases hid : loc.id = c.lhs_.id
        · rw [if_pos hid, if_pos hid]
        · rw [if_neg hid, if_neg hid, List.getElem?_set_ne]
          intro hidx
          apply heq
          have hrid : loc.id = c.rhs_.id := by
            rcases hloc with ⟨h, _⟩ | ⟨h, _⟩
            · exact absurd h hid
            · exact h
          cases loc with
          | mk lid lidx =>
            cases hre : e.right with
            | mk rid ridx =>
              rw [hre] at h1 hidx
              simp only at hrid h1 hidx
              rw [hrid, h1, hidx]
  obtain ⟨strs2, h1, h2, h3, h4⟩ := hwrite
  refine ⟨strs2, h1, ⟨h2, h3, ?_, ?_, ?_⟩⟩
  · intro e2 he2
    rcases List.mem_append.1 he2 with h | h
    · exact inv.slots e2 h
    · rw [List.mem_singleton.1 h]
      exact hr
  · intro loc hloc hno
    have hne2 : loc ≠ e.right := fun h =>
      hno e (List.mem_append_right _ (List.mem_singleton_self _)) h.symm
    rw [h4 loc hloc, if_neg hne2]
    exact inv.kept loc hloc (fun e2 he2 => hno e2 (List.mem_append_left _ he2))
  · intro e2 he2
    rcases List.mem_append.1 he2 with h | h
    · rw [h4 e2.right (inv.slots e2 h), if_neg (hfresh e2 h).2]
      exact inv.moved e2 h
    · rw [List.mem_singleton.1 h, h4 e.right hr, if_pos rfl]

theorem label_fold (c : pairwise_contraction_type) (hne : c.lhs_.id ≠ c.rhs_.id)
    (edges : List edge) (hslots : ∀ e ∈ edges, c.slot e.left ∧ c.slot e.right)
    (hap : edges.Pairwise edge.apart) (todo done : List edge) (hsplit : edges = done ++ todo)
    (strs : List Char × List Char) (inv : labels_inv c done strs) :
    ∃ strs2, todo.foldlM (c.label_edge) strs = .ok strs2 ∧ labels_inv c edges strs2 := by
  induction todo generalizing done strs with
  | nil =>
    rw [List.append_nil] at hsplit
    rw [hsplit]
    exact ⟨strs, rfl, inv⟩
  | cons e rest ih =>
    have he : e ∈ edges := by
      rw [hsplit]
      exact List.mem_append_right _ (List.mem_cons_self _ _)
    have hfresh : ∀ e2 ∈ done, e2.right ≠ e.left ∧ e2.right ≠ e.right := by
      intro e2 he2
      rw [hsplit, List.pairwise_append] at hap
      have := hap.2.2 e2 he2 e (List.mem_cons_self _ _)
      exact ⟨this.2.1.symm, this.2.2.2.symm⟩
    obtain ⟨strs1, h1, inv1⟩ := label_edge_step c hne done strs inv e (hslots e he).1
      (hslots e he).2 hfresh
    obtain ⟨strs2, h2, inv2⟩ := ih (done ++ [e]) (by rw [hsplit]; simp) strs1 inv1
    refine ⟨strs2, ?_, inv2⟩
    rw [List.foldlM_cons]
    show (c.label_edge strs e >>= _) = _
    rw [h1]
    exact h2

theorem index_labels_inv (c : pairwise_contraction_type) (hne : c.lhs_.id ≠ c.rhs_.id)
    (h1 : 1 ≤ c.lhs_.rank) (h2 : 1 ≤ c.rhs_.rank)
    (hslots : ∀ e ∈ c.edges_, c.slot e.left ∧ c.slot e.right)
    (hap : c.edges_.Pairwise edge.apart) :
    ∃ strs, c.index_labels = .ok strs ∧ labels_inv c c.edges_ strs := by
  have ha : 'a' = Char.ofNat (97 % 256) := by decide
  unfold pairwise_contraction_type.index_labels
  rw [if_neg (by omega)]
  simp only
  rw [ha, consecutive_labels_last 97 _ h1]
  simp only
  rw [increment_char8_ofNat]
  refine label_fold c hne c.edges_ hslots hap c.edges_ [] rfl _ ⟨?_, ?_, ?_, ?_, ?_⟩
  · exact consecutive_labels_length _ _
  · exact consecutive_labels_length _ _
  · intro e he
    cases he
  · intro loc hloc _
    unfold pairwise_contraction_type.label_at pairwise_contraction_type.first_label
    simp only
    rcases slot_cases c hne loc hloc with ⟨h3, _, h5⟩ | ⟨h3, h4, h5⟩
    · rw [if_pos h3, if_pos h3]
      exact consecutive_labels_get 97 _ _ h5
    · rw [if_neg h4, if_neg h4, consecutive_labels_get _ _ _ h5]
      congr 2
      omega
  · intro e he
    cases he

theorem first_label_inj (c : pairwise_contraction_type) (hne : c.lhs_.id ≠ c.rhs_.id)
    (hsum : c.lhs_.rank + c.rhs_.rank ≤ 256) (loc1 loc2 : index_location)
    (hs1 : c.slot loc1) (hs2 : c.slot loc2)
    (h : c.first_label loc1 = c.first_label loc2) : loc1 = loc2 := by
  unfold pairwise_contraction_type.first_label at h
  have hk : ∀ a b : Nat, a < 256 → b < 256 →
      Char.ofNat ((97 + a) % 256) = Char.ofNat ((97 + b) % 256) → a = b := by
    intro a b ha hb hab
    have := congrArg Char.toNat hab
    rw [toNat_ofNat_small _ (Nat.mod_lt _ (by decide)),
      toNat_ofNat_small _ (Nat.mod_lt _ (by decide))] at this
    omega
  obtain ⟨id1, i1⟩ := loc1
  obtain ⟨id2, i2⟩ := loc2
  rcases slot_cases c hne _ hs1 with ⟨h3, h4, h5⟩ | ⟨h3, h4, h5⟩ <;>
    rcases slot_cases c hne _ hs2 with ⟨h6, h7, h8⟩ | ⟨h6, h7, h8⟩ <;>
    simp only at h3 h4 h5 h6 h7 h8 h
  · rw [if_pos h3, if_pos h6] at h
    have := hk _ _ (by omega) (by omega) h
    rw [h3, h6, this]
  · rw [if_pos h3, if_neg h7] at h
    have := hk _ _ (by omega) (by omega) h
    omega
  · rw [if_neg h4, if_pos h6] at h
    have := hk _ _ (by omega) (by omega) h
    omega
  · rw [if_neg h4, if_neg h7] at h
    have := hk _ _ (by omega) (by omega) h
    have h9 : i1 = i2 := by omega
    rw [h3, h6, h9]

theorem labels_same_iff (c : pairwise_contraction_type) (hne : c.lhs_.id ≠ c.rhs_.id)
    (hsum : c.lhs_.rank + c.rhs_.rank ≤ 256)
    (hslots : ∀ e ∈ c.edges_, c.slot e.left ∧ c.slot e.right)
    (hd : ∀ e ∈ c.edges_, e.left ≠ e.right)
    (hap : c.edges_.Pairwise edge.apart)
    (strs : List Char × List Char) (inv : labels_inv c c.edges_ strs)
    (loc1 loc2 : index_location) (hs1 : c.slot loc1) (hs2 : c.slot loc2) (hne12 : loc1 ≠ loc2) :
    c.label_at strs loc1 = c.label_at strs loc2 ↔
      ∃ e ∈ c.edges_, (e.left = loc1 ∧ e.right = loc2) ∨ (e.left = loc2 ∧ e.right = loc1) := by
  have hsame : ∀ e1 ∈ c.edges_, ∀ e2 ∈ c.edges_,
      (e1.left = e2.left ∨ e1.left = e2.right ∨ e1.right = e2.left ∨ e1.right = e2.right) →
      e1 = e2 := by
    intro e1 he1 e2 he2 h
    by_contra hne2
    have := edges_apart c.edges_ hap e1 e2 he1 he2 hne2
    rcases h with h | h | h | h
    · exact this.1 h.symm
    · exact this.2.2.1 h.symm
    · exact this.2.1 h.symm
    · exact this.2.2.2 h.symm
  have hlab : ∀ loc, c.slot loc →
      (∃ e ∈ c.edges_, e.right = loc ∧ c.label_at strs loc = some (c.first_label e.left)) ∨
      ((∀ e ∈ c.edges_, e.right ≠ loc) ∧ c.label_at strs loc = some (c.first_label loc)) := by
    intro loc hloc
    by_cases h : ∃ e ∈ c.edges_, e.right = loc
    · obtain ⟨e, he, her⟩ := h
      left
      refine ⟨e, he, her, ?_⟩
      rw [← her]
      exact inv.moved e he
    · right
      have h2 : ∀ e ∈ c.edges_, e.right ≠ loc := fun e he her => h ⟨e, he, her⟩
      exact ⟨h2, inv.kept loc hloc h2⟩
  constructor
  · intro h
    rcases hlab loc1 hs1 with ⟨e1, he1, her1, hl1⟩ | ⟨hno1, hl1⟩ <;>
      rcases hlab loc2 hs2 with ⟨e2, he2, her2, hl2⟩ | ⟨hno2, hl2⟩ <;>
      rw [hl1, hl2] at h <;>
      have hf := Option.some.inj h
    · have := first_label_inj c hne hsum _ _ (hslots e1 he1).1 (hslots e2 he2).1 hf
      have := hsame e1 he1 e2 he2 (Or.inl this)
      rw [this] at her1
      exact absurd (her1.symm.trans her2) hne12
    · have := first_label_inj c hne hsum _ _ (hslots e1 he1).1 hs2 hf
      exact ⟨e1, he1, Or.inr ⟨this, her1⟩⟩
    · have := first_label_inj c hne hsum _ _ hs1 (hslots e2 he2).1 hf
      exact ⟨e2, he2, Or.inl ⟨this.symm, her2⟩⟩
    · exact absurd (first_label_inj c hne hsum _ _ hs1 hs2 hf) hne12
  · rintro ⟨e, he, ⟨h1, h2⟩ | ⟨h1, h2⟩⟩
    · have hl2 := inv.moved e he
      have hl1 := inv.kept e.left (hslots e he).1 (by
        intro e2 he2 h
        have := hsame e2 he2 e he (Or.inr (Or.inr (Or.inl h)))
        rw [this] at h
        exact hd e he h.symm)
      rw [← h1, ← h2, hl1, hl2]
    · have hl2 := inv.moved e he
      have hl1 := inv.kept e.left (hslots e he).1 (by
        intro e2 he2 h
        have := hsame e2 he2 e he (Or.inr (Or.inr (Or.inl h)))
        rw [this] at h
        exact hd e he h.symm)
      rw [← h1, ← h2, hl1, hl2]

theorem labels_letters (c : pairwise_contraction_type) (hne : c.lhs_.id ≠ c.rhs_.id)
    (hsum : c.lhs_.rank + c.rhs_.rank ≤ 26)
    (hslots : ∀ e ∈ c.edges_, c.slot e.left ∧ c.slot e.right)
    (strs : List Char × List Char) (inv : labels_inv c c.edges_ strs) :
    ∀ ch ∈ strs.1 ++ strs.2, 97 ≤ ch.toNat ∧ ch.toNat ≤ 122 := by
  have hF : ∀ loc, c.slot loc →
      97 ≤ (c.first_label loc).toNat ∧ (c.first_label loc).toNat ≤ 122 := by
    intro loc hloc
    unfold pairwise_contraction_type.first_label
    rw [toNat_ofNat_small _ (Nat.mod_lt _ (by decide))]
    rcases slot_cases c hne loc hloc with ⟨h3, _, h5⟩ | ⟨h3, h4, h5⟩
    · rw [if_pos h3]
      omega
    · rw [if_neg h4]
      omega
  have hslot : ∀ loc, c.slot loc → ∀ ch, c.label_at strs loc = some ch →
      97 ≤ ch.toNat ∧ ch.toNat ≤ 122 := by
    intro loc hloc ch hch
    by_cases h : ∃ e ∈ c.edges_, e.right = loc
    · obtain ⟨e, he, her⟩ := h
      have := inv.moved e he
      rw [her, hch] at this
      rw [Option.some.inj this]
      exact hF _ (hslots e he).1
    · have := inv.kept loc hloc (fun e he her => h ⟨e, he, her⟩)
      rw [hch] at this
      rw [Option.some.inj this]
      exact hF _ hloc
  intro ch hch
  rcases List.mem_append.1 hch with h | h
  · obtain ⟨i, hi⟩ := List.getElem?_of_mem h
    have hlt : i < c.lhs_.rank := by
      rw [← inv.len1]
      exact (List.getElem?_eq_some_iff.1 hi).1
    refine hslot ⟨c.lhs_.id, i⟩ (Or.inl ⟨rfl, hlt⟩) ch ?_
    unfold pairwise_contraction_type.label_at
    simp only [if_true]
    exact hi
  · obtain ⟨i, hi⟩ := List.getElem?_of_mem h
    have hlt : i < c.rhs_.rank := by
      rw [← inv.len2]
      exact (List.getElem?_eq_some_iff.1 hi).1
    refine hslot ⟨c.rhs_.id, i⟩ (Or.inr ⟨rfl, hlt⟩) ch ?_
    unfold pairwise_contraction_type.label_at
    simp only [if_neg hne.symm]
    exact hi

theorem step_slots (net : tensor_network) (hwf : well_formed net) (lhs rhs : node)
    (hl : lhs ∈ net.nodes_) (hr : rhs ∈ net.nodes_) (out : Option node) :
    (∀ e ∈ net.edges_.filter (fun e =>
        connected_tensor_network.edge_part_of_node_pair e lhs.id rhs.id),
      (⟨lhs, rhs, out, net.edges_.filter (fun e =>
        connected_tensor_network.edge_part_of_node_pair e lhs.id rhs.id)⟩ :
        pairwise_contraction_type).slot e.left ∧
      (⟨lhs, rhs, out, net.edges_.filter (fun e =>
        connected_tensor_network.edge_part_of_node_pair e lhs.id rhs.id)⟩ :
        pairwise_contraction_type).slot e.right) ∧
    (∀ e ∈ net.edges_.filter (fun e =>
        connected_tensor_network.edge_part_of_node_pair e lhs.id rhs.id), e.left ≠ e.right) ∧
    (net.edges_.filter (fun e =>
        connected_tensor_network.edge_part_of_node_pair e lhs.id rhs.id)).Pairwise
      edge.apart := by
  refine ⟨?_, ?_, List.Pairwise.sublist (List.filter_sublist _) hwf.apart⟩
  · intro e he
    obtain ⟨hm, hp⟩ := List.mem_filter.1 he
    unfold connected_tensor_network.edge_part_of_node_pair at hp
    simp only [Bool.and_eq_true, Bool.or_eq_true, decide_eq_true_eq] at hp
    have hl1 := end_at_node net hwf lhs hl e hm
    have hr1 := end_at_node net hwf rhs hr e hm
    unfold pairwise_contraction_type.slot
    constructor
    · rcases hp.1 with h | h
      · exact Or.inl ⟨h, hl1.1 h⟩
      · exact Or.inr ⟨h, hr1.1 h⟩
    · rcases hp.2 with h | h
      · exact Or.inl ⟨h, hl1.2 h⟩
      · exact Or.inr ⟨h, hr1.2 h⟩
  · intro e he
    exact hwf.ends_differ e (List.mem_filter.1 he).1

/-- C32: for a step that contracts two different nodes lhs and rhs of a well formed
network over the edges with both ends at the two nodes, with lhs.rank ≥ 1, rhs.rank ≥ 1 and
lhs.rank + rhs.rank ≤ 26, `index_labels()` returns two strings of the lengths lhs.rank and
rhs.rank made of the letters 'a' to 'z' (the code units 97 to 122); two different index
locations of the two nodes carry the same letter exactly when they are the two ends of one
edge of the step; and the letter of an index location that is not an end of an edge of the
step is carried by no other index location. -/
theorem index_labels_of_step (net : tensor_network) (hwf : well_formed net) (lhs rhs : node)
    (hl : lhs ∈ net.nodes_) (hr : rhs ∈ net.nodes_) (hne : lhs.id ≠ rhs.id)
    (out : Option node) (h1 : 1 ≤ lhs.rank) (h2 : 1 ≤ rhs.rank)
    (h26 : lhs.rank + rhs.rank ≤ 26) :
    ∃ ls rs : List Char,
      (⟨lhs, rhs, out, net.edges_.filter (fun e =>
        connected_tensor_network.edge_part_of_node_pair e lhs.id rhs.id)⟩ :
        pairwise_contraction_type).index_labels = .ok (ls, rs) ∧
      ls.length = lhs.rank ∧ rs.length = rhs.rank ∧
      (∀ ch ∈ ls ++ rs, 97 ≤ ch.toNat ∧ ch.toNat ≤ 122) ∧
      (∀ loc1 loc2 : index_location,
        (⟨lhs, rhs, out, net.edges_.filter (fun e =>
          connected_tensor_network.edge_part_of_node_pair e lhs.id rhs.id)⟩ :
          pairwise_contraction_type).slot loc1 →
        (⟨lhs, rhs, out, net.edges_.filter (fun e =>
          connected_tensor_network.edge_part_of_node_pair e lhs.id rhs.id)⟩ :
          pairwise_contraction_type).slot loc2 → loc1 ≠ loc2 →
        ((⟨lhs, rhs, out, net.edges_.filter (fun e =>
            connected_tensor_network.edge_part_of_node_pair e lhs.id rhs.id)⟩ :
            pairwise_contraction_type).label_at (ls, rs) loc1 =
          (⟨lhs, rhs, out, net.edges_.filter (fun e =>
            connected_tensor_network.edge_part_of_node_pair e lhs.id rhs.id)⟩ :
            pairwise_contraction_type).label_at (ls, rs) loc2 ↔
          ∃ e ∈ net.edges_.filter (fun e =>
              connected_tensor_network.edge_part_of_node_pair e lhs.id rhs.id),
            (e.left = loc1 ∧ e.right = loc2) ∨ (e.left = loc2 ∧ e.right = loc1))) ∧
      (∀ loc : index_location,
        (⟨lhs, rhs, out, net.edges_.filter (fun e =>
          connected_tensor_network.edge_part_of_node_pair e lhs.id rhs.id)⟩ :
          pairwise_contraction_type).slot loc →
        (∀ e ∈ net.edges_.filter (fun e =>
            connected_tensor_network.edge_part_of_node_pair e lhs.id rhs.id),
          e.left ≠ loc ∧ e.right ≠ loc) →
        ∃ ch, (⟨lhs, rhs, out, net.edges_.filter (fun e =>
            connected_tensor_network.edge_part_of_node_pair e lhs.id rhs.id)⟩ :
            pairwise_contraction_type).label_at (ls, rs) loc = some ch ∧
          ∀ loc2 : index_location,
            (⟨lhs, rhs, out, net.edges_.filter (fun e =>
              connected_tensor_network.edge_part_of_node_pair e lhs.id rhs.id)⟩ :
              pairwise_contraction_type).slot loc2 →
            (⟨lhs, rhs, out, net.edges_.filter (fun e =>
              connected_tensor_network.edge_part_of_node_pair e lhs.id rhs.id)⟩ :
              pairwise_contraction_type).label_at (ls, rs) loc2 = some ch → loc2 = loc) := by
  obtain ⟨hslots, hd, hap⟩ := step_slots net hwf lhs rhs hl hr out
  obtain ⟨strs, hidx, inv⟩ := index_labels_inv ⟨lhs, rhs, out, net.edges_.filter (fun e =>
      connected_tensor_network.edge_part_of_node_pair e lhs.id rhs.id)⟩ hne h1 h2 hslots hap
  have hiff := labels_same_iff ⟨lhs, rhs, out, net.edges_.filter (fun e =>
      connected_tensor_network.edge_part_of_node_pair e lhs.id rhs.id)⟩ hne
    (by show lhs.rank + rhs.rank ≤ 256; omega) hslots hd hap strs inv
  refine ⟨strs.1, strs.2, hidx, inv.len1, inv.len2, ?_, ?_, ?_⟩
  · exact labels_letters _ hne h26 hslots strs inv
  · intro loc1 loc2 hs1 hs2 hne12
    exact hiff loc1 loc2 hs1 hs2 hne12
  · intro loc hloc hfree
    refine ⟨_, inv.kept loc hloc (fun e he => (hfree e he).2), ?_⟩
    intro loc2 hs2 hlab
    by_contra hne12
    have := (hiff loc2 loc hs2 hloc hne12).1
      (hlab.trans (inv.kept loc hloc (fun e he => (hfree e he).2)).symm)
    obtain ⟨e, he, h | h⟩ := this
    · exact (hfree e he).2 h.2
    · exact (hfree e he).1 h.1

/-- Witness of `index_labels_of_step`: the step of the first two nodes of the chain of
three nodes of rank 2 of "ij,jk,kl". -/
theorem index_labels_of_step_witness :
    ∃ ls rs : List Char,
      (⟨⟨⟨0⟩, 2⟩, ⟨⟨1⟩, 2⟩, none, [⟨⟨⟨0⟩, 1⟩, ⟨⟨1⟩, 0⟩⟩]⟩ :
        pairwise_contraction_type).index_labels = .ok (ls, rs) ∧
      ls.length = 2 ∧ rs.length = 2 ∧
      (∀ ch ∈ ls ++ rs, 97 ≤ ch.toNat ∧ ch.toNat ≤ 122) :=
  (index_labels_of_step ⟨[⟨⟨0⟩, 2⟩, ⟨⟨1⟩, 2⟩, ⟨⟨2⟩, 2⟩], 3,
      [⟨⟨⟨0⟩, 1⟩, ⟨⟨1⟩, 0⟩⟩, ⟨⟨⟨1⟩, 1⟩, ⟨⟨2⟩, 0⟩⟩]⟩ chain_component.wf ⟨⟨0⟩, 2⟩ ⟨⟨1⟩, 2⟩
      (by decide) (by decide) (by decide) none (by decide) (by decide) (by decide)).imp
    (fun _ h => h.imp (fun _ h2 => ⟨h2.1, h2.2.1, h2.2.2.1, h2.2.2.2.1⟩))

/-! ## What a call of `pairwise_contraction` that returns has done to the nodes -/

theorem reconnect_nodes (lhs rhs new_node_id : node_id) (lp rp : List (Option Nat))
    (cur net2 : connected_tensor_network) (e : edge)
    (h : connected_tensor_network.reconnect lhs rhs new_node_id lp rp cur e = .ok net2) :
    net2.nodes_ = cur.nodes_ ∧ net2.next_id_ = cur.next_id_ := by
  unfold connected_tensor_network.reconnect at h
  simp only at h
  have key : ∀ a b, cur.add_edge a b = .ok net2 →
      net2.nodes_ = cur.nodes_ ∧ net2.next_id_ = cur.next_id_ := by
    intro a b hab
    obtain ⟨_, _, _, _, heq⟩ := add_edge_inv cur net2 a b hab
    rw [heq]
    exact ⟨rfl, rfl⟩
  split at h
  · cases h
  · rename_i pe be hends
    split at h
    · cases h
    · cases h
    · exact key _ _ h

theorem reconnect_fold_nodes (lhs rhs new_node_id : node_id) (lp rp : List (Option Nat))
    (edges : List edge) (cur net2 : connected_tensor_network)
    (h : edges.foldlM (connected_tensor_network.reconnect lhs rhs new_node_id lp rp) cur =
      .ok net2) :
    net2.nodes_ = cur.nodes_ ∧ net2.next_id_ = cur.next_id_ := by
  induction edges generalizing cur with
  | nil =>
    simp only [List.foldlM_nil, pure, Except.pure, Except.ok.injEq] at h
    rw [h]
    exact ⟨rfl, rfl⟩
  | cons e rest ih =>
    rw [List.foldlM_cons] at h
    cases h1 : connected_tensor_network.reconnect lhs rhs new_node_id lp rp cur e with
    | error err =>
      rw [h1] at h
      cases h
    | ok mid =>
      rw [h1] at h
      obtain ⟨h2, h3⟩ := reconnect_nodes _ _ _ _ _ _ _ _ h1
      obtain ⟨h4, h5⟩ := ih mid h
      exact ⟨h4.trans h2, h5.trans h3⟩

theorem pairwise_contraction_inv (net net2 : connected_tensor_network) (lhs rhs id : node_id)
    (h : net.pairwise_contraction lhs rhs = .ok (id, net2)) :
    lhs ≠ rhs ∧ id = ⟨net.next_id_⟩ ∧ net2.next_id_ = size_add net.next_id_ 1 ∧
    ∃ rank, net2.nodes_ =
      net.nodes_.filter (fun n => !(decide (n.id = lhs) || decide (n.id = rhs))) ++
        [⟨⟨net.next_id_⟩, rank⟩] := by
  unfold connected_tensor_network.pairwise_contraction at h
  by_cases hne : lhs = rhs
  · rw [if_pos hne] at h
    cases h
  · rw [if_neg hne] at h
    refine ⟨hne, ?_⟩
    cases hfl : net.nodes_.find? (fun n => n.id = lhs) with
    | none =>
      rw [hfl] at h
      cases h
    | some nl =>
      cases hfr : net.nodes_.find? (fun n => n.id = rhs) with
      | none =>
        rw [hfl, hfr] at h
        cases h
      | some nr =>
        rw [hfl, hfr] at h
        simp only at h
        split at h
        · cases h
        · rename_i lp rp hnip
          split at h
          · cases h
          · rename_i self2 hfold
            simp only [Except.ok.injEq, Prod.mk.injEq] at h
            obtain ⟨h1, h2⟩ := reconnect_fold_nodes _ _ _ _ _ _ _ _ hfold
            rw [← h.2]
            refine ⟨h.1.symm, h2, _, h1⟩

/-! ## The sequences that the planner returns, whatever the costs -/

theorem sequence_step_trace (net : connected_tensor_network) (D : Nat)
    (tail_of : connected_tensor_network → Except logic_error (List pairwise_contraction_type))
    (htail : ∀ net2 tail, tail_of net2 = .ok tail → contraction_trace net2 tail)
    (best best2 : List pairwise_contraction_type × Nat) (hb : contraction_trace net best.1)
    (lhs rhs : node) (hl : lhs ∈ net.nodes_) (hr : rhs ∈ net.nodes_)
    (hjoin : ∃ e ∈ net.edges_,
      connected_tensor_network.edge_part_of_node_pair e lhs.id rhs.id = true ∧
      connected_tensor_network.internode_edge e = true)
    (h : connected_tensor_network.sequence_step net D tail_of best
      ((lhs, rhs), net.edges_.filter
        (fun e => connected_tensor_network.edge_part_of_node_pair e lhs.id rhs.id)) =
      .ok best2) :
    contraction_trace net best2.1 := by
  unfold connected_tensor_network.sequence_step at h
  simp only [create_group] at h
  split at h
  · split at h
    · cases h
    · rename_i id cnet hc
      split at h
      · cases h
      · rename_i out hout
        split at h
        · cases h
        · rename_i tail htl
          split at h
          · simp only [Except.ok.injEq] at h
            rw [← h]
            exact contraction_trace.step net cnet lhs rhs out id tail hl hr hjoin hc hout
              (htail cnet tail htl)
          · simp only [Except.ok.injEq] at h
            rw [← h]
            exact hb
  · simp only [Except.ok.injEq] at h
    rw [← h]
    exact hb

theorem sequence_fold_trace (net : connected_tensor_network) (D : Nat)
    (tail_of : connected_tensor_network → Except logic_error (List pairwise_contraction_type))
    (htail : ∀ net2 tail, tail_of net2 = .ok tail → contraction_trace net2 tail)
    (cands : List (node × node))
    (hc : ∀ p ∈ cands, p.1 ∈ net.nodes_ ∧ p.2 ∈ net.nodes_ ∧ net.joined p = true)
    (best best2 : List pairwise_contraction_type × Nat) (hb : contraction_trace net best.1)
    (h : (cands.map (fun p => (p, net.group_of p))).foldlM
      (connected_tensor_network.sequence_step net D tail_of) best = .ok best2) :
    contraction_trace net best2.1 := by
  induction cands generalizing best with
  | nil =>
    simp only [List.map_nil, List.foldlM_nil, pure, Except.pure, Except.ok.injEq] at h
    rw [← h]
    exact hb
  | cons p rest ih =>
    rw [List.map_cons, List.foldlM_cons] at h
    cases h1 : connected_tensor_network.sequence_step net D tail_of best (p, net.group_of p) with
    | error err =>
      rw [h1] at h
      cases h
    | ok mid =>
      rw [h1] at h
      obtain ⟨hl, hr, hj⟩ := hc p (List.mem_cons_self _ _)
      have hmid := sequence_step_trace net D tail_of htail best mid hb p.1 p.2 hl hr
        ((joined_iff net p).1 hj) h1
      exact ih (fun q hq => hc q (List.mem_cons_of_mem _ hq)) mid hmid h

theorem zip_map_self {α β : Type} (l : List α) (f : α → β) :
    l.zip (l.map f) = l.map (fun a => (a, f a)) := by
  induction l with
  | nil => rfl
  | cons a l ih => simp only [List.map_cons, List.zip_cons_cons, ih]

theorem planner_trace (D : Nat) (fuel : Nat) :
    ∀ (net : connected_tensor_network) (best : List pairwise_contraction_type),
      connected_tensor_network.pairwise_contraction_sequence_bounded fuel net D = .ok best →
      contraction_trace net best := by
  induction fuel with
  | zero =>
    intro net best h
    rw [connected_tensor_network.pairwise_contraction_sequence_bounded] at h
    cases h
  | succ fuel ih =>
    intro net best h
    rw [connected_tensor_network.pairwise_contraction_sequence_bounded] at h
    by_cases hs : net.size = 1
    · rw [if_pos hs] at h
      simp only [Except.ok.injEq] at h
      rw [← h]
      exact contraction_trace.done net
    · rw [if_neg hs, group_edges_pairwise_eq] at h
      by_cases h1 : net.size ≤ 1
      · rw [if_pos h1] at h
        cases h
      · rw [if_neg h1] at h
        by_cases h2 : (all_pairs net.nodes_).filter net.joined = []
        · rw [if_pos h2] at h
          cases h
        · rw [if_neg h2] at h
          simp only [zip_map_self] at h
          split at h
          · cases h
          · rename_i best2 hfold
            simp only [Except.ok.injEq] at h
            rw [← h]
            refine sequence_fold_trace net D _ (fun net2 tail ht => ih net2 tail ht) _ ?_
              ([], 2 ^ 64 - 1) best2 (contraction_trace.done net) hfold
            intro p hp
            obtain ⟨h3, h4⟩ := mem_all_pairs _ p.1 p.2 (List.mem_filter.1 hp).1
            exact ⟨h3, h4, (List.mem_filter.1 hp).2⟩

theorem trace_ids (net : connected_tensor_network) (plan : List pairwise_contraction_type)
    (h : contraction_trace net plan) :
    (∀ n ∈ net.nodes_, n.id.id < net.next_id_) → net.next_id_ + plan.length < 2 ^ 64 →
      output_ids plan = (List.range' net.next_id_ plan.length).map node_id.mk ∧
      (∀ c ∈ plan, c.lhs_.id ≠ c.rhs_.id ∧ ∃ o, c.out_ = some o) ∧
      (∀ pre c post, plan = pre ++ c :: post → ∀ x, (x = c.lhs_.id ∨ x = c.rhs_.id) →
        x ∈ net.nodes_.map (fun n => n.id) ∨ x ∈ output_ids pre) ∧
      (operand_ids plan).Nodup ∧
      (∀ x ∈ operand_ids plan, x ∈ net.nodes_.map (fun n => n.id) ∨
        (net.next_id_ ≤ x.id ∧ x.id < net.next_id_ + plan.length)) := by
  induction h with
  | done net =>
    intro _ _
    refine ⟨rfl, ?_, ?_, List.nodup_nil, ?_⟩
    · intro c hc
      cases hc
    · intro pre c post hsplit
      exact absurd hsplit (by simp)
    · intro x hx
      cases hx
  | step net net2 lhs rhs out id tail hl hr _ hc hout _ ih =>
    intro hbelow hroom
    rw [List.length_cons] at hroom
    obtain ⟨hne, hid, hnext, rank, hnodes⟩ := pairwise_contraction_inv net net2 _ _ _ hc
    have hn1 : size_add net.next_id_ 1 = net.next_id_ + 1 := by
      unfold size_add size_t_card
      exact Nat.mod_eq_of_lt (by omega)
    rw [hn1] at hnext
    have hoid : out.id = ⟨net.next_id_⟩ := by
      have := List.find?_some hout
      simp only [decide_eq_true_eq] at this
      rw [this, hid]
    have hids2 : ∀ x, x ∈ net2.nodes_.map (fun n => n.id) →
        (x ∈ net.nodes_.map (fun n => n.id) ∧ x ≠ lhs.id ∧ x ≠ rhs.id) ∨
          x = ⟨net.next_id_⟩ := by
      intro x hx
      rw [hnodes, List.map_append, List.mem_append] at hx
      rcases hx with hx | hx
      · left
        obtain ⟨n, hn, hnx⟩ := List.mem_map.1 hx
        obtain ⟨h1, h2, h3⟩ := (mem_bystander_nodes _ _ _ _).1 hn
        rw [← hnx]
        exact ⟨List.mem_map_of_mem _ h1, h2, h3⟩
      · right
        simpa using hx
    have hbelow2 : ∀ n ∈ net2.nodes_, n.id.id < net2.next_id_ := by
      intro n hn
      rw [hnext]
      rcases hids2 n.id (List.mem_map_of_mem _ hn) with ⟨h1, _, _⟩ | h1
      · obtain ⟨m, hm, hmid⟩ := List.mem_map.1 h1
        have := hbelow m hm
        rw [hmid] at this
        omega
      · rw [h1]
        exact Nat.lt_succ_self _
    obtain ⟨ih1, ih2, ih3, ih4, ih5⟩ := ih hbelow2 (by rw [hnext]; omega)
    rw [hnext] at ih1 ih5
    have hlb : lhs.id.id < net.next_id_ := hbelow lhs hl
    have hrb : rhs.id.id < net.next_id_ := hbelow rhs hr
    have hnot : ∀ x ∈ operand_ids tail, x ≠ lhs.id ∧ x ≠ rhs.id := by
      intro x hx
      rcases ih5 x hx with h1 | h1
      · rcases hids2 x h1 with ⟨_, h2, h3⟩ | h2
        · exact ⟨h2, h3⟩
        · rw [h2]
          constructor
          · intro h3
            rw [← h3] at hlb
            exact Nat.lt_irrefl _ hlb
          · intro h3
            rw [← h3] at hrb
            exact Nat.lt_irrefl _ hrb
      · constructor
        · intro h3
          rw [h3] at h1
          omega
        · intro h3
          rw [h3] at h1
          omega
    refine ⟨?_, ?_, ?_, ?_, ?_⟩
    · unfold output_ids
      rw [List.filterMap_cons]
      simp only [Option.map_some']
      rw [List.length_cons, List.range'_succ, List.map_cons, hoid]
      congr 1
    · intro c hcm
      rcases List.mem_cons.1 hcm with h1 | h1
      · rw [h1]
        exact ⟨hne, out, rfl⟩
      · exact ih2 c h1
    · intro pre c post hsplit x hx
      cases pre with
      | nil =>
        simp only [List.nil_append, List.cons.injEq] at hsplit
        rw [← hsplit.1] at hx
        left
        rcases hx with hx | hx
        · rw [hx]
          exact List.mem_map_of_mem _ hl
        · rw [hx]
          exact List.mem_map_of_mem _ hr
      | cons c0 pre2 =>
        simp only [List.cons_append, List.cons.injEq] at hsplit
        rcases ih3 pre2 c post hsplit.2 x hx with h1 | h1
        · rcases hids2 x h1 with ⟨h2, _, _⟩ | h2
          · exact Or.inl h2
          · right
            rw [← hsplit.1]
            unfold output_ids
            rw [List.filterMap_cons]
            simp only [Option.map_some']
            rw [h2, ← hoid]
            exact List.mem_cons_self _ _
        · right
          unfold output_ids at h1 ⊢
          rw [← hsplit.1, List.filterMap_cons]
          simp only [Option.map_some']
          exact List.mem_cons_of_mem _ h1
    · show (([lhs.id, rhs.id] : List node_id) ++ operand_ids tail).Nodup
      rw [List.nodup_append]
      refine ⟨?_, ih4, ?_⟩
      · simp only [List.nodup_cons, List.mem_singleton, List.not_mem_nil, not_false_eq_true,
          List.nodup_nil, and_true]
        exact hne
      · intro x hx1 hx2
        rcases List.mem_cons.1 hx1 with h1 | h1
        · exact (hnot x hx2).1 h1
        · exact (hnot x hx2).2 (List.mem_singleton.1 h1)
    · intro x hx
      have hx2 : x ∈ ([lhs.id, rhs.id] : List node_id) ++ operand_ids tail := hx
      rcases List.mem_append.1 hx2 with h1 | h1
      · left
        rcases List.mem_cons.1 h1 with h2 | h2
        · rw [h2]
          exact List.mem_map_of_mem _ hl
        · rw [List.mem_singleton.1 h2]
          exact List.mem_map_of_mem _ hr
      · rcases ih5 x h1 with h2 | h2
        · rcases hids2 x h2 with ⟨h3, _, _⟩ | h3
          · exact Or.inl h3
          · right
            rw [h3, List.length_cons]
            constructor
            · exact Nat.le_refl _
            · dsimp only
              omega
        · right
          rw [List.length_cons]
          omega

theorem trace_length (net : connected_tensor_network) (plan : List pairwise_contraction_type)
    (h : contraction_trace net plan) : plan.length + 1 ≤ net.nodes_.length + 1 ∧
      (plan ≠ [] → plan.length + 1 ≤ net.nodes_.length) := by
  induction h with
  | done net =>
    exact ⟨Nat.succ_le_succ (Nat.zero_le _), fun h => absurd rfl h⟩
  | step net net2 lhs rhs out id tail hl hr _ hc hout _ ih =>
    obtain ⟨hne, hid, hnext, rank, hnodes⟩ := pairwise_contraction_inv net net2 _ _ _ hc
    have hcount := (pair_ranks_le net.nodes_ lhs rhs hl hr hne).2
    have hs2 : net2.nodes_.length + 1 ≤ net.nodes_.length := by
      rw [hnodes, List.length_append, List.length_singleton]
      omega
    have : tail.length + 1 ≤ net2.nodes_.length + 1 := ih.1
    constructor
    · rw [List.length_cons]
      omega
    · intro _
      rw [List.length_cons]
      by_cases ht : tail = []
      · rw [ht]
        simp only [List.length_nil]
        omega
      · have := ih.2 ht
        omega

theorem component_size_le (net : tensor_network) (done : List edge)
    (comps : List connected_tensor_network) (inv : components_inv net done comps)
    (c : connected_tensor_network) (hc : c ∈ comps) :
    c.nodes_.length ≤ net.nodes_.length := by
  rw [← inv.nodes_perm.length_eq]
  exact (List.sublist_flatten_of_mem (List.mem_map_of_mem _ hc)).length_le

/-- One step of the loop of `connected_components` keeps the next id of every component
between the next id of the network and that plus the number of nodes of the component. -/
theorem connect_components_ids (net : tensor_network)
    (hroom : net.next_id_ + net.nodes_.length < 2 ^ 64) (done : List edge)
    (comps : List connected_tensor_network) (inv : components_inv net done comps)
    (hP : ∀ c ∈ comps, net.next_id_ ≤ c.next_id_ ∧
      c.next_id_ + 1 ≤ net.next_id_ + c.nodes_.length)
    (e : edge) (comps2 : List connected_tensor_network)
    (h : tensor_network.connect_components comps e = .ok comps2) :
    ∀ c ∈ comps2, net.next_id_ ≤ c.next_id_ ∧
      c.next_id_ + 1 ≤ net.next_id_ + c.nodes_.length := by
  unfold tensor_network.connect_components at h
  split at h
  · cases h
  · split at h
    · cases h
    · rename_i i _ j _
      split at h
      · rename_i L R hL hR
        rw [List.get?_eq_getElem?] at hL hR
        have hLm : L ∈ comps := List.getElem?_mem hL
        have hRm : R ∈ comps := List.getElem?_mem hR
        split at h
        · split at h
          · cases h
          · rename_i left1 hadd
            have h5 := (add_edge_inv L left1 _ _ hadd).2.2.2.2
            simp only [Except.ok.injEq] at h
            intro c hc
            rw [← h] at hc
            rcases List.mem_or_eq_of_mem_set hc with h1 | h1
            · exact hP c h1
            · rw [h1, h5]
              exact hP L hLm
        · simp only [Except.ok.injEq] at h
          intro c hc
          rw [← h] at hc
          rcases List.mem_or_eq_of_mem_set (List.mem_of_mem_eraseIdx hc) with h1 | h1
          · exact hP c h1
          · have hl := hP L hLm
            have hr := hP R hRm
            have hl1 := component_size_le net done comps inv L hLm
            have hr1 := component_size_le net done comps inv R hRm
            have hl0 : 0 < L.nodes_.length := List.length_pos.2 (inv.nonempty L hLm)
            have hr0 : 0 < R.nodes_.length := List.length_pos.2 (inv.nonempty R hRm)
            have hmax : size_add (max L.next_id_ R.next_id_) 1 =
                max L.next_id_ R.next_id_ + 1 := by
              unfold size_add size_t_card
              exact Nat.mod_eq_of_lt (by omega)
            rw [h1]
            simp only [tensor_network.connect, List.length_append]
            rw [hmax]
            omega
      · cases h

/-- The loop of `connected_components` keeps the bounds of the next ids of the components. -/
theorem connected_components_ids_fold (net : tensor_network) (hwf : well_formed net)
    (hroom : net.next_id_ + net.nodes_.length < 2 ^ 64)
    (todo done : List edge) (hedges : net.edges_ = done ++ todo)
    (comps : List connected_tensor_network) (inv : components_inv net done comps)
    (hP : ∀ c ∈ comps, net.next_id_ ≤ c.next_id_ ∧
      c.next_id_ + 1 ≤ net.next_id_ + c.nodes_.length)
    (cc : List connected_tensor_network)
    (h : todo.foldlM tensor_network.connect_components comps = .ok cc) :
    ∀ c ∈ cc, net.next_id_ ≤ c.next_id_ ∧
      c.next_id_ + 1 ≤ net.next_id_ + c.nodes_.length := by
  induction todo generalizing done comps with
  | nil =>
    simp only [List.foldlM_nil, pure, Except.pure, Except.ok.injEq] at h
    rw [← h]
    exact hP
  | cons e rest ih =>
    obtain ⟨comps2, h1, inv2⟩ := connect_components_step net hwf done rest e hedges comps inv
    rw [List.foldlM_cons, h1] at h
    exact ih (done ++ [e]) (by rw [hedges]; simp) comps2 inv2
      (connect_components_ids net hroom done comps inv hP e comps2 h1) h

/-- The next id of a component that `connected_components` returns is at least the next id
of the network, and exceeds it by less than the number of nodes of the component. -/
theorem component_next_id (net : tensor_network) (hwf : well_formed net)
    (hroom : net.next_id_ + net.nodes_.length < 2 ^ 64)
    (cc : List connected_tensor_network) (h : net.connected_components = .ok cc) :
    ∀ c ∈ cc, net.next_id_ ≤ c.next_id_ ∧
      c.next_id_ + 1 ≤ net.next_id_ + c.nodes_.length := by
  unfold tensor_network.connected_components at h
  refine connected_components_ids_fold net hwf hroom net.edges_ [] (by simp) _
    (components_inv_init net) ?_ cc h
  intro c hc
  obtain ⟨n, _, hn⟩ := List.mem_map.mp hc
  rw [← hn]
  simp

theorem output_ids_append (pre post : List pairwise_contraction_type) :
    output_ids (pre ++ post) = output_ids pre ++ output_ids post := by
  unfold output_ids
  exact List.filterMap_append _ _ _

/-- C38: for a well formed network whose node ids are below its next id, with room for the
ids of the components and of their contractions, and a component that
`connected_components` returns: in the sequence that `pairwise_contraction_sequence`
returns for the component every step has two different operand ids and stores an output
node; each operand id is the id of a node of the component or the output id of an earlier
step; no id is an operand twice; no output id is the id of a node of the network, and the
output ids differ from each other; so the list of ids of the executor (the node ids of the
network followed by the output ids) never holds an id twice, and `argfind` finds both
operands of a step in it, at two different places, when the step is reached. -/
theorem sequence_ids_fresh (net : tensor_network) (hwf : well_formed net)
    (hbelow : ∀ n ∈ net.nodes_, n.id.id < net.next_id_)
    (hroom : net.next_id_ + 2 * net.nodes_.length < 2 ^ 64)
    (cc : List connected_tensor_network) (hcc : net.connected_components = .ok cc)
    (c : connected_tensor_network) (hc : c ∈ cc) (D : Nat)
    (best : List pairwise_contraction_type)
    (hbest : c.pairwise_contraction_sequence D = .ok best) :
    (∀ s ∈ best, s.lhs_id ≠ s.rhs_id ∧ ∃ o, s.out_id = .ok o) ∧
    (∀ pre s post, best = pre ++ s :: post → ∀ x, (x = s.lhs_id ∨ x = s.rhs_id) →
      x ∈ c.nodes_.map (fun n => n.id) ∨ x ∈ output_ids pre) ∧
    (operand_ids best).Nodup ∧
    (output_ids best).length = best.length ∧
    (∀ x ∈ output_ids best, x ∉ net.nodes_.map (fun n => n.id)) ∧
    (output_ids best).Nodup ∧
    (net.nodes_.map (fun n => n.id) ++ output_ids best).Nodup ∧
    (∀ pre s post, best = pre ++ s :: post → ∃ l r,
      alg.argfind (net.nodes_.map (fun n => n.id) ++ output_ids pre) s.lhs_id = some l ∧
      alg.argfind (net.nodes_.map (fun n => n.id) ++ output_ids pre) s.rhs_id = some r ∧
      l ≠ r) := by
  obtain ⟨cc2, hcc2, inv⟩ := connected_components_inv net hwf
  rw [hcc] at hcc2
  simp only [Except.ok.injEq] at hcc2
  subst hcc2
  have hnext := component_next_id net hwf (by omega) cc hcc c hc
  have hsize := component_size_le net net.edges_ cc inv c hc
  have htrace := planner_trace D _ c best hbest
  have hlen := trace_length c best htrace
  have hcbelow : ∀ n ∈ c.nodes_, n.id.id < c.next_id_ := by
    intro n hn
    have := hbelow n (node_of_component net net.edges_ cc inv c hc n hn)
    omega
  obtain ⟨h1, h2, h3, h4, h5⟩ := trace_ids c best htrace hcbelow (by omega)
  have hsub : ∀ x, x ∈ c.nodes_.map (fun n => n.id) → x ∈ net.nodes_.map (fun n => n.id) := by
    intro x hx
    obtain ⟨n, hn, hnx⟩ := List.mem_map.1 hx
    rw [← hnx]
    exact List.mem_map_of_mem _ (node_of_component net net.edges_ cc inv c hc n hn)
  have hfresh : ∀ x ∈ output_ids best, x ∉ net.nodes_.map (fun n => n.id) := by
    intro x hx hx2
    rw [h1] at hx
    obtain ⟨k, hk, hkx⟩ := List.mem_map.1 hx
    obtain ⟨n, hn, hnx⟩ := List.mem_map.1 hx2
    have h6 := hbelow n hn
    have h7 := (List.mem_range'_1.1 hk).1
    rw [hnx, ← hkx] at h6
    have h8 : k < net.next_id_ := h6
    omega
  have hond : (output_ids best).Nodup := by
    rw [h1]
    refine List.Nodup.map ?_ (List.nodup_range' _ _)
    intro a b hab
    exact congrArg node_id.id hab
  have hall : (net.nodes_.map (fun n => n.id) ++ output_ids best).Nodup := by
    rw [List.nodup_append]
    exact ⟨hwf.ids_nodup, hond, fun x hx1 hx2 => hfresh x hx2 hx1⟩
  refine ⟨?_, h3, h4, ?_, hfresh, hond, hall, ?_⟩
  · intro s hs
    obtain ⟨h6, o, ho⟩ := h2 s hs
    refine ⟨h6, o.id, ?_⟩
    unfold pairwise_contraction_type.out_id
    rw [ho]
  · rw [h1, List.length_map, List.length_range']
  · intro pre s post hsplit
    have hin : ∀ x, (x = s.lhs_id ∨ x = s.rhs_id) →
        x ∈ net.nodes_.map (fun n => n.id) ++ output_ids pre := by
      intro x hx
      rcases h3 pre s post hsplit x hx with h6 | h6
      · exact List.mem_append_left _ (hsub x h6)
      · exact List.mem_append_right _ h6
    cases hl : alg.argfind (net.nodes_.map (fun n => n.id) ++ output_ids pre) s.lhs_id with
    | none => exact absurd (hin _ (Or.inl rfl)) ((argfind_eq_none _ _).1 hl)
    | some l =>
      cases hr : alg.argfind (net.nodes_.map (fun n => n.id) ++ output_ids pre) s.rhs_id with
      | none => exact absurd (hin _ (Or.inr rfl)) ((argfind_eq_none _ _).1 hr)
      | some r =>
        refine ⟨l, r, rfl, rfl, ?_⟩
        intro hlr
        have h6 := (argfind_first _ _ _ hl).2.1
        have h7 := (argfind_first _ _ _ hr).2.1
        rw [hlr, h7] at h6
        have h8 := (h2 s (by rw [hsplit]; exact List.mem_append_right _ (List.mem_cons_self _ _))).1
        exact h8 (Option.some.inj h6).symm

/-- Witness of `sequence_ids_fresh`: the network of "ij,jk,kl", its one component, whose
next id is 5, and the two steps planned for it with the extent 2, with the outputs 5 and
6. -/
theorem sequence_ids_fresh_witness :
    tensor_network.connected_components ⟨[⟨⟨0⟩, 2⟩, ⟨⟨1⟩, 2⟩, ⟨⟨2⟩, 2⟩], 3,
      [⟨⟨⟨0⟩, 1⟩, ⟨⟨1⟩, 0⟩⟩, ⟨⟨⟨1⟩, 1⟩, ⟨⟨2⟩, 0⟩⟩]⟩ =
      .ok [⟨[⟨⟨0⟩, 2⟩, ⟨⟨1⟩, 2⟩, ⟨⟨2⟩, 2⟩], 5,
        [⟨⟨⟨0⟩, 1⟩, ⟨⟨1⟩, 0⟩⟩, ⟨⟨⟨1⟩, 1⟩, ⟨⟨2⟩, 0⟩⟩]⟩] ∧
    connected_tensor_network.pairwise_contraction_sequence
      ⟨[⟨⟨0⟩, 2⟩, ⟨⟨1⟩, 2⟩, ⟨⟨2⟩, 2⟩], 5,
        [⟨⟨⟨0⟩, 1⟩, ⟨⟨1⟩, 0⟩⟩, ⟨⟨⟨1⟩, 1⟩, ⟨⟨2⟩, 0⟩⟩]⟩ 2 =
      .ok [⟨⟨⟨0⟩, 2⟩, ⟨⟨1⟩, 2⟩, some ⟨⟨5⟩, 2⟩, [⟨⟨⟨0⟩, 1⟩, ⟨⟨1⟩, 0⟩⟩]⟩,
        ⟨⟨⟨2⟩, 2⟩, ⟨⟨5⟩, 2⟩, some ⟨⟨6⟩, 2⟩, [⟨⟨⟨2⟩, 0⟩, ⟨⟨5⟩, 1⟩⟩]⟩] ∧
    (operand_ids [⟨⟨⟨0⟩, 2⟩, ⟨⟨1⟩, 2⟩, some ⟨⟨5⟩, 2⟩, [⟨⟨⟨0⟩, 1⟩, ⟨⟨1⟩, 0⟩⟩]⟩,
        ⟨⟨⟨2⟩, 2⟩, ⟨⟨5⟩, 2⟩, some ⟨⟨6⟩, 2⟩, [⟨⟨⟨2⟩, 0⟩, ⟨⟨5⟩, 1⟩⟩]⟩]).Nodup ∧
    (([⟨⟨0⟩, 2⟩, ⟨⟨1⟩, 2⟩, ⟨⟨2⟩, 2⟩] : List node).map (fun n => n.id) ++
      output_ids [⟨⟨⟨0⟩, 2⟩, ⟨⟨1⟩, 2⟩, some ⟨⟨5⟩, 2⟩, [⟨⟨⟨0⟩, 1⟩, ⟨⟨1⟩, 0⟩⟩]⟩,
        ⟨⟨⟨2⟩, 2⟩, ⟨⟨5⟩, 2⟩, some ⟨⟨6⟩, 2⟩, [⟨⟨⟨2⟩, 0⟩, ⟨⟨5⟩, 1⟩⟩]⟩]).Nodup :=
  have hcc : tensor_network.connected_components ⟨[⟨⟨0⟩, 2⟩, ⟨⟨1⟩, 2⟩, ⟨⟨2⟩, 2⟩], 3,
      [⟨⟨⟨0⟩, 1⟩, ⟨⟨1⟩, 0⟩⟩, ⟨⟨⟨1⟩, 1⟩, ⟨⟨2⟩, 0⟩⟩]⟩ =
      .ok [⟨[⟨⟨0⟩, 2⟩, ⟨⟨1⟩, 2⟩, ⟨⟨2⟩, 2⟩], 5,
        [⟨⟨⟨0⟩, 1⟩, ⟨⟨1⟩, 0⟩⟩, ⟨⟨⟨1⟩, 1⟩, ⟨⟨2⟩, 0⟩⟩]⟩] := by decide
  have hbest : connected_tensor_network.pairwise_contraction_sequence
      ⟨[⟨⟨0⟩, 2⟩, ⟨⟨1⟩, 2⟩, ⟨⟨2⟩, 2⟩], 5,
        [⟨⟨⟨0⟩, 1⟩, ⟨⟨1⟩, 0⟩⟩, ⟨⟨⟨1⟩, 1⟩, ⟨⟨2⟩, 0⟩⟩]⟩ 2 =
      .ok [⟨⟨⟨0⟩, 2⟩, ⟨⟨1⟩, 2⟩, some ⟨⟨5⟩, 2⟩, [⟨⟨⟨0⟩, 1⟩, ⟨⟨1⟩, 0⟩⟩]⟩,
        ⟨⟨⟨2⟩, 2⟩, ⟨⟨5⟩, 2⟩, some ⟨⟨6⟩, 2⟩, [⟨⟨⟨2⟩, 0⟩, ⟨⟨5⟩, 1⟩⟩]⟩] := by decide
  have h := sequence_ids_fresh ⟨[⟨⟨0⟩, 2⟩, ⟨⟨1⟩, 2⟩, ⟨⟨2⟩, 2⟩], 3,
      [⟨⟨⟨0⟩, 1⟩, ⟨⟨1⟩, 0⟩⟩, ⟨⟨⟨1⟩, 1⟩, ⟨⟨2⟩, 0⟩⟩]⟩
    (built_spec [.add_node 2, .add_node 2, .add_node 2, .add_edge ⟨⟨0⟩, 1⟩ ⟨⟨1⟩, 0⟩,
      .add_edge ⟨⟨1⟩, 1⟩ ⟨⟨2⟩, 0⟩] _ (by decide) (by decide)).2.2
    (by decide) (by decide) _ hcc _ (List.mem_singleton.2 rfl) 2 _ hbest
  ⟨hcc, hbest, h.2.2.1, h.2.2.2.2.2.2.1⟩

/-! ## The sub-expression of a step: its text -/

/-- A code unit from 'a' on is not whitespace, a comma, a part of an arrow, or zero. -/
theorem label_char_plain (ch : Char) (h : 97 ≤ ch.toNat) :
    str.is_whitespace ch = false ∧ ch ≠ ',' ∧ ch ≠ '-' ∧ ch ≠ '>' ∧ ch ≠ Char.ofNat 0 := by
  have hne : ∀ c0 : Char, c0.toNat < 97 → ch ≠ c0 := by
    intro c0 h0 heq
    rw [heq] at h
    omega
  refine ⟨?_, hne _ (by decide), hne _ (by decide), hne _ (by decide), hne _ (by decide)⟩
  unfold str.is_whitespace
  simp only [List.any_cons, List.any_nil, Bool.or_false, Bool.or_eq_false_iff, beq_eq_false_iff_ne,
    ne_eq]
  exact ⟨hne _ (by decide), hne _ (by decide), hne _ (by decide), hne _ (by decide),
    hne _ (by decide), hne _ (by decide)⟩

theorem arrows_none (s : List Char) (h : '-' ∉ s) :
    s.tails.countP (fun t => ['-', '>'].isPrefixOf t) = 0 := by
  induction s with
  | nil => exact arrows_nil
  | cons c r ih =>
    simp only [List.mem_cons, not_or] at h
    rw [arrows_cons_of_ne c r (fun hc => h.1 hc.symm)]
    exact ih h.2

theorem split_comma_from_plain (s acc : List Char) (h : ',' ∉ s) :
    split_comma_from acc s = [acc ++ s] := by
  induction s generalizing acc with
  | nil => simp [split_comma_from]
  | cons c r ih =>
    simp only [List.mem_cons, not_or] at h
    unfold split_comma_from
    rw [if_neg (fun hc => h.1 hc.symm), ih _ h.2]
    simp

theorem split_comma_from_comma (ls rs acc : List Char) (h : ',' ∉ ls) :
    split_comma_from acc (ls ++ ',' :: rs) = (acc ++ ls) :: split_comma_from [] rs := by
  induction ls generalizing acc with
  | nil =>
    simp only [List.nil_append, List.append_nil]
    rw [split_comma_from]
    simp
  | cons c r ih =>
    simp only [List.mem_cons, not_or] at h
    rw [List.cons_append, split_comma_from, if_neg (fun hc => h.1 hc.symm), ih _ h.2]
    simp

/-- The text of two strings of plain code units joined by a comma parses into two factors
with one label per code unit, without an explicit output. -/
theorem parse_pair (ls rs : List Char) (hls : ∀ ch ∈ ls, 97 ≤ ch.toNat)
    (hrs : ∀ ch ∈ rs, 97 ≤ ch.toNat) (hlen : (ls ++ ',' :: rs).length < 2 ^ 64) :
    ∃ (p : einsum_parsed) (seen : List (index_label × Nat × index_cursor)),
      einsum_parsed.parse (ls ++ ',' :: rs) = .ok p ∧
      p.factor_index_labels_ = [ls.map (fun x => [x]), rs.map (fun x => [x])] ∧
      parser_inv (iterate_index_labels_with_cursor p.factor_index_labels_)
        (seen, p.contractions_) ∧
      p.free_index_labels_ =
        (seen.filter (fun t => decide (not_contraction = t.2.1))).map (fun t => t.1) ∧
      p.output_index_labels_ = p.free_index_labels_ := by
  have hall : ∀ ch ∈ ls ++ ',' :: rs, str.is_whitespace ch = false ∧ ch ≠ '-' := by
    intro ch hch
    rcases List.mem_append.1 hch with h | h
    · exact ⟨(label_char_plain ch (hls ch h)).1, (label_char_plain ch (hls ch h)).2.2.1⟩
    · rcases List.mem_cons.1 h with h | h
      · rw [h]
        exact ⟨by decide, by decide⟩
      · exact ⟨(label_char_plain ch (hrs ch h)).1, (label_char_plain ch (hrs ch h)).2.2.1⟩
  have hfilter : (ls ++ ',' :: rs).filter (fun c => !str.is_whitespace c) = ls ++ ',' :: rs := by
    rw [List.filter_eq_self]
    intro ch hch
    rw [(hall ch hch).1]
    rfl
  have hparts : split_arrow ((ls ++ ',' :: rs).filter (fun c => !str.is_whitespace c)) =
      [ls ++ ',' :: rs] := by
    rw [hfilter]
    exact split_arrow_zero _ (by simp)
      (arrows_none _ (fun h => (hall _ h).2 rfl))
  have hcomma : split_comma (ls ++ ',' :: rs) = [ls, rs] := by
    unfold split_comma
    rw [if_neg (by simp), split_comma_from_comma ls rs []
      (fun h => (label_char_plain _ (hls _ h)).2.1 rfl),
      split_comma_from_plain rs [] (fun h => (label_char_plain _ (hrs _ h)).2.1 rfl)]
    simp
  obtain ⟨p, hp⟩ := parse_succeeds (ls ++ ',' :: rs) _ _ hlen hparts (by simp)
  obtain ⟨first, rest, seen, h1, h2, h3, h4, h5⟩ := parse_spec _ p hlen hp
  rw [hparts] at h1
  simp only [List.cons.injEq] at h1
  obtain ⟨hfirst, hrest⟩ := h1
  refine ⟨p, seen, hp, ?_, h3, h4, ?_⟩
  · rw [h2, ← hfirst, hcomma]
    rfl
  · rcases h5 with h | ⟨ret, h, _⟩
    · exact h.2
    · rw [← hrest] at h
      cases h

theorem sv_plain (s : List Char) (h : ∀ ch ∈ s, ch ≠ Char.ofNat 0) :
    (⟨s⟩ : str.fixed_string).sv = s := by
  unfold str.fixed_string.sv
  rw [List.takeWhile_eq_self_iff]
  intro ch hch
  simpa using h ch hch

/-! ## The index positions of the contracted node, place by place -/

/-- The positions that `pairwise_contraction` computes: the two arrays have the lengths of
the two ranks, an index that is an end of a contracted edge has no position, every other
index has one, and the positions, read along the indices of lhs and then of rhs, are 0, 1,
2, … -/
theorem new_index_positions_exact (lhs rhs : node_id) (hne : lhs ≠ rhs) (r1 r2 : Nat)
    (hr : r1 + r2 < 2 ^ 64) (pce : List edge)
    (hvalid : ∀ e ∈ pce,
      ((e.left.id = lhs ∧ e.left.index < r1) ∨ (e.left.id = rhs ∧ e.left.index < r2)) ∧
      ((e.right.id = lhs ∧ e.right.index < r1) ∨ (e.right.id = rhs ∧ e.right.index < r2)))
    (hnd : (pce.flatMap (fun e => [e.left, e.right])).Nodup) :
    ∃ lp rp : List (Option Nat),
      connected_tensor_network.new_index_positions lhs rhs r1 r2 pce = .ok (lp, rp) ∧
      lp.length = r1 ∧ rp.length = r2 ∧
      (∀ i : Nat, i < r1 →
        ((⟨lhs, i⟩ : index_location) ∈ pce.flatMap (fun e => [e.left, e.right]) →
          lp[i]? = some none) ∧
        ((⟨lhs, i⟩ : index_location) ∉ pce.flatMap (fun e => [e.left, e.right]) →
          ∃ p, lp[i]? = some (some p))) ∧
      (∀ i : Nat, i < r2 →
        ((⟨rhs, i⟩ : index_location) ∈ pce.flatMap (fun e => [e.left, e.right]) →
          rp[i]? = some none) ∧
        ((⟨rhs, i⟩ : index_location) ∉ pce.flatMap (fun e => [e.left, e.right]) →
          ∃ p, rp[i]? = some (some p))) ∧
      (lp ++ rp).filterMap id = List.range' 0 (r1 + r2 - 2 * pce.length) := by
  obtain ⟨E2, hfold, hmem⟩ := clear_fold lhs rhs hne r1 r2 pce [] hvalid
  have hE : ∀ loc, loc ∈ E2 ↔ loc ∈ pce.flatMap (fun e => [e.left, e.right]) := by
    intro loc
    rw [hmem, List.mem_flatMap]
    simp only [List.not_mem_nil, false_or, List.mem_cons, or_false]
  rw [marked_positions_congr lhs 0 r1 E2 _ (fun i => hE _),
    marked_positions_congr rhs r1 r2 E2 _ (fun i => hE _)] at hfold
  have hEv : ∀ loc ∈ pce.flatMap (fun e => [e.left, e.right]),
      (loc.id = lhs ∧ loc.index < r1) ∨ (loc.id = rhs ∧ loc.index < r2) := by
    intro loc hloc
    obtain ⟨e, he, hl⟩ := List.mem_flatMap.mp hloc
    simp only [List.mem_cons, List.not_mem_nil, or_false] at hl
    rcases hl with h | h
    · rw [h]; exact (hvalid e he).1
    · rw [h]; exact (hvalid e he).2
  have hcount := count_marks lhs rhs hne r1 r2 _ hnd hEv
  rw [ends_length] at hcount
  have hs1 := marked_somes lhs 0 r1 (pce.flatMap (fun e => [e.left, e.right]))
  have hs2 := marked_somes rhs r1 r2 (pce.flatMap (fun e => [e.left, e.right]))
  obtain ⟨Q1, hq1, hl1, hnone1, hsome1, hf1⟩ := shift_fold
    (marked_positions lhs 0 r1 (pce.flatMap (fun e => [e.left, e.right]))) 0 0 []
    (by
      intro i v h
      have hi : i < r1 := by
        have := (List.getElem?_eq_some_iff.mp h).1
        rw [marked_positions_length] at this
        exact this
      rw [marked_positions_get _ _ _ _ i hi] at h
      simp only [Option.some.injEq] at h
      split_ifs at h
      simp only [Option.some.injEq] at h
      omega)
    (Nat.le_refl _) (by rw [marked_positions_length]; omega)
  obtain ⟨Q2, hq2, hl2, hnone2, hsome2, hf2⟩ := shift_fold
    (marked_positions rhs r1 r2 (pce.flatMap (fun e => [e.left, e.right])))
    ((marked_positions lhs 0 r1 (pce.flatMap (fun e => [e.left, e.right]))).countP
      (fun p => p.isNone)) r1 []
    (by
      intro i v h
      have hi : i < r2 := by
        have := (List.getElem?_eq_some_iff.mp h).1
        rw [marked_positions_length] at this
        exact this
      rw [marked_positions_get _ _ _ _ i hi] at h
      simp only [Option.some.injEq] at h
      split_ifs at h
      simp only [Option.some.injEq] at h
      omega)
    (by omega) (by rw [marked_positions_length]; omega)
  rw [marked_positions_length] at hl1 hl2
  simp only [Nat.zero_add, List.nil_append, Nat.sub_zero] at hq1 hq2 hf1
  have hall : (Q1 ++ Q2).filterMap id = List.range' 0 (r1 + r2 - 2 * pce.length) := by
    rw [List.filterMap_append, hf1, hf2]
    have h1 : r1 - (marked_positions lhs 0 r1 (pce.flatMap (fun e => [e.left, e.right]))).countP
        (fun p => p.isNone) = 0 + (marked_positions lhs 0 r1
          (pce.flatMap (fun e => [e.left, e.right]))).countP (fun p => p.isSome) := by omega
    rw [h1, List.range'_append_1]
    congr 1
    omega
  refine ⟨Q1, Q2, ?_, hl1, hl2, ?_, ?_, hall⟩
  · unfold connected_tensor_network.new_index_positions
    simp only
    rw [marked_positions_nil_lhs lhs r1, marked_positions_nil_rhs rhs r1 r2 hr, hfold]
    simp only [hq1, hq2]
  · intro i hi
    have hget := marked_positions_get lhs 0 r1 (pce.flatMap (fun e => [e.left, e.right])) i hi
    constructor
    · intro hin
      rw [if_pos hin] at hget
      exact hnone1 i hget
    · intro hnot
      rw [if_neg hnot] at hget
      exact hsome1 i _ hget
  · intro i hi
    have hget := marked_positions_get rhs r1 r2 (pce.flatMap (fun e => [e.left, e.right])) i hi
    constructor
    · intro hin
      rw [if_pos hin] at hget
      exact hnone2 i hget
    · intro hnot
      rw [if_neg hnot] at hget
      exact hsome2 i _ hget

/-- In a list of optional positions whose positions are 0, 1, 2, …, the position at a
place is the number of positions before the place. -/
theorem position_eq_count (L : List (Option Nat)) (m s p : Nat)
    (h : L.filterMap id = List.range' 0 m) (hs : L[s]? = some (some p)) :
    p = (L.take s).countP (fun x => x.isSome) := by
  have key : ∀ (L : List (Option Nat)) (b m s p : Nat),
      L.filterMap id = List.range' b m → L[s]? = some (some p) →
      p = b + (L.take s).countP (fun x => x.isSome) := by
    intro L
    induction L with
    | nil =>
      intro b m s p _ hs
      simp at hs
    | cons x t ih =>
      intro b m s p h hs
      cases x with
      | none =>
        simp only [List.filterMap_cons, id] at h
        cases s with
        | zero => simp at hs
        | succ s =>
          have := ih b m s p h (by simpa using hs)
          rw [this]
          simp
      | some v =>
        simp only [List.filterMap_cons, id] at h
        cases m with
        | zero => simp at h
        | succ m =>
          rw [List.range'_succ] at h
          simp only [List.cons.injEq] at h
          obtain ⟨hv, ht⟩ := h
          cases s with
          | zero =>
            simp only [List.getElem?_cons_zero, Option.some.injEq] at hs
            rw [← hs, hv]
            simp
          | succ s =>
            have := ih (b + 1) m s p ht (by simpa using hs)
            rw [this]
            simp only [List.take_succ_cons, List.countP_cons, Option.isSome_some, if_true]
            omega
  have := key L 0 m s p h hs
  omega

theorem countP_isSome_eq_length (L : List (Option Nat)) :
    L.countP (fun x => x.isSome) = (L.filterMap id).length := by
  induction L with
  | nil => rfl
  | cons x t ih =>
    cases x with
    | none => simp only [List.countP_cons, List.filterMap_cons, id, ih]; simp
    | some v => simp only [List.countP_cons, List.filterMap_cons, id, ih]; simp

/-! ## Labels that occur once, and their places -/

/-- An element at a place of a list occurs once in the list exactly when it stands at no
other place. -/
theorem count_eq_one_iff_unique {α : Type} [BEq α] [LawfulBEq α] (L : List α) (s : Nat)
    (l : α) (h : L[s]? = some l) :
    L.count l = 1 ↔ ∀ s2, L[s2]? = some l → s2 = s := by
  induction L generalizing s with
  | nil => simp at h
  | cons a t ih =>
    cases s with
    | zero =>
      simp only [List.getElem?_cons_zero, Option.some.injEq] at h
      subst h
      rw [List.count_cons_self]
      constructor
      · intro hc s2 hs2
        cases s2 with
        | zero => rfl
        | succ k =>
          exfalso
          have hmem : a ∈ t := List.getElem?_mem (by simpa using hs2)
          have := List.count_pos_iff.2 hmem
          omega
      · intro hu
        have hnot : a ∉ t := by
          intro hmem
          obtain ⟨k, hk⟩ := List.getElem?_of_mem hmem
          have := hu (k + 1) (by simpa using hk)
          omega
        rw [List.count_eq_zero.2 hnot]
    | succ s =>
      have ht : t[s]? = some l := by simpa using h
      have hpos : 0 < t.count l := List.count_pos_iff.2 (List.getElem?_mem ht)
      by_cases hal : a = l
      · subst hal
        rw [List.count_cons_self]
        constructor
        · intro hc
          omega
        · intro hu
          have := hu 0 (by simp)
          omega
      · rw [List.count_cons_of_ne (fun h => hal h.symm), ih s ht]
        constructor
        · intro hu s2 hs2
          cases s2 with
          | zero =>
            simp only [List.getElem?_cons_zero, Option.some.injEq] at hs2
            exact absurd hs2 hal
          | succ k =>
            have := hu k (by simpa using hs2)
            omega
        · intro hu s2 hs2
          have := hu (s2 + 1) (by simpa using hs2)
          omega

/-- The place that `argfind` finds for an element kept by a filter that stands at one
place only: the number of kept elements before that place. -/
theorem argfind_filter_once {α : Type} [DecidableEq α] (L : List α) (q : α → Bool) (s : Nat)
    (l : α) (h : L[s]? = some l) (hq : q l = true) (hu : ∀ s2, L[s2]? = some l → s2 = s) :
    alg.argfind (L.filter q) l = some ((L.take s).filter q).length := by
  induction L generalizing s with
  | nil => simp at h
  | cons a t ih =>
    cases s with
    | zero =>
      simp only [List.getElem?_cons_zero, Option.some.injEq] at h
      subst h
      rw [List.filter_cons, if_pos hq]
      simp [alg.argfind]
    | succ s =>
      have ht : t[s]? = some l := by simpa using h
      have hal : a ≠ l := by
        intro hal
        have := hu 0 (by simp [hal])
        omega
      have ih2 := ih s ht (by
        intro s2 hs2
        have := hu (s2 + 1) (by simpa using hs2)
        omega)
      by_cases hqa : q a = true
      · rw [List.filter_cons, if_pos hqa, List.take_succ_cons, List.filter_cons, if_pos hqa]
        simp only [alg.argfind, if_neg hal, ih2, Option.map_some', List.length_cons]
      · rw [List.filter_cons, if_neg hqa, List.take_succ_cons, List.filter_cons, if_neg hqa]
        exact ih2

/-- Two lists of one length with two tests that agree place by place have as many passing
elements before every place. -/
theorem filter_take_length_eq {α β : Type} (A : List α) (B : List β) (p : α → Bool)
    (q : β → Bool) (hlen : A.length = B.length)
    (h : ∀ (i : Nat) (a : α) (b : β), A[i]? = some a → B[i]? = some b → p a = q b) (s : Nat) :
    ((A.take s).filter p).length = (B.take s).countP q := by
  induction A generalizing B s with
  | nil =>
    have : B = [] := List.length_eq_zero.1 hlen.symm
    subst this
    simp
  | cons a t ih =>
    cases B with
    | nil => simp at hlen
    | cons b u =>
      cases s with
      | zero => simp
      | succ s =>
        have h0 : p a = q b := h 0 a b (by simp) (by simp)
        have ih2 := ih u (by simpa using hlen)
          (fun i x y hx hy => h (i + 1) x y (by simpa using hx) (by simpa using hy)) s
        rw [List.take_succ_cons, List.take_succ_cons, List.filter_cons, List.countP_cons, ← h0]
        by_cases hp : p a = true
        · rw [if_pos hp, if_pos hp, List.length_cons, ih2]
        · rw [if_neg hp, if_neg hp, ih2]
          rfl

/-- A list without repetition whose elements are two given different elements, both in the
list, has two elements. -/
theorem length_two_of_pair {α : Type} [DecidableEq α] (l : List α) (a b : α) (hnd : l.Nodup)
    (ha : a ∈ l) (hb : b ∈ l) (hab : a ≠ b) (hall : ∀ x ∈ l, x = a ∨ x = b) :
    l.length = 2 := by
  have hperm : l.Perm [a, b] := by
    rw [List.perm_ext_iff_of_nodup hnd (by simp [hab])]
    intro x
    simp only [List.mem_cons, List.mem_singleton, List.not_mem_nil, or_false]
    constructor
    · exact hall x
    · rintro (h | h)
      · rw [h]; exact ha
      · rw [h]; exact hb
  exact hperm.length_eq

theorem flatMap_length_two {α β : Type} (l : List α) (f : α → List β)
    (h : ∀ x ∈ l, (f x).length = 2) : (l.flatMap f).length = 2 * l.length := by
  induction l with
  | nil => rfl
  | cons a t ih =>
    rw [List.flatMap_cons, List.length_append, h a (List.mem_cons_self _ _),
      ih (fun x hx => h x (List.mem_cons_of_mem _ hx)), List.length_cons]
    omega

/-! ## The index locations of a step and the cursors of its sub-expression -/

theorem slot_at_slot (c : pairwise_contraction_type) (s : Nat)
    (hs : s < c.lhs_.rank + c.rhs_.rank) : c.slot (c.slot_at s) := by
  unfold pairwise_contraction_type.slot_at pairwise_contraction_type.slot
  by_cases h : s < c.lhs_.rank
  · rw [if_pos h]
    exact Or.inl ⟨rfl, h⟩
  · rw [if_neg h]
    exact Or.inr ⟨rfl, by dsimp only; omega⟩

theorem slot_at_inj (c : pairwise_contraction_type) (hne : c.lhs_.id ≠ c.rhs_.id) (s s2 : Nat)
    (h : c.slot_at s = c.slot_at s2) : s = s2 := by
  unfold pairwise_contraction_type.slot_at at h
  by_cases h1 : s < c.lhs_.rank <;> by_cases h2 : s2 < c.lhs_.rank
  · rw [if_pos h1, if_pos h2] at h
    exact congrArg index_location.index h
  · rw [if_pos h1, if_neg h2] at h
    exact absurd (congrArg index_location.id h) hne
  · rw [if_neg h1, if_pos h2] at h
    exact absurd (congrArg index_location.id h).symm hne
  · rw [if_neg h1, if_neg h2] at h
    have := congrArg index_location.index h
    dsimp only at this
    omega

theorem slot_at_surj (c : pairwise_contraction_type) (hne : c.lhs_.id ≠ c.rhs_.id)
    (loc : index_location) (h : c.slot loc) :
    ∃ s, s < c.lhs_.rank + c.rhs_.rank ∧ c.slot_at s = loc := by
  rcases slot_cases c hne loc h with ⟨h1, _, h3⟩ | ⟨h1, _, h3⟩
  · refine ⟨loc.index, by omega, ?_⟩
    unfold pairwise_contraction_type.slot_at
    rw [if_pos h3, ← h1]
  · refine ⟨c.lhs_.rank + loc.index, by omega, ?_⟩
    unfold pairwise_contraction_type.slot_at
    rw [if_neg (by omega), ← h1, Nat.add_sub_cancel_left]

/-- The label at a place of the labels of the sub-expression, read factor by factor, is the
label of the index location of that place. -/
theorem labels_at_place (c : pairwise_contraction_type) (hne : c.lhs_.id ≠ c.rhs_.id)
    (strs : List Char × List Char) (h1 : strs.1.length = c.lhs_.rank) (s : Nat) :
    (strs.1.map (fun x => [x]) ++ strs.2.map (fun x => [x]))[s]? =
      (c.label_at strs (c.slot_at s)).map (fun x => [x]) := by
  unfold pairwise_contraction_type.slot_at pairwise_contraction_type.label_at
  by_cases h : s < c.lhs_.rank
  · rw [if_pos h]
    simp only [if_true]
    rw [List.getElem?_append_left (by rw [List.length_map, h1]; exact h), List.getElem?_map]
  · rw [if_neg h]
    simp only [if_neg hne.symm]
    rw [List.getElem?_append_right (by rw [List.length_map, h1]; omega), List.length_map, h1,
      List.getElem?_map]

/-- The position at a place of the two arrays of positions of `pairwise_contraction`, read
one after the other, is the position of the index location of that place. -/
theorem positions_at_place (c : pairwise_contraction_type) (hne : c.lhs_.id ≠ c.rhs_.id)
    (lp rp : List (Option Nat)) (h1 : lp.length = c.lhs_.rank) (s : Nat) :
    (lp ++ rp)[s]? =
      (if (c.slot_at s).id = c.lhs_.id then lp else rp)[(c.slot_at s).index]? := by
  unfold pairwise_contraction_type.slot_at
  by_cases h : s < c.lhs_.rank
  · rw [if_pos h]
    simp only [if_true]
    rw [List.getElem?_append_left (by rw [h1]; exact h)]
  · rw [if_neg h]
    simp only [if_neg hne.symm]
    rw [List.getElem?_append_right (by rw [h1]; omega), h1]

theorem mem_ends (edges : List edge) (loc : index_location) :
    loc ∈ edges.flatMap (fun e => [e.left, e.right]) ↔
      ∃ e ∈ edges, e.left = loc ∨ e.right = loc := by
  rw [List.mem_flatMap]
  constructor
  · rintro ⟨e, he, h⟩
    simp only [List.mem_cons, List.not_mem_nil, or_false] at h
    rcases h with h | h
    · exact ⟨e, he, Or.inl h.symm⟩
    · exact ⟨e, he, Or.inr h.symm⟩
  · rintro ⟨e, he, h | h⟩
    · exact ⟨e, he, by rw [← h]; simp⟩
    · exact ⟨e, he, by rw [← h]; simp⟩

/-- The label of a place of the sub-expression stands at no other place exactly when the
index location of the place is not an end of an edge of the step. -/
theorem unique_iff_retained (c : pairwise_contraction_type) (hne : c.lhs_.id ≠ c.rhs_.id)
    (hsum : c.lhs_.rank + c.rhs_.rank ≤ 256)
    (hslots : ∀ e ∈ c.edges_, c.slot e.left ∧ c.slot e.right)
    (hd : ∀ e ∈ c.edges_, e.left ≠ e.right)
    (hap : c.edges_.Pairwise edge.apart)
    (strs : List Char × List Char) (inv : labels_inv c c.edges_ strs)
    (s : Nat) (hs : s < c.lhs_.rank + c.rhs_.rank) (a : index_label)
    (ha : (strs.1.map (fun x => [x]) ++ strs.2.map (fun x => [x]))[s]? = some a) :
    (∀ s2, (strs.1.map (fun x => [x]) ++ strs.2.map (fun x => [x]))[s2]? = some a → s2 = s) ↔
      c.slot_at s ∉ c.edges_.flatMap (fun e => [e.left, e.right]) := by
  have hinj : ∀ x y : Option Char, x.map (fun x => [x]) = y.map (fun x => [x]) → x = y := by
    intro x y hxy
    cases x <;> cases y <;> simp at hxy ⊢
    exact hxy
  have hlen : (strs.1.map (fun x => [x]) ++ strs.2.map (fun x => [x])).length =
      c.lhs_.rank + c.rhs_.rank := by
    rw [List.length_append, List.length_map, List.length_map, inv.len1, inv.len2]
  constructor
  · intro hu hin
    obtain ⟨e, he, hend⟩ := (mem_ends _ _).1 hin
    have key : ∀ loc2, c.slot loc2 → loc2 ≠ c.slot_at s →
        ((e.left = c.slot_at s ∧ e.right = loc2) ∨ (e.left = loc2 ∧ e.right = c.slot_at s)) →
        False := by
      intro loc2 hl2 hne2 hends
      have hsame := (labels_same_iff c hne hsum hslots hd hap strs inv (c.slot_at s) loc2
        (slot_at_slot c s hs) hl2 (fun h => hne2 h.symm)).2 ⟨e, he, hends⟩
      obtain ⟨s2, hs2, hloc2⟩ := slot_at_surj c hne loc2 hl2
      have h2 : (strs.1.map (fun x => [x]) ++ strs.2.map (fun x => [x]))[s2]? = some a := by
        rw [labels_at_place c hne strs inv.len1, hloc2, ← hsame,
          ← labels_at_place c hne strs inv.len1]
        exact ha
      have := hu s2 h2
      rw [this] at hloc2
      exact hne2 hloc2.symm
    rcases hend with h | h
    · exact key e.right (hslots e he).2 (fun h2 => hd e he (h.trans h2.symm))
        (Or.inl ⟨h, rfl⟩)
    · exact key e.left (hslots e he).1 (fun h2 => hd e he (h2.trans h.symm))
        (Or.inr ⟨rfl, h⟩)
  · intro hnot s2 h2
    by_contra hne2
    have hs2 : s2 < c.lhs_.rank + c.rhs_.rank := by
      rw [← hlen]
      exact (List.getElem?_eq_some_iff.1 h2).1
    have hlocs : c.slot_at s ≠ c.slot_at s2 :=
      fun h => hne2 (slot_at_inj c hne s s2 h).symm
    have hsame : c.label_at strs (c.slot_at s) = c.label_at strs (c.slot_at s2) := by
      apply hinj
      rw [← labels_at_place c hne strs inv.len1, ← labels_at_place c hne strs inv.len1, ha, h2]
    obtain ⟨e, he, hends⟩ := (labels_same_iff c hne hsum hslots hd hap strs inv _ _
      (slot_at_slot c s hs) (slot_at_slot c s2 hs2) hlocs).1 hsame
    apply hnot
    rw [mem_ends]
    rcases hends with h | h
    · exact ⟨e, he, Or.inl h.1⟩
    · exact ⟨e, he, Or.inr h.2⟩

theorem cursor_of_inj (c : pairwise_contraction_type) (hne : c.lhs_.id ≠ c.rhs_.id)
    (loc1 loc2 : index_location) (h1 : c.slot loc1) (h2 : c.slot loc2)
    (h : c.cursor_of loc1 = c.cursor_of loc2) : loc1 = loc2 := by
  unfold pairwise_contraction_type.cursor_of at h
  have hi : loc1.index = loc2.index := congrArg index_cursor.index h
  have hf := congrArg index_cursor.factor h
  dsimp only at hf
  have hid : loc1.id = loc2.id := by
    rcases slot_cases c hne loc1 h1 with ⟨a1, a2, _⟩ | ⟨a1, a2, _⟩ <;>
      rcases slot_cases c hne loc2 h2 with ⟨b1, b2, _⟩ | ⟨b1, b2, _⟩
    · rw [a1, b1]
    · rw [if_pos a1, if_neg b2] at hf
      cases hf
    · rw [if_neg a2, if_pos b1] at hf
      cases hf
    · rw [a1, b1]
  cases loc1
  cases loc2
  simp only at hi hid
  rw [hi, hid]

/-- The cursors of the sub-expression of a step with their labels: the index locations of
the step with their labels. -/
theorem cursor_label_iff (c : pairwise_contraction_type) (hne : c.lhs_.id ≠ c.rhs_.id)
    (strs : List Char × List Char) (h1 : strs.1.length = c.lhs_.rank)
    (h2 : strs.2.length = c.rhs_.rank) (cur : index_cursor) (l : index_label) :
    (cur, l) ∈ iterate_index_labels_with_cursor
        [strs.1.map (fun x => [x]), strs.2.map (fun x => [x])] ↔
      ∃ (loc : index_location) (ch : Char), c.slot loc ∧ cur = c.cursor_of loc ∧ l = [ch] ∧
        c.label_at strs loc = some ch := by
  rw [iterate_mem]
  constructor
  · rintro ⟨labels, hf, hi⟩
    obtain ⟨f, i⟩ := cur
    dsimp only at hf hi
    match f, hf with
    | 0, hf =>
      simp only [List.getElem?_cons_zero, Option.some.injEq] at hf
      rw [← hf, List.getElem?_map] at hi
      cases hch : strs.1[i]? with
      | none => rw [hch] at hi; simp at hi
      | some ch =>
        rw [hch] at hi
        simp only [Option.map_some', Option.some.injEq] at hi
        have hlt : i < c.lhs_.rank := by
          rw [← h1]
          exact (List.getElem?_eq_some_iff.1 hch).1
        refine ⟨⟨c.lhs_.id, i⟩, ch, Or.inl ⟨rfl, hlt⟩, ?_, hi.symm, ?_⟩
        · unfold pairwise_contraction_type.cursor_of
          simp only [if_true]
        · unfold pairwise_contraction_type.label_at
          simp only [if_true]
          exact hch
    | 1, hf =>
      simp only [List.getElem?_cons_succ, List.getElem?_cons_zero, Option.some.injEq] at hf
      rw [← hf, List.getElem?_map] at hi
      cases hch : strs.2[i]? with
      | none => rw [hch] at hi; simp at hi
      | some ch =>
        rw [hch] at hi
        simp only [Option.map_some', Option.some.injEq] at hi
        have hlt : i < c.rhs_.rank := by
          rw [← h2]
          exact (List.getElem?_eq_some_iff.1 hch).1
        refine ⟨⟨c.rhs_.id, i⟩, ch, Or.inr ⟨rfl, hlt⟩, ?_, hi.symm, ?_⟩
        · unfold pairwise_contraction_type.cursor_of
          simp only [if_neg hne.symm]
        · unfold pairwise_contraction_type.label_at
          simp only [if_neg hne.symm]
          exact hch
    | n + 2, hf => simp at hf
  · rintro ⟨loc, ch, hslot, hcur, hl, hlab⟩
    unfold pairwise_contraction_type.label_at at hlab
    rw [hcur, hl]
    unfold pairwise_contraction_type.cursor_of
    rcases slot_cases c hne loc hslot with ⟨a1, _, _⟩ | ⟨_, a2, _⟩
    · rw [if_pos a1] at hlab
      refine ⟨strs.1.map (fun x => [x]), ?_, ?_⟩
      · simp only [if_pos a1, List.getElem?_cons_zero]
      · dsimp only
        rw [List.getElem?_map, hlab]
        rfl
    · rw [if_neg a2] at hlab
      refine ⟨strs.2.map (fun x => [x]), ?_, ?_⟩
      · simp only [if_neg a2, List.getElem?_cons_succ, List.getElem?_cons_zero]
      · dsimp only
        rw [List.getElem?_map, hlab]
        rfl

/-! ## The contraction groups of the sub-expression of a step -/

theorem edge_of_end_unique (edges : List edge) (hap : edges.Pairwise edge.apart)
    (e1 e2 : edge) (h1 : e1 ∈ edges) (h2 : e2 ∈ edges) (loc : index_location)
    (hl1 : e1.left = loc ∨ e1.right = loc) (hl2 : e2.left = loc ∨ e2.right = loc) :
    e1 = e2 := by
  by_contra hne
  obtain ⟨a1, a2, a3, a4⟩ := edges_apart edges hap e1 e2 h1 h2 hne
  rcases hl1 with h | h <;> rcases hl2 with h3 | h3
  · exact a1 (h3.trans h.symm)
  · exact a3 (h3.trans h.symm)
  · exact a2 (h3.trans h.symm)
  · exact a4 (h3.trans h.symm)

theorem label_at_some (c : pairwise_contraction_type) (hne : c.lhs_.id ≠ c.rhs_.id)
    (strs : List Char × List Char) (h1 : strs.1.length = c.lhs_.rank)
    (h2 : strs.2.length = c.rhs_.rank) (loc : index_location) (h : c.slot loc) :
    ∃ ch, c.label_at strs loc = some ch := by
  unfold pairwise_contraction_type.label_at
  rcases slot_cases c hne loc h with ⟨a1, _, a3⟩ | ⟨_, a2, a3⟩
  · rw [if_pos a1]
    exact ⟨strs.1[loc.index], List.getElem?_eq_getElem (by rw [h1]; exact a3)⟩
  · rw [if_neg a2]
    exact ⟨strs.2[loc.index], List.getElem?_eq_getElem (by rw [h2]; exact a3)⟩

theorem two_le_length_of_pair {α : Type} [DecidableEq α] (l : List α) (a b : α)
    (ha : a ∈ l) (hb : b ∈ l) (hab : a ≠ b) : 2 ≤ l.length := by
  have hsub : List.Subperm [a, b] l := by
    apply List.subperm_of_subset (by simp [hab])
    intro x hx
    simp only [List.mem_cons, List.mem_singleton, List.not_mem_nil, or_false] at hx
    rcases hx with h | h
    · rw [h]; exact ha
    · rw [h]; exact hb
  exact hsub.length_le

theorem pair_of_two_le {α : Type} (l : List α) (hnd : l.Nodup) (h : 2 ≤ l.length) :
    ∃ a b, a ∈ l ∧ b ∈ l ∧ a ≠ b := by
  match l, hnd, h with
  | a :: b :: rest, hnd, _ =>
    refine ⟨a, b, by simp, by simp, ?_⟩
    intro hab
    rw [List.nodup_cons] at hnd
    exact hnd.1 (by rw [hab]; simp)

/-- Every contraction group of the sub-expression of a step holds two cursors: the cursors
of the two ends of one edge of the step. -/
theorem group_is_edge (c : pairwise_contraction_type) (hne : c.lhs_.id ≠ c.rhs_.id)
    (hsum : c.lhs_.rank + c.rhs_.rank ≤ 256)
    (hslots : ∀ e ∈ c.edges_, c.slot e.left ∧ c.slot e.right)
    (hd : ∀ e ∈ c.edges_, e.left ≠ e.right)
    (hap : c.edges_.Pairwise edge.apart)
    (strs : List Char × List Char) (inv : labels_inv c c.edges_ strs)
    (s : List Char) (p : einsum_parsed) (hlen : s.length < 2 ^ 64)
    (hp : einsum_parsed.parse s = .ok p)
    (hfl : p.factor_index_labels_ = [strs.1.map (fun x => [x]), strs.2.map (fun x => [x])])
    (k : Nat) (g : contraction) (hg : p.contractions_[k]? = some g) :
    ∃ e ∈ c.edges_, g.data_.length = 2 ∧
      ∀ cur, cur ∈ g.data_ ↔ cur = c.cursor_of e.left ∨ cur = c.cursor_of e.right := by
  obtain ⟨l, hdata, h2⟩ := group_of_label s p hlen hp k g hg
  have hnd : g.data_.Nodup := by
    rw [hdata]
    exact cursors_of_label_nodup _ l
  have hmem : ∀ cur, cur ∈ g.data_ ↔ ∃ (loc : index_location) (ch : Char),
      c.slot loc ∧ cur = c.cursor_of loc ∧ l = [ch] ∧ c.label_at strs loc = some ch := by
    intro cur
    rw [hdata, mem_cursors_of_label, hfl]
    exact cursor_label_iff c hne strs inv.len1 inv.len2 cur l
  obtain ⟨cur1, cur2, hc1, hc2, hc12⟩ := pair_of_two_le g.data_ hnd h2
  obtain ⟨loc1, ch1, hs1, hcur1, hl1, hlab1⟩ := (hmem cur1).1 hc1
  obtain ⟨loc2, ch2, hs2, hcur2, hl2, hlab2⟩ := (hmem cur2).1 hc2
  have hch : ch1 = ch2 := by
    rw [hl1] at hl2
    simpa using hl2
  subst hch
  have hloc12 : loc1 ≠ loc2 := by
    intro h
    apply hc12
    rw [hcur1, hcur2, h]
  obtain ⟨e, he, hends⟩ := (labels_same_iff c hne hsum hslots hd hap strs inv loc1 loc2 hs1 hs2
    hloc12).1 (hlab1.trans hlab2.symm)
  have hall : ∀ cur ∈ g.data_, cur = cur1 ∨ cur = cur2 := by
    intro cur hcur
    obtain ⟨loc3, ch3, hs3, hcur3, hl3, hlab3⟩ := (hmem cur).1 hcur
    have hch : ch3 = ch1 := by
      rw [hl1] at hl3
      simpa using hl3.symm
    subst hch
    by_cases h31 : loc3 = loc1
    · left
      rw [hcur3, hcur1, h31]
    · right
      obtain ⟨e2, he2, hends2⟩ := (labels_same_iff c hne hsum hslots hd hap strs inv loc1 loc3
        hs1 hs3 (fun h => h31 h.symm)).1 (hlab1.trans hlab3.symm)
      have hee : e = e2 := by
        apply edge_of_end_unique c.edges_ hap e e2 he he2 loc1
        · rcases hends with h | h
          · exact Or.inl h.1
          · exact Or.inr h.2
        · rcases hends2 with h | h
          · exact Or.inl h.1
          · exact Or.inr h.2
      subst hee
      have h32 : loc3 = loc2 := by
        rcases hends with ⟨a1, a2⟩ | ⟨a1, a2⟩ <;> rcases hends2 with ⟨b1, b2⟩ | ⟨b1, b2⟩
        · exact b2.symm.trans a2
        · exact absurd (b1.symm.trans a1) h31
        · exact absurd (b2.symm.trans a2) h31
        · exact b1.symm.trans a1
      rw [hcur3, hcur2, h32]
  refine ⟨e, he, length_two_of_pair g.data_ cur1 cur2 hnd hc1 hc2 hc12 hall, ?_⟩
  intro cur
  constructor
  · intro hcur
    rcases hall cur hcur with h | h <;> rcases hends with ⟨a1, a2⟩ | ⟨a1, a2⟩
    · exact Or.inl (by rw [h, hcur1, a1])
    · exact Or.inr (by rw [h, hcur1, a2])
    · exact Or.inr (by rw [h, hcur2, a2])
    · exact Or.inl (by rw [h, hcur2, a1])
  · intro hcur
    rcases hcur with h | h <;> rcases hends with ⟨a1, a2⟩ | ⟨a1, a2⟩
    · rw [h, a1, ← hcur1]; exact hc1
    · rw [h, a1, ← hcur2]; exact hc2
    · rw [h, a2, ← hcur2]; exact hc2
    · rw [h, a2, ← hcur1]; exact hc1

/-- Every edge of a step has a contraction group in the sub-expression of the step, which
holds the cursors of its two ends. -/
theorem edge_has_group (c : pairwise_contraction_type) (hne : c.lhs_.id ≠ c.rhs_.id)
    (hsum : c.lhs_.rank + c.rhs_.rank ≤ 256)
    (hslots : ∀ e ∈ c.edges_, c.slot e.left ∧ c.slot e.right)
    (hd : ∀ e ∈ c.edges_, e.left ≠ e.right)
    (hap : c.edges_.Pairwise edge.apart)
    (strs : List Char × List Char) (inv : labels_inv c c.edges_ strs)
    (s : List Char) (p : einsum_parsed) (hlen : s.length < 2 ^ 64)
    (hp : einsum_parsed.parse s = .ok p)
    (hfl : p.factor_index_labels_ = [strs.1.map (fun x => [x]), strs.2.map (fun x => [x])])
    (e : edge) (he : e ∈ c.edges_) :
    ∃ (k : Nat) (g : contraction), p.contractions_[k]? = some g ∧
      c.cursor_of e.left ∈ g.data_ ∧ c.cursor_of e.right ∈ g.data_ := by
  obtain ⟨hsl, hsr⟩ := hslots e he
  obtain ⟨ch, hlab⟩ := label_at_some c hne strs inv.len1 inv.len2 e.left hsl
  have hlab2 : c.label_at strs e.right = some ch := by
    rw [← hlab]
    exact ((labels_same_iff c hne hsum hslots hd hap strs inv e.left e.right hsl hsr
      (hd e he)).2 ⟨e, he, Or.inl ⟨rfl, rfl⟩⟩).symm
  have hm1 : (c.cursor_of e.left, [ch]) ∈
      iterate_index_labels_with_cursor p.factor_index_labels_ := by
    rw [hfl]
    exact (cursor_label_iff c hne strs inv.len1 inv.len2 _ _).2 ⟨e.left, ch, hsl, rfl, rfl, hlab⟩
  have hm2 : (c.cursor_of e.right, [ch]) ∈
      iterate_index_labels_with_cursor p.factor_index_labels_ := by
    rw [hfl]
    exact (cursor_label_iff c hne strs inv.len1 inv.len2 _ _).2
      ⟨e.right, ch, hsr, rfl, rfl, hlab2⟩
  have hcne : c.cursor_of e.left ≠ c.cursor_of e.right :=
    fun h => hd e he (cursor_of_inj c hne _ _ hsl hsr h)
  have hcount := count_label_eq (iterate_index_labels_with_cursor p.factor_index_labels_) [ch]
  rw [iterate_labels] at hcount
  have h2 : 2 ≤ p.factor_index_labels_.flatten.count [ch] := by
    rw [hcount]
    exact two_le_length_of_pair _ _ _ ((mem_cursors_of_label _ _ _).2 hm1)
      ((mem_cursors_of_label _ _ _).2 hm2) hcne
  obtain ⟨k, g, hg, hdata⟩ := group_of_repeated_label_cursors s p hlen hp [ch] h2
  refine ⟨k, g, hg, ?_, ?_⟩
  · rw [hdata]
    exact (mem_cursors_of_label _ _ _).2 hm1
  · rw [hdata]
    exact (mem_cursors_of_label _ _ _).2 hm2

/-- The sub-expression of a step has as many contraction groups as the step has edges. -/
theorem groups_count (c : pairwise_contraction_type) (hne : c.lhs_.id ≠ c.rhs_.id)
    (hsum : c.lhs_.rank + c.rhs_.rank ≤ 256)
    (hslots : ∀ e ∈ c.edges_, c.slot e.left ∧ c.slot e.right)
    (hd : ∀ e ∈ c.edges_, e.left ≠ e.right)
    (hap : c.edges_.Pairwise edge.apart)
    (strs : List Char × List Char) (inv : labels_inv c c.edges_ strs)
    (s : List Char) (p : einsum_parsed) (hlen : s.length < 2 ^ 64)
    (hp : einsum_parsed.parse s = .ok p)
    (hfl : p.factor_index_labels_ = [strs.1.map (fun x => [x]), strs.2.map (fun x => [x])]) :
    p.contractions_.length = c.edges_.length := by
  have hG := group_is_edge c hne hsum hslots hd hap strs inv s p hlen hp hfl
  have hE := edge_has_group c hne hsum hslots hd hap strs inv s p hlen hp hfl
  have hX : (p.contractions_.flatMap (fun g => g.data_)).Nodup := by
    rw [List.nodup_flatMap]
    constructor
    · intro g hg
      obtain ⟨k, hk⟩ := List.getElem?_of_mem hg
      obtain ⟨l, hdata, _⟩ := group_of_label s p hlen hp k g hk
      rw [hdata]
      exact cursors_of_label_nodup _ l
    · rw [List.pairwise_iff_getElem]
      intro i j hi hj hij
      intro cur h1 h2
      have := group_unique s p hlen hp i j _ _ cur (List.getElem?_eq_getElem hi)
        (List.getElem?_eq_getElem hj) h1 h2
      omega
  have hY : ((c.edges_.flatMap (fun e => [e.left, e.right])).map c.cursor_of).Nodup := by
    apply List.Nodup.map_on _ (ends_nodup c.edges_ hd hap)
    intro a ha b hb hab
    obtain ⟨e1, he1, h1⟩ := (mem_ends _ _).1 ha
    obtain ⟨e2, he2, h2⟩ := (mem_ends _ _).1 hb
    have hsa : c.slot a := by
      rcases h1 with h | h
      · rw [← h]; exact (hslots e1 he1).1
      · rw [← h]; exact (hslots e1 he1).2
    have hsb : c.slot b := by
      rcases h2 with h | h
      · rw [← h]; exact (hslots e2 he2).1
      · rw [← h]; exact (hslots e2 he2).2
    exact cursor_of_inj c hne a b hsa hsb hab
  have hperm : (p.contractions_.flatMap (fun g => g.data_)).Perm
      ((c.edges_.flatMap (fun e => [e.left, e.right])).map c.cursor_of) := by
    rw [List.perm_ext_iff_of_nodup hX hY]
    intro cur
    constructor
    · intro h
      obtain ⟨g, hg, hcur⟩ := List.mem_flatMap.1 h
      obtain ⟨k, hk⟩ := List.getElem?_of_mem hg
      obtain ⟨e, he, _, hiff⟩ := hG k g hk
      rcases (hiff cur).1 hcur with h1 | h1
      · rw [h1]
        exact List.mem_map_of_mem _ ((mem_ends _ _).2 ⟨e, he, Or.inl rfl⟩)
      · rw [h1]
        exact List.mem_map_of_mem _ ((mem_ends _ _).2 ⟨e, he, Or.inr rfl⟩)
    · intro h
      obtain ⟨loc, hloc, hcur⟩ := List.mem_map.1 h
      obtain ⟨e, he, hend⟩ := (mem_ends _ _).1 hloc
      obtain ⟨k, g, hg, hl, hr⟩ := hE e he
      refine List.mem_flatMap.2 ⟨g, List.getElem?_mem hg, ?_⟩
      rcases hend with h1 | h1
      · rw [← hcur, ← h1]; exact hl
      · rw [← hcur, ← h1]; exact hr
  have hlen1 : (p.contractions_.flatMap (fun g => g.data_)).length =
      2 * p.contractions_.length := by
    apply flatMap_length_two
    intro g hg
    obtain ⟨k, hk⟩ := List.getElem?_of_mem hg
    obtain ⟨e, _, h2, _⟩ := hG k g hk
    exact h2
  have hlen2 := hperm.length_eq
  rw [hlen1, List.length_map, ends_length] at hlen2
  omega

/-! ## The implicit output of the sub-expression of a step -/

/-- The implicit output of the sub-expression of a step has one label per position of the
new node, and the label of an index location that is not an end of an edge of the step
stands in the output at the position that `pairwise_contraction` computes for the index
location. -/
theorem output_positions (c : pairwise_contraction_type) (hne : c.lhs_.id ≠ c.rhs_.id)
    (hsum : c.lhs_.rank + c.rhs_.rank ≤ 256)
    (hslots : ∀ e ∈ c.edges_, c.slot e.left ∧ c.slot e.right)
    (hd : ∀ e ∈ c.edges_, e.left ≠ e.right)
    (hap : c.edges_.Pairwise edge.apart)
    (strs : List Char × List Char) (inv : labels_inv c c.edges_ strs)
    (s : List Char) (p : einsum_parsed) (hlen : s.length < 2 ^ 64)
    (hp : einsum_parsed.parse s = .ok p)
    (hfl : p.factor_index_labels_ = [strs.1.map (fun x => [x]), strs.2.map (fun x => [x])])
    (hout : p.output_index_labels_ = p.free_index_labels_)
    (lp rp : List (Option Nat)) (m : Nat)
    (hl1 : lp.length = c.lhs_.rank) (hl2 : rp.length = c.rhs_.rank)
    (hL : ∀ i : Nat, i < c.lhs_.rank →
      ((⟨c.lhs_.id, i⟩ : index_location) ∈ c.edges_.flatMap (fun e => [e.left, e.right]) →
        lp[i]? = some none) ∧
      ((⟨c.lhs_.id, i⟩ : index_location) ∉ c.edges_.flatMap (fun e => [e.left, e.right]) →
        ∃ p, lp[i]? = some (some p)))
    (hR : ∀ i : Nat, i < c.rhs_.rank →
      ((⟨c.rhs_.id, i⟩ : index_location) ∈ c.edges_.flatMap (fun e => [e.left, e.right]) →
        rp[i]? = some none) ∧
      ((⟨c.rhs_.id, i⟩ : index_location) ∉ c.edges_.flatMap (fun e => [e.left, e.right]) →
        ∃ p, rp[i]? = some (some p)))
    (hrange : (lp ++ rp).filterMap id = List.range' 0 m) :
    p.output_index_labels_.length = m ∧
    ∀ loc : index_location, c.slot loc →
      loc ∉ c.edges_.flatMap (fun e => [e.left, e.right]) →
      ∃ (ch : Char) (pos : Nat), c.label_at strs loc = some ch ∧
        alg.argfind p.output_index_labels_ [ch] = some pos ∧
        (if loc.id = c.lhs_.id then lp else rp)[loc.index]? = some (some pos) := by
  have hfree := parse_free_labels s p hlen hp
  have hflat : p.factor_index_labels_.flatten =
      strs.1.map (fun x => [x]) ++ strs.2.map (fun x => [x]) := by
    rw [hfl]
    simp
  rw [hflat] at hfree
  have hLlen : (strs.1.map (fun x => [x]) ++ strs.2.map (fun x => [x])).length =
      c.lhs_.rank + c.rhs_.rank := by
    rw [List.length_append, List.length_map, List.length_map, inv.len1, inv.len2]
  have hPlen : (lp ++ rp).length = c.lhs_.rank + c.rhs_.rank := by
    rw [List.length_append, hl1, hl2]
  have hslotpos : ∀ loc : index_location, c.slot loc →
      (loc ∈ c.edges_.flatMap (fun e => [e.left, e.right]) →
        (if loc.id = c.lhs_.id then lp else rp)[loc.index]? = some none) ∧
      (loc ∉ c.edges_.flatMap (fun e => [e.left, e.right]) →
        ∃ p, (if loc.id = c.lhs_.id then lp else rp)[loc.index]? = some (some p)) := by
    intro loc hloc
    rcases slot_cases c hne loc hloc with ⟨a1, _, a3⟩ | ⟨a1, a2, a3⟩
    · have := hL loc.index a3
      rw [← a1] at this
      rw [if_pos a1]
      exact this
    · have := hR loc.index a3
      rw [← a1] at this
      rw [if_neg a2]
      exact this
  have hpoint : ∀ (i : Nat) (a : index_label) (b : Option Nat),
      (strs.1.map (fun x => [x]) ++ strs.2.map (fun x => [x]))[i]? = some a →
      (lp ++ rp)[i]? = some b →
      decide ((strs.1.map (fun x => [x]) ++ strs.2.map (fun x => [x])).count a = 1) =
        b.isSome := by
    intro i a b ha hb
    have hi : i < c.lhs_.rank + c.rhs_.rank := by
      rw [← hLlen]
      exact (List.getElem?_eq_some_iff.1 ha).1
    have h1 := count_eq_one_iff_unique _ i a ha
    have h2 := unique_iff_retained c hne hsum hslots hd hap strs inv i hi a ha
    rw [positions_at_place c hne lp rp hl1] at hb
    obtain ⟨h3, h4⟩ := hslotpos (c.slot_at i) (slot_at_slot c i hi)
    by_cases hin : c.slot_at i ∈ c.edges_.flatMap (fun e => [e.left, e.right])
    · rw [h3 hin] at hb
      rw [← Option.some.inj hb]
      simp only [Option.isSome_none, decide_eq_false_iff_not]
      intro hc
      exact (h2.1 (h1.1 hc)) hin
    · obtain ⟨q, hq⟩ := h4 hin
      rw [hq] at hb
      rw [← Option.some.inj hb]
      simp only [Option.isSome_some, decide_eq_true_eq]
      exact h1.2 (h2.2 hin)
  constructor
  · rw [hout, hfree]
    have h1 := filter_take_length_eq (strs.1.map (fun x => [x]) ++ strs.2.map (fun x => [x]))
      (lp ++ rp) _ (fun x => x.isSome) (by rw [hLlen, hPlen]) hpoint
      (c.lhs_.rank + c.rhs_.rank)
    rw [List.take_of_length_le (by rw [hLlen]), List.take_of_length_le (by rw [hPlen]),
      countP_isSome_eq_length, hrange, List.length_range'] at h1
    exact h1
  · intro loc hloc hret
    obtain ⟨i, hi, hslot⟩ := slot_at_surj c hne loc hloc
    obtain ⟨ch, hch⟩ := label_at_some c hne strs inv.len1 inv.len2 loc hloc
    have ha : (strs.1.map (fun x => [x]) ++ strs.2.map (fun x => [x]))[i]? = some [ch] := by
      rw [labels_at_place c hne strs inv.len1, hslot, hch]
      rfl
    have hu := (unique_iff_retained c hne hsum hslots hd hap strs inv i hi [ch] ha).2
      (by rw [hslot]; exact hret)
    have hcount := (count_eq_one_iff_unique _ i [ch] ha).2 hu
    obtain ⟨pos, hpos⟩ := (hslotpos loc hloc).2 hret
    have hpos2 : (lp ++ rp)[i]? = some (some pos) := by
      rw [positions_at_place c hne lp rp hl1, hslot]
      exact hpos
    refine ⟨ch, pos, hch, ?_, hpos⟩
    rw [hout, hfree, argfind_filter_once _ _ i [ch] ha (by simpa using hcount) hu,
      filter_take_length_eq _ (lp ++ rp) _ (fun x => x.isSome) (by rw [hLlen, hPlen]) hpoint i,
      ← position_eq_count (lp ++ rp) m i pos hrange hpos2]

/-! ## The sub-expression of a step -/

/-- The code units of the labels of a step with at most 159 indices are at least 'a'. -/
theorem labels_codes (c : pairwise_contraction_type) (hne : c.lhs_.id ≠ c.rhs_.id)
    (hsum : c.lhs_.rank + c.rhs_.rank ≤ 159)
    (hslots : ∀ e ∈ c.edges_, c.slot e.left ∧ c.slot e.right)
    (strs : List Char × List Char) (inv : labels_inv c c.edges_ strs) :
    ∀ ch ∈ strs.1 ++ strs.2, 97 ≤ ch.toNat := by
  have hF : ∀ loc, c.slot loc → 97 ≤ (c.first_label loc).toNat := by
    intro loc hloc
    unfold pairwise_contraction_type.first_label
    rw [toNat_ofNat_small _ (Nat.mod_lt _ (by decide))]
    rcases slot_cases c hne loc hloc with ⟨h3, _, h5⟩ | ⟨h3, h4, h5⟩
    · rw [if_pos h3]
      omega
    · rw [if_neg h4]
      omega
  have hslot : ∀ loc, c.slot loc → ∀ ch, c.label_at strs loc = some ch → 97 ≤ ch.toNat := by
    intro loc hloc ch hch
    by_cases h : ∃ e ∈ c.edges_, e.right = loc
    · obtain ⟨e, he, her⟩ := h
      have := inv.moved e he
      rw [her, hch] at this
      rw [Option.some.inj this]
      exact hF _ (hslots e he).1
    · have := inv.kept loc hloc (fun e he her => h ⟨e, he, her⟩)
      rw [hch] at this
      rw [Option.some.inj this]
      exact hF _ hloc
  intro ch hch
  rcases List.mem_append.1 hch with h | h
  · obtain ⟨i, hi⟩ := List.getElem?_of_mem h
    have hlt : i < c.lhs_.rank := by
      rw [← inv.len1]
      exact (List.getElem?_eq_some_iff.1 hi).1
    refine hslot ⟨c.lhs_.id, i⟩ (Or.inl ⟨rfl, hlt⟩) ch ?_
    unfold pairwise_contraction_type.label_at
    simp only [if_true]
    exact hi
  · obtain ⟨i, hi⟩ := List.getElem?_of_mem h
    have hlt : i < c.rhs_.rank := by
      rw [← inv.len2]
      exact (List.getElem?_eq_some_iff.1 hi).1
    refine hslot ⟨c.rhs_.id, i⟩ (Or.inr ⟨rfl, hlt⟩) ch ?_
    unfold pairwise_contraction_type.label_at
    simp only [if_neg hne.symm]
    exact hi

theorem find_new_node (nodes : List node) (id : node_id) (R : Nat)
    (h : ∀ n ∈ nodes, n.id ≠ id) :
    (nodes ++ [(⟨id, R⟩ : node)]).find? (fun n : node => n.id = id) = some ⟨id, R⟩ := by
  induction nodes with
  | nil => simp
  | cons a t ih =>
    rw [List.cons_append, List.find?_cons]
    have ha : decide (a.id = id) = false := by
      simpa using h a (List.mem_cons_self _ _)
    rw [ha]
    exact ih (fun n hn => h n (List.mem_cons_of_mem _ hn))

/-- The positions with which `pairwise_contraction` reconnects the edges of the other nodes
to the new node. -/
theorem contraction_positions (net : connected_tensor_network) (hwf : well_formed net)
    (hbelow : ∀ n ∈ net.nodes_, n.id.id < net.next_id_)
    (lhs rhs : node) (hl : lhs ∈ net.nodes_) (hr : rhs ∈ net.nodes_) (hne : lhs.id ≠ rhs.id)
    (hr12 : lhs.rank + rhs.rank < 2 ^ 64) :
    ∃ (net2 : connected_tensor_network) (lp rp : List (Option Nat)),
      connected_tensor_network.new_index_positions lhs.id rhs.id lhs.rank rhs.rank
        (net.edges_.filter (fun e =>
          connected_tensor_network.edge_part_of_node_pair e lhs.id rhs.id)) = .ok (lp, rp) ∧
      net.pairwise_contraction lhs.id rhs.id = .ok (⟨net.next_id_⟩, net2) ∧
      net2.nodes_ =
        net.nodes_.filter (fun n => !(decide (n.id = lhs.id) || decide (n.id = rhs.id))) ++
          [⟨⟨net.next_id_⟩, lhs.rank + rhs.rank - 2 * (net.edges_.filter (fun e =>
            connected_tensor_network.edge_part_of_node_pair e lhs.id rhs.id)).length⟩] ∧
      net2.edges_ =
        net.edges_.filter (fun e =>
            !((decide (e.left.id = lhs.id) || decide (e.right.id = lhs.id)) ||
              (decide (e.left.id = rhs.id) || decide (e.right.id = rhs.id)))) ++
          ((net.edges_.filter (fun e =>
              (decide (e.left.id = lhs.id) || decide (e.right.id = lhs.id)) ||
              (decide (e.left.id = rhs.id) || decide (e.right.id = rhs.id)))).filter
            (fun e => !((decide (e.left.id = lhs.id) || decide (e.left.id = rhs.id)) &&
              (decide (e.right.id = lhs.id) || decide (e.right.id = rhs.id))))).filterMap
            (connected_tensor_network.reconnected lhs.id rhs.id ⟨net.next_id_⟩ lp rp) ∧
      lp.length = lhs.rank ∧ rp.length = rhs.rank ∧
      (∀ i : Nat, i < lhs.rank →
        ((⟨lhs.id, i⟩ : index_location) ∈ (net.edges_.filter (fun e =>
            connected_tensor_network.edge_part_of_node_pair e lhs.id rhs.id)).flatMap
              (fun e => [e.left, e.right]) → lp[i]? = some none) ∧
        ((⟨lhs.id, i⟩ : index_location) ∉ (net.edges_.filter (fun e =>
            connected_tensor_network.edge_part_of_node_pair e lhs.id rhs.id)).flatMap
              (fun e => [e.left, e.right]) → ∃ p, lp[i]? = some (some p))) ∧
      (∀ i : Nat, i < rhs.rank →
        ((⟨rhs.id, i⟩ : index_location) ∈ (net.edges_.filter (fun e =>
            connected_tensor_network.edge_part_of_node_pair e lhs.id rhs.id)).flatMap
              (fun e => [e.left, e.right]) → rp[i]? = some none) ∧
        ((⟨rhs.id, i⟩ : index_location) ∉ (net.edges_.filter (fun e =>
            connected_tensor_network.edge_part_of_node_pair e lhs.id rhs.id)).flatMap
              (fun e => [e.left, e.right]) → ∃ p, rp[i]? = some (some p))) ∧
      (lp ++ rp).filterMap id = List.range' 0 (lhs.rank + rhs.rank - 2 *
        (net.edges_.filter (fun e =>
          connected_tensor_network.edge_part_of_node_pair e lhs.id rhs.id)).length) := by
  have hfl := find_of_mem_nodup net.nodes_ hwf.ids_nodup lhs hl
  have hfr := find_of_mem_nodup net.nodes_ hwf.ids_nodup rhs hr
  have hpce : ∀ e ∈ (net.edges_.filter (fun e =>
        (decide (e.left.id = lhs.id) || decide (e.right.id = lhs.id)) ||
        (decide (e.left.id = rhs.id) || decide (e.right.id = rhs.id)))).filter
        (fun e => (decide (e.left.id = lhs.id) || decide (e.left.id = rhs.id)) &&
          (decide (e.right.id = lhs.id) || decide (e.right.id = rhs.id))),
      e ∈ net.edges_ ∧ (e.left.id = lhs.id ∨ e.left.id = rhs.id) ∧
        (e.right.id = lhs.id ∨ e.right.id = rhs.id) :=
    fun e he => (mem_contracted_edges _ _ _ _).1 he
  have hvalid : ∀ e ∈ (net.edges_.filter (fun e =>
        (decide (e.left.id = lhs.id) || decide (e.right.id = lhs.id)) ||
        (decide (e.left.id = rhs.id) || decide (e.right.id = rhs.id)))).filter
        (fun e => (decide (e.left.id = lhs.id) || decide (e.left.id = rhs.id)) &&
          (decide (e.right.id = lhs.id) || decide (e.right.id = rhs.id))),
      ((e.left.id = lhs.id ∧ e.left.index < lhs.rank) ∨
        (e.left.id = rhs.id ∧ e.left.index < rhs.rank)) ∧
      ((e.right.id = lhs.id ∧ e.right.index < lhs.rank) ∨
        (e.right.id = rhs.id ∧ e.right.index < rhs.rank)) := by
    intro e he
    obtain ⟨hm, h1, h2⟩ := hpce e he
    have hl1 := end_at_node net hwf lhs hl e hm
    have hr1 := end_at_node net hwf rhs hr e hm
    constructor
    · rcases h1 with h | h
      · exact Or.inl ⟨h, hl1.1 h⟩
      · exact Or.inr ⟨h, hr1.1 h⟩
    · rcases h2 with h | h
      · exact Or.inl ⟨h, hl1.2 h⟩
      · exact Or.inr ⟨h, hr1.2 h⟩
  have hnd := ends_nodup _ (fun e he => hwf.ends_differ e (hpce e he).1)
    (List.Pairwise.sublist ((List.filter_sublist _).trans (List.filter_sublist _)) hwf.apart)
  obtain ⟨lp, rp, hnip, hk, hL, hR, hLL, hRR, hLR⟩ :=
    new_index_positions_spec lhs.id rhs.id hne lhs.rank rhs.rank hr12 _ hvalid hnd
  obtain ⟨lp2, rp2, hnip2, hlen1, hlen2, hLx, hRx, hrange⟩ :=
    new_index_positions_exact lhs.id rhs.id hne lhs.rank rhs.rank hr12 _ hvalid hnd
  rw [hnip] at hnip2
  simp only [Except.ok.injEq, Prod.mk.injEq] at hnip2
  obtain ⟨hlp, hrp⟩ := hnip2
  subst hlp hrp
  obtain ⟨net2, hfold, hwf2, hnodes, hnext, hedges⟩ :=
    reconnect_phase net hwf hbelow lhs rhs hl hr lp rp _ (size_add net.next_id_ 1) _ hpce
      hL hR hLL hRR hLR
  have hrank : size_sub (size_add lhs.rank rhs.rank)
      (size_mul 2 ((net.edges_.filter (fun e =>
        (decide (e.left.id = lhs.id) || decide (e.right.id = lhs.id)) ||
        (decide (e.left.id = rhs.id) || decide (e.right.id = rhs.id)))).filter
        (fun e => (decide (e.left.id = lhs.id) || decide (e.left.id = rhs.id)) &&
          (decide (e.right.id = lhs.id) || decide (e.right.id = rhs.id)))).length) =
      lhs.rank + rhs.rank - 2 * ((net.edges_.filter (fun e =>
        (decide (e.left.id = lhs.id) || decide (e.right.id = lhs.id)) ||
        (decide (e.left.id = rhs.id) || decide (e.right.id = rhs.id)))).filter
        (fun e => (decide (e.left.id = lhs.id) || decide (e.left.id = rhs.id)) &&
          (decide (e.right.id = lhs.id) || decide (e.right.id = rhs.id)))).length := by
    have h1 : size_mul 2 ((net.edges_.filter (fun e =>
        (decide (e.left.id = lhs.id) || decide (e.right.id = lhs.id)) ||
        (decide (e.left.id = rhs.id) || decide (e.right.id = rhs.id)))).filter
        (fun e => (decide (e.left.id = lhs.id) || decide (e.left.id = rhs.id)) &&
          (decide (e.right.id = lhs.id) || decide (e.right.id = rhs.id)))).length =
        2 * ((net.edges_.filter (fun e =>
        (decide (e.left.id = lhs.id) || decide (e.right.id = lhs.id)) ||
        (decide (e.left.id = rhs.id) || decide (e.right.id = rhs.id)))).filter
        (fun e => (decide (e.left.id = lhs.id) || decide (e.left.id = rhs.id)) &&
          (decide (e.right.id = lhs.id) || decide (e.right.id = rhs.id)))).length := by
      unfold size_mul size_t_card
      exact Nat.mod_eq_of_lt (by omega)
    rw [h1]
    exact cost_exponent _ _ _ hk hr12
  have hpc : net.pairwise_contraction lhs.id rhs.id = .ok (⟨net.next_id_⟩, net2) := by
    unfold connected_tensor_network.pairwise_contraction
    rw [if_neg hne, hfl, hfr]
    simp only [tensor_network.add_node, hrank, hnip, hfold]
  rw [contracted_edges_eq] at hnip hLx hRx hrange
  refine ⟨net2, lp, rp, hnip, hpc, ?_, hedges, hlen1, hlen2, hLx, hRx, hrange⟩
  rw [hnodes, contracted_edges_eq]

/-- The sub-expression that the executor builds for a step that contracts two nodes of a
well formed network, of ranks at least 1 with a sum of at most 99, over the edges with both
ends at the two nodes: it fits a `fixed_string`, it parses into two factors with one label
per index of the two nodes, its contraction groups are the pairs of cursors of the two ends
of the edges of the step, its output is implicit with one label per index of the new node,
and the label of an index location that is not an end of an edge of the step stands in the
output at the position that `pairwise_contraction` gives to the index location. -/
theorem step_sub_expression (net : connected_tensor_network) (hwf : well_formed net)
    (hbelow : ∀ n ∈ net.nodes_, n.id.id < net.next_id_)
    (c : pairwise_contraction_type) (hl : c.lhs_ ∈ net.nodes_) (hr : c.rhs_ ∈ net.nodes_)
    (h1 : 1 ≤ c.lhs_.rank) (h2 : 1 ≤ c.rhs_.rank) (h99 : c.lhs_.rank + c.rhs_.rank ≤ 99)
    (hedges : c.edges_ = net.edges_.filter (fun e =>
      connected_tensor_network.edge_part_of_node_pair e c.lhs_.id c.rhs_.id))
    (id : node_id) (net2 : connected_tensor_network)
    (hc : net.pairwise_contraction c.lhs_.id c.rhs_.id = .ok (id, net2))
    (hout : c.out_ = net2.nodes_.find? (fun n => n.id = id)) :
    ∃ (ls rs : List Char) (s : str.fixed_string) (p : einsum_parsed)
      (lp rp : List (Option Nat)),
      c.index_labels = .ok (ls, rs) ∧
      str.fixed_string.create (ls ++ [','] ++ rs) = .ok s ∧
      einsum.parser s = .ok p ∧
      p.factor_index_labels_ = [ls.map (fun x => [x]), rs.map (fun x => [x])] ∧
      ls.length = c.lhs_.rank ∧ rs.length = c.rhs_.rank ∧
      p.contractions_.length = c.edges_.length ∧
      (∀ (k : Nat) (g : contraction), p.contractions_[k]? = some g →
        ∃ e ∈ c.edges_, g.data_.length = 2 ∧
          ∀ cur, cur ∈ g.data_ ↔ cur = c.cursor_of e.left ∨ cur = c.cursor_of e.right) ∧
      (∀ e ∈ c.edges_, ∃! k : Nat, ∃ g : contraction, p.contractions_[k]? = some g ∧
        c.cursor_of e.left ∈ g.data_ ∧ c.cursor_of e.right ∈ g.data_) ∧
      p.output_index_labels_ = p.free_index_labels_ ∧
      c.out_rank = .ok p.output_index_labels_.length ∧
      connected_tensor_network.new_index_positions c.lhs_.id c.rhs_.id c.lhs_.rank c.rhs_.rank
        c.edges_ = .ok (lp, rp) ∧
      net2.edges_ =
        net.edges_.filter (fun e =>
            !((decide (e.left.id = c.lhs_.id) || decide (e.right.id = c.lhs_.id)) ||
              (decide (e.left.id = c.rhs_.id) || decide (e.right.id = c.rhs_.id)))) ++
          ((net.edges_.filter (fun e =>
              (decide (e.left.id = c.lhs_.id) || decide (e.right.id = c.lhs_.id)) ||
              (decide (e.left.id = c.rhs_.id) || decide (e.right.id = c.rhs_.id)))).filter
            (fun e => !((decide (e.left.id = c.lhs_.id) || decide (e.left.id = c.rhs_.id)) &&
              (decide (e.right.id = c.lhs_.id) || decide (e.right.id = c.rhs_.id))))).filterMap
            (connected_tensor_network.reconnected c.lhs_.id c.rhs_.id id lp rp) ∧
      ∀ loc : index_location, c.slot loc →
        (∀ e ∈ c.edges_, e.left ≠ loc ∧ e.right ≠ loc) →
        ∃ (ch : Char) (pos : Nat), c.label_at (ls, rs) loc = some ch ∧
          alg.argfind p.output_index_labels_ [ch] = some pos ∧
          (if loc.id = c.lhs_.id then lp else rp)[loc.index]? = some (some pos) := by
  obtain ⟨lhs, rhs, out, edges⟩ := c
  simp only at hl hr h1 h2 h99 hedges hc hout
  subst hedges
  have hne : lhs.id ≠ rhs.id := (pairwise_contraction_inv net net2 _ _ _ hc).1
  obtain ⟨hslots, hd, hap⟩ := step_slots net hwf lhs rhs hl hr out
  obtain ⟨strs, hidx, inv⟩ := index_labels_inv
    (⟨lhs, rhs, out, net.edges_.filter (fun e =>
      connected_tensor_network.edge_part_of_node_pair e lhs.id rhs.id)⟩ :
      pairwise_contraction_type) hne h1 h2 hslots hap
  obtain ⟨ls, rs⟩ := strs
  have hlen1 : ls.length = lhs.rank := inv.len1
  have hlen2 : rs.length = rhs.rank := inv.len2
  have hcodes := labels_codes _ hne (by dsimp only; omega) hslots (ls, rs) inv
  have hls : ∀ ch ∈ ls, 97 ≤ ch.toNat := fun ch h => hcodes ch (List.mem_append_left _ h)
  have hrs : ∀ ch ∈ rs, 97 ≤ ch.toNat := fun ch h => hcodes ch (List.mem_append_right _ h)
  have hS : ls ++ [','] ++ rs = ls ++ ',' :: rs := by simp
  have hSlen : (ls ++ ',' :: rs).length = lhs.rank + rhs.rank + 1 := by
    rw [List.length_append, List.length_cons, hlen1, hlen2]
    omega
  have hlen : (ls ++ ',' :: rs).length < 2 ^ 64 := by
    rw [hSlen]
    omega
  obtain ⟨p, seen, hp, hfl, _, _, hpout⟩ := parse_pair ls rs hls hrs hlen
  have hcreate : str.fixed_string.create (ls ++ [','] ++ rs) = .ok ⟨ls ++ ',' :: rs⟩ := by
    unfold str.fixed_string.create str.fixed_string.max_length
    rw [hS, if_neg (by rw [hSlen]; omega)]
  have hparser : einsum.parser ⟨ls ++ ',' :: rs⟩ = .ok p := by
    unfold einsum.parser
    rw [sv_plain]
    · exact hp
    · intro ch hch
      rcases List.mem_append.1 hch with h | h
      · exact (label_char_plain ch (hls ch h)).2.2.2.2
      · rcases List.mem_cons.1 h with h | h
        · rw [h]
          decide
        · exact (label_char_plain ch (hrs ch h)).2.2.2.2
  obtain ⟨net3, lp, rp, hnip, hpc, hnodes, hedges2, hl1, hl2, hLx, hRx, hrange⟩ :=
    contraction_positions net hwf hbelow lhs rhs hl hr hne (by omega)
  rw [hpc] at hc
  simp only [Except.ok.injEq, Prod.mk.injEq] at hc
  obtain ⟨hid, hnet⟩ := hc
  subst hid hnet
  have hfind : net3.nodes_.find? (fun n => n.id = (⟨net.next_id_⟩ : node_id)) =
      some ⟨⟨net.next_id_⟩, lhs.rank + rhs.rank - 2 * (net.edges_.filter (fun e =>
        connected_tensor_network.edge_part_of_node_pair e lhs.id rhs.id)).length⟩ := by
    rw [hnodes]
    apply find_new_node
    intro n hn h
    have := hbelow n (List.mem_filter.1 hn).1
    rw [h] at this
    exact Nat.lt_irrefl _ this
  obtain ⟨hcount, hpos⟩ := output_positions _ hne (by dsimp only; omega) hslots hd hap (ls, rs)
    inv _ p hlen hp hfl hpout lp rp _ hl1 hl2 hLx hRx hrange
  refine ⟨ls, rs, ⟨ls ++ ',' :: rs⟩, p, lp, rp, hidx, hcreate, hparser, hfl, hlen1, hlen2,
    ?_, ?_, ?_, hpout, ?_, hnip, hedges2, ?_⟩
  · exact groups_count _ hne (by dsimp only; omega) hslots hd hap (ls, rs) inv _ p hlen hp hfl
  · intro k g hg
    exact group_is_edge _ hne (by dsimp only; omega) hslots hd hap (ls, rs) inv _ p hlen hp hfl
      k g hg
  · intro e he
    obtain ⟨k, g, hg, hcl, hcr⟩ := edge_has_group _ hne (by dsimp only; omega) hslots hd hap
      (ls, rs) inv _ p hlen hp hfl e he
    refine ⟨k, ⟨g, hg, hcl, hcr⟩, ?_⟩
    rintro k2 ⟨g2, hg2, hcl2, _⟩
    exact group_unique _ p hlen hp k2 k g2 g _ hg2 hg hcl2 hcl
  · unfold pairwise_contraction_type.out_rank
    simp only
    rw [hout, hfind, hcount]
  · intro loc hloc hfree
    apply hpos loc hloc
    intro hin
    obtain ⟨e, he, hend⟩ := (mem_ends _ _).1 hin
    rcases hend with h | h
    · exact (hfree e he).1 h
    · exact (hfree e he).2 h

/-! ## The sub-expressions of the steps of a sequence -/

/-- A contraction keeps a network well formed, its ids below the next id, the room for
new ids, and a bound of the sum of the ranks. -/
theorem contraction_keeps (net : connected_tensor_network) (hwf : well_formed net)
    (hbelow : ∀ n ∈ net.nodes_, n.id.id < net.next_id_)
    (hroom : net.next_id_ + net.nodes_.length < 2 ^ 64) (B : Nat) (hB : B < 2 ^ 64)
    (hranks : (net.nodes_.map (fun n => n.rank)).sum ≤ B)
    (lhs rhs : node) (hl : lhs ∈ net.nodes_) (hr : rhs ∈ net.nodes_) (id : node_id)
    (net2 : connected_tensor_network)
    (hc : net.pairwise_contraction lhs.id rhs.id = .ok (id, net2)) :
    well_formed net2 ∧ (∀ n ∈ net2.nodes_, n.id.id < net2.next_id_) ∧
    net2.next_id_ + net2.nodes_.length < 2 ^ 64 ∧
    (net2.nodes_.map (fun n => n.rank)).sum ≤ B ∧
    lhs.rank + rhs.rank ≤ B := by
  have hne : lhs.id ≠ rhs.id := (pairwise_contraction_inv net net2 _ _ _ hc).1
  obtain ⟨hsum, hcount⟩ := pair_ranks_le net.nodes_ lhs rhs hl hr hne
  obtain ⟨net3, repl, hpc, hwf2, hnodes, hnext, _, _, _⟩ :=
    contraction_effect net hwf hbelow lhs rhs hl hr hne (by omega)
  rw [hpc] at hc
  simp only [Except.ok.injEq, Prod.mk.injEq] at hc
  obtain ⟨_, hnet⟩ := hc
  subst hnet
  have hn1 : size_add net.next_id_ 1 = net.next_id_ + 1 := by
    unfold size_add size_t_card
    exact Nat.mod_eq_of_lt (by omega)
  rw [hn1] at hnext
  refine ⟨hwf2, ?_, ?_, ?_, by omega⟩
  · intro n hn
    rw [hnodes, List.mem_append] at hn
    rw [hnext]
    rcases hn with h | h
    · have := hbelow n (List.mem_filter.1 h).1
      omega
    · rw [List.mem_singleton.1 h]
      exact Nat.lt_succ_self _
  · rw [hnext, hnodes, List.length_append, List.length_singleton]
    omega
  · rw [hnodes, List.map_append, List.sum_append, List.map_singleton, List.sum_singleton]
    dsimp only
    omega

theorem trace_cons_inv (net : connected_tensor_network) (c : pairwise_contraction_type)
    (tail : List pairwise_contraction_type) (h : contraction_trace net (c :: tail)) :
    ∃ (lhs rhs out : node) (id : node_id) (net2 : connected_tensor_network),
      lhs ∈ net.nodes_ ∧ rhs ∈ net.nodes_ ∧
      (∃ e ∈ net.edges_,
        connected_tensor_network.edge_part_of_node_pair e lhs.id rhs.id = true ∧
        connected_tensor_network.internode_edge e = true) ∧
      net.pairwise_contraction lhs.id rhs.id = .ok (id, net2) ∧
      net2.nodes_.find? (fun n => n.id = id) = some out ∧
      contraction_trace net2 tail ∧
      c = ⟨lhs, rhs, some out, net.edges_.filter
        (fun e => connected_tensor_network.edge_part_of_node_pair e lhs.id rhs.id)⟩ := by
  cases h with
  | step _ net2 lhs rhs out id _ hl hr hjoin hc hout htail =>
    exact ⟨lhs, rhs, out, id, net2, hl, hr, hjoin, hc, hout, htail, rfl⟩

/-- The network on which a step of a sequence is taken: the one that replaying the steps
before it leaves. -/
theorem trace_split (B : Nat) (hB : B < 2 ^ 64) (pre : List pairwise_contraction_type) :
    ∀ (net : connected_tensor_network) (c : pairwise_contraction_type)
      (post : List pairwise_contraction_type),
      contraction_trace net (pre ++ c :: post) → well_formed net →
      (∀ n ∈ net.nodes_, n.id.id < net.next_id_) →
      net.next_id_ + net.nodes_.length < 2 ^ 64 →
      (net.nodes_.map (fun n => n.rank)).sum ≤ B →
      ∃ cur : connected_tensor_network, net.replay pre = .ok cur ∧ well_formed cur ∧
        (∀ n ∈ cur.nodes_, n.id.id < cur.next_id_) ∧
        (cur.nodes_.map (fun n => n.rank)).sum ≤ B ∧
        contraction_trace cur (c :: post) := by
  induction pre with
  | nil =>
    intro net c post h hwf hbelow _ hranks
    exact ⟨net, rfl, hwf, hbelow, hranks, h⟩
  | cons c0 pre ih =>
    intro net c post h hwf hbelow hroom hranks
    rw [List.cons_append] at h
    obtain ⟨lhs, rhs, out, id, net2, hl, hr, _, hc, _, htail, hc0⟩ := trace_cons_inv net _ _ h
    obtain ⟨hwf2, hbelow2, hroom2, hranks2, _⟩ :=
      contraction_keeps net hwf hbelow hroom B hB hranks lhs rhs hl hr id net2 hc
    obtain ⟨cur, hrep, hI⟩ := ih net2 c post htail hwf2 hbelow2 hroom2 hranks2
    refine ⟨cur, ?_, hI⟩
    rw [replay_cons net net2 c0 pre id (by rw [hc0]; exact hc)]
    exact hrep

/-- The two nodes of a pair joined by an edge of a well formed network have ranks of at
least one. -/
theorem joined_ranks (net : tensor_network) (hwf : well_formed net) (lhs rhs : node)
    (hl : lhs ∈ net.nodes_) (hr : rhs ∈ net.nodes_)
    (hjoin : ∃ e ∈ net.edges_,
      connected_tensor_network.edge_part_of_node_pair e lhs.id rhs.id = true ∧
      connected_tensor_network.internode_edge e = true) :
    1 ≤ lhs.rank ∧ 1 ≤ rhs.rank := by
  obtain ⟨e, he, h1, h2⟩ := hjoin
  unfold connected_tensor_network.edge_part_of_node_pair at h1
  unfold connected_tensor_network.internode_edge at h2
  simp only [Bool.and_eq_true, Bool.or_eq_true, decide_eq_true_eq] at h1
  simp only [ne_eq, decide_not, Bool.not_eq_true', decide_eq_false_iff_not] at h2
  obtain ⟨a1, a2⟩ := end_at_node net hwf lhs hl e he
  obtain ⟨b1, b2⟩ := end_at_node net hwf rhs hr e he
  rcases h1 with ⟨h3 | h3, h4 | h4⟩
  · exact absurd (h3.trans h4.symm) h2
  · have := a1 h3
    have := b2 h4
    omega
  · have := b1 h3
    have := a2 h4
    omega
  · exact absurd (h3.trans h4.symm) h2

/-! ## The components of the network of an expression -/

/-- The components that the loop of `connected_components` builds are well formed. -/
theorem component_well_formed (net : tensor_network) (hwf : well_formed net)
    (done : List edge) (hdone : ∀ e ∈ done, e ∈ net.edges_)
    (hap : done.Pairwise edge.apart)
    (cc : List connected_tensor_network) (inv : components_inv net done cc)
    (c : connected_tensor_network) (hc : c ∈ cc) : well_formed c := by
  have hsubn : c.nodes_.Sublist (cc.map (fun c => c.nodes_)).flatten :=
    List.sublist_flatten_of_mem (List.mem_map_of_mem _ hc)
  have hsube : c.edges_.Sublist (cc.map (fun c => c.edges_)).flatten :=
    List.sublist_flatten_of_mem (List.mem_map_of_mem _ hc)
  have hedge : ∀ e ∈ c.edges_, e ∈ net.edges_ :=
    fun e he => hdone e (edge_of_component net done cc inv c hc e he)
  constructor
  · have h1 : ((cc.map (fun c => c.nodes_)).flatten.map (fun n => n.id)).Nodup :=
      (inv.nodes_perm.map _).nodup_iff.2 hwf.ids_nodup
    exact List.Nodup.sublist (hsubn.map _) h1
  · intro e he
    exact hwf.ends_differ e (hedge e he)
  · intro e he
    obtain ⟨n, hn, hid⟩ := (contains_iff c _).1 (inv.ends_inside c hc e he).1
    exact ⟨n, hn, hid, (end_at_node net hwf n (node_of_component net done cc inv c hc n hn) e
      (hedge e he)).1 hid.symm⟩
  · intro e he
    obtain ⟨n, hn, hid⟩ := (contains_iff c _).1 (inv.ends_inside c hc e he).2
    exact ⟨n, hn, hid, (end_at_node net hwf n (node_of_component net done cc inv c hc n hn) e
      (hedge e he)).2 hid.symm⟩
  · have h1 : ((cc.map (fun c => c.edges_)).flatten).Pairwise edge.apart :=
      (inv.edges_perm.pairwise_iff (fun {a b} hab => apart_symm a b hab)).2 hap
    exact List.Pairwise.sublist hsube h1

theorem sublist_ranks_le (l1 l2 : List node) (h : l1.Sublist l2) :
    (l1.map (fun n => n.rank)).sum ≤ (l2.map (fun n => n.rank)).sum := by
  induction h with
  | slnil => exact Nat.le_refl _
  | cons a _ ih =>
    rw [List.map_cons, List.sum_cons]
    omega
  | cons₂ a _ ih =>
    rw [List.map_cons, List.sum_cons, List.map_cons, List.sum_cons]
    omega

/-- The sum of the ranks of a component is at most the sum of the ranks of the network. -/
theorem component_ranks_le (net : tensor_network) (done : List edge)
    (cc : List connected_tensor_network) (inv : components_inv net done cc)
    (c : connected_tensor_network) (hc : c ∈ cc) :
    (c.nodes_.map (fun n => n.rank)).sum ≤ (net.nodes_.map (fun n => n.rank)).sum := by
  have hsubn : c.nodes_.Sublist (cc.map (fun c => c.nodes_)).flatten :=
    List.sublist_flatten_of_mem (List.mem_map_of_mem _ hc)
  have h1 := sublist_ranks_le _ _ hsubn
  have h2 := (inv.nodes_perm.map (fun n => n.rank)).sum_eq
  omega

/-- The parts of a split at the commas and the commas make up the text. -/
theorem split_comma_from_count (s acc : List Char) :
    (split_comma_from acc s).flatten.length + (split_comma_from acc s).length =
      acc.length + s.length + 1 := by
  induction s generalizing acc with
  | nil => simp [split_comma_from]
  | cons ch rest ih =>
    unfold split_comma_from
    by_cases h : ch = ','
    · simp only [if_pos h, List.flatten_cons, List.length_append, List.length_cons]
      have := ih []
      simp only [List.length_nil] at this
      omega
    · simp only [if_neg h]
      have := ih (acc ++ [ch])
      simp only [List.length_append, List.length_singleton, List.length_cons,
        List.length_nil] at this ⊢
      omega

theorem split_comma_count (s : List Char) :
    (split_comma s).flatten.length + (split_comma s).length ≤ s.length + 1 := by
  unfold split_comma
  by_cases h : s = []
  · simp [h]
  · simp only [if_neg h]
    have := split_comma_from_count s []
    simp only [List.length_nil] at this
    omega

theorem sv_length_le (estr : str.fixed_string) : estr.sv.length ≤ estr.data_.length := by
  unfold str.fixed_string.sv
  exact (List.takeWhile_sublist _).length_le

/-- The components with two nodes or more of the network of an expression held in a
`fixed_string` of at most 100 code units: they are well formed, their ids are below their
next id, they have room for the ids of the contractions, and the sum of their ranks is at
most 99. -/
theorem engine_component_bounds (estr : str.fixed_string)
    (hcap : estr.data_.length ≤ str.fixed_string.max_length)
    (ids : List node_id) (net : tensor_network)
    (hnet : einsum.network estr = .ok (ids, net))
    (cc : List connected_tensor_network) (hcc : net.connected_components = .ok cc)
    (c : connected_tensor_network) (hc : c ∈ cc) (h2 : 2 ≤ c.nodes_.length) :
    well_formed c ∧ (∀ n ∈ c.nodes_, n.id.id < c.next_id_) ∧
    c.next_id_ + c.nodes_.length < 2 ^ 64 ∧
    (c.nodes_.map (fun n => n.rank)).sum ≤ 99 := by
  unfold einsum.network einsum.parser at hnet
  have hsv := sv_length_le estr
  unfold str.fixed_string.max_length at hcap
  cases hp : einsum_parsed.parse estr.sv with
  | error err => rw [hp] at hnet; cases hnet
  | ok p =>
    rw [hp] at hnet
    simp only at hnet
    have hlen : estr.sv.length < 2 ^ 64 := by omega
    obtain ⟨first, rest, seen, hparts, hfl, _, _, _⟩ := parse_spec estr.sv p hlen hp
    have hfirst := split_arrow_head_length _ first rest hparts
    have hfilter : (estr.sv.filter (fun c => !str.is_whitespace c)).length ≤ estr.sv.length :=
      List.length_filter_le _ _
    have hcount := split_comma_count first
    have hflat : p.factor_index_labels_.flatten.length = (split_comma first).flatten.length := by
      rw [hfl]
      exact labels_flatten_length _
    have hfllen : p.factor_index_labels_.length = (split_comma first).length := by
      rw [hfl, List.length_map]
    have hfac : p.factor_index_labels_.length < 2 ^ 64 := by omega
    obtain ⟨hwf, hnodes_len, _, _⟩ := network_of_spec p ids net hfac hnet
    unfold einsum.network_of at hnet
    simp only at hnet
    cases hfold : p.contractions_.foldlM
        (einsum.network_edge (einsum.network_nodes p.factor_index_labels_).1)
        (einsum.network_nodes p.factor_index_labels_).2 with
    | error err => rw [hfold] at hnet; cases hnet
    | ok net1 =>
      rw [hfold] at hnet
      simp only [Except.ok.injEq, Prod.mk.injEq] at hnet
      obtain ⟨_, hn1⟩ := hnet
      subst hn1
      obtain ⟨_, hn, hnext, _⟩ := network_fold_spec _ _ _ _
        (well_formed_network_nodes _ hfac) hfold
      rw [network_nodes_eq _ hfac] at hn hnext
      simp only at hn hnext
      have hbelow : ∀ n ∈ net1.nodes_, n.id.id < net1.next_id_ := by
        intro n hn2
        rw [hn] at hn2
        rw [hnext]
        obtain ⟨t, ht, htn⟩ := List.mem_map.1 hn2
        rw [← htn]
        exact List.fst_lt_of_mem_enum ht
      have hranks : (net1.nodes_.map (fun n => n.rank)).sum =
          p.factor_index_labels_.flatten.length := by
        rw [hn, List.map_map, List.length_flatten]
        have : ((fun n : node => n.rank) ∘ fun t : Nat × factor_index_labels_vec =>
            (⟨⟨t.1⟩, t.2.length⟩ : node)) = List.length ∘ Prod.snd := by
          funext t
          rfl
        rw [this, ← List.map_map, List.enum_map_snd]
      obtain ⟨cc2, hcc2, inv⟩ := connected_components_inv net1 hwf
      rw [hcc] at hcc2
      simp only [Except.ok.injEq] at hcc2
      subst hcc2
      have hsize := component_size_le net1 net1.edges_ cc inv c hc
      have hcnext := component_next_id net1 hwf (by omega) cc hcc c hc
      have hcranks := component_ranks_le net1 net1.edges_ cc inv c hc
      refine ⟨component_well_formed net1 hwf net1.edges_ (fun e he => he) hwf.apart cc inv c hc,
        ?_, by omega, by omega⟩
      intro n hn2
      have := hbelow n (node_of_component net1 net1.edges_ cc inv c hc n hn2)
      omega

/-- C37: for a well formed network whose ids are below its next id, with room for the ids
of the contractions and a sum of ranks of at most 99 (a sub-expression of 100 code units
fits a `fixed_string`), and for every step `c` of the sequence that
`pairwise_contraction_sequence` returns for it: on the network `cur` that the steps before
`c` leave, `c` contracts two nodes over the edges with both ends at them and stores the new
node; `index_labels()` returns two strings `ls`, `rs`; the text `ls + "," + rs` fits a
`fixed_string` and parses; the parsed expression has the two factors of `ls` and `rs`, of
`lhs.rank` and `rhs.rank` labels of one code unit; it has as many contraction groups as
the step has edges, every group holds exactly the two cursors of the two ends of an edge of
the step, and every edge of the step has exactly one group holding the cursors of its ends;
the output is the implicit one and has `out_rank()` labels; and the label of an index of
lhs or rhs that is not an end of an edge of the step stands in the output at the position
that `pairwise_contraction` computes for that index (`lhs_new_index_positions`,
`rhs_new_index_positions`) and uses for the edges that it reconnects to the new node. -/
theorem sub_expressions_of_sequence (net : connected_tensor_network) (hwf : well_formed net)
    (hbelow : ∀ n ∈ net.nodes_, n.id.id < net.next_id_)
    (hroom : net.next_id_ + net.nodes_.length < 2 ^ 64)
    (hranks : (net.nodes_.map (fun n => n.rank)).sum ≤ 99)
    (D : Nat) (best : List pairwise_contraction_type)
    (hbest : net.pairwise_contraction_sequence D = .ok best)
    (pre : List pairwise_contraction_type) (c : pairwise_contraction_type)
    (post : List pairwise_contraction_type) (hsplit : best = pre ++ c :: post) :
    ∃ (cur net2 : connected_tensor_network) (id : node_id) (ls rs : List Char)
      (s : str.fixed_string) (p : einsum_parsed) (lp rp : List (Option Nat)),
      net.replay pre = .ok cur ∧
      c.lhs_ ∈ cur.nodes_ ∧ c.rhs_ ∈ cur.nodes_ ∧
      c.edges_ = cur.edges_.filter (fun e =>
        connected_tensor_network.edge_part_of_node_pair e c.lhs_.id c.rhs_.id) ∧
      cur.pairwise_contraction c.lhs_.id c.rhs_.id = .ok (id, net2) ∧
      c.out_ = net2.nodes_.find? (fun n => n.id = id) ∧
      c.index_labels = .ok (ls, rs) ∧
      str.fixed_string.create (ls ++ [','] ++ rs) = .ok s ∧
      einsum.parser s = .ok p ∧
      p.factor_index_labels_ = [ls.map (fun x => [x]), rs.map (fun x => [x])] ∧
      ls.length = c.lhs_.rank ∧ rs.length = c.rhs_.rank ∧
      p.contractions_.length = c.edges_.length ∧
      (∀ (k : Nat) (g : contraction), p.contractions_[k]? = some g →
        ∃ e ∈ c.edges_, g.data_.length = 2 ∧
          ∀ cur, cur ∈ g.data_ ↔ cur = c.cursor_of e.left ∨ cur = c.cursor_of e.right) ∧
      (∀ e ∈ c.edges_, ∃! k : Nat, ∃ g : contraction, p.contractions_[k]? = some g ∧
        c.cursor_of e.left ∈ g.data_ ∧ c.cursor_of e.right ∈ g.data_) ∧
      p.output_index_labels_ = p.free_index_labels_ ∧
      c.out_rank = .ok p.output_index_labels_.length ∧
      connected_tensor_network.new_index_positions c.lhs_.id c.rhs_.id c.lhs_.rank c.rhs_.rank
        c.edges_ = .ok (lp, rp) ∧
      net2.edges_ =
        cur.edges_.filter (fun e =>
            !((decide (e.left.id = c.lhs_.id) || decide (e.right.id = c.lhs_.id)) ||
              (decide (e.left.id = c.rhs_.id) || decide (e.right.id = c.rhs_.id)))) ++
          ((cur.edges_.filter (fun e =>
              (decide (e.left.id = c.lhs_.id) || decide (e.right.id = c.lhs_.id)) ||
              (decide (e.left.id = c.rhs_.id) || decide (e.right.id = c.rhs_.id)))).filter
            (fun e => !((decide (e.left.id = c.lhs_.id) || decide (e.left.id = c.rhs_.id)) &&
              (decide (e.right.id = c.lhs_.id) || decide (e.right.id = c.rhs_.id))))).filterMap
            (connected_tensor_network.reconnected c.lhs_.id c.rhs_.id id lp rp) ∧
      ∀ loc : index_location, c.slot loc →
        (∀ e ∈ c.edges_, e.left ≠ loc ∧ e.right ≠ loc) →
        ∃ (ch : Char) (pos : Nat), c.label_at (ls, rs) loc = some ch ∧
          alg.argfind p.output_index_labels_ [ch] = some pos ∧
          (if loc.id = c.lhs_.id then lp else rp)[loc.index]? = some (some pos) := by
  have htrace := planner_trace D _ net best hbest
  rw [hsplit] at htrace
  obtain ⟨cur, hrep, hwf2, hbelow2, hranks2, htr2⟩ :=
    trace_split 99 (by decide) pre net c post htrace hwf hbelow hroom hranks
  obtain ⟨lhs, rhs, out, id, net2, hl, hr, hjoin, hc, hout, _, hceq⟩ :=
    trace_cons_inv cur c post htr2
  obtain ⟨h1, h2⟩ := joined_ranks cur hwf2 lhs rhs hl hr hjoin
  have hne : lhs.id ≠ rhs.id := (pairwise_contraction_inv cur net2 _ _ _ hc).1
  have hsum := (pair_ranks_le cur.nodes_ lhs rhs hl hr hne).1
  subst hceq
  obtain ⟨ls, rs, s, p, lp, rp, h⟩ := step_sub_expression cur hwf2 hbelow2
    ⟨lhs, rhs, some out, cur.edges_.filter
      (fun e => connected_tensor_network.edge_part_of_node_pair e lhs.id rhs.id)⟩
    hl hr h1 h2 (by dsimp only; omega) rfl id net2 hc hout.symm
  exact ⟨cur, net2, id, ls, rs, s, p, lp, rp, hrep, hl, hr, rfl, hc, hout.symm, h⟩

/-- Witness of `sub_expressions_of_sequence`: the first of the two steps planned with the
extent 2 for the chain of three nodes of rank 2 of "ij,jk,kl"; its sub-expression has one
contraction group and an output of two labels. -/
theorem sub_expressions_of_sequence_witness :
    ∃ (ls rs : List Char) (s : str.fixed_string) (p : einsum_parsed),
      pairwise_contraction_type.index_labels
        ⟨⟨⟨0⟩, 2⟩, ⟨⟨1⟩, 2⟩, some ⟨⟨3⟩, 2⟩, [⟨⟨⟨0⟩, 1⟩, ⟨⟨1⟩, 0⟩⟩]⟩ = .ok (ls, rs) ∧
      str.fixed_string.create (ls ++ [','] ++ rs) = .ok s ∧
      einsum.parser s = .ok p ∧
      p.contractions_.length = 1 ∧
      pairwise_contraction_type.out_rank
        ⟨⟨⟨0⟩, 2⟩, ⟨⟨1⟩, 2⟩, some ⟨⟨3⟩, 2⟩, [⟨⟨⟨0⟩, 1⟩, ⟨⟨1⟩, 0⟩⟩]⟩ =
        .ok p.output_index_labels_.length := by
  have hbest : connected_tensor_network.pairwise_contraction_sequence
      ⟨[⟨⟨0⟩, 2⟩, ⟨⟨1⟩, 2⟩, ⟨⟨2⟩, 2⟩], 3,
        [⟨⟨⟨0⟩, 1⟩, ⟨⟨1⟩, 0⟩⟩, ⟨⟨⟨1⟩, 1⟩, ⟨⟨2⟩, 0⟩⟩]⟩ 2 =
      .ok [⟨⟨⟨0⟩, 2⟩, ⟨⟨1⟩, 2⟩, some ⟨⟨3⟩, 2⟩, [⟨⟨⟨0⟩, 1⟩, ⟨⟨1⟩, 0⟩⟩]⟩,
        ⟨⟨⟨2⟩, 2⟩, ⟨⟨3⟩, 2⟩, some ⟨⟨4⟩, 2⟩, [⟨⟨⟨2⟩, 0⟩, ⟨⟨3⟩, 1⟩⟩]⟩] := by decide
  obtain ⟨cur, net2, id, ls, rs, s, p, lp, rp, h⟩ := sub_expressions_of_sequence
    ⟨[⟨⟨0⟩, 2⟩, ⟨⟨1⟩, 2⟩, ⟨⟨2⟩, 2⟩], 3,
      [⟨⟨⟨0⟩, 1⟩, ⟨⟨1⟩, 0⟩⟩, ⟨⟨⟨1⟩, 1⟩, ⟨⟨2⟩, 0⟩⟩]⟩
    (built_spec [.add_node 2, .add_node 2, .add_node 2, .add_edge ⟨⟨0⟩, 1⟩ ⟨⟨1⟩, 0⟩,
      .add_edge ⟨⟨1⟩, 1⟩ ⟨⟨2⟩, 0⟩] _ (by decide) (by decide)).2.2
    (by decide) (by decide) (by decide) 2 _ hbest []
    ⟨⟨⟨0⟩, 2⟩, ⟨⟨1⟩, 2⟩, some ⟨⟨3⟩, 2⟩, [⟨⟨⟨0⟩, 1⟩, ⟨⟨1⟩, 0⟩⟩]⟩
    [⟨⟨⟨2⟩, 2⟩, ⟨⟨3⟩, 2⟩, some ⟨⟨4⟩, 2⟩, [⟨⟨⟨2⟩, 0⟩, ⟨⟨3⟩, 1⟩⟩]⟩] rfl
  exact ⟨ls, rs, s, p, h.2.2.2.2.2.2.1, h.2.2.2.2.2.2.2.1, h.2.2.2.2.2.2.2.2.1,
    h.2.2.2.2.2.2.2.2.2.2.2.2.1, h.2.2.2.2.2.2.2.2.2.2.2.2.2.2.2.2.1⟩

end idg
